import Mathlib

/-!
# Buffer cache of `kernel/bio.c`

A shallow embedding of the block cache (`binit`, `bget`, `bread`, `bwrite`,
`brelse`, `bpin`, `bunpin`) and of the preloaded store for user program blocks
(`get_indexed_mod`, `get_mod_buf`, `is_user_prog_block`, `init_mod_fs`).

The kernel globals (`bcache`, `init_flag`, `user_fs`, `sb`) and the content of
the disk are the fields of one state record `K`, each C function is a function
on `K`.  Pointers to `struct buf` are values of `Ptr`; the intrusive list of
`bcache` keeps its `prev`/`next` links, and the two scans of `bget` walk them.
Calls run to completion one after the other: the spinlock `bcache.lock`, which
only delimits critical sections, has no counterpart, and a call that would have
to sleep on a held sleeplock stops with `Halt.sleep`.
-/

namespace Bio

/-- A pointer to a `struct buf`: a record of `bcache.buf`, the sentinel
`bcache.head`, or a slot of the preloaded store `user_fs`. -/
inductive Ptr where
  | buf (i : Nat)
  | head
  | mod (k : Nat)
deriving DecidableEq, Repr

/-- The record `struct buf`.  Modelled from the spec: `buf.h` is not among the
sources; the fields are those `bio.c` uses (device id, block number, validity
flag, payload, reference count, blocking lock, preloaded tag, list links).
`lock` is the sleeplock, `none` when free and `some p` when process `p` holds
it; `data k` is byte `k` of the payload; `refcnt` is a `uint`. -/
structure Buf where
  valid : Bool
  dev : Nat
  blockno : Nat
  lock : Option Nat
  refcnt : Nat
  prev : Ptr
  next : Ptr
  data : Nat → Nat
  user_flag : Bool

/-- The fields of `struct superblock` that `bio.c` reads. -/
structure Superblock where
  dstart : Nat
  dfinish : Nat
  userbcount : Nat
  userbmapstart : Nat
deriving DecidableEq, Repr

/-- Calls that leave `bio.c`, in the order they were made: transfers of
`virtio_disk_rw` and lookups of `get_mod_buf`. -/
inductive Ev where
  | read (blockno : Nat)
  | write (blockno : Nat)
  | lookup (blockno : Nat)
deriving DecidableEq, Repr

/-- The state of the kernel as far as `bio.c` is concerned.  `NBUF`, `BSIZE`
and `FSSIZE` are the constants of `param.h` and `fs.h`, which are not among the
sources; `disk b` is the content of block `b` of the disk `VIRTIO0_ID`. -/
structure K where
  NBUF : Nat
  BSIZE : Nat
  FSSIZE : Nat
  sb : Superblock
  buf : Nat → Buf
  head : Buf
  init_flag : Bool
  user_fs : Nat → Buf
  disk : Nat → Nat → Nat
  log : List Ev

/-- Why a call did not return: `panic`, a sleep on a sleeplock that is held
(`acquiresleep`), a scan of the list that does not come back to the head, or a
recursion deeper than the depth allowed. -/
inductive Halt where
  | panic (msg : String)
  | sleep (b : Ptr)
  | loop
  | depth
deriving DecidableEq, Repr

/-- The outcome of a call: a value and the state on return, or the reason the
call stopped and the state at that point. -/
inductive Res (α : Type) where
  | ok (a : α) (s : K)
  | halt (h : Halt) (s : K)

/-- Reads `*b`. -/
def K.get (s : K) : Ptr → Buf
  | Ptr.buf i => s.buf i
  | Ptr.head => s.head
  | Ptr.mod k => s.user_fs k

/-- Writes `*b`. -/
def K.set (s : K) (b : Ptr) (v : Buf) : K :=
  match b with
  | Ptr.buf i => { s with buf := Function.update s.buf i v }
  | Ptr.head => { s with head := v }
  | Ptr.mod k => { s with user_fs := Function.update s.user_fs k v }

/-- Adds a call to the log. -/
def K.logged (s : K) (e : Ev) : K := { s with log := s.log ++ [e] }

/-- Replaces the content of block `blockno` of the disk. -/
def K.put_block (s : K) (blockno : Nat) (data : Nat → Nat) : K :=
  { s with disk := Function.update s.disk blockno data }

/-- The width of `uint`. -/
def UINT : Nat := 2 ^ 32

/-- The statement `x++` on a `uint`. -/
def uinc (x : Nat) : Nat := (x + 1) % UINT

/-- The statement `x--` on a `uint`. -/
def udec (x : Nat) : Nat := (x + (UINT - 1)) % UINT

/-- Bits per bitmap block, `BPB` of `fs.h`. -/
def K.BPB (s : K) : Nat := s.BSIZE * 8

/-- Modelled from the spec: the macro `UBBLOCK(b, sb)` of `fs.h`, the bitmap
block that covers block `b`: bitmap block `sb.userbmapstart + i` holds the bits
of blocks `i*BPB .. i*BPB + BPB - 1`. -/
def UBBLOCK (blockno : Nat) (s : K) : Nat := blockno / s.BPB + s.sb.userbmapstart

/-- Modelled from the spec: `virtio_disk_rw(VIRTIO0_ID, b, write, 0)`, the
synchronous transfer of one block between `b->data` and block `b->blockno`
of the disk. -/
def virtio_disk_rw (b : Ptr) (write : Bool) (s : K) : K :=
  if write then
    (s.put_block (s.get b).blockno (s.get b).data).logged (Ev.write (s.get b).blockno)
  else
    (s.set b { s.get b with data := s.disk (s.get b).blockno }).logged
      (Ev.read (s.get b).blockno)

/-- Modelled from the spec: `initsleeplock` of `sleeplock.c`. -/
def initsleeplock (b : Ptr) (s : K) : K := s.set b { s.get b with lock := none }

/-- Modelled from the spec: `holdingsleep` of `sleeplock.c`, whether the
calling process `p` holds the lock of `b`. -/
def holdingsleep (p : Nat) (b : Ptr) (s : K) : Bool := (s.get b).lock == some p

/-- Modelled from the spec: `acquiresleep` of `sleeplock.c`.  A free lock is
taken by the calling process `p`; on a held lock the caller sleeps. -/
def acquiresleep (p : Nat) (b : Ptr) (s : K) : Res Unit :=
  match (s.get b).lock with
  | none => Res.ok () (s.set b { s.get b with lock := some p })
  | some _ => Res.halt (Halt.sleep b) s

/-- Modelled from the spec: `releasesleep` of `sleeplock.c`. -/
def releasesleep (b : Ptr) (s : K) : K := s.set b { s.get b with lock := none }

/-- The body of the loop of `binit`, for record `i`. -/
def binit_step (s : K) (i : Nat) : K :=
  let b := Ptr.buf i
  let s := s.set b { s.get b with next := s.head.next }
  let s := s.set b { s.get b with prev := Ptr.head }
  let s := initsleeplock b s
  let s := s.set s.head.next { s.get s.head.next with prev := b }
  let s := s.set Ptr.head { s.get Ptr.head with next := b }
  s.set b { s.get b with user_flag := false }

/-- The function `binit`. -/
def binit (s : K) : K :=
  let s := s.set Ptr.head { s.get Ptr.head with prev := Ptr.head }
  let s := s.set Ptr.head { s.get Ptr.head with next := Ptr.head }
  (List.range s.NBUF).foldl binit_step s

/-- A loop `for(b = start; b != &bcache.head; b = link(b)) if(test(b)) return b;`
over the list of `bcache`, started at `b` with at most `n` records to visit:
`some (some b)` when `b` is the first record that passes the test, `some none`
when the loop reaches the head, `none` when it does not end. -/
def scan (s : K) (link : Buf → Ptr) (test : Buf → Bool) : Nat → Ptr → Option (Option Ptr)
  | 0, b => if b = Ptr.head then some none else none
  | n + 1, b =>
    if b = Ptr.head then some none
    else if test (s.get b) then some (some b)
    else scan s link test n (link (s.get b))

/-- The test of the first loop of `bget`: `b->dev == dev && b->blockno == blockno`. -/
def is_key (dev blockno : Nat) (b : Buf) : Bool := b.dev == dev && b.blockno == blockno

/-- The test of the second loop of `bget`: `b->refcnt == 0`. -/
def is_free (b : Buf) : Bool := b.refcnt == 0

/-- Lines 82 to 108 of `bget`: the lookup in the ordinary cache. -/
def bget_cache (p dev blockno : Nat) (s : K) : Res Ptr :=
  match scan s Buf.next (is_key dev blockno) s.NBUF s.head.next with
  | none => Res.halt Halt.loop s
  | some (some b) =>
    let s1 := s.set b { s.get b with refcnt := uinc (s.get b).refcnt }
    match acquiresleep p b s1 with
    | Res.ok _ s2 => Res.ok b s2
    | Res.halt h s2 => Res.halt h s2
  | some none =>
    match scan s Buf.prev is_free s.NBUF s.head.prev with
    | none => Res.halt Halt.loop s
    | some (some b) =>
      let s1 := s.set b { s.get b with dev := dev }
      let s1 := s1.set b { s1.get b with blockno := blockno }
      let s1 := s1.set b { s1.get b with valid := false }
      let s1 := s1.set b { s1.get b with refcnt := 1 }
      match acquiresleep p b s1 with
      | Res.ok _ s2 => Res.ok b s2
      | Res.halt h s2 => Res.halt h s2
    | some none => Res.halt (Halt.panic "bget: no buffers") s

/-- The function `get_indexed_mod`: slot `index` of the preloaded store. -/
def get_indexed_mod (index : Nat) (s : K) : Res Ptr :=
  if index ≥ s.sb.userbcount then Res.halt (Halt.panic "los index bloka u mod fs-u") s
  else Res.ok (Ptr.mod index) s

/-- The loop of `get_mod_buf`, at index `i` with `n` indices left. -/
def get_mod_buf_loop (p blockno : Nat) : Nat → Nat → K → Res Ptr
  | 0, _, s => Res.halt (Halt.panic "get_mod_buf: no buffers") s
  | n + 1, i, s =>
    match get_indexed_mod i s with
    | Res.halt h s1 => Res.halt h s1
    | Res.ok b s1 =>
      if (s1.get b).blockno = blockno then
        match acquiresleep p b s1 with
        | Res.ok _ s2 => Res.ok b s2
        | Res.halt h s2 => Res.halt h s2
      else get_mod_buf_loop p blockno n (i + 1) s1

/-- The function `get_mod_buf`; the call is recorded in the log. -/
def get_mod_buf (p _dev blockno : Nat) (s : K) : Res Ptr :=
  get_mod_buf_loop p blockno s.sb.userbcount 0 (s.logged (Ev.lookup blockno))

/-- The six assignments of `brelse` under `if (b->refcnt == 0)`: `b` is taken
out of the list and put back right after the head. -/
def brelse_move (b : Ptr) (s : K) : K :=
  let s := s.set (s.get b).next { s.get (s.get b).next with prev := (s.get b).prev }
  let s := s.set (s.get b).prev { s.get (s.get b).prev with next := (s.get b).next }
  let s := s.set b { s.get b with next := s.head.next }
  let s := s.set b { s.get b with prev := Ptr.head }
  let s := s.set s.head.next { s.get s.head.next with prev := b }
  s.set Ptr.head { s.get Ptr.head with next := b }

/-- The function `brelse`. -/
def brelse (p : Nat) (b : Ptr) (s : K) : Res Unit :=
  if !holdingsleep p b s then Res.halt (Halt.panic "brelse") s
  else
    let s := releasesleep b s
    if (s.get b).user_flag then Res.ok () s
    else
      let s := s.set b { s.get b with refcnt := udec (s.get b).refcnt }
      if (s.get b).refcnt = 0 then Res.ok () (brelse_move b s)
      else Res.ok () s

/-- The function `bpin`. -/
def bpin (b : Ptr) (s : K) : K :=
  if (s.get b).user_flag then s
  else s.set b { s.get b with refcnt := uinc (s.get b).refcnt }

/-- The function `bunpin`. -/
def bunpin (b : Ptr) (s : K) : K :=
  if (s.get b).user_flag then s
  else s.set b { s.get b with refcnt := udec (s.get b).refcnt }

/-- The function `bwrite`. -/
def bwrite (p : Nat) (b : Ptr) (s : K) : Res Unit :=
  if !holdingsleep p b s then Res.halt (Halt.panic "bwrite") s
  else Res.ok () (virtio_disk_rw b true s)

/-- The body of `bread`, over the `bget` it calls. -/
def bread_with (bg : Nat → Nat → Nat → K → Res Ptr) (p dev blockno : Nat) (s : K) :
    Res Ptr :=
  match bg p dev blockno s with
  | Res.halt h s1 => Res.halt h s1
  | Res.ok b s1 =>
    if !(s1.get b).valid then
      let s2 := virtio_disk_rw b false s1
      Res.ok b (s2.set b { s2.get b with valid := true })
    else Res.ok b s1

/-- The body of `is_user_prog_block`, over the `bget` that its `bread` calls.
The result is the `uint8` value `temp`. -/
def is_user_prog_block_with (bg : Nat → Nat → Nat → K → Res Ptr) (p dev blockno : Nat)
    (s : K) : Res Nat :=
  match bread_with bg p dev (UBBLOCK blockno s) s with
  | Res.halt h s1 => Res.halt h s1
  | Res.ok u s1 =>
    let bi := blockno % (8 * s1.BSIZE)
    let temp := if (s1.get u).data (bi / 8) &&& (1 <<< (bi % 8)) ≠ 0 then 1 else 0
    match brelse p u s1 with
    | Res.halt h s2 => Res.halt h s2
    | Res.ok _ s2 => Res.ok temp s2

/-- The body of `bget`, over the classification `is_user_prog_block` it calls.
The condition of the `if` is evaluated left to right and stops at the first
operand that is false. -/
def bget_with (isup : Nat → Nat → Nat → K → Res Nat) (p dev blockno : Nat) (s : K) :
    Res Ptr :=
  if s.init_flag && decide (blockno ≥ s.sb.dstart) && decide (blockno < s.sb.dfinish) then
    match isup p dev blockno s with
    | Res.halt h s1 => Res.halt h s1
    | Res.ok t s1 =>
      if t ≠ 0 then get_mod_buf p dev blockno s1
      else bget_cache p dev blockno s1
  else bget_cache p dev blockno s

/-- The function `bget`.  It calls `is_user_prog_block`, which calls `bread`,
which calls `bget`: the first argument bounds the depth of these calls, and a
call that needs more stops with `Halt.depth`. -/
def bget : Nat → Nat → Nat → Nat → K → Res Ptr
  | 0 => bget_with (fun _ _ _ s => Res.halt Halt.depth s)
  | d + 1 => bget_with (is_user_prog_block_with (bget d))

/-- The function `bread`, with the depth left for `bget`. -/
def bread (d : Nat) (p dev blockno : Nat) (s : K) : Res Ptr :=
  bread_with (bget d) p dev blockno s

/-- The function `is_user_prog_block`, with the depth left for `bget`. -/
def is_user_prog_block (d : Nat) (p dev blockno : Nat) (s : K) : Res Nat :=
  is_user_prog_block_with (bget d) p dev blockno s

/-- The function `relse_mod_buf`. -/
def relse_mod_buf (b : Ptr) (s : K) : K := releasesleep b s

/-- The statements of `init_mod_fs` under `if(u_bitmap->data[j/8] & (1<<(j%8)))`:
block `i*BPB + j` is read and copied into slot `count` of the preloaded store.
The result is the new value of `count`. -/
def init_mod_fs_load (d p dev i j count : Nat) (s : K) : Res Nat :=
  match get_indexed_mod count s with
  | Res.halt h s1 => Res.halt h s1
  | Res.ok usr_block s1 =>
    match bread d p dev (i * s1.BPB + j) s1 with
    | Res.halt h s2 => Res.halt h s2
    | Res.ok temp s2 =>
      let s3 := s2.set usr_block { s2.get usr_block with
        data := fun k => if k < s2.BSIZE then (s2.get temp).data k
                         else (s2.get usr_block).data k }
      let s3 := s3.set usr_block { s3.get usr_block with blockno := (s3.get temp).blockno }
      let s3 := s3.set usr_block { s3.get usr_block with dev := dev }
      let s3 := s3.set usr_block { s3.get usr_block with valid := true }
      let s3 := s3.set usr_block { s3.get usr_block with user_flag := true }
      let s3 := initsleeplock usr_block s3
      match get_indexed_mod count s3 with
      | Res.halt h s4 => Res.halt h s4
      | Res.ok q s4 =>
        let s5 := s4.set q { s4.get q with user_flag := true }
        match brelse p temp s5 with
        | Res.halt h s6 => Res.halt h s6
        | Res.ok _ s6 => Res.ok (count + 1) s6

/-- The inner loop of `init_mod_fs`, `for (j = 0; j < BPB && count <
sb.userbcount; j++)`, at bit `j` of the bitmap record `u` with `n` bits left.
The result is the value of `count` after the loop. -/
def init_mod_fs_bits (d p dev i : Nat) (u : Ptr) : Nat → Nat → Nat → K → Res Nat
  | 0, _, count, s => Res.ok count s
  | n + 1, j, count, s =>
    if count < s.sb.userbcount then
      if (s.get u).data (j / 8) &&& (1 <<< (j % 8)) ≠ 0 then
        match init_mod_fs_load d p dev i j count s with
        | Res.halt h s1 => Res.halt h s1
        | Res.ok count1 s1 => init_mod_fs_bits d p dev i u n (j + 1) count1 s1
      else init_mod_fs_bits d p dev i u n (j + 1) count s
    else Res.ok count s

/-- The outer loop of `init_mod_fs`, `for(i = 0; i < nbitmap && count <
sb.userbcount; i++)`, at bitmap block `i` with `n` blocks left. -/
def init_mod_fs_blocks (d p dev : Nat) : Nat → Nat → Nat → K → Res Nat
  | 0, _, count, s => Res.ok count s
  | n + 1, i, count, s =>
    if count < s.sb.userbcount then
      match bread d p dev (s.sb.userbmapstart + i) s with
      | Res.halt h s1 => Res.halt h s1
      | Res.ok u s1 =>
        match init_mod_fs_bits d p dev i u s1.BPB 0 count s1 with
        | Res.halt h s2 => Res.halt h s2
        | Res.ok count1 s2 =>
          match brelse p u s2 with
          | Res.halt h s3 => Res.halt h s3
          | Res.ok _ s3 => init_mod_fs_blocks d p dev n (i + 1) count1 s3
    else Res.ok count s

/-- The function `init_mod_fs`, called by process `p`.  The pages that `kalloc`
returns for `user_fs` are the slots `s.user_fs`, with whatever they hold. -/
def init_mod_fs (d p dev : Nat) (s : K) : Res Unit :=
  let nbitmap := s.FSSIZE / (s.BSIZE * 8) + 1
  match init_mod_fs_blocks d p dev nbitmap 0 0 s with
  | Res.halt h s1 => Res.halt h s1
  | Res.ok count s1 =>
    if count ≠ s1.sb.userbcount then Res.halt (Halt.panic "losa inicijalna slika fs-a") s1
    else Res.ok () { s1 with init_flag := true }

/-- A record of zeros, as in memory that holds statics without an initialiser. -/
def zero_buf : Buf :=
  { valid := false, dev := 0, blockno := 0, lock := none, refcnt := 0,
    prev := Ptr.head, next := Ptr.head, data := fun _ => 0, user_flag := false }

/-- The state when the kernel starts: `bcache` is zero, `init_flag` is 0, no
call has been made.  The links of the records have no meaning before `binit`
has written them. -/
def boot (nbuf bsize fssize : Nat) (sb : Superblock) (disk : Nat → Nat → Nat) : K :=
  { NBUF := nbuf, BSIZE := bsize, FSSIZE := fssize, sb := sb, buf := fun _ => zero_buf,
    head := zero_buf, init_flag := false, user_fs := fun _ => zero_buf, disk := disk,
    log := [] }

/-- The value a call returned, if it returned. -/
def Res.val? {α : Type} : Res α → Option α
  | Res.ok a _ => some a
  | Res.halt _ _ => none

/-- The state a call left. -/
def Res.state {α : Type} : Res α → K
  | Res.ok _ s => s
  | Res.halt _ s => s

/-- The reason a call stopped, if it did. -/
def Res.halt? {α : Type} : Res α → Option Halt
  | Res.ok _ _ => none
  | Res.halt h _ => some h

/-- The records met from `b` along the `next` links up to the head, at most `n`
of them. -/
def fwd (s : K) : Nat → Ptr → List Ptr
  | 0, _ => []
  | n + 1, b => if b = Ptr.head then [] else b :: fwd s n (s.get b).next

/-- The list of `bcache` from the most recently used record, `head.next`, to
the least recently used one. -/
def K.mru (s : K) : List Ptr := fwd s s.NBUF s.head.next

/-- Whether `b` points to one of the `n` records of `bcache.buf`. -/
def Ptr.is_buf (n : Nat) : Ptr → Prop
  | Ptr.buf i => i < n
  | _ => False

instance (n : Nat) (b : Ptr) : Decidable (b.is_buf n) :=
  match b with
  | Ptr.buf i => inferInstanceAs (Decidable (i < n))
  | Ptr.head => isFalse (fun h => h)
  | Ptr.mod _ => isFalse (fun h => h)

/-- Whether `b` points to a slot of the preloaded store. -/
def Ptr.is_mod : Ptr → Prop
  | Ptr.mod _ => True
  | _ => False

instance (b : Ptr) : Decidable b.is_mod :=
  match b with
  | Ptr.buf _ => isFalse (fun h => h)
  | Ptr.head => isFalse (fun h => h)
  | Ptr.mod _ => isTrue trivial

/-- The links join `a`, the records of `l` in this order, and the head: each
`next` link leads to the neighbour that follows and each `prev` link to the
neighbour before. -/
def linked_from (s : K) : Ptr → List Ptr → Prop
  | a, [] => (s.get a).next = Ptr.head ∧ (s.get Ptr.head).prev = a
  | a, x :: l => ((s.get a).next = x ∧ (s.get x).prev = a) ∧ linked_from s x l

/-- The property `linked_from` can be computed. -/
def linked_from_dec (s : K) : ∀ (a : Ptr) (l : List Ptr), Decidable (linked_from s a l)
  | _, [] => inferInstanceAs (Decidable (_ ∧ _))
  | _, x :: l =>
    have := linked_from_dec s x l
    inferInstanceAs (Decidable (_ ∧ _))

instance (s : K) (a : Ptr) (l : List Ptr) : Decidable (linked_from s a l) :=
  linked_from_dec s a l

/-- The links join `head`, the records of `l` in this order, and `head` again:
for neighbours `a`, `b` in this cycle, `a->next` is `b` and `b->prev` is `a`. -/
def Linked (s : K) (l : List Ptr) : Prop := linked_from s Ptr.head l

instance (s : K) (l : List Ptr) : Decidable (Linked s l) :=
  linked_from_dec s Ptr.head l

/-- The list `l` is the list of `bcache`: the links form the cycle of `head`
and `l`, and `l` holds each of the `NBUF` records once and nothing else. -/
structure IsList (s : K) (l : List Ptr) : Prop where
  linked : Linked s l
  nodup : l.Nodup
  sub : ∀ x ∈ l, x.is_buf s.NBUF
  sup : ∀ i < s.NBUF, Ptr.buf i ∈ l

instance (s : K) (l : List Ptr) : Decidable (IsList s l) :=
  decidable_of_iff (Linked s l ∧ l.Nodup ∧ (∀ x ∈ l, x.is_buf s.NBUF) ∧
      ∀ i < s.NBUF, Ptr.buf i ∈ l)
    ⟨fun h => ⟨h.1, h.2.1, h.2.2.1, h.2.2.2⟩, fun h => ⟨h.linked, h.nodup, h.sub, h.sup⟩⟩

/-- The list of `bcache` is well formed: the `next` links from `head` run
through every record once and come back to `head`, and `prev` is the inverse
of `next`. -/
def WF (s : K) : Prop := IsList s s.mru

instance (s : K) : Decidable (WF s) := by unfold WF; infer_instance

/-- The fields of a record other than the two links are the same. -/
def Buf.same_fields (a b : Buf) : Prop :=
  a.valid = b.valid ∧ a.dev = b.dev ∧ a.blockno = b.blockno ∧ a.lock = b.lock ∧
    a.refcnt = b.refcnt ∧ a.data = b.data ∧ a.user_flag = b.user_flag

/-- The condition of the `if` at the top of `bget`, `init_flag && blockno >=
sb.dstart && blockno < sb.dfinish && is_user_prog_block(dev, blockno)`: its
value, and the state it leaves for the lookup that follows.  The classification
`is_user_prog_block` runs only when the first three operands are true. -/
def bget_routed (d p dev blockno : Nat) (s : K) : Res Bool :=
  if s.init_flag && decide (blockno ≥ s.sb.dstart) && decide (blockno < s.sb.dfinish) then
    match d with
    | 0 => Res.halt Halt.depth s
    | d + 1 =>
      match is_user_prog_block d p dev blockno s with
      | Res.halt h s1 => Res.halt h s1
      | Res.ok t s1 => Res.ok (decide (t ≠ 0)) s1
  else Res.ok false s

/-- The two states have the same list links. -/
def SameLinks (s t : K) : Prop :=
  t.NBUF = s.NBUF ∧ ∀ x, (t.get x).next = (s.get x).next ∧ (t.get x).prev = (s.get x).prev

/-- The `next` link of every pointer. -/
def K.nx (s : K) (x : Ptr) : Ptr := (s.get x).next

/-- The `prev` link of every pointer. -/
def K.pv (s : K) (x : Ptr) : Ptr := (s.get x).prev

/-- Following `f` from `a` leads through the records of `m`, in this order, and
then to `z`. -/
def Walk (f : Ptr → Ptr) : Ptr → List Ptr → Ptr → Prop
  | a, [], z => f a = z
  | a, x :: m, z => f a = x ∧ Walk f x m z

/-- The link functions `nx` and `pv` make a list of the records `m` around the
head: `nx` leads from the head through `m` back to the head, and `pv` undoes
`nx` on the head and on `m`. -/
structure LinkedOn (nx pv : Ptr → Ptr) (m : List Ptr) : Prop where
  walk : Walk nx Ptr.head m Ptr.head
  inv : ∀ x ∈ Ptr.head :: m, pv (nx x) = x
  nodup : m.Nodup
  nohead : Ptr.head ∉ m

/-- The state `t` differs from `s` at most in the links of the records. -/
def FieldsEq (s t : K) : Prop :=
  t.NBUF = s.NBUF ∧ t.BSIZE = s.BSIZE ∧ t.FSSIZE = s.FSSIZE ∧ t.sb = s.sb ∧
    t.init_flag = s.init_flag ∧ t.disk = s.disk ∧ t.log = s.log ∧
    ∀ x, (t.get x).same_fields (s.get x)

/-- A record in the state that `binit` leaves at boot: no block, no reference,
lock free. -/
def Buf.fresh (r : Buf) : Prop :=
  r.valid = false ∧ r.dev = 0 ∧ r.blockno = 0 ∧ r.lock = none ∧ r.refcnt = 0 ∧
    r.user_flag = false

/-- Every record of the state is as `binit` leaves it at boot. -/
def K.all_fresh (s : K) : Prop := ∀ x, (s.get x).fresh

/-- The two states agree on everything but the records. -/
def SameEnv (s t : K) : Prop :=
  t.NBUF = s.NBUF ∧ t.BSIZE = s.BSIZE ∧ t.FSSIZE = s.FSSIZE ∧ t.sb = s.sb ∧
    t.init_flag = s.init_flag ∧ t.disk = s.disk ∧ t.log = s.log

/-- A disk for the examples: the bitmap block 3 marks the blocks 10, 15 and 42,
byte `k` of any other block `b` is `(b + k) % 256`. -/
def demo_disk (b k : Nat) : Nat :=
  if b = 3 then (if k = 1 then 132 else if k = 5 then 4 else 0) else (b + k) % 256

/-- A superblock for the examples: blocks 8 to 999 may be preloaded, three of
them are, the bitmap starts at block 3. -/
def demo_sb : Superblock := { dstart := 8, dfinish := 1000, userbcount := 3, userbmapstart := 3 }

/-- The state after `binit` with 30 records, blocks of 1024 bytes and a file
system of 2000 blocks. -/
def demo_binit : K := binit (boot 30 1024 2000 demo_sb demo_disk)

/-- The state after `init_mod_fs(1)`, called by process 7. -/
def demo_booted : K := (init_mod_fs 1 7 1 demo_binit).state

/-- The state after process 7 has then read block 11, which is record 4. -/
def demo_held : K := (bread 1 7 1 11 demo_booted).state

/-- The state `bread` returns in, from the state its `bget` returned in. -/
def bread_fill (b : Ptr) (sg : K) : K :=
  if (sg.get b).valid then sg
  else (virtio_disk_rw b false sg).set b { (virtio_disk_rw b false sg).get b with valid := true }

/-- The preloaded tag tells the two stores apart: no record of the ordinary
cache has it, every slot of the preloaded store has it. -/
def Tagged (s : K) : Prop :=
  (∀ i < s.NBUF, (s.get (Ptr.buf i)).user_flag = false) ∧
    ∀ k < s.sb.userbcount, (s.get (Ptr.mod k)).user_flag = true

instance (s : K) : Decidable (Tagged s) :=
  inferInstanceAs (Decidable (_ ∧ _))

/-- The two states have the same constants, superblock and `init_flag`. -/
def SameCfg (s t : K) : Prop :=
  t.NBUF = s.NBUF ∧ t.BSIZE = s.BSIZE ∧ t.FSSIZE = s.FSSIZE ∧ t.sb = s.sb ∧
    t.init_flag = s.init_flag

/-- A superblock that declares two preloaded blocks, for the disk `demo_disk`
whose bitmap marks three. -/
def surplus_sb : Superblock := { dstart := 8, dfinish := 1000, userbcount := 2, userbmapstart := 3 }

/-- The state after `binit` with the superblock `surplus_sb`. -/
def surplus_binit : K := binit (boot 30 1024 2000 surplus_sb demo_disk)

/-- The state after `init_mod_fs(1)` in `surplus_binit`, called by process 7. -/
def surplus_booted : K := (init_mod_fs 1 7 1 surplus_binit).state

/-- No record of the ordinary cache has the preloaded tag. -/
def Untagged (s : K) : Prop := ∀ i < s.NBUF, (s.get (Ptr.buf i)).user_flag = false

/-- The histories of the ordinary cache: `Hist s st n` when `s` is reached from
`binit` at boot by `n` calls of `brelse` and any number of calls of `bget`,
`bpin` and `bunpin` that return, and `st b` is the number of the last `brelse`
that took the reference count of `b` to 0 (0 when there was none). -/
inductive Hist : K → (Ptr → Nat) → Nat → Prop
  | binit (nbuf bs fs : Nat) (sb : Superblock) (disk : Nat → Nat → Nat) :
      Hist (binit (boot nbuf bs fs sb disk)) (fun _ => 0) 0
  | bget {s s1 : K} {st : Ptr → Nat} {n : Nat} (d p dev blockno : Nat) (b : Ptr) :
      Hist s st n → bget d p dev blockno s = Res.ok b s1 → Hist s1 st n
  | brelse {s s1 : K} {st : Ptr → Nat} {n : Nat} (p : Nat) (b : Ptr) :
      Hist s st n → b.is_buf s.NBUF → brelse p b s = Res.ok () s1 →
      Hist s1 (if (s1.get b).refcnt = 0 then Function.update st b (n + 1) else st) (n + 1)
  | bpin {s : K} {st : Ptr → Nat} {n : Nat} (b : Ptr) :
      Hist s st n → b.is_buf s.NBUF → Hist (bpin b s) st n
  | bunpin {s : K} {st : Ptr → Nat} {n : Nat} (b : Ptr) :
      Hist s st n → b.is_buf s.NBUF → Hist (bunpin b s) st n

/-- The order of the list follows the stamps: a record that comes later in the
list was last released to count 0 earlier, or never. -/
def Ordered (s : K) (st : Ptr → Nat) : Prop :=
  s.mru.Pairwise (fun x y => st y = 0 ∨ st y < st x)

/-- Process 7 acquires block 100 in `demo_binit`, which is record 0. -/
def pin_s1 : K := (bget 0 7 1 100 demo_binit).state

/-- It pins record 0. -/
def pin_s2 : K := bpin (Ptr.buf 0) pin_s1

/-- It releases record 0, which keeps count 1 and its place in the list. -/
def pin_s3 : K := (brelse 7 (Ptr.buf 0) pin_s2).state

/-- It acquires block 101, which is record 1. -/
def pin_s4 : K := (bget 0 7 1 101 pin_s3).state

/-- It releases record 1, whose count is now 0. -/
def pin_s5 : K := (brelse 7 (Ptr.buf 1) pin_s4).state

/-- It unpins record 0, whose count is now 0 as well. -/
def pin_s6 : K := bunpin (Ptr.buf 0) pin_s5

/-- Process 7 acquires block 100 in `demo_binit`, which is record 0. -/
def rel_s1 : K := (bget 0 7 1 100 demo_binit).state

/-- It acquires block 101, which is record 1. -/
def rel_s2 : K := (bget 0 7 1 101 rel_s1).state

/-- It releases record 1, whose count is now 0. -/
def rel_s3 : K := (brelse 7 (Ptr.buf 1) rel_s2).state

/-- It releases record 0, whose count is now 0. -/
def rel_s4 : K := (brelse 7 (Ptr.buf 0) rel_s3).state

/-- The stamps of the history that leads to `rel_s4`: record 1 was released
first, record 0 second. -/
def rel_st : Ptr → Nat := Function.update (Function.update (fun _ => 0) (Ptr.buf 1) 1) (Ptr.buf 0) 2

/-- Acquires the keys of the list one after the other with `bget`, for process
`p`; the result is the list of the records returned. -/
def acquire_all (d p : Nat) : List (Nat × Nat) → K → Res (List Ptr)
  | [], s => Res.ok [] s
  | k :: ks, s =>
    match bget d p k.1 k.2 s with
    | Res.halt h s1 => Res.halt h s1
    | Res.ok b s1 =>
      match acquire_all d p ks s1 with
      | Res.halt h s2 => Res.halt h s2
      | Res.ok bs s2 => Res.ok (b :: bs) s2

/-- Releases the records of the list one after the other with `brelse`, for
process `p`. -/
def release_all (p : Nat) : List Ptr → K → Res Unit
  | [], s => Res.ok () s
  | b :: bs, s =>
    match brelse p b s with
    | Res.halt h s1 => Res.halt h s1
    | Res.ok _ s1 => release_all p bs s1

/-- The record is held once by process `p`: reference count 1, lock held by
`p`, no preloaded tag. -/
def Buf.held (p : Nat) (r : Buf) : Prop :=
  r.refcnt = 1 ∧ r.lock = some p ∧ r.user_flag = false

/-- The state while the keys are acquired: the records of `H` are held by `p`
with keys among `ks`, every other record of the pool is as `binit` left it. -/
structure Acquiring (p : Nat) (s : K) (H : List Ptr) (ks : List (Nat × Nat)) : Prop where
  wf : WF s
  init : s.init_flag = false
  nodup : H.Nodup
  held : ∀ x ∈ H, x.is_buf s.NBUF ∧ (s.get x).held p ∧ ((s.get x).dev, (s.get x).blockno) ∈ ks
  rest : ∀ x, x.is_buf s.NBUF → x ∉ H → (s.get x).fresh

/-- The state while the records are released: the records of `done`, released
in this order, are at the front of the list, last released first, with
reference count 0 and a free lock; the records of `todo` are still held. -/
structure Releasing (p : Nat) (s : K) (done todo : List Ptr) : Prop where
  wf : WF s
  init : s.init_flag = false
  order : ∃ m, s.mru = done.reverse ++ m
  held : ∀ x ∈ todo, x.is_buf s.NBUF ∧ (s.get x).held p
  free : ∀ x ∈ done, (s.get x).refcnt = 0 ∧ (s.get x).lock = none

/-- A payload of bytes 255. -/
def ff_data : Nat → Nat := fun _ => 255

/-- A payload of bytes 77. -/
def other_data : Nat → Nat := fun _ => 77

/-- Process 7 reads block 5 of device 1 in `demo_binit`, into record 0. -/
def dirty_s1 : K := (bread 0 7 1 5 demo_binit).state

/-- It overwrites the payload of record 0 with bytes 255. -/
def dirty_s2 : K := dirty_s1.set (Ptr.buf 0) { dirty_s1.get (Ptr.buf 0) with data := ff_data }

/-- It releases record 0 without a call of `bwrite`. -/
def dirty_s3 : K := (brelse 7 (Ptr.buf 0) dirty_s2).state

/-- One `bread` of block `blockno` of device 1 by process 7, and the `brelse`
of the record it returned. -/
def read_release (s : K) (blockno : Nat) : K :=
  match bread 0 7 1 blockno s with
  | Res.ok b s1 => (brelse 7 b s1).state
  | Res.halt _ s1 => s1

/-- It then reads and releases the 30 blocks 100 to 129, one at a time. -/
def dirty_s4 : K := (List.range 30).foldl (fun s i => read_release s (100 + i)) dirty_s3

/-- Instead of `dirty_s3`: process 7 calls `bwrite` on record 0 after the
overwrite, and releases the record. -/
def alias_s3 : K := (brelse 7 (Ptr.buf 0) (bwrite 7 (Ptr.buf 0) dirty_s2).state).state

/-- It reads block 5 under device number 2, into record 1. -/
def alias_s4 : K := (bread 0 7 2 5 alias_s3).state

/-- It overwrites the payload of record 1 with bytes 77, calls `bwrite` and
releases the record. -/
def alias_s5 : K :=
  (brelse 7 (Ptr.buf 1) (bwrite 7 (Ptr.buf 1)
    (alias_s4.set (Ptr.buf 1) { alias_s4.get (Ptr.buf 1) with data := other_data })).state).state

/-- One call of a client of the cache: `bread` of a block, an update of the
payload of a record, `bwrite` of a record, `brelse` of a record.  The process
that calls is `p`. -/
inductive Call where
  | read (p blockno : Nat)
  | update (p : Nat) (b : Ptr) (data : Nat → Nat)
  | write (p : Nat) (b : Ptr)
  | release (p : Nat) (b : Ptr)

/-- The state a call leaves, on device number `dev`. -/
def Call.exec (d dev : Nat) : Call → K → K
  | Call.read p blockno, s => (Bio.bread d p dev blockno s).state
  | Call.update _ b data, s => s.set b { s.get b with data := data }
  | Call.write p b, s => (Bio.bwrite p b s).state
  | Call.release p b, s => (Bio.brelse p b s).state

/-- Follows the words of the claim: the device as a map `m` from block to
payload, after the call.  Only `bwrite` changes it: the block of the record
gets the payload of the record. -/
def Call.written (s : K) (m : Nat → Nat → Nat) : Call → Nat → Nat → Nat
  | Call.write _ b => Function.update m (s.get b).blockno (s.get b).data
  | _ => m

/-- What a call needs of the state in a sequence that respects the interface:
`bread` names a key that no held record has, and some record of the pool is not
held; the other calls name a record of the pool that the caller holds; at
`brelse` the `BSIZE` bytes of the payload are those of the block on the device,
as they are when `bwrite` has followed the last update. -/
def Call.pre (dev : Nat) : Call → K → Prop
  | Call.read _ blockno, s =>
    (∀ i < s.NBUF, (s.get (Ptr.buf i)).lock ≠ none →
      ¬ ((s.get (Ptr.buf i)).dev = dev ∧ (s.get (Ptr.buf i)).blockno = blockno)) ∧
    ∃ i < s.NBUF, (s.get (Ptr.buf i)).lock = none
  | Call.update p b _, s => b.is_buf s.NBUF ∧ (s.get b).lock = some p
  | Call.write p b, s => b.is_buf s.NBUF ∧ (s.get b).lock = some p
  | Call.release p b, s => b.is_buf s.NBUF ∧ (s.get b).lock = some p ∧
    ∀ k < s.BSIZE, (s.get b).data k = s.disk (s.get b).blockno k

instance (dev : Nat) (c : Call) (s : K) : Decidable (c.pre dev s) :=
  match c with
  | Call.read _ _ => inferInstanceAs (Decidable (_ ∧ _))
  | Call.update _ _ _ => inferInstanceAs (Decidable (_ ∧ _))
  | Call.write _ _ => inferInstanceAs (Decidable (_ ∧ _))
  | Call.release _ _ => inferInstanceAs (Decidable (_ ∧ _))

/-- What the call does: `bread` returns a record of the pool with the key,
locked by the caller, whose `BSIZE` bytes of payload are those of the block in
the map `m`; `bwrite` and `brelse` return. -/
def Call.post (d dev : Nat) (m : Nat → Nat → Nat) : Call → K → Prop
  | Call.read p blockno, s =>
    ∃ b s1, Bio.bread d p dev blockno s = Res.ok b s1 ∧ b.is_buf s.NBUF ∧
      (s1.get b).lock = some p ∧ (s1.get b).dev = dev ∧ (s1.get b).blockno = blockno ∧
      ∀ k < s.BSIZE, (s1.get b).data k = m blockno k
  | Call.update _ _ _, _ => True
  | Call.write p b, s => ∃ s1, Bio.bwrite p b s = Res.ok () s1
  | Call.release p b, s => ∃ s1, Bio.brelse p b s = Res.ok () s1

/-- The sequence of calls respects the interface from the state `s` on. -/
def Disciplined (d dev : Nat) : List Call → K → Prop
  | [], _ => True
  | c :: cs, s => c.pre dev s ∧ Disciplined d dev cs (c.exec d dev s)

/-- The decision procedure of `Disciplined`. -/
def Disciplined_dec (d dev : Nat) : ∀ (cs : List Call) (s : K), Decidable (Disciplined d dev cs s)
  | [], _ => isTrue trivial
  | c :: cs, s =>
    match (inferInstance : Decidable (c.pre dev s)) with
    | isFalse h => isFalse (fun h2 => h h2.1)
    | isTrue h =>
      match Disciplined_dec d dev cs (c.exec d dev s) with
      | isFalse h2 => isFalse (fun h3 => h2 h3.2)
      | isTrue h2 => isTrue ⟨h, h2⟩

instance (d dev : Nat) (cs : List Call) (s : K) : Decidable (Disciplined d dev cs s) :=
  Disciplined_dec d dev cs s

/-- Every call of the sequence does what `Call.post` says, from the state `s`
and the device map `m` on. -/
def Reads (d dev : Nat) : List Call → K → (Nat → Nat → Nat) → Prop
  | [], _, _ => True
  | c :: cs, s, m => c.post d dev m s ∧ Reads d dev cs (c.exec d dev s) (c.written s m)

/-- The order of the list, for the keys: of two records with the same key the
later one in the list is neither valid nor locked. -/
def KeyOrder (s : K) (l : List Ptr) : Prop :=
  l.Pairwise (fun x y => (s.get x).dev = (s.get y).dev → (s.get x).blockno = (s.get y).blockno →
    (s.get y).valid = false ∧ (s.get y).lock = none)

/-- The state of the cache between the calls of a sequence that respects the
interface, on device number `dev`, with the device map `m`. -/
structure Coherent (dev : Nat) (s : K) (m : Nat → Nat → Nat) : Prop where
  wf : WF s
  init : s.init_flag = false
  disk : s.disk = m
  cnt : ∀ x, x.is_buf s.NBUF → (s.get x).user_flag = false ∧
    ((s.get x).lock = none → (s.get x).refcnt = 0) ∧
    ((s.get x).lock ≠ none → (s.get x).refcnt = 1)
  clean : ∀ x, x.is_buf s.NBUF → (s.get x).valid = true → (s.get x).lock = none →
    ∀ k < s.BSIZE, (s.get x).data k = s.disk (s.get x).blockno k
  dev : ∀ x, x.is_buf s.NBUF → ((s.get x).valid = true ∨ (s.get x).lock ≠ none) →
    (s.get x).dev = dev
  order : KeyOrder s s.mru

/-- A sequence of calls for the examples: process 7 reads block 5, overwrites
the payload, writes it, releases the record, and reads blocks 5 and 6. -/
def demo_calls : List Call :=
  [Call.read 7 5, Call.update 7 (Ptr.buf 0) ff_data, Call.write 7 (Ptr.buf 0),
   Call.release 7 (Ptr.buf 0), Call.read 7 5, Call.read 7 6]

instance (s : K) : Decidable (Untagged s) :=
  inferInstanceAs (Decidable (∀ i < s.NBUF, (s.get (Ptr.buf i)).user_flag = false))

/-- Follows the words of the claim: the bit of block `blockno` in the bitmap on
the disk, that is bit `bi mod 8` of byte `bi div 8` of the bitmap block that
covers `blockno`, where `bi = blockno mod (8 * BSIZE)`. -/
def bitmap_bit (disk : Nat → Nat → Nat) (sb : Superblock) (bsize blockno : Nat) : Bool :=
  (disk (blockno / (bsize * 8) + sb.userbmapstart) (blockno % (8 * bsize) / 8)).testBit
    (blockno % (8 * bsize) % 8)

/-- The copies of block `ub` in the ordinary cache are those of the disk:
every record of the pool with the validity flag set and block number `ub` has
in its `BSIZE` bytes of payload the content of block `ub` of the disk. -/
def CleanAt (s : K) (ub : Nat) : Prop :=
  ∀ i < s.NBUF, (s.get (Ptr.buf i)).valid = true → (s.get (Ptr.buf i)).blockno = ub →
    ∀ k < s.BSIZE, (s.get (Ptr.buf i)).data k = s.disk ub k

instance (s : K) (ub : Nat) : Decidable (CleanAt s ub) :=
  inferInstanceAs (Decidable (∀ i < s.NBUF, _))

/-- The states reached from `s0` by calls that return, none of which writes
block `ub`: calls of `bget`, `bread`, `is_user_prog_block`, `brelse`, `bpin`
and `bunpin`, and `bwrite` and updates of the payload on records that hold
another block. -/
inductive Quiet (ub : Nat) (s0 : K) : K → Prop
  | start : Quiet ub s0 s0
  | bget {s s1 : K} (d p dev blockno : Nat) (b : Ptr) :
      Quiet ub s0 s → bget d p dev blockno s = Res.ok b s1 → Quiet ub s0 s1
  | bread {s s1 : K} (d p dev blockno : Nat) (b : Ptr) :
      Quiet ub s0 s → bread d p dev blockno s = Res.ok b s1 → Quiet ub s0 s1
  | classify {s s1 : K} (d p dev blockno t : Nat) :
      Quiet ub s0 s → is_user_prog_block d p dev blockno s = Res.ok t s1 → Quiet ub s0 s1
  | brelse {s s1 : K} (p : Nat) (b : Ptr) :
      Quiet ub s0 s → (b.is_buf s.NBUF ∨ ∃ k < s.sb.userbcount, b = Ptr.mod k) →
      brelse p b s = Res.ok () s1 → Quiet ub s0 s1
  | bpin {s : K} (b : Ptr) : Quiet ub s0 s → Quiet ub s0 (bpin b s)
  | bunpin {s : K} (b : Ptr) : Quiet ub s0 s → Quiet ub s0 (bunpin b s)
  | bwrite {s s1 : K} (p : Nat) (b : Ptr) :
      Quiet ub s0 s → (s.get b).blockno ≠ ub → bwrite p b s = Res.ok () s1 → Quiet ub s0 s1
  | store {s : K} (p : Nat) (b : Ptr) (v : Nat → Nat) :
      Quiet ub s0 s → (s.get b).lock = some p → (s.get b).blockno ≠ ub →
      Quiet ub s0 (s.set b { s.get b with data := v })

/-- A pool of three records after `init_mod_fs(1)` by process 7, with the
superblock `demo_sb` and the disk `demo_disk`. -/
def small_booted : K := (init_mod_fs 1 7 1 (binit (boot 3 1024 2000 demo_sb demo_disk))).state

/-- Process 7 reads block 1000, outside the preloadable range, into record 2. -/
def small_r1 : K := (bread 1 7 1 1000 small_booted).state

/-- It releases record 2. -/
def small_s1 : K := (brelse 7 (Ptr.buf 2) small_r1).state

/-- It reads block 1001 into record 1. -/
def small_r2 : K := (bread 1 7 1 1001 small_s1).state

/-- It releases record 1. -/
def small_s2 : K := (brelse 7 (Ptr.buf 1) small_r2).state

/-- It reads block 1002 into record 0, which held the bitmap block 3. -/
def small_r3 : K := (bread 1 7 1 1002 small_s2).state

/-- It releases record 0: the bitmap block has left the cache. -/
def small_evicted : K := (brelse 7 (Ptr.buf 0) small_r3).state

/-- The states of the ordinary cache when the callers respect the interface:
`Used s` when `s` is reached from `binit` at boot by calls of `bget` that
return or go to sleep on the lock of the record they found, and by calls of
`brelse`, `bpin` and `bunpin` on records of the pool that are referenced, that
is, whose reference count is positive. -/
inductive Used : K → Prop
  | binit (nbuf bs fs : Nat) (sb : Superblock) (disk : Nat → Nat → Nat) :
      Used (binit (boot nbuf bs fs sb disk))
  | bget {s s1 : K} (d p dev blockno : Nat) (b : Ptr) :
      Used s → bget d p dev blockno s = Res.ok b s1 → Used s1
  | bget_sleep {s s1 : K} (d p dev blockno : Nat) (b : Ptr) :
      Used s → bget d p dev blockno s = Res.halt (Halt.sleep b) s1 → Used s1
  | brelse {s s1 : K} (p : Nat) (b : Ptr) :
      Used s → b.is_buf s.NBUF → 0 < (s.get b).refcnt → brelse p b s = Res.ok () s1 →
      Used s1
  | bpin {s : K} (b : Ptr) :
      Used s → b.is_buf s.NBUF → 0 < (s.get b).refcnt → Used (bpin b s)
  | bunpin {s : K} (b : Ptr) :
      Used s → b.is_buf s.NBUF → 0 < (s.get b).refcnt → Used (bunpin b s)

/-- Of two records of the list with the same key, the later one has reference
count 0. -/
def LiveFirst (s : K) (l : List Ptr) : Prop :=
  l.Pairwise (fun x y => (s.get x).dev = (s.get y).dev →
    (s.get x).blockno = (s.get y).blockno → (s.get y).refcnt = 0)

/-- The state while `init_mod_fs` runs, started in `s0`, with `count` slots
loaded: the list is well formed, no record of the pool has the preloaded tag,
`init_flag` is 0, the constants and the superblock are those of `s0`, and the
slots below `count` have the tag. -/
def Loading (s0 : K) (count : Nat) (s : K) : Prop :=
  WF s ∧ Untagged s ∧ s.init_flag = false ∧ SameCfg s0 s ∧
    ∀ k < count, (s.get (Ptr.mod k)).user_flag = true

/-- The states of the cache in a run of the kernel: `Run s` when `s` is reached
from `binit` at boot by calls that return: `init_mod_fs` while `init_flag` is
0, `bget` and `bread` at any depth, `bwrite`, `brelse` on a record of the pool
or, once `init_flag` is set, on a slot of the preloaded store, `bpin` and
`bunpin`. -/
inductive Run : K → Prop
  | binit (nbuf bs fs : Nat) (sb : Superblock) (disk : Nat → Nat → Nat) :
      Run (binit (boot nbuf bs fs sb disk))
  | init_mod_fs {s s1 : K} (d p dev : Nat) :
      Run s → s.init_flag = false → init_mod_fs d p dev s = Res.ok () s1 → Run s1
  | bget {s s1 : K} (d p dev blockno : Nat) (b : Ptr) :
      Run s → bget d p dev blockno s = Res.ok b s1 → Run s1
  | bread {s s1 : K} (d p dev blockno : Nat) (b : Ptr) :
      Run s → bread d p dev blockno s = Res.ok b s1 → Run s1
  | bwrite {s s1 : K} (p : Nat) (b : Ptr) :
      Run s → bwrite p b s = Res.ok () s1 → Run s1
  | brelse {s s1 : K} (p : Nat) (b : Ptr) :
      Run s → (b.is_buf s.NBUF ∨ (s.init_flag = true ∧ ∃ k < s.sb.userbcount, b = Ptr.mod k)) →
      brelse p b s = Res.ok () s1 → Run s1
  | bpin {s : K} (b : Ptr) : Run s → Run (bpin b s)
  | bunpin {s : K} (b : Ptr) : Run s → Run (bunpin b s)

/-- Follows the words of the claim: the blocks whose bit is set in the bitmap
on the disk, in ascending order of the block number, among the blocks below
`pos`. -/
def marked_below (disk : Nat → Nat → Nat) (sb : Superblock) (bs pos : Nat) : List Nat :=
  (List.range pos).filter (bitmap_bit disk sb bs)

/-- Follows the words of the claim: the blocks whose bit is set in the bitmap
on the disk, in ascending order of the block number.  The bitmap has
`FSSIZE / (BSIZE * 8) + 1` blocks of `BSIZE * 8` bits. -/
def marked_blocks (disk : Nat → Nat → Nat) (sb : Superblock) (bs fs : Nat) : List Nat :=
  marked_below disk sb bs ((fs / (bs * 8) + 1) * (bs * 8))

/-- Slot `k` of the preloaded store holds block `blk` of the disk: `blockno`
and `dev` are set, the validity flag and the preloaded tag are 1, the lock is
free and the `BSIZE` bytes of the payload are those of the block. -/
def Slot (s : K) (dev : Nat) (disk : Nat → Nat → Nat) (k blk : Nat) : Prop :=
  (s.get (Ptr.mod k)).blockno = blk ∧ (s.get (Ptr.mod k)).dev = dev ∧
    (s.get (Ptr.mod k)).valid = true ∧ (s.get (Ptr.mod k)).user_flag = true ∧
    (s.get (Ptr.mod k)).lock = none ∧
    ∀ j < s.BSIZE, (s.get (Ptr.mod k)).data j = disk blk j

/-- The state of `init_mod_fs`, started after `binit` at boot, when the bits of
the blocks below `pos` have been tested and `count` blocks are loaded: the
cache is coherent with the disk, the constants and the superblock are those of
`s0`, `count` is the number of marked blocks below `pos` and at most
`sb.userbcount`, and the slots hold these blocks in ascending order. -/
structure Booting (dev : Nat) (disk : Nat → Nat → Nat) (s0 : K) (pos count : Nat) (s : K) :
    Prop where
  coh : Coherent dev s disk
  cfg : SameCfg s0 s
  count_eq : count = (marked_below disk s0.sb s0.BSIZE pos).length
  bound : count ≤ s0.sb.userbcount
  slots : ∀ k blk, (marked_below disk s0.sb s0.BSIZE pos)[k]? = some blk → Slot s dev disk k blk

/-- The state of the inner loop of `init_mod_fs` on the bitmap block `i`, held
in the record `u`: `u` is the one locked record of the pool, the caller `p`
holds it, and its payload is the bitmap block of the disk. -/
structure Scanning (p dev : Nat) (disk : Nat → Nat → Nat) (s0 : K) (i : Nat) (u : Ptr)
    (s : K) : Prop where
  pool : u.is_buf s.NBUF
  held : (s.get u).lock = some p
  key : (s.get u).dev = dev ∧ (s.get u).blockno = s0.sb.userbmapstart + i
  bits : ∀ k < s.BSIZE, (s.get u).data k = disk (s0.sb.userbmapstart + i) k
  only : ∀ x, x.is_buf s.NBUF → (s.get x).lock ≠ none → x = u

/-- A pool of three records with blocks of 8 bytes on a file system of 50
blocks: one bitmap block, block 3, for the blocks 0 to 63. -/
def tiny_boot : K := binit (boot 3 8 50 demo_sb demo_disk)

/-- Lines 82 to 102 of `bget`, up to the `release` before `acquiresleep`: the
critical section under `bcache.lock`, in which the record is chosen and its
reference count is written.  A thread runs it in one piece. -/
def bget_enter (dev blockno : Nat) (s : K) : Res Ptr :=
  match scan s Buf.next (is_key dev blockno) s.NBUF s.head.next with
  | none => Res.halt Halt.loop s
  | some (some b) => Res.ok b (s.set b { s.get b with refcnt := uinc (s.get b).refcnt })
  | some none =>
    match scan s Buf.prev is_free s.NBUF s.head.prev with
    | none => Res.halt Halt.loop s
    | some (some b) =>
      let s1 := s.set b { s.get b with dev := dev }
      let s1 := s1.set b { s1.get b with blockno := blockno }
      let s1 := s1.set b { s1.get b with valid := false }
      Res.ok b (s1.set b { s1.get b with refcnt := 1 })
    | some none => Res.halt (Halt.panic "bget: no buffers") s

/-- Lines 138 to 141 of `brelse`: the check that the caller holds the lock,
and `releasesleep`. -/
def brelse_unlock (p : Nat) (b : Ptr) (s : K) : Res Unit :=
  if !holdingsleep p b s then Res.halt (Halt.panic "brelse") s
  else Res.ok () (releasesleep b s)

/-- Lines 143 to 155 of `brelse`, the critical section under `bcache.lock`, which a record
without the preloaded tag reaches after `releasesleep`: the reference count is
decremented and at 0 the record is moved to the front.  A thread runs it in
one piece. -/
def brelse_exit (b : Ptr) (s : K) : K :=
  let s := s.set b { s.get b with refcnt := udec (s.get b).refcnt }
  if (s.get b).refcnt = 0 then brelse_move b s else s

/-- Where a thread that acquires the key is: it is outside `bget` and
`brelse`, it has left the critical section of `bget` with record `b` and is at
`acquiresleep`, it has returned from `bget` and holds the lock of `b`, or it
is in `brelse` between `releasesleep` and the critical section. -/
inductive Phase where
  | idle
  | waiting (b : Ptr)
  | holding (b : Ptr)
  | leaving (b : Ptr)
  deriving DecidableEq

/-- The thread counts as a reference to its record. -/
def Phase.active : Phase → Bool
  | Phase.idle => false
  | _ => true

/-- One step of one of the threads `ts` that acquire the key `(dev, blockno)`
in the ordinary cache and release it, again and again: the critical section of
`bget`; the `acquiresleep` that follows it, which a thread can take only when
it returns, that is when the lock is free; the `releasesleep` of `brelse`; and
the critical section of `brelse`. -/
inductive Step (dev blockno : Nat) (ts : List Nat) :
    K → (Nat → Phase) → K → (Nat → Phase) → Prop
  | enter {s s1 : K} {ph : Nat → Phase} (p : Nat) (b : Ptr) :
      p ∈ ts → ph p = Phase.idle → bget_enter dev blockno s = Res.ok b s1 →
      Step dev blockno ts s ph s1 (Function.update ph p (Phase.waiting b))
  | take {s s1 : K} {ph : Nat → Phase} (p : Nat) (b : Ptr) :
      p ∈ ts → ph p = Phase.waiting b → acquiresleep p b s = Res.ok () s1 →
      Step dev blockno ts s ph s1 (Function.update ph p (Phase.holding b))
  | unlock {s s1 : K} {ph : Nat → Phase} (p : Nat) (b : Ptr) :
      p ∈ ts → ph p = Phase.holding b → brelse_unlock p b s = Res.ok () s1 →
      Step dev blockno ts s ph s1 (Function.update ph p (Phase.leaving b))
  | leave {s : K} {ph : Nat → Phase} (p : Nat) (b : Ptr) :
      p ∈ ts → ph p = Phase.leaving b →
      Step dev blockno ts s ph (brelse_exit b s) (Function.update ph p Phase.idle)

/-- The states and phases that the threads `ts` reach from `s0`, all idle, in
any interleaving of their steps. -/
inductive Sched (dev blockno : Nat) (ts : List Nat) (s0 : K) : K → (Nat → Phase) → Prop
  | start : Sched dev blockno ts s0 s0 (fun _ => Phase.idle)
  | step {s s1 : K} {ph ph1 : Nat → Phase} :
      Sched dev blockno ts s0 s ph → Step dev blockno ts s ph s1 ph1 →
      Sched dev blockno ts s0 s1 ph1

/-- The number of threads that are between the critical section of `bget` and
the critical section of `brelse`. -/
def active_count (ts : List Nat) (ph : Nat → Phase) : Nat :=
  ts.countP (fun p => (ph p).active)

/-- The reference count that the record of the key has in `s0`, 0 when no
record has the key. -/
def base_count (dev blockno : Nat) (s0 : K) : Nat :=
  match s0.mru.find? (fun x => is_key dev blockno (s0.get x)) with
  | some b => (s0.get b).refcnt
  | none => 0

/-- Thread 7 has run the critical section of `bget(1, 100)` in `demo_binit`. -/
def race_s1 : K := (bget_enter 1 100 demo_binit).state

/-- Thread 7 has taken the lock of record 0. -/
def race_s2 : K := (acquiresleep 7 (Ptr.buf 0) race_s1).state

/-- Thread 8 has run the critical section of `bget(1, 100)`. -/
def race_s3 : K := (bget_enter 1 100 race_s2).state

/-- The phases in `race_s3`: thread 7 holds record 0, thread 8 waits for it. -/
def race_ph : Nat → Phase :=
  Function.update (Function.update (Function.update (fun _ => Phase.idle) 7
    (Phase.waiting (Ptr.buf 0))) 7 (Phase.holding (Ptr.buf 0))) 8 (Phase.waiting (Ptr.buf 0))

/-- Process 7 has acquired the preloaded block 10 in `demo_booted`. -/
def slot_s1 : K := (bget 1 7 1 10 demo_booted).state

/-- Process 8 has called `bget` for block 10 as well. -/
def slot_s2 : K := (bget 1 8 1 10 slot_s1).state

/-- What every interleaving of the threads keeps: the list is well formed; the
threads that are between the two critical sections all have the first record
with the key; the lock of that record is held by the thread that holds it; and
the reference count of the record is its count in `s0` plus the number of
these threads. -/
structure Racing (dev blockno : Nat) (ts : List Nat) (s0 s : K) (ph : Nat → Phase) :
    Prop where
  wf : WF s
  untagged : Untagged s
  same : ∀ p b, (ph p = Phase.waiting b ∨ ph p = Phase.holding b ∨ ph p = Phase.leaving b) →
    s.mru.find? (fun x => is_key dev blockno (s.get x)) = some b
  lock : ∀ p b, ph p = Phase.holding b → (s.get b).lock = some p
  count : ∀ b, s.mru.find? (fun x => is_key dev blockno (s.get x)) = some b →
    (s.get b).refcnt = base_count dev blockno s0 + active_count ts ph
  fresh : s.mru.find? (fun x => is_key dev blockno (s.get x)) = none →
    active_count ts ph = 0 ∧ base_count dev blockno s0 = 0

/-- The record of the ordinary cache that a classification of `blockno` in `s`
reads the bitmap block from: the first record with the key of the bitmap block
`UBBLOCK(blockno, sb)`, or, when no record has that key, the record with
reference count 0 nearest to the least recently used end, which `bget` gives
to the bitmap block. -/
def bitmap_record (dev blockno : Nat) (s : K) : Option Ptr :=
  match s.mru.find? (fun x => is_key dev (UBBLOCK blockno s) (s.get x)) with
  | some u => some u
  | none => s.mru.reverse.find? (fun x => is_free (s.get x))

/-- After the bootstrap of the pool of 3 records, process 7 has read block 1000
and holds record 2. -/
def tight_r1 : K := (bread 1 7 1 1000 small_booted).state

/-- Process 7 has read block 1001 as well and holds record 1: record 0, with
the bitmap block 3, is the only record with reference count 0. -/
def tight_r2 : K := (bread 1 7 1 1001 tight_r1).state

/-- Process 7 has read block 11, whose bit is clear, into record 0. -/
def tight_r3 : K := (bread 1 7 1 11 tight_r2).state

/-- Process 7 has released record 0. -/
def tight_s3 : K := (brelse 7 (Ptr.buf 0) tight_r3).state

/-- Process 7 has read block 11 again. -/
def tight_r4 : K := (bread 1 7 1 11 tight_s3).state

end Bio

/-! ## Theorems -/

namespace Bio

@[simp] theorem K.get_set_same (s : K) (b : Ptr) (v : Buf) : (s.set b v).get b = v := by
  cases b <;> simp [K.get, K.set]

@[simp] theorem K.get_set_ne (s : K) {b c : Ptr} (v : Buf) (h : c ≠ b) :
    (s.set b v).get c = s.get c := by
  cases b <;> cases c <;> simp_all [K.get, K.set, Function.update]

theorem K.get_set (s : K) (b c : Ptr) (v : Buf) :
    (s.set b v).get c = if c = b then v else s.get c := by
  by_cases h : c = b
  · subst h; simp
  · simp [h]

theorem K.head_eq (s : K) : s.head = s.get Ptr.head := rfl

@[simp] theorem K.set_NBUF (s : K) (b : Ptr) (v : Buf) : (s.set b v).NBUF = s.NBUF := by
  cases b <;> rfl

@[simp] theorem K.set_BSIZE (s : K) (b : Ptr) (v : Buf) : (s.set b v).BSIZE = s.BSIZE := by
  cases b <;> rfl

@[simp] theorem K.set_FSSIZE (s : K) (b : Ptr) (v : Buf) : (s.set b v).FSSIZE = s.FSSIZE := by
  cases b <;> rfl

@[simp] theorem K.set_sb (s : K) (b : Ptr) (v : Buf) : (s.set b v).sb = s.sb := by
  cases b <;> rfl

@[simp] theorem K.set_init_flag (s : K) (b : Ptr) (v : Buf) :
    (s.set b v).init_flag = s.init_flag := by
  cases b <;> rfl

@[simp] theorem K.set_disk (s : K) (b : Ptr) (v : Buf) : (s.set b v).disk = s.disk := by
  cases b <;> rfl

@[simp] theorem K.set_log (s : K) (b : Ptr) (v : Buf) : (s.set b v).log = s.log := by
  cases b <;> rfl

/-- Two states with the same constants, globals and records are equal. -/
theorem K.ext_get {s t : K} (h1 : s.NBUF = t.NBUF) (h2 : s.BSIZE = t.BSIZE)
    (h3 : s.FSSIZE = t.FSSIZE) (h4 : s.sb = t.sb) (h5 : s.init_flag = t.init_flag)
    (h6 : s.disk = t.disk) (h7 : s.log = t.log) (h : ∀ b, s.get b = t.get b) : s = t := by
  cases s; cases t
  simp only [K.mk.injEq]
  simp only at h1 h2 h3 h4 h5 h6 h7
  refine ⟨h1, h2, h3, h4, ?_, ?_, h5, ?_, h6, h7⟩
  · funext i; exact h (Ptr.buf i)
  · exact h Ptr.head
  · funext k; exact h (Ptr.mod k)

theorem K.set_get_self (s : K) (b : Ptr) : s.set b (s.get b) = s := by
  apply K.ext_get <;> try simp
  intro c; rw [K.get_set]; split <;> simp_all

theorem Ptr.is_buf_iff {n : Nat} {b : Ptr} : b.is_buf n ↔ ∃ i < n, b = Ptr.buf i := by
  cases b <;> simp [Ptr.is_buf]

theorem IsList.not_head {s : K} {l : List Ptr} (h : IsList s l) : Ptr.head ∉ l := fun hm =>
  h.sub _ hm

theorem IsList.mem_iff {s : K} {l : List Ptr} (h : IsList s l) (x : Ptr) :
    x ∈ l ↔ x.is_buf s.NBUF := by
  constructor
  · exact h.sub x
  · intro hx
    obtain ⟨i, hi, rfl⟩ := Ptr.is_buf_iff.1 hx
    exact h.sup i hi

theorem IsList.length {s : K} {l : List Ptr} (h : IsList s l) : l.length = s.NBUF := by
  have hp : l.Perm ((List.range s.NBUF).map Ptr.buf) := by
    rw [List.perm_ext_iff_of_nodup h.nodup]
    · intro a
      rw [h.mem_iff, Ptr.is_buf_iff]
      simp only [List.mem_map, List.mem_range]
      constructor
      · rintro ⟨i, hi, rfl⟩; exact ⟨i, hi, rfl⟩
      · rintro ⟨i, hi, rfl⟩; exact ⟨i, hi, rfl⟩
    · exact (List.nodup_range _).map (fun a b h => by injection h)
  simpa using hp.length_eq

theorem Walk.congr {f g : Ptr → Ptr} :
    ∀ {m : List Ptr} {a c z : Ptr}, g c = f a → (∀ u ∈ m, g u = f u) →
      Walk f a m z → Walk g c m z := by
  intro m
  induction m with
  | nil => intro a c z h _ hw; exact h.trans hw
  | cons x m ih =>
    intro a c z h hm hw
    exact ⟨h.trans hw.1, ih (hm x (by simp)) (fun u hu => hm u (by simp [hu])) hw.2⟩

theorem Walk.append {f : Ptr → Ptr} :
    ∀ {m1 : List Ptr} {a x z : Ptr} {m2 : List Ptr},
      Walk f a (m1 ++ x :: m2) z ↔ Walk f a m1 x ∧ Walk f x m2 z := by
  intro m1
  induction m1 with
  | nil => intro a x z m2; simp [Walk]
  | cons y m1 ih => intro a x z m2; simp [Walk, ih, and_assoc]

theorem Walk.succ_mem {f : Ptr → Ptr} :
    ∀ {m : List Ptr} {a z : Ptr}, Walk f a m z → ∀ x ∈ a :: m, f x ∈ m ++ [z] := by
  intro m
  induction m with
  | nil =>
    intro a z hw x hx
    have e : f a = z := hw
    rcases List.mem_singleton.1 hx with rfl
    simp [e]
  | cons y m ih =>
    intro a z hw x hx
    rcases List.mem_cons.1 hx with rfl | hx
    · simp [hw.1]
    · have := ih hw.2 x hx
      simp at this ⊢
      tauto

theorem Walk.reverse {f g : Ptr → Ptr} :
    ∀ {m : List Ptr} {a z : Ptr}, Walk f a m z → (∀ x ∈ a :: m, g (f x) = x) →
      Walk g z m.reverse a := by
  intro m
  induction m with
  | nil =>
    intro a z hw hi
    have e : f a = z := hw
    have := hi a (by simp)
    rw [e] at this
    exact this
  | cons y m ih =>
    intro a z hw hi
    rw [List.reverse_cons, Walk.append]
    refine ⟨ih hw.2 (fun x hx => hi x (by simp [List.mem_cons.1 hx])), ?_⟩
    have := hi a (by simp)
    rw [hw.1] at this
    exact this

/-- A scan along links that lead through `l` to the head returns the first
record of `l` that passes the test. -/
theorem scan_walk (s : K) (link : Buf → Ptr) (test : Buf → Bool) :
    ∀ (l : List Ptr) (a : Ptr) (n : Nat),
      Walk (fun x => link (s.get x)) a l Ptr.head →
      Ptr.head ∉ l → l.length ≤ n →
      scan s link test n (link (s.get a)) = some (l.find? (fun x => test (s.get x))) := by
  intro l
  induction l with
  | nil =>
    intro a n hc _ _
    have h : link (s.get a) = Ptr.head := hc
    rw [h]
    cases n <;> simp [scan]
  | cons x l ih =>
    intro a n hc hh hn
    have hx : link (s.get a) = x := hc.1
    have hxh : x ≠ Ptr.head := fun e => hh (by simp [e])
    have hh2 : Ptr.head ∉ l := fun e => hh (by simp [e])
    obtain ⟨m, rfl⟩ : ∃ m, n = m + 1 := ⟨n - 1, by simp at hn; omega⟩
    rw [hx]
    simp only [scan, hxh, if_false, List.find?_cons]
    cases ht : test (s.get x)
    · simp only [Bool.false_eq_true, if_false]
      exact ih x m hc.2 hh2 (by simpa using hn)
    · simp

theorem fwd_walk (s : K) :
    ∀ (l : List Ptr) (a : Ptr) (n : Nat),
      Walk s.nx a l Ptr.head → Ptr.head ∉ l → l.length ≤ n → fwd s n (s.get a).next = l := by
  intro l
  induction l with
  | nil =>
    intro a n hc _ _
    have h : (s.get a).next = Ptr.head := hc
    rw [h]
    cases n <;> simp [fwd]
  | cons x l ih =>
    intro a n hc hh hn
    have hxh : x ≠ Ptr.head := fun e => hh (by simp [e])
    have hh2 : Ptr.head ∉ l := fun e => hh (by simp [e])
    obtain ⟨m, rfl⟩ : ∃ m, n = m + 1 := ⟨n - 1, by simp at hn; omega⟩
    have h1 : (s.get a).next = x := hc.1
    rw [h1]
    simp only [fwd, hxh, if_false]
    rw [ih x m hc.2 hh2 (by simpa using hn)]

theorem linked_from_iff {s : K} :
    ∀ {l : List Ptr} {a : Ptr},
      linked_from s a l ↔ Walk s.nx a l Ptr.head ∧ ∀ x ∈ a :: l, s.pv (s.nx x) = x := by
  intro l
  induction l with
  | nil =>
    intro a
    simp only [linked_from, Walk, List.mem_singleton, forall_eq, K.nx, K.pv]
    constructor
    · rintro ⟨h1, h2⟩; exact ⟨h1, by rw [h1]; exact h2⟩
    · rintro ⟨h1, h2⟩; exact ⟨h1, by rw [← h1]; exact h2⟩
  | cons y m ih =>
    intro a
    simp only [linked_from, Walk, List.mem_cons, forall_eq_or_imp, ih, K.nx, K.pv]
    constructor
    · rintro ⟨⟨h1, h2⟩, h3, h4, h5⟩
      exact ⟨⟨h1, h3⟩, by rw [h1]; exact h2, h4, h5⟩
    · rintro ⟨⟨h1, h3⟩, h2, h4, h5⟩
      exact ⟨⟨h1, by rw [← h1]; exact h2⟩, h3, h4, h5⟩

theorem linked_iff {s : K} {l : List Ptr} :
    Linked s l ↔ Walk s.nx Ptr.head l Ptr.head ∧ ∀ x ∈ Ptr.head :: l, s.pv (s.nx x) = x :=
  linked_from_iff

theorem Linked.next_walk {s : K} {l : List Ptr} (h : Linked s l) :
    Walk s.nx Ptr.head l Ptr.head := (linked_iff.1 h).1

theorem Linked.prev_walk {s : K} {l : List Ptr} (h : Linked s l) :
    Walk s.pv Ptr.head l.reverse Ptr.head :=
  Walk.reverse (linked_iff.1 h).1 (linked_iff.1 h).2

theorem IsList.mru_eq {s : K} {l : List Ptr} (h : IsList s l) : s.mru = l := by
  unfold K.mru
  exact fwd_walk s l Ptr.head s.NBUF h.linked.next_walk h.not_head (le_of_eq h.length)

theorem WF_iff {s : K} : WF s ↔ ∃ l, IsList s l :=
  ⟨fun h => ⟨_, h⟩, fun ⟨l, h⟩ => by unfold WF; rw [h.mru_eq]; exact h⟩

theorem IsList.scan_next {s : K} {l : List Ptr} (h : IsList s l) (test : Buf → Bool) :
    scan s Buf.next test s.NBUF (s.get Ptr.head).next
      = some (l.find? (fun x => test (s.get x))) :=
  scan_walk s Buf.next test l Ptr.head s.NBUF h.linked.next_walk h.not_head
    (le_of_eq h.length)

theorem IsList.scan_prev {s : K} {l : List Ptr} (h : IsList s l) (test : Buf → Bool) :
    scan s Buf.prev test s.NBUF (s.get Ptr.head).prev
      = some (l.reverse.find? (fun x => test (s.get x))) :=
  scan_walk s Buf.prev test l.reverse Ptr.head s.NBUF h.linked.prev_walk
    (by simpa using h.not_head) (by simpa using le_of_eq h.length)

theorem bget_eq (d p dev blockno : Nat) (s : K) :
    bget d p dev blockno s =
      match bget_routed d p dev blockno s with
      | Res.halt h s1 => Res.halt h s1
      | Res.ok true s1 => get_mod_buf p dev blockno s1
      | Res.ok false s1 => bget_cache p dev blockno s1 := by
  cases d with
  | zero =>
    simp only [bget, bget_with, bget_routed]
    split <;> rfl
  | succ d =>
    simp only [bget, bget_with, bget_routed, is_user_prog_block]
    split
    · cases h : is_user_prog_block_with (bget d) p dev blockno s with
      | halt h s1 => rfl
      | ok t s1 =>
        by_cases ht : t = 0
        · simp [ht]
        · simp [ht]
    · rfl

theorem bget_routed_of_init_flag {d p dev blockno : Nat} {s : K} (h : s.init_flag = false) :
    bget_routed d p dev blockno s = Res.ok false s := by
  simp [bget_routed, h]

theorem SameLinks.links_refl (s : K) : SameLinks s s := ⟨rfl, fun _ => ⟨rfl, rfl⟩⟩

theorem SameLinks.links_trans {s t u : K} (h1 : SameLinks s t) (h2 : SameLinks t u) :
    SameLinks s u :=
  ⟨h2.1.trans h1.1, fun x => ⟨(h2.2 x).1.trans (h1.2 x).1, (h2.2 x).2.trans (h1.2 x).2⟩⟩

theorem SameLinks.of_set {s : K} {b : Ptr} {v : Buf} (hn : v.next = (s.get b).next)
    (hp : v.prev = (s.get b).prev) : SameLinks s (s.set b v) := by
  refine ⟨by simp, fun x => ?_⟩
  rw [K.get_set]
  split
  · subst_vars; exact ⟨hn, hp⟩
  · exact ⟨rfl, rfl⟩

theorem SameLinks.linked {s t : K} (h : SameLinks s t) {l : List Ptr} (hl : Linked s l) :
    Linked t l := by
  have e1 : t.nx = s.nx := funext fun x => (h.2 x).1
  have e2 : t.pv = s.pv := funext fun x => (h.2 x).2
  rw [linked_iff] at hl ⊢
  rw [e1, e2]
  exact hl

theorem SameLinks.isList {s t : K} (h : SameLinks s t) {l : List Ptr} (hl : IsList s l) :
    IsList t l :=
  ⟨h.linked hl.linked, hl.nodup, by rw [h.1]; exact hl.sub, by rw [h.1]; exact hl.sup⟩

theorem SameLinks.wf {s t : K} (h : SameLinks s t) (hw : WF s) : WF t :=
  WF_iff.2 ⟨_, h.isList hw⟩

theorem SameLinks.mru {s t : K} (h : SameLinks s t) (hw : WF s) : t.mru = s.mru :=
  (h.isList hw).mru_eq

theorem find_is_key {s : K} {l : List Ptr} {dev blockno : Nat} {b : Ptr}
    (h : l.find? (fun x => is_key dev blockno (s.get x)) = some b) :
    b ∈ l ∧ (s.get b).dev = dev ∧ (s.get b).blockno = blockno := by
  have h1 := List.find?_some h
  have h2 := List.mem_of_find?_eq_some h
  simp only [is_key, Bool.and_eq_true, beq_iff_eq] at h1
  exact ⟨h2, h1.1, h1.2⟩

/-- The lookup in the ordinary cache when the first scan finds `b`. -/
theorem bget_cache_hit {p dev blockno : Nat} {s : K} {b : Ptr} (hw : WF s)
    (hb : s.mru.find? (fun x => is_key dev blockno (s.get x)) = some b) :
    bget_cache p dev blockno s =
      match (s.get b).lock with
      | none => Res.ok b (s.set b { s.get b with refcnt := uinc (s.get b).refcnt,
                                                 lock := some p })
      | some _ => Res.halt (Halt.sleep b)
                    (s.set b { s.get b with refcnt := uinc (s.get b).refcnt }) := by
  have h1 := hw.scan_next (is_key dev blockno)
  unfold bget_cache
  simp only [K.head_eq]
  rw [h1, hb]
  simp only [acquiresleep, K.get_set_same]
  cases hl : (s.get b).lock with
  | none =>
    simp only
    congr 1
    apply K.ext_get <;> try simp
    intro c; rw [K.get_set, K.get_set]; split <;> simp_all
  | some q => simp

/-- The lookup in the ordinary cache when no record has the key and the second
scan finds `b`. -/
theorem bget_cache_miss {p dev blockno : Nat} {s : K} {b : Ptr} (hw : WF s)
    (hn : s.mru.find? (fun x => is_key dev blockno (s.get x)) = none)
    (hb : s.mru.reverse.find? (fun x => is_free (s.get x)) = some b) :
    bget_cache p dev blockno s =
      match (s.get b).lock with
      | none => Res.ok b (s.set b { s.get b with dev := dev, blockno := blockno,
                                                 valid := false, refcnt := 1, lock := some p })
      | some _ => Res.halt (Halt.sleep b)
                    (s.set b { s.get b with dev := dev, blockno := blockno,
                                            valid := false, refcnt := 1 }) := by
  have h1 := hw.scan_next (is_key dev blockno)
  have h2 := hw.scan_prev is_free
  unfold bget_cache
  simp only [K.head_eq]
  rw [h1, hn]
  simp only
  rw [h2, hb]
  simp only [acquiresleep, K.get_set_same]
  cases hl : (s.get b).lock with
  | none =>
    simp only
    congr 1
    apply K.ext_get <;> try simp
    intro c; simp only [K.get_set]; split <;> simp_all
  | some q =>
    simp only
    congr 1
    apply K.ext_get <;> try simp
    intro c; simp only [K.get_set]; split <;> simp_all

/-- The lookup in the ordinary cache when no record has the key and none is
free. -/
theorem bget_cache_none {p dev blockno : Nat} {s : K} (hw : WF s)
    (hn : s.mru.find? (fun x => is_key dev blockno (s.get x)) = none)
    (hb : s.mru.reverse.find? (fun x => is_free (s.get x)) = none) :
    bget_cache p dev blockno s = Res.halt (Halt.panic "bget: no buffers") s := by
  have h1 := hw.scan_next (is_key dev blockno)
  have h2 := hw.scan_prev is_free
  unfold bget_cache
  simp only [K.head_eq]
  rw [h1, hn]
  simp only
  rw [h2, hb]

theorem find_key_none {s : K} {l : List Ptr} {dev blockno : Nat} :
    l.find? (fun x => is_key dev blockno (s.get x)) = none ↔
      ∀ x ∈ l, ¬ ((s.get x).dev = dev ∧ (s.get x).blockno = blockno) := by
  simp [List.find?_eq_none, is_key]

theorem find_free_none {s : K} {l : List Ptr} :
    l.find? (fun x => is_free (s.get x)) = none ↔ ∀ x ∈ l, (s.get x).refcnt ≠ 0 := by
  simp [List.find?_eq_none, is_free]

theorem find_free_some {s : K} {l : List Ptr} {b : Ptr}
    (h : l.find? (fun x => is_free (s.get x)) = some b) : b ∈ l ∧ (s.get b).refcnt = 0 := by
  have h1 := List.find?_some h
  have h2 := List.mem_of_find?_eq_some h
  simp only [is_free, beq_iff_eq] at h1
  exact ⟨h2, h1⟩

theorem find_exists {α : Type} (p : α → Bool) (l : List α) (h : ∃ x ∈ l, p x = true) :
    ∃ b, l.find? p = some b := by
  cases hf : l.find? p with
  | some b => exact ⟨b, rfl⟩
  | none =>
    obtain ⟨x, hx, hp⟩ := h
    rw [List.find?_eq_none] at hf
    exact absurd hp (hf x hx)

theorem uinc_of_lt {x : Nat} (h : x + 1 < UINT) : uinc x = x + 1 := Nat.mod_eq_of_lt h

theorem udec_of_pos {x : Nat} (h0 : 0 < x) (h : x < UINT) : udec x = x - 1 := by
  unfold udec
  have : x + (UINT - 1) = (x - 1) + UINT := by unfold UINT at *; omega
  rw [this, Nat.add_mod_right]
  exact Nat.mod_eq_of_lt (by omega)

theorem K.nx_set_next (s : K) (x v : Ptr) :
    (s.set x { s.get x with next := v }).nx = Function.update s.nx x v := by
  funext y
  simp only [K.nx, K.get_set, Function.update_apply]
  split <;> simp_all

theorem K.pv_set_next (s : K) (x v : Ptr) :
    (s.set x { s.get x with next := v }).pv = s.pv := by
  funext y
  simp only [K.pv, K.get_set]
  split <;> simp_all

theorem K.nx_set_prev (s : K) (x v : Ptr) :
    (s.set x { s.get x with prev := v }).nx = s.nx := by
  funext y
  simp only [K.nx, K.get_set]
  split <;> simp_all

theorem K.pv_set_prev (s : K) (x v : Ptr) :
    (s.set x { s.get x with prev := v }).pv = Function.update s.pv x v := by
  funext y
  simp only [K.pv, K.get_set, Function.update_apply]
  split <;> simp_all

theorem brelse_move_eq (b : Ptr) (s : K) :
    brelse_move b s =
      let t1 := s.set (s.nx b) { s.get (s.nx b) with prev := s.pv b }
      let t2 := t1.set (t1.pv b) { t1.get (t1.pv b) with next := t1.nx b }
      let t3 := t2.set b { t2.get b with next := t2.nx Ptr.head }
      let t4 := t3.set b { t3.get b with prev := Ptr.head }
      let t5 := t4.set (t4.nx Ptr.head) { t4.get (t4.nx Ptr.head) with prev := b }
      t5.set Ptr.head { t5.get Ptr.head with next := b } := rfl

/-- The links after `brelse_move`, for a record `b` that is not the head and is
not its own successor. -/
theorem brelse_move_links {s : K} {b : Ptr} (hb : b ≠ Ptr.head) (hN : s.nx b ≠ b) :
    (brelse_move b s).nx =
      Function.update (Function.update (Function.update s.nx (s.pv b) (s.nx b)) b
        (if s.pv b = Ptr.head then s.nx b else s.nx Ptr.head)) Ptr.head b ∧
    (brelse_move b s).pv =
      Function.update (Function.update (Function.update s.pv (s.nx b) (s.pv b)) b Ptr.head)
        (if s.pv b = Ptr.head then s.nx b else s.nx Ptr.head) b := by
  rw [brelse_move_eq]
  simp only [K.nx_set_next, K.pv_set_next, K.nx_set_prev, K.pv_set_prev]
  have e1 : Function.update s.pv (s.nx b) (s.pv b) b = s.pv b := by
    rw [Function.update_apply]; simp [hN.symm]
  have e2 : Function.update s.nx (s.pv b) (s.nx b) Ptr.head =
      if s.pv b = Ptr.head then s.nx b else s.nx Ptr.head := by
    rw [Function.update_apply]
    by_cases h : s.pv b = Ptr.head
    · simp [h]
    · simp [h, Ne.symm h]
  have e3 : Function.update (Function.update s.nx (s.pv b) (s.nx b)) b
      (if s.pv b = Ptr.head then s.nx b else s.nx Ptr.head) Ptr.head =
      if s.pv b = Ptr.head then s.nx b else s.nx Ptr.head := by
    rw [Function.update_apply, if_neg hb.symm, e2]
  rw [e1, e2, e3]
  exact ⟨rfl, rfl⟩

theorem isList_iff {s : K} {l : List Ptr} :
    IsList s l ↔ LinkedOn s.nx s.pv l ∧ (∀ x ∈ l, x.is_buf s.NBUF) ∧
      ∀ i < s.NBUF, Ptr.buf i ∈ l := by
  constructor
  · intro h
    have := linked_iff.1 h.linked
    exact ⟨⟨this.1, this.2, h.nodup, h.not_head⟩, h.sub, h.sup⟩
  · rintro ⟨h, h2, h3⟩
    exact ⟨linked_iff.2 ⟨h.walk, h.inv⟩, h.nodup, h2, h3⟩

theorem LinkedOn.inj {nx pv : Ptr → Ptr} {m : List Ptr} (h : LinkedOn nx pv m) {x y : Ptr}
    (hx : x ∈ Ptr.head :: m) (hy : y ∈ Ptr.head :: m) (e : nx x = nx y) : x = y := by
  rw [← h.inv x hx, ← h.inv y hy, e]

theorem LinkedOn.next_mem {nx pv : Ptr → Ptr} {m : List Ptr} (h : LinkedOn nx pv m) {x : Ptr}
    (hx : x ∈ Ptr.head :: m) : nx x ∈ Ptr.head :: m := by
  have := h.walk.succ_mem x hx
  simp at this ⊢
  tauto

/-- Putting a record `b` that is not on the list right after the head. -/
theorem LinkedOn.insert {nx pv : Ptr → Ptr} {m : List Ptr} (h : LinkedOn nx pv m) {b : Ptr}
    (hb : b ≠ Ptr.head) (hbm : b ∉ m) :
    LinkedOn (Function.update (Function.update nx b (nx Ptr.head)) Ptr.head b)
      (Function.update (Function.update pv b Ptr.head) (nx Ptr.head) b) (b :: m) := by
  have hF : nx Ptr.head ≠ b := by
    intro e
    have := h.next_mem (x := Ptr.head) (by simp)
    rw [e] at this
    simp only [List.mem_cons] at this
    tauto
  refine ⟨⟨by simp, ?_⟩, ?_, List.nodup_cons.2 ⟨hbm, h.nodup⟩, ?_⟩
  · refine Walk.congr ?_ ?_ h.walk
    · simp [Function.update_apply, hb]
    · intro u hu
      have h1 : u ≠ Ptr.head := fun e => h.nohead (e ▸ hu)
      have h2 : u ≠ b := fun e => hbm (e ▸ hu)
      simp [Function.update_apply, h1, h2]
  · intro x hx
    by_cases h1 : x = Ptr.head
    · subst h1
      simp [Function.update_apply, hF.symm]
    · by_cases h2 : x = b
      · subst h2
        simp [Function.update_apply, h1]
      · have hxm : x ∈ Ptr.head :: m := by
          simp only [List.mem_cons] at hx ⊢
          tauto
        have h3 : nx x ≠ nx Ptr.head := fun e => h1 (h.inj hxm (by simp) e)
        have h4 : nx x ≠ b := by
          intro e
          have := h.next_mem hxm
          rw [e] at this
          simp only [List.mem_cons] at this
          tauto
        simp [Function.update_apply, h1, h2, h3, h4, h.inv x hxm]
  · simp only [List.mem_cons, not_or]
    exact ⟨hb.symm, h.nohead⟩

/-- Taking the record `b` out of the list. -/
theorem LinkedOn.unlink {nx pv : Ptr → Ptr} {l1 l2 : List Ptr} {b : Ptr}
    (h : LinkedOn nx pv (l1 ++ b :: l2)) :
    LinkedOn (Function.update nx (pv b) (nx b)) (Function.update pv (nx b) (pv b))
      (l1 ++ l2) := by
  have hnd := h.nodup
  have hbl1 : b ∉ l1 := fun hm => by
    have := List.nodup_append.1 hnd
    exact this.2.2 hm (by simp)
  have hbl2 : b ∉ l2 := fun hm => by
    have := (List.nodup_append.1 hnd).2.1
    exact (List.nodup_cons.1 this).1 hm
  have hbh : b ≠ Ptr.head := fun e => h.nohead (by simp [e])
  have hw := Walk.append.1 h.walk
  have hnd2 : (l1 ++ l2).Nodup := by
    have := List.nodup_append.1 hnd
    refine List.nodup_append.2 ⟨this.1, (List.nodup_cons.1 this.2.1).2, ?_⟩
    intro a ha1 ha2
    exact this.2.2 ha1 (by simp [ha2])
  have hnh : Ptr.head ∉ l1 ++ l2 := fun hm => h.nohead (by
    simp only [List.mem_append, List.mem_cons] at hm ⊢
    tauto)
  have hbmem : b ∈ Ptr.head :: (l1 ++ b :: l2) := by simp
  rcases List.eq_nil_or_concat l1 with rfl | ⟨l1', P0, h1⟩
  on_goal 2 => rw [List.concat_eq_append] at h1; subst h1
  · have hh : nx Ptr.head = b := hw.1
    have hPb : pv b = Ptr.head := by rw [← hh]; exact h.inv _ (by simp)
    refine ⟨?_, ?_, hnd2, hnh⟩
    · rw [hPb]
      refine Walk.congr ?_ ?_ hw.2
      · simp
      · intro u hu
        have : u ≠ Ptr.head := fun e => hnh (e ▸ hu)
        simp [Function.update_apply, this]
    · intro x hx
      rw [hPb]
      by_cases h1 : x = Ptr.head
      · subst h1; simp [Function.update_apply]
      · have hxm : x ∈ Ptr.head :: ([] ++ b :: l2) := by
          simp only [List.nil_append, List.mem_cons] at hx ⊢
          tauto
        have hxb : x ≠ b := fun e => hbl2 (by
          simp only [List.nil_append, List.mem_cons] at hx
          rcases hx with hx | hx
          · exact absurd hx h1
          · exact e ▸ hx)
        have h3 : nx x ≠ nx b := fun e => hxb (h.inj hxm hbmem e)
        simp [Function.update_apply, h1, h3, h.inv x hxm]
  · have hw1 := Walk.append.1 (show Walk nx Ptr.head (l1' ++ P0 :: []) b from by simpa using hw.1)
    have hP0b : nx P0 = b := hw1.2
    have hP0m : P0 ∈ Ptr.head :: (l1' ++ [P0] ++ b :: l2) := by simp
    have hPb : pv b = P0 := by rw [← hP0b]; exact h.inv _ hP0m
    have hP0h : P0 ≠ Ptr.head := fun e => h.nohead (by simp [← e])
    have hP0l1 : P0 ∉ l1' := fun hm => by
      have := (List.nodup_append.1 (List.nodup_append.1 hnd).1)
      exact this.2.2 hm (by simp)
    have hP0l2 : P0 ∉ l2 := fun hm => by
      exact (List.nodup_append.1 hnd).2.2 (show P0 ∈ l1' ++ [P0] by simp)
        (show P0 ∈ b :: l2 by simp [hm])
    refine ⟨?_, ?_, hnd2, hnh⟩
    · rw [hPb]
      have : l1' ++ [P0] ++ l2 = l1' ++ P0 :: l2 := by simp
      rw [this, Walk.append]
      constructor
      · refine Walk.congr ?_ ?_ hw1.1
        · simp [Function.update_apply, hP0h.symm]
        · intro u hu
          have : u ≠ P0 := fun e => hP0l1 (e ▸ hu)
          simp [Function.update_apply, this]
      · refine Walk.congr ?_ ?_ hw.2
        · simp
        · intro u hu
          have : u ≠ P0 := fun e => hP0l2 (e ▸ hu)
          simp [Function.update_apply, this]
    · intro x hx
      rw [hPb]
      by_cases h1 : x = P0
      · subst h1; simp [Function.update_apply]
      · have hxm : x ∈ Ptr.head :: (l1' ++ [P0] ++ b :: l2) := by
          simp only [List.mem_cons, List.mem_append, List.mem_singleton] at hx ⊢
          tauto
        have hxb : x ≠ b := by
          rintro rfl
          simp only [List.mem_cons, List.mem_append, List.mem_singleton] at hx
          rcases hx with hx | (hx | hx) | hx
          · exact hbh hx
          · exact hbl1 (by simp [hx])
          · exact h1 (by simpa using hx)
          · exact hbl2 hx
        have h3 : nx x ≠ nx b := fun e => hxb (h.inj hxm hbmem e)
        simp [Function.update_apply, h1, h3, h.inv x hxm]

theorem Buf.same_fields_refl (a : Buf) : a.same_fields a := ⟨rfl, rfl, rfl, rfl, rfl, rfl, rfl⟩

theorem FieldsEq.fields_refl (s : K) : FieldsEq s s :=
  ⟨rfl, rfl, rfl, rfl, rfl, rfl, rfl, fun _ => Buf.same_fields_refl _⟩

theorem FieldsEq.fields_trans {s t u : K} (h1 : FieldsEq s t) (h2 : FieldsEq t u) : FieldsEq s u := by
  obtain ⟨a1, a2, a3, a4, a5, a6, a7, a8⟩ := h1
  obtain ⟨b1, b2, b3, b4, b5, b6, b7, b8⟩ := h2
  refine ⟨b1.trans a1, b2.trans a2, b3.trans a3, b4.trans a4, b5.trans a5, b6.trans a6,
    b7.trans a7, fun x => ?_⟩
  obtain ⟨c1, c2, c3, c4, c5, c6, c7⟩ := a8 x
  obtain ⟨d1, d2, d3, d4, d5, d6, d7⟩ := b8 x
  exact ⟨d1.trans c1, d2.trans c2, d3.trans c3, d4.trans c4, d5.trans c5, d6.trans c6,
    d7.trans c7⟩

theorem FieldsEq.set_next (s : K) (x v : Ptr) :
    FieldsEq s (s.set x { s.get x with next := v }) := by
  refine ⟨by simp, by simp, by simp, by simp, by simp, by simp, by simp, fun y => ?_⟩
  rw [K.get_set]
  split
  · subst_vars; exact ⟨rfl, rfl, rfl, rfl, rfl, rfl, rfl⟩
  · exact Buf.same_fields_refl _

theorem FieldsEq.set_prev (s : K) (x v : Ptr) :
    FieldsEq s (s.set x { s.get x with prev := v }) := by
  refine ⟨by simp, by simp, by simp, by simp, by simp, by simp, by simp, fun y => ?_⟩
  rw [K.get_set]
  split
  · subst_vars; exact ⟨rfl, rfl, rfl, rfl, rfl, rfl, rfl⟩
  · exact Buf.same_fields_refl _

theorem brelse_move_fields (b : Ptr) (s : K) : FieldsEq s (brelse_move b s) := by
  rw [brelse_move_eq]
  simp only
  refine FieldsEq.fields_trans (FieldsEq.fields_trans (FieldsEq.fields_trans (FieldsEq.fields_trans (FieldsEq.fields_trans
    (FieldsEq.set_prev _ _ _) (FieldsEq.set_next _ _ _)) (FieldsEq.set_next _ _ _))
    (FieldsEq.set_prev _ _ _)) (FieldsEq.set_prev _ _ _)) (FieldsEq.set_next _ _ _)

/-- The links after `brelse_move`, as the links after taking `b` out of the
list and putting it back after the head. -/
theorem brelse_move_links2 {s : K} {b : Ptr} (hb : b ≠ Ptr.head) (hN : s.nx b ≠ b) :
    (brelse_move b s).nx =
      Function.update (Function.update (Function.update s.nx (s.pv b) (s.nx b)) b
        (Function.update s.nx (s.pv b) (s.nx b) Ptr.head)) Ptr.head b ∧
    (brelse_move b s).pv =
      Function.update (Function.update (Function.update s.pv (s.nx b) (s.pv b)) b Ptr.head)
        (Function.update s.nx (s.pv b) (s.nx b) Ptr.head) b := by
  obtain ⟨h1, h2⟩ := brelse_move_links hb hN
  have e2 : Function.update s.nx (s.pv b) (s.nx b) Ptr.head =
      if s.pv b = Ptr.head then s.nx b else s.nx Ptr.head := by
    rw [Function.update_apply]
    by_cases h : s.pv b = Ptr.head
    · simp [h]
    · simp [h, Ne.symm h]
  rw [e2]
  exact ⟨h1, h2⟩

theorem mem_split_nodup {l : List Ptr} {b : Ptr} (hb : b ∈ l) :
    ∃ l1 l2, l = l1 ++ b :: l2 ∧ l.erase b = l1 ++ l2 := by
  obtain ⟨l1, l2, h1, h2⟩ := List.eq_append_cons_of_mem hb
  refine ⟨l1, l2, h1, ?_⟩
  rw [h1, List.erase_append_right _ h2, List.erase_cons_head]

/-- The list after `brelse_move b`: `b` first, the other records in the order
they had. -/
theorem brelse_move_isList {s : K} {l : List Ptr} {b : Ptr} (h : IsList s l) (hb : b ∈ l) :
    IsList (brelse_move b s) (b :: l.erase b) := by
  obtain ⟨l1, l2, e1, e2⟩ := mem_split_nodup hb
  have hL := (isList_iff.1 h).1
  have hbh : b ≠ Ptr.head := fun e => h.not_head (e ▸ hb)
  rw [e2]
  have hN : s.nx b ≠ b := by
    intro e
    have hw := hL.walk
    rw [e1] at hw hL
    have hw2 := (Walk.append.1 hw).2
    have hnd := hL.nodup
    have hbl2 : b ∉ l2 := fun hm =>
      (List.nodup_cons.1 (List.nodup_append.1 hnd).2.1).1 hm
    cases l2 with
    | nil => exact hbh (e.symm.trans hw2)
    | cons y l2 => exact hbl2 (by rw [← e, hw2.1]; simp)
  have hU : LinkedOn _ _ (l1 ++ l2) := LinkedOn.unlink (e1 ▸ hL)
  have hbn : b ∉ l1 ++ l2 := by
    rw [← e2]
    exact fun hm => (List.Nodup.mem_erase_iff h.nodup).1 hm |>.1 rfl
  have hI := hU.insert hbh hbn
  obtain ⟨k1, k2⟩ := brelse_move_links2 hbh hN
  have hF := brelse_move_fields b s
  rw [isList_iff, k1, k2, hF.1]
  refine ⟨hI, ?_, ?_⟩
  · intro x hx
    apply h.sub
    rw [e1]
    simp only [List.mem_cons, List.mem_append] at hx ⊢
    tauto
  · intro i hi
    have := h.sup i hi
    rw [e1] at this
    simp only [List.mem_cons, List.mem_append] at this ⊢
    tauto

@[simp] theorem K.set_set (s : K) (b : Ptr) (v w : Buf) : (s.set b v).set b w = s.set b w := by
  cases b <;> simp only [K.set, Function.update_idem]

/-- The result of `brelse` on a record that is not preloaded and whose lock the
caller holds. -/
theorem brelse_eq {p : Nat} {b : Ptr} {s : K} (hl : (s.get b).lock = some p)
    (hu : (s.get b).user_flag = false) :
    brelse p b s =
      Res.ok () (if udec (s.get b).refcnt = 0 then
          brelse_move b (s.set b { s.get b with lock := none, refcnt := udec (s.get b).refcnt })
        else s.set b { s.get b with lock := none, refcnt := udec (s.get b).refcnt }) := by
  have hu2 : ¬ (s.get b).user_flag = true := by simp [hu]
  simp only [brelse, holdingsleep, hl, beq_self_eq_true, Bool.not_true, Bool.false_eq_true,
    if_false, releasesleep, K.get_set_same, K.set_set, hu2]
  split <;> rfl

/-- C4: `brelse` on a record `b` of the pool that is not preloaded and whose
lock the caller `p` holds.  The call returns; the lock of `b` is free and its
reference count is one less (as a `uint`; one less as a number when it was
above 0).  If the new count is 0, `b` is the first record of the list and the
other records follow in the order they had; otherwise the order of the list is
as before.  In both cases device, block number, validity flag, payload and tag
of `b` are as before, every other record has the fields it had, and the list
is well formed. -/
theorem brelse_ordinary (p : Nat) (b : Ptr) (s : K) (hw : WF s) (hb : b.is_buf s.NBUF)
    (hl : (s.get b).lock = some p) (hu : (s.get b).user_flag = false) :
    ∃ s2, brelse p b s = Res.ok () s2 ∧
      (s2.get b).lock = none ∧
      (s2.get b).refcnt = udec (s.get b).refcnt ∧
      (0 < (s.get b).refcnt → (s.get b).refcnt < UINT →
        (s2.get b).refcnt + 1 = (s.get b).refcnt) ∧
      ((s2.get b).refcnt = 0 → s2.mru = b :: s.mru.erase b) ∧
      ((s2.get b).refcnt ≠ 0 → s2.mru = s.mru) ∧
      (s2.get b).dev = (s.get b).dev ∧ (s2.get b).blockno = (s.get b).blockno ∧
      (s2.get b).valid = (s.get b).valid ∧ (s2.get b).data = (s.get b).data ∧
      (s2.get b).user_flag = (s.get b).user_flag ∧
      (∀ c, c ≠ b → (s2.get c).same_fields (s.get c)) ∧
      WF s2 := by
  have hbm : b ∈ s.mru := (hw.mem_iff b).2 hb
  have hS : SameLinks s (s.set b
      { s.get b with lock := none, refcnt := udec (s.get b).refcnt }) := by
    apply SameLinks.of_set <;> rfl
  have hw1 := hS.isList hw
  have hdec : 0 < (s.get b).refcnt → (s.get b).refcnt < UINT →
      udec (s.get b).refcnt + 1 = (s.get b).refcnt := by
    intro h0 h1
    rw [udec_of_pos h0 h1]
    omega
  rw [brelse_eq hl hu]
  by_cases h0 : udec (s.get b).refcnt = 0
  · rw [if_pos h0]
    have hF := brelse_move_fields b (s.set b
      { s.get b with lock := none, refcnt := udec (s.get b).refcnt })
    have hI := brelse_move_isList hw1 hbm
    have hb' := hF.2.2.2.2.2.2.2 b
    simp only [K.get_set_same, Buf.same_fields] at hb'
    obtain ⟨c1, c2, c3, c4, c5, c6, c7⟩ := hb'
    refine ⟨_, rfl, c4, c5, ?_, fun _ => hI.mru_eq, fun h => absurd (c5.trans h0) h,
      c2, c3, c1, c6, c7, ?_, WF_iff.2 ⟨_, hI⟩⟩
    · intro h1 h2
      rw [c5]
      exact hdec h1 h2
    · intro c hc
      have := hF.2.2.2.2.2.2.2 c
      rwa [K.get_set_ne _ _ hc] at this
  · rw [if_neg h0]
    refine ⟨_, rfl, by simp, by simp, ?_, fun h => absurd (by simpa using h) h0,
      fun _ => hw1.mru_eq, by simp, by simp, by simp, by simp, by simp, ?_,
      WF_iff.2 ⟨_, hw1⟩⟩
    · intro h1 h2
      simpa using hdec h1 h2
    · intro c hc
      rw [K.get_set_ne _ _ hc]
      exact Buf.same_fields_refl _

theorem K.nx_set_of_eq (s : K) {x : Ptr} {v : Buf} (h : v.next = (s.get x).next) :
    (s.set x v).nx = s.nx := by
  funext y
  simp only [K.nx, K.get_set]
  split
  · subst_vars; exact h
  · rfl

theorem K.pv_set_of_eq (s : K) {x : Ptr} {v : Buf} (h : v.prev = (s.get x).prev) :
    (s.set x v).pv = s.pv := by
  funext y
  simp only [K.pv, K.get_set]
  split
  · subst_vars; exact h
  · rfl

theorem K.nx_set_lock (s : K) (x : Ptr) (v : Option Nat) :
    (s.set x { s.get x with lock := v }).nx = s.nx := K.nx_set_of_eq s rfl

theorem K.pv_set_lock (s : K) (x : Ptr) (v : Option Nat) :
    (s.set x { s.get x with lock := v }).pv = s.pv := K.pv_set_of_eq s rfl

theorem K.nx_set_user_flag (s : K) (x : Ptr) (v : Bool) :
    (s.set x { s.get x with user_flag := v }).nx = s.nx := K.nx_set_of_eq s rfl

theorem K.pv_set_user_flag (s : K) (x : Ptr) (v : Bool) :
    (s.set x { s.get x with user_flag := v }).pv = s.pv := K.pv_set_of_eq s rfl

theorem binit_step_eq (s : K) (i : Nat) :
    binit_step s i =
      let b := Ptr.buf i
      let t1 := s.set b { s.get b with next := s.nx Ptr.head }
      let t2 := t1.set b { t1.get b with prev := Ptr.head }
      let t3 := t2.set b { t2.get b with lock := none }
      let t4 := t3.set (t3.nx Ptr.head) { t3.get (t3.nx Ptr.head) with prev := b }
      let t5 := t4.set Ptr.head { t4.get Ptr.head with next := b }
      t5.set b { t5.get b with user_flag := false } := rfl

/-- The links after one round of the loop of `binit`: record `i` is put right
after the head. -/
theorem binit_step_links (s : K) (i : Nat) :
    (binit_step s i).nx =
      Function.update (Function.update s.nx (Ptr.buf i) (s.nx Ptr.head)) Ptr.head (Ptr.buf i) ∧
    (binit_step s i).pv =
      Function.update (Function.update s.pv (Ptr.buf i) Ptr.head) (s.nx Ptr.head)
        (Ptr.buf i) := by
  have e : Function.update s.nx (Ptr.buf i) (s.nx Ptr.head) Ptr.head = s.nx Ptr.head := by
    rw [Function.update_apply]; simp
  rw [binit_step_eq]
  simp only [K.nx_set_next, K.pv_set_next, K.nx_set_prev, K.pv_set_prev, K.nx_set_lock,
    K.pv_set_lock, K.nx_set_user_flag, K.pv_set_user_flag, e, and_self]

theorem binit_step_NBUF (s : K) (i : Nat) : (binit_step s i).NBUF = s.NBUF := by
  rw [binit_step_eq]; simp

theorem foldl_binit_step_NBUF (s : K) (l : List Nat) :
    (l.foldl binit_step s).NBUF = s.NBUF := by
  induction l generalizing s with
  | nil => rfl
  | cons i l ih => rw [List.foldl_cons, ih, binit_step_NBUF]

/-- The list after the first `i` rounds of the loop of `binit`. -/
theorem binit_loop_linked (s : K) (h0 : LinkedOn s.nx s.pv []) :
    ∀ i, LinkedOn ((List.range i).foldl binit_step s).nx ((List.range i).foldl binit_step s).pv
      ((List.range i).reverse.map Ptr.buf) := by
  intro i
  induction i with
  | zero => simpa using h0
  | succ i ih =>
    rw [List.range_succ, List.foldl_append, List.foldl_cons, List.foldl_nil]
    obtain ⟨h1, h2⟩ := binit_step_links ((List.range i).foldl binit_step s) i
    rw [h1, h2]
    have hb : Ptr.buf i ∉ (List.range i).reverse.map Ptr.buf := by
      simp only [List.mem_map, List.mem_reverse, List.mem_range, not_exists, not_and]
      intro j hj e
      injection e with e
      omega
    have := ih.insert (b := Ptr.buf i) (by simp) hb
    simpa using this

theorem binit_WF (s : K) : WF (binit s) ∧ (binit s).mru = (List.range s.NBUF).reverse.map Ptr.buf := by
  have h0 : LinkedOn (s.set Ptr.head { s.get Ptr.head with
      prev := Ptr.head, next := Ptr.head }).nx
      (s.set Ptr.head { s.get Ptr.head with prev := Ptr.head, next := Ptr.head }).pv [] := by
    refine ⟨?_, ?_, List.nodup_nil, by simp⟩
    · show K.nx _ _ = _
      simp [K.nx]
    · intro x hx
      simp only [List.mem_singleton] at hx
      subst hx
      simp [K.nx, K.pv]
  have e : binit s = (List.range s.NBUF).foldl binit_step
      (s.set Ptr.head { s.get Ptr.head with prev := Ptr.head, next := Ptr.head }) := by
    simp only [binit, K.get_set_same, K.set_set, K.set_NBUF]
  have hL := binit_loop_linked _ h0 s.NBUF
  rw [← e] at hL
  have hn : (binit s).NBUF = s.NBUF := by rw [e, foldl_binit_step_NBUF]; simp
  have hI : IsList (binit s) ((List.range s.NBUF).reverse.map Ptr.buf) := by
    rw [isList_iff, hn]
    refine ⟨hL, ?_, ?_⟩
    · intro x hx
      simp only [List.mem_map, List.mem_reverse, List.mem_range] at hx
      obtain ⟨j, hj, rfl⟩ := hx
      exact hj
    · intro j hj
      simp only [List.mem_map, List.mem_reverse, List.mem_range]
      exact ⟨j, hj, rfl⟩
  exact ⟨WF_iff.2 ⟨_, hI⟩, hI.mru_eq⟩

theorem SameEnv.env_refl (s : K) : SameEnv s s := ⟨rfl, rfl, rfl, rfl, rfl, rfl, rfl⟩

theorem SameEnv.env_trans {s t u : K} (h1 : SameEnv s t) (h2 : SameEnv t u) : SameEnv s u := by
  obtain ⟨a1, a2, a3, a4, a5, a6, a7⟩ := h1
  obtain ⟨b1, b2, b3, b4, b5, b6, b7⟩ := h2
  exact ⟨b1.trans a1, b2.trans a2, b3.trans a3, b4.trans a4, b5.trans a5, b6.trans a6,
    b7.trans a7⟩

theorem SameEnv.env_set (s : K) (b : Ptr) (v : Buf) : SameEnv s (s.set b v) :=
  ⟨by simp, by simp, by simp, by simp, by simp, by simp, by simp⟩

theorem K.all_fresh_set {s : K} (h : s.all_fresh) {y : Ptr} {v : Buf} (hv : v.fresh) :
    (s.set y v).all_fresh := by
  intro x
  rw [K.get_set]
  split
  · exact hv
  · exact h x

theorem binit_step_env (s : K) (i : Nat) : SameEnv s (binit_step s i) := by
  rw [binit_step_eq]
  exact ⟨by simp, by simp, by simp, by simp, by simp, by simp, by simp⟩

theorem K.all_fresh_set_next {s : K} (h : s.all_fresh) (y v : Ptr) :
    (s.set y { s.get y with next := v }).all_fresh :=
  K.all_fresh_set h (h y)

theorem K.all_fresh_set_prev {s : K} (h : s.all_fresh) (y v : Ptr) :
    (s.set y { s.get y with prev := v }).all_fresh :=
  K.all_fresh_set h (h y)

theorem K.all_fresh_set_lock {s : K} (h : s.all_fresh) (y : Ptr) :
    (s.set y { s.get y with lock := none }).all_fresh :=
  K.all_fresh_set h ⟨(h y).1, (h y).2.1, (h y).2.2.1, rfl, (h y).2.2.2.2.1, (h y).2.2.2.2.2⟩

theorem K.all_fresh_set_user_flag {s : K} (h : s.all_fresh) (y : Ptr) :
    (s.set y { s.get y with user_flag := false }).all_fresh :=
  K.all_fresh_set h ⟨(h y).1, (h y).2.1, (h y).2.2.1, (h y).2.2.2.1, (h y).2.2.2.2.1, rfl⟩

theorem binit_step_fresh {s : K} (h : s.all_fresh) (i : Nat) : (binit_step s i).all_fresh := by
  rw [binit_step_eq]
  exact K.all_fresh_set_user_flag (K.all_fresh_set_next (K.all_fresh_set_prev
    (K.all_fresh_set_lock (K.all_fresh_set_prev (K.all_fresh_set_next h _ _) _ _) _) _ _)
    _ _) _

theorem foldl_binit_step_env (s : K) (l : List Nat) : SameEnv s (l.foldl binit_step s) := by
  induction l generalizing s with
  | nil => exact SameEnv.env_refl s
  | cons i l ih => exact (binit_step_env s i).env_trans (ih _)

theorem foldl_binit_step_fresh {s : K} (h : s.all_fresh) (l : List Nat) :
    (l.foldl binit_step s).all_fresh := by
  induction l generalizing s with
  | nil => exact h
  | cons i l ih => exact ih (binit_step_fresh h i)

theorem binit_env (s : K) : SameEnv s (binit s) := by
  have e : binit s = (List.range s.NBUF).foldl binit_step
      (s.set Ptr.head { s.get Ptr.head with prev := Ptr.head, next := Ptr.head }) := by
    simp only [binit, K.get_set_same, K.set_set, K.set_NBUF]
  rw [e]
  exact (SameEnv.env_set _ _ _).env_trans (foldl_binit_step_env _ _)

theorem binit_fresh {s : K} (h : s.all_fresh) : (binit s).all_fresh := by
  unfold binit
  exact foldl_binit_step_fresh (K.all_fresh_set_next (K.all_fresh_set_prev h _ _) _ _) _

theorem boot_fresh (n bs fs : Nat) (sb : Superblock) (disk : Nat → Nat → Nat) :
    (boot n bs fs sb disk).all_fresh := by
  intro x
  cases x <;> exact ⟨rfl, rfl, rfl, rfl, rfl, rfl⟩

theorem Res.eq_ok {α : Type} {r : Res α} {a : α} (h : r.val? = some a) :
    r = Res.ok a r.state := by
  cases r with
  | ok b s => simp [Res.val?] at h; subst h; rfl
  | halt e s => simp [Res.val?] at h

theorem forall_is_buf {n : Nat} {P : Ptr → Prop} (h : ∀ i < n, P (Ptr.buf i)) :
    ∀ x, x.is_buf n → P x := by
  intro x hx
  obtain ⟨i, hi, rfl⟩ := Ptr.is_buf_iff.1 hx
  exact h i hi

/-- An instance of `brelse_ordinary`: process 7 releases record 4, which it
holds, and the record moves to the front of the list. -/
theorem brelse_ordinary_witness :
    WF demo_held ∧ (demo_held.get (Ptr.buf 4)).lock = some 7 ∧
      (brelse 7 (Ptr.buf 4) demo_held).halt? = none := by
  refine ⟨by decide!, by decide!, ?_⟩
  obtain ⟨s2, h, -⟩ := brelse_ordinary 7 (Ptr.buf 4) demo_held (by decide!) (by decide!)
    (by decide!) (by decide!)
  rw [h]
  rfl

theorem bget_of_not_init {d p dev blockno : Nat} {s : K} (h : s.init_flag = false) :
    bget d p dev blockno s = bget_cache p dev blockno s := by
  rw [bget_eq, bget_routed_of_init_flag h]

theorem find_unique {α : Type} {p : α → Bool} {l : List α} {b : α} (hb : b ∈ l) (hp : p b = true)
    (hu : ∀ x ∈ l, x ≠ b → p x = false) : l.find? p = some b := by
  induction l with
  | nil => cases hb
  | cons y l ih =>
    by_cases hy : y = b
    · subst hy
      simp [List.find?_cons, hp]
    · have hb2 : b ∈ l := by
        rcases List.mem_cons.1 hb with h | h
        · exact absurd h.symm hy
        · exact h
      rw [List.find?_cons, hu y (by simp) hy]
      exact ih hb2 (fun x hx => hu x (by simp [hx]))

theorem find_congr {α : Type} {p q : α → Bool} {l : List α} (h : ∀ x ∈ l, p x = q x) :
    l.find? p = l.find? q := by
  induction l with
  | nil => rfl
  | cons y l ih =>
    rw [List.find?_cons, List.find?_cons, h y (by simp), ih (fun x hx => h x (by simp [hx]))]

/-- What a lookup in the ordinary cache that returns leaves behind. -/
theorem bget_cache_ok {p dev blockno : Nat} {s sg : K} {b : Ptr} (hw : WF s)
    (h : bget_cache p dev blockno s = Res.ok b sg) :
    b ∈ s.mru ∧ (s.get b).lock = none ∧ SameLinks s sg ∧ SameEnv s sg ∧
      (∀ c, c ≠ b → sg.get c = s.get c) ∧
      (sg.get b).lock = some p ∧ (sg.get b).dev = dev ∧ (sg.get b).blockno = blockno ∧
      (sg.get b).user_flag = (s.get b).user_flag ∧
      sg.mru.find? (fun x => is_key dev blockno (sg.get x)) = some b ∧
      ((s.mru.find? (fun x => is_key dev blockno (s.get x)) = some b ∧
          (sg.get b).valid = (s.get b).valid ∧ (sg.get b).data = (s.get b).data ∧
          (sg.get b).refcnt = uinc (s.get b).refcnt) ∨
        (s.mru.find? (fun x => is_key dev blockno (s.get x)) = none ∧
          s.mru.reverse.find? (fun x => is_free (s.get x)) = some b ∧
          (sg.get b).valid = false ∧ (sg.get b).refcnt = 1)) := by
  cases hk : s.mru.find? (fun x => is_key dev blockno (s.get x)) with
  | some b' =>
    rw [bget_cache_hit hw hk] at h
    cases hl : (s.get b').lock with
    | some q => rw [hl] at h; cases h
    | none =>
      rw [hl] at h
      simp only [Res.ok.injEq] at h
      obtain ⟨rfl, rfl⟩ := h
      have hkk := find_is_key hk
      have hS : SameLinks s (s.set b'
          { s.get b' with refcnt := uinc (s.get b').refcnt, lock := some p }) := by
        apply SameLinks.of_set <;> rfl
      refine ⟨hkk.1, hl, hS, SameEnv.env_set _ _ _, fun c hc => by simp [hc], by simp,
        by simp [hkk.2.1], by simp [hkk.2.2], by simp, ?_, Or.inl ⟨rfl, by simp, by simp, by simp⟩⟩
      rw [hS.mru hw, ← hk]
      apply find_congr
      intro x _
      rw [K.get_set]
      split
      · subst_vars; simp [is_key]
      · rfl
  | none =>
    cases hf : s.mru.reverse.find? (fun x => is_free (s.get x)) with
    | none => rw [bget_cache_none hw hk hf] at h; cases h
    | some b' =>
      rw [bget_cache_miss hw hk hf] at h
      cases hl : (s.get b').lock with
      | some q => rw [hl] at h; cases h
      | none =>
        rw [hl] at h
        simp only [Res.ok.injEq] at h
        obtain ⟨rfl, rfl⟩ := h
        have hff := find_free_some hf
        have hbm : b' ∈ s.mru := by simpa using hff.1
        have hS : SameLinks s (s.set b'
            { s.get b' with dev := dev, blockno := blockno, valid := false, refcnt := 1,
                            lock := some p }) := by
          apply SameLinks.of_set <;> rfl
        refine ⟨hbm, hl, hS, SameEnv.env_set _ _ _, fun c hc => by simp [hc], by simp,
          by simp, by simp, by simp, ?_, Or.inr ⟨rfl, rfl, by simp, by simp⟩⟩
        rw [hS.mru hw]
        apply find_unique hbm
        · simp [is_key]
        · intro x hx hxb
          rw [K.get_set_ne _ _ hxb]
          have := find_key_none.1 hk x hx
          simpa [is_key] using this


@[simp] theorem K.get_logged (s : K) (e : Ev) (x : Ptr) : (s.logged e).get x = s.get x := by
  cases x <;> rfl

@[simp] theorem K.set_logged (s : K) (e : Ev) (x : Ptr) (v : Buf) :
    (s.logged e).set x v = (s.set x v).logged e := by
  cases x <;> rfl

@[simp] theorem K.NBUF_logged (s : K) (e : Ev) : (s.logged e).NBUF = s.NBUF := rfl

@[simp] theorem K.BSIZE_logged (s : K) (e : Ev) : (s.logged e).BSIZE = s.BSIZE := rfl

@[simp] theorem K.FSSIZE_logged (s : K) (e : Ev) : (s.logged e).FSSIZE = s.FSSIZE := rfl

@[simp] theorem K.sb_logged (s : K) (e : Ev) : (s.logged e).sb = s.sb := rfl

@[simp] theorem K.init_flag_logged (s : K) (e : Ev) :
    (s.logged e).init_flag = s.init_flag := rfl

@[simp] theorem K.disk_logged (s : K) (e : Ev) : (s.logged e).disk = s.disk := rfl

@[simp] theorem K.log_logged (s : K) (e : Ev) : (s.logged e).log = s.log ++ [e] := rfl

@[simp] theorem K.get_put_block (s : K) (n : Nat) (v : Nat → Nat) (x : Ptr) :
    (s.put_block n v).get x = s.get x := by
  cases x <;> rfl

@[simp] theorem K.NBUF_put_block (s : K) (n : Nat) (v : Nat → Nat) :
    (s.put_block n v).NBUF = s.NBUF := rfl

@[simp] theorem K.BSIZE_put_block (s : K) (n : Nat) (v : Nat → Nat) :
    (s.put_block n v).BSIZE = s.BSIZE := rfl

@[simp] theorem K.FSSIZE_put_block (s : K) (n : Nat) (v : Nat → Nat) :
    (s.put_block n v).FSSIZE = s.FSSIZE := rfl

@[simp] theorem K.sb_put_block (s : K) (n : Nat) (v : Nat → Nat) :
    (s.put_block n v).sb = s.sb := rfl

@[simp] theorem K.init_flag_put_block (s : K) (n : Nat) (v : Nat → Nat) :
    (s.put_block n v).init_flag = s.init_flag := rfl

@[simp] theorem K.log_put_block (s : K) (n : Nat) (v : Nat → Nat) :
    (s.put_block n v).log = s.log := rfl

@[simp] theorem K.disk_put_block (s : K) (n : Nat) (v : Nat → Nat) :
    (s.put_block n v).disk = Function.update s.disk n v := rfl

theorem virtio_read_get (b : Ptr) (s : K) (c : Ptr) :
    (virtio_disk_rw b false s).get c =
      if c = b then { s.get b with data := s.disk (s.get b).blockno } else s.get c := by
  simp [virtio_disk_rw, K.get_set]

theorem virtio_write_get (b : Ptr) (s : K) (c : Ptr) :
    (virtio_disk_rw b true s).get c = s.get c := by
  simp [virtio_disk_rw]

theorem bread_eq (d p dev blockno : Nat) (s : K) :
    bread d p dev blockno s =
      match bget d p dev blockno s with
      | Res.halt h s1 => Res.halt h s1
      | Res.ok b sg => Res.ok b (bread_fill b sg) := by
  unfold bread bread_with bread_fill
  cases bget d p dev blockno s with
  | halt h s1 => rfl
  | ok b sg =>
    simp only
    cases (sg.get b).valid <;> simp

theorem bread_fill_get (b : Ptr) (sg : K) (c : Ptr) :
    (bread_fill b sg).get c =
      if c = b then
        { sg.get b with valid := true,
                        data := if (sg.get b).valid then (sg.get b).data
                                else sg.disk (sg.get b).blockno }
      else sg.get c := by
  unfold bread_fill
  by_cases hv : (sg.get b).valid = true
  · simp only [hv, if_true]
    split
    · subst_vars
      cases h : sg.get c
      simp_all
    · rfl
  · have hv2 : (sg.get b).valid = false := by simpa using hv
    simp only [hv2, Bool.false_eq_true, if_false]
    rw [K.get_set]
    by_cases hc : c = b
    · simp [hc, virtio_read_get]
    · simp [hc, virtio_read_get]

theorem bread_fill_env (b : Ptr) (sg : K) :
    (bread_fill b sg).NBUF = sg.NBUF ∧ (bread_fill b sg).BSIZE = sg.BSIZE ∧
      (bread_fill b sg).FSSIZE = sg.FSSIZE ∧ (bread_fill b sg).sb = sg.sb ∧
      (bread_fill b sg).init_flag = sg.init_flag ∧ (bread_fill b sg).disk = sg.disk ∧
      (bread_fill b sg).log =
        if (sg.get b).valid then sg.log else sg.log ++ [Ev.read (sg.get b).blockno] := by
  unfold bread_fill
  by_cases hv : (sg.get b).valid = true
  · simp [hv]
  · simp [hv, virtio_disk_rw]

theorem bread_fill_links (b : Ptr) (sg : K) : SameLinks sg (bread_fill b sg) := by
  refine ⟨(bread_fill_env b sg).1, fun x => ?_⟩
  rw [bread_fill_get]
  split
  · subst_vars; exact ⟨rfl, rfl⟩
  · exact ⟨rfl, rfl⟩


theorem brelse_user {p : Nat} {b : Ptr} {s : K} (hl : (s.get b).lock = some p)
    (hu : (s.get b).user_flag = true) :
    brelse p b s = Res.ok () (s.set b { s.get b with lock := none }) := by
  simp only [brelse, holdingsleep, hl, beq_self_eq_true, Bool.not_true, Bool.false_eq_true,
    if_false, releasesleep, K.get_set_same, hu, if_true]

theorem brelse_panic {p : Nat} {b : Ptr} {s : K} (hl : (s.get b).lock ≠ some p) :
    brelse p b s = Res.halt (Halt.panic "brelse") s := by
  have : ((s.get b).lock == some p) = false := by simpa using hl
  simp [brelse, holdingsleep, this]

theorem FieldsEq.env {s t : K} (h : FieldsEq s t) : SameEnv s t :=
  ⟨h.1, h.2.1, h.2.2.1, h.2.2.2.1, h.2.2.2.2.1, h.2.2.2.2.2.1, h.2.2.2.2.2.2.1⟩

theorem set_same_payload {s : K} {b : Ptr} {v : Buf} (h1 : v.dev = (s.get b).dev)
    (h2 : v.blockno = (s.get b).blockno) (h3 : v.valid = (s.get b).valid)
    (h4 : v.data = (s.get b).data) (h5 : v.user_flag = (s.get b).user_flag) :
    ∀ c, ((s.set b v).get c).dev = (s.get c).dev ∧
      ((s.set b v).get c).blockno = (s.get c).blockno ∧
      ((s.set b v).get c).valid = (s.get c).valid ∧
      ((s.set b v).get c).data = (s.get c).data ∧
      ((s.set b v).get c).user_flag = (s.get c).user_flag := by
  intro c
  rw [K.get_set]; split
  · subst_vars; exact ⟨h1, h2, h3, h4, h5⟩
  · exact ⟨rfl, rfl, rfl, rfl, rfl⟩

/-- What a `brelse` by the holder of the lock leaves behind, for a record of
the pool, preloaded tag or not. -/
theorem brelse_ok {p : Nat} {b : Ptr} {s : K} (hw : WF s) (hb : b ∈ s.mru)
    (hl : (s.get b).lock = some p) :
    ∃ s2, brelse p b s = Res.ok () s2 ∧ WF s2 ∧ SameEnv s s2 ∧ (s2.get b).lock = none ∧
      (∀ c, (s2.get c).dev = (s.get c).dev ∧ (s2.get c).blockno = (s.get c).blockno ∧
        (s2.get c).valid = (s.get c).valid ∧ (s2.get c).data = (s.get c).data ∧
        (s2.get c).user_flag = (s.get c).user_flag) ∧
      (∀ c, c ≠ b → (s2.get c).lock = (s.get c).lock ∧ (s2.get c).refcnt = (s.get c).refcnt) ∧
      ((s2.get b).refcnt = (s.get b).refcnt ∨ (s2.get b).refcnt = udec (s.get b).refcnt) ∧
      (s2.mru = s.mru ∨ ((s2.get b).refcnt = 0 ∧ s2.mru = b :: s.mru.erase b)) := by
  cases hu : (s.get b).user_flag with
  | true =>
    rw [brelse_user hl hu]
    have hS : SameLinks s (s.set b { s.get b with lock := none }) := by
      apply SameLinks.of_set <;> rfl
    refine ⟨_, rfl, hS.wf hw, SameEnv.env_set _ _ _, by simp, fun c => ?_, fun c hc => ?_,
      Or.inl (by simp), Or.inl (hS.mru hw)⟩
    · rw [K.get_set]; split
      · subst_vars; exact ⟨rfl, rfl, rfl, rfl, rfl⟩
      · exact ⟨rfl, rfl, rfl, rfl, rfl⟩
    · rw [K.get_set_ne _ _ hc]; exact ⟨rfl, rfl⟩
  | false =>
    rw [brelse_eq hl hu]
    have hS : SameLinks s (s.set b
        { s.get b with lock := none, refcnt := udec (s.get b).refcnt }) := by
      apply SameLinks.of_set <;> rfl
    have hw1 := hS.isList hw
    have hf := set_same_payload (s := s) (b := b)
      (v := { s.get b with lock := none, refcnt := udec (s.get b).refcnt }) rfl rfl rfl rfl rfl
    by_cases h0 : udec (s.get b).refcnt = 0
    · rw [if_pos h0]
      have hF := brelse_move_fields b (s.set b
        { s.get b with lock := none, refcnt := udec (s.get b).refcnt })
      have hI := brelse_move_isList hw1 hb
      have hx := hF.2.2.2.2.2.2.2
      have hb' := hx b
      simp only [K.get_set_same, Buf.same_fields] at hb'
      refine ⟨_, rfl, WF_iff.2 ⟨_, hI⟩, (SameEnv.env_set _ _ _).env_trans hF.env, hb'.2.2.2.1,
        fun c => ?_, fun c hc => ?_, Or.inr hb'.2.2.2.2.1,
        Or.inr ⟨hb'.2.2.2.2.1.trans h0, hI.mru_eq⟩⟩
      · obtain ⟨c1, c2, c3, c4, c5, c6, c7⟩ := hx c
        obtain ⟨d1, d2, d3, d4, d5⟩ := hf c
        exact ⟨c2.trans d1, c3.trans d2, c1.trans d3, c6.trans d4, c7.trans d5⟩
      · obtain ⟨c1, c2, c3, c4, c5, c6, c7⟩ := hx c
        rw [K.get_set_ne _ _ hc] at c4 c5
        exact ⟨c4, c5⟩
    · rw [if_neg h0]
      refine ⟨_, rfl, WF_iff.2 ⟨_, hw1⟩, SameEnv.env_set _ _ _, by simp, hf,
        fun c hc => ?_, Or.inr (by simp), Or.inl hw1.mru_eq⟩
      rw [K.get_set_ne _ _ hc]; exact ⟨rfl, rfl⟩

/-- What a `bread` that returns leaves behind, when `bget` takes the path of
the ordinary cache. -/
theorem bread_ok {d p dev blockno : Nat} {s s1 : K} {b : Ptr} (hw : WF s)
    (hi : s.init_flag = false) (h : bread d p dev blockno s = Res.ok b s1) :
    b ∈ s.mru ∧ (s.get b).lock = none ∧ WF s1 ∧ s1.mru = s.mru ∧
      s1.NBUF = s.NBUF ∧ s1.init_flag = false ∧ s1.disk = s.disk ∧ s1.sb = s.sb ∧
      (∀ c, c ≠ b → s1.get c = s.get c) ∧
      (s1.get b).lock = some p ∧ (s1.get b).dev = dev ∧ (s1.get b).blockno = blockno ∧
      (s1.get b).valid = true ∧ (s1.get b).user_flag = (s.get b).user_flag ∧
      s1.mru.find? (fun x => is_key dev blockno (s1.get x)) = some b := by
  rw [bread_eq, bget_of_not_init hi] at h
  cases hg : bget_cache p dev blockno s with
  | halt e s' => rw [hg] at h; cases h
  | ok b' sg =>
    rw [hg] at h
    simp only [Res.ok.injEq] at h
    obtain ⟨rfl, rfl⟩ := h
    obtain ⟨h1, h2, h3, h4, h5, h6, h7, h8, h9, h10, -⟩ := bget_cache_ok hw hg
    have hwg := h3.wf hw
    have hL := bread_fill_links b' sg
    have hE := bread_fill_env b' sg
    have hb' := bread_fill_get b' sg b'
    rw [if_pos rfl] at hb'
    refine ⟨h1, h2, hL.wf hwg, (hL.mru hwg).trans (h3.mru hw), hE.1.trans h4.1,
      hE.2.2.2.2.1.trans (h4.2.2.2.2.1.trans hi), hE.2.2.2.2.2.1.trans h4.2.2.2.2.2.1,
      hE.2.2.2.1.trans h4.2.2.2.1, fun c hc => ?_, ?_, ?_, ?_, ?_, ?_, ?_⟩
    · rw [bread_fill_get, if_neg hc]; exact h5 c hc
    · rw [hb']; exact h6
    · rw [hb']; exact h7
    · rw [hb']; exact h8
    · rw [hb']
    · rw [hb']; exact h9
    · rw [hL.mru hwg, ← h10]
      apply find_congr
      intro x _
      rw [bread_fill_get]
      split
      · subst_vars; simp [is_key]
      · rfl


theorem bpin_links (b : Ptr) (s : K) : SameLinks s (bpin b s) ∧ SameEnv s (bpin b s) := by
  unfold bpin
  split
  · exact ⟨SameLinks.links_refl s, SameEnv.env_refl s⟩
  · exact ⟨by apply SameLinks.of_set <;> rfl, SameEnv.env_set _ _ _⟩

theorem bunpin_links (b : Ptr) (s : K) : SameLinks s (bunpin b s) ∧ SameEnv s (bunpin b s) := by
  unfold bunpin
  split
  · exact ⟨SameLinks.links_refl s, SameEnv.env_refl s⟩
  · exact ⟨by apply SameLinks.of_set <;> rfl, SameEnv.env_set _ _ _⟩

theorem bwrite_ok {p : Nat} {b : Ptr} {s s1 : K} (h : bwrite p b s = Res.ok () s1) :
    (s.get b).lock = some p ∧ s1 = virtio_disk_rw b true s ∧ SameLinks s s1 ∧
      s1.NBUF = s.NBUF ∧ s1.init_flag = s.init_flag ∧ ∀ c, s1.get c = s.get c := by
  unfold bwrite at h
  by_cases hl : holdingsleep p b s = true
  · simp only [hl, Bool.not_true, Bool.false_eq_true, if_false, Res.ok.injEq, true_and] at h
    subst h
    refine ⟨by simpa [holdingsleep] using hl, rfl, ⟨by simp [virtio_disk_rw], fun x => ?_⟩,
      by simp [virtio_disk_rw], by simp [virtio_disk_rw], virtio_write_get b s⟩
    rw [virtio_write_get]
    exact ⟨rfl, rfl⟩
  · simp [hl] at h

theorem brelse_ok_lock {p : Nat} {b : Ptr} {s s1 : K} (h : brelse p b s = Res.ok () s1) :
    (s.get b).lock = some p := by
  by_contra hl
  rw [brelse_panic hl] at h
  cases h

theorem SameCfg.cfg_refl (s : K) : SameCfg s s := ⟨rfl, rfl, rfl, rfl, rfl⟩

theorem SameCfg.cfg_trans {s t u : K} (h1 : SameCfg s t) (h2 : SameCfg t u) : SameCfg s u := by
  obtain ⟨a1, a2, a3, a4, a5⟩ := h1
  obtain ⟨b1, b2, b3, b4, b5⟩ := h2
  exact ⟨b1.trans a1, b2.trans a2, b3.trans a3, b4.trans a4, b5.trans a5⟩

theorem SameEnv.cfg {s t : K} (h : SameEnv s t) : SameCfg s t :=
  ⟨h.1, h.2.1, h.2.2.1, h.2.2.2.1, h.2.2.2.2.1⟩

theorem Tagged.of_user_flag {s t : K} (h : Tagged s) (hc : SameCfg s t)
    (hu : ∀ c, (t.get c).user_flag = (s.get c).user_flag) : Tagged t := by
  refine ⟨fun i hi => ?_, fun k hk => ?_⟩
  · rw [hu]; exact h.1 i (hc.1 ▸ hi)
  · rw [hu]; exact h.2 k (hc.2.2.2.1 ▸ hk)

/-- The loop of `get_mod_buf` returns a slot below `sb.userbcount` with the
block number asked for, and takes its lock. -/
theorem get_mod_buf_loop_ok {p blockno : Nat} :
    ∀ (n i : Nat) (s s2 : K) (b : Ptr), i + n = s.sb.userbcount →
      get_mod_buf_loop p blockno n i s = Res.ok b s2 →
      ∃ k, k < s.sb.userbcount ∧ i ≤ k ∧ b = Ptr.mod k ∧ (s.get b).blockno = blockno ∧
        (∀ j, i ≤ j → j < k → (s.get (Ptr.mod j)).blockno ≠ blockno) ∧
        (s.get b).lock = none ∧ s2 = s.set b { s.get b with lock := some p } := by
  intro n
  induction n with
  | zero => intro i s s2 b _ h; cases h
  | succ n ih =>
    intro i s s2 b hn h
    have hi : ¬ i ≥ s.sb.userbcount := by omega
    simp only [get_mod_buf_loop, get_indexed_mod, hi, if_false] at h
    by_cases hb : (s.get (Ptr.mod i)).blockno = blockno
    · rw [if_pos hb] at h
      simp only [acquiresleep] at h
      cases hl : (s.get (Ptr.mod i)).lock with
      | some q => rw [hl] at h; cases h
      | none =>
        rw [hl] at h
        simp only [Res.ok.injEq] at h
        obtain ⟨rfl, rfl⟩ := h
        exact ⟨i, by omega, le_refl _, rfl, hb, fun j h1 h2 => by omega, hl, rfl⟩
    · rw [if_neg hb] at h
      obtain ⟨k, h1, h2, h3, h4, h5, h6⟩ := ih (i + 1) s s2 b (by omega) h
      refine ⟨k, h1, by omega, h3, h4, fun j hj1 hj2 => ?_, h6⟩
      by_cases hj : j = i
      · subst hj; exact hb
      · exact h5 j (by omega) hj2


/-- A lookup in the preloaded store that returns: the slot has the block
number asked for, its lock is taken, and the lookup is in the log. -/
theorem get_mod_buf_ok {p dev blockno : Nat} {s s2 : K} {b : Ptr}
    (h : get_mod_buf p dev blockno s = Res.ok b s2) :
    ∃ k, k < s.sb.userbcount ∧ b = Ptr.mod k ∧ (s.get b).blockno = blockno ∧
      (s.get b).lock = none ∧ s2.log = s.log ++ [Ev.lookup blockno] ∧ SameCfg s s2 ∧
      s2.disk = s.disk ∧ (s2.get b).lock = some p ∧
      (∀ c, (s2.get c).user_flag = (s.get c).user_flag) ∧
      (∀ c, c ≠ b → s2.get c = s.get c) ∧ SameLinks s s2 := by
  unfold get_mod_buf at h
  obtain ⟨k, h1, -, h3, h4, -, h6, h7⟩ := get_mod_buf_loop_ok _ 0 _ s2 b (by simp) h
  subst h7
  simp only [K.get_logged, K.sb_logged] at h1 h4 h6 ⊢
  refine ⟨k, h1, h3, h4, h6, by simp, ⟨by simp, by simp, by simp, by simp, by simp⟩, by simp,
    by simp, fun c => ?_, fun c hc => by simp [hc], ⟨by simp, fun x => ?_⟩⟩
  · rw [K.get_set]; split
    · subst_vars; simp
    · simp
  · rw [K.get_set]; split
    · subst_vars; simp
    · simp

theorem brelse_ok_any {p : Nat} {u : Ptr} {s s2 : K} (hw : WF s) (ht : Tagged s)
    (hu : u.is_buf s.NBUF ∨ ∃ k < s.sb.userbcount, u = Ptr.mod k)
    (h : brelse p u s = Res.ok () s2) :
    WF s2 ∧ Tagged s2 ∧ SameCfg s s2 ∧ s2.log = s.log ∧ s2.disk = s.disk := by
  have hl := brelse_ok_lock h
  rcases hu with hu | ⟨k, hk, rfl⟩
  · obtain ⟨s3, e, h2, h3, -, h5, -⟩ := brelse_ok hw ((hw.mem_iff u).2 hu) hl
    rw [e] at h
    simp only [Res.ok.injEq, true_and] at h
    subst h
    exact ⟨h2, ht.of_user_flag h3.cfg (fun c => (h5 c).2.2.2.2), h3.cfg, h3.2.2.2.2.2.2,
      h3.2.2.2.2.2.1⟩
  · rw [brelse_user hl (ht.2 k hk)] at h
    simp only [Res.ok.injEq, true_and] at h
    subst h
    have hS : SameLinks s (s.set (Ptr.mod k) { s.get (Ptr.mod k) with lock := none }) := by
      apply SameLinks.of_set <;> rfl
    refine ⟨hS.wf hw, ht.of_user_flag (SameEnv.env_set _ _ _).cfg (fun c => ?_),
      (SameEnv.env_set _ _ _).cfg, by simp, by simp⟩
    rw [K.get_set]; split
    · subst_vars; rfl
    · rfl

/-- The classification keeps the invariants, if the `bget` it calls does. -/
theorem isup_of_bget {d : Nat}
    (ih : ∀ (p dev blockno : Nat) (s s2 : K) (b : Ptr), WF s → Tagged s →
      bget d p dev blockno s = Res.ok b s2 →
      WF s2 ∧ Tagged s2 ∧ SameCfg s s2 ∧ (s2.get b).lock = some p ∧
        (b.is_buf s2.NBUF ∨ ∃ k < s2.sb.userbcount, b = Ptr.mod k))
    {p dev blockno : Nat} {s s1 : K} {t : Nat} (hw : WF s) (ht : Tagged s)
    (h : is_user_prog_block d p dev blockno s = Res.ok t s1) :
    WF s1 ∧ Tagged s1 ∧ SameCfg s s1 ∧ (t = 0 ∨ t = 1) := by
  unfold is_user_prog_block is_user_prog_block_with at h
  rw [← bread, bread_eq] at h
  cases hg : bget d p dev (UBBLOCK blockno s) s with
  | halt e s' => rw [hg] at h; cases h
  | ok u sg =>
    rw [hg] at h
    simp only at h
    obtain ⟨g1, g2, g3, g4, g5⟩ := ih p dev (UBBLOCK blockno s) s sg u hw ht hg
    have hL := bread_fill_links u sg
    have hE := bread_fill_env u sg
    have hwf := hL.wf g1
    have hcf : SameCfg sg (bread_fill u sg) :=
      ⟨hE.1, hE.2.1, hE.2.2.1, hE.2.2.2.1, hE.2.2.2.2.1⟩
    have htf : Tagged (bread_fill u sg) := by
      refine g2.of_user_flag hcf (fun c => ?_)
      rw [bread_fill_get]; split
      · subst_vars; rfl
      · rfl
    have huf : u.is_buf (bread_fill u sg).NBUF ∨
        ∃ k < (bread_fill u sg).sb.userbcount, u = Ptr.mod k := by
      rw [hE.1, hE.2.2.2.1]; exact g5
    cases hr : brelse p u (bread_fill u sg) with
    | halt e s' => rw [hr] at h; cases h
    | ok x s0 =>
      rw [hr] at h
      simp only [Res.ok.injEq] at h
      obtain ⟨h1, h2⟩ := h
      subst h2
      obtain ⟨r1, r2, r3, -⟩ := brelse_ok_any hwf htf huf hr
      refine ⟨r1, r2, (g3.cfg_trans hcf).cfg_trans r3, ?_⟩
      rw [← h1]
      split
      · exact Or.inr rfl
      · exact Or.inl rfl

/-- What `bget` keeps, whichever store it takes the record from: the list stays
well formed, the tags stay, and the record returned is a record of the pool or
a slot of the preloaded store, locked by the caller. -/
theorem bget_inv : ∀ (d p dev blockno : Nat) (s s2 : K) (b : Ptr), WF s → Tagged s →
    bget d p dev blockno s = Res.ok b s2 →
    WF s2 ∧ Tagged s2 ∧ SameCfg s s2 ∧ (s2.get b).lock = some p ∧
      (b.is_buf s2.NBUF ∨ ∃ k < s2.sb.userbcount, b = Ptr.mod k) := by
  intro d
  have hcache : ∀ (p dev blockno : Nat) (s s1 s2 : K) (b : Ptr), WF s1 → Tagged s1 →
      SameCfg s s1 → bget_cache p dev blockno s1 = Res.ok b s2 →
      WF s2 ∧ Tagged s2 ∧ SameCfg s s2 ∧ (s2.get b).lock = some p ∧
        (b.is_buf s2.NBUF ∨ ∃ k < s2.sb.userbcount, b = Ptr.mod k) := by
    intro p dev blockno s s1 s2 b hw1 ht1 hc1 h
    obtain ⟨h1, -, h3, h4, h5, h6, -, -, h9, -⟩ := bget_cache_ok hw1 h
    refine ⟨h3.wf hw1, ht1.of_user_flag h4.cfg (fun c => ?_), hc1.cfg_trans h4.cfg, h6,
      Or.inl (h4.1 ▸ (hw1.mem_iff b).1 h1)⟩
    by_cases hc : c = b
    · subst hc; exact h9
    · rw [h5 c hc]
  induction d with
  | zero =>
    intro p dev blockno s s2 b hw ht h
    rw [bget_eq] at h
    cases hr : bget_routed 0 p dev blockno s with
    | halt e s' => rw [hr] at h; cases h
    | ok r s1 =>
      rw [hr] at h
      unfold bget_routed at hr
      split at hr
      · cases hr
      · simp only [Res.ok.injEq] at hr
        obtain ⟨rfl, rfl⟩ := hr
        exact hcache p dev blockno s s s2 b hw ht (SameCfg.cfg_refl s) h
  | succ d ih =>
    intro p dev blockno s s2 b hw ht h
    rw [bget_eq] at h
    cases hr : bget_routed (d + 1) p dev blockno s with
    | halt e s' => rw [hr] at h; cases h
    | ok r s1 =>
      rw [hr] at h
      unfold bget_routed at hr
      split at hr
      · simp only at hr
        cases hi : is_user_prog_block d p dev blockno s with
        | halt e s' => rw [hi] at hr; cases hr
        | ok t s0 =>
          rw [hi] at hr
          simp only [Res.ok.injEq] at hr
          obtain ⟨hr1, rfl⟩ := hr
          obtain ⟨r1, r2, r3, -⟩ := isup_of_bget ih hw ht hi
          cases r with
          | true =>
            simp only at h
            obtain ⟨k, m1, m2, -, -, -, m6, -, m8, m9, -, m11⟩ := get_mod_buf_ok h
            exact ⟨m11.wf r1, r2.of_user_flag m6 m9, r3.cfg_trans m6, m8,
              Or.inr ⟨k, m6.2.2.2.1 ▸ m1, m2⟩⟩
          | false =>
            simp only at h
            exact hcache p dev blockno s s0 s2 b r1 r2 r3 h
      · simp only [Res.ok.injEq] at hr
        obtain ⟨rfl, rfl⟩ := hr
        exact hcache p dev blockno s s s2 b hw ht (SameCfg.cfg_refl s) h

/-- The classification keeps the list well formed and the tags in place, and
its result is 0 or 1. -/
theorem is_user_prog_block_inv {d p dev blockno : Nat} {s s1 : K} {t : Nat} (hw : WF s)
    (ht : Tagged s) (h : is_user_prog_block d p dev blockno s = Res.ok t s1) :
    WF s1 ∧ Tagged s1 ∧ SameCfg s s1 ∧ (t = 0 ∨ t = 1) :=
  isup_of_bget (bget_inv d) hw ht h

/-- C10 on an image with more set bits than `sb.userbcount` declares: the
bitmap marks blocks 10, 15 and 42 and the superblock declares two.  The scan of
`init_mod_fs` stops when `count` reaches `sb.userbcount`, the check `count !=
sb.userbcount` passes, `init_mod_fs` returns with `init_flag` set and the slots
hold blocks 10 and 15 only.  Block 42 lies in the range, `is_user_prog_block`
returns 1 for it, and `bget` stops in `get_mod_buf` with its panic. -/
theorem init_mod_fs_surplus_bits :
    (init_mod_fs 1 7 1 surplus_binit).halt? = none ∧
      surplus_booted.init_flag = true ∧
      (surplus_booted.get (Ptr.mod 0)).blockno = 10 ∧
      (surplus_booted.get (Ptr.mod 1)).blockno = 15 ∧
      surplus_booted.sb.dstart ≤ 42 ∧ 42 < surplus_booted.sb.dfinish ∧
      (is_user_prog_block 0 7 1 42 surplus_booted).val? = some 1 ∧
      (bget 1 7 1 42 surplus_booted).halt? = some (Halt.panic "get_mod_buf: no buffers") := by
  decide!

theorem Untagged.of_flags {s t : K} (h : Untagged s) (hn : t.NBUF = s.NBUF)
    (hu : ∀ c, (t.get c).user_flag = (s.get c).user_flag) : Untagged t := by
  intro i hi
  rw [hu]; exact h i (hn ▸ hi)

theorem binit_untagged (n bs fs : Nat) (sb : Superblock) (disk : Nat → Nat → Nat) :
    Untagged (binit (boot n bs fs sb disk)) :=
  fun i _ => (binit_fresh (boot_fresh n bs fs sb disk) (Ptr.buf i)).2.2.2.2.2

/-- The list after `brelse` on a record of the pool without the tag: the record
is first exactly when its new count is 0. -/
theorem brelse_order {p : Nat} {b : Ptr} {s s2 : K} (hw : WF s) (hb : b ∈ s.mru)
    (hu : (s.get b).user_flag = false) (h : brelse p b s = Res.ok () s2) :
    ((s2.get b).refcnt = 0 → s2.mru = b :: s.mru.erase b) ∧
      ((s2.get b).refcnt ≠ 0 → s2.mru = s.mru) := by
  have hl := brelse_ok_lock h
  rw [brelse_eq hl hu] at h
  simp only [Res.ok.injEq, true_and] at h
  have hS : SameLinks s (s.set b
      { s.get b with lock := none, refcnt := udec (s.get b).refcnt }) := by
    apply SameLinks.of_set <;> rfl
  have hw1 := hS.isList hw
  by_cases h0 : udec (s.get b).refcnt = 0
  · rw [if_pos h0] at h
    subst h
    have hI := brelse_move_isList hw1 hb
    have hb' := (brelse_move_fields b (s.set b
      { s.get b with lock := none, refcnt := udec (s.get b).refcnt })).2.2.2.2.2.2.2 b
    simp only [K.get_set_same, Buf.same_fields] at hb'
    exact ⟨fun _ => hI.mru_eq, fun hn => absurd (hb'.2.2.2.2.1.trans h0) hn⟩
  · rw [if_neg h0] at h
    subst h
    exact ⟨fun hn => absurd (by simpa using hn) h0, fun _ => hw1.mru_eq⟩

theorem find_rev_ne {st : Ptr → Nat} {f : Ptr → Bool} {A B : Ptr} :
    ∀ (l : List Ptr), l.Nodup → l.Pairwise (fun x y => st y = 0 ∨ st y < st x) →
      A ∈ l → B ∈ l → st B ≠ 0 → st B < st A → f B = true →
      ∀ v, l.reverse.find? f = some v → v ≠ A := by
  intro l
  induction l with
  | nil => intro _ _ hA; cases hA
  | cons x l ih =>
    intro hnd hpw hA hB hB0 hBA hfB v hv
    rw [List.nodup_cons] at hnd
    rw [List.pairwise_cons] at hpw
    rw [List.reverse_cons, List.find?_append] at hv
    rcases List.mem_cons.1 hB with rfl | hBl
    · -- `B` is first: then `A` comes later and must have an older stamp
      rcases List.mem_cons.1 hA with rfl | hAl
      · omega
      · have := hpw.1 A hAl
        omega
    · obtain ⟨w, hw⟩ := find_exists f l.reverse ⟨B, by simpa using hBl, hfB⟩
      rw [hw] at hv
      simp only [Option.or_some, Option.some.injEq] at hv
      subst hv
      rcases List.mem_cons.1 hA with rfl | hAl
      · intro e
        have hm : w ∈ l := by simpa using List.mem_of_find?_eq_some hw
        exact hnd.1 (e ▸ hm)
      · exact ih hnd.2 hpw.2 hAl hBl hB0 hBA hfB w hw


/-- Along every history the list is well formed, `init_flag` is 0, no record of
the pool has the preloaded tag, no stamp is above the clock, and the order of
the list follows the stamps. -/
theorem Hist.inv {s : K} {st : Ptr → Nat} {n : Nat} (h : Hist s st n) :
    WF s ∧ s.init_flag = false ∧ Untagged s ∧ (∀ x, st x ≤ n) ∧ Ordered s st := by
  induction h with
  | binit nbuf bs fs sb disk =>
    refine ⟨(binit_WF _).1, (binit_env _).2.2.2.2.1, binit_untagged _ _ _ _ _,
      fun _ => le_refl _, ?_⟩
    exact List.pairwise_of_forall (fun _ _ => Or.inl rfl)
  | bget d p dev blockno b _ hb ih =>
    obtain ⟨i1, i2, i3, i4, i5⟩ := ih
    rw [bget_of_not_init i2] at hb
    obtain ⟨-, -, h3, h4, h5, -, -, -, h9, -⟩ := bget_cache_ok i1 hb
    refine ⟨h3.wf i1, h4.2.2.2.2.1.trans i2, i3.of_flags h4.1 (fun c => ?_), i4, ?_⟩
    · by_cases hc : c = b
      · subst hc; exact h9
      · rw [h5 c hc]
    · unfold Ordered
      rw [h3.mru i1]
      exact i5
  | @brelse s s1 st n p b _ hb hr ih =>
    obtain ⟨i1, i2, i3, i4, i5⟩ := ih
    have hbm : b ∈ s.mru := (i1.mem_iff b).2 hb
    have hub : (s.get b).user_flag = false := by
      obtain ⟨i, hi, rfl⟩ := Ptr.is_buf_iff.1 hb
      exact i3 i hi
    obtain ⟨s2, e, k2, k3, -, k5, -⟩ := brelse_ok i1 hbm (brelse_ok_lock hr)
    have hs : s2 = s1 := by
      rw [e] at hr
      simpa using hr
    subst hs
    obtain ⟨o1, o2⟩ := brelse_order i1 hbm hub e
    refine ⟨k2, k3.2.2.2.2.1.trans i2, i3.of_flags k3.1 (fun c => (k5 c).2.2.2.2), ?_, ?_⟩
    · intro x
      split
      · rw [Function.update_apply]
        split
        · exact le_refl _
        · exact Nat.le_succ_of_le (i4 x)
      · exact Nat.le_succ_of_le (i4 x)
    · unfold Ordered
      by_cases h0 : (s2.get b).refcnt = 0
      · rw [if_pos h0, o1 h0, List.pairwise_cons]
        constructor
        · intro y hy
          have hyb : y ≠ b := fun e => ((List.Nodup.mem_erase_iff i1.nodup).1 hy).1 e
          right
          simp only [Function.update_apply, hyb, if_false, if_true]
          exact Nat.lt_succ_of_le (i4 y)
        · have hsub : (s.mru.erase b).Pairwise (fun x y => st y = 0 ∨ st y < st x) :=
            List.Pairwise.sublist (List.erase_sublist b s.mru) i5
          refine List.Pairwise.imp_of_mem ?_ hsub
          intro x y hx hy hxy
          have hxb : x ≠ b := fun e => ((List.Nodup.mem_erase_iff i1.nodup).1 hx).1 e
          have hyb : y ≠ b := fun e => ((List.Nodup.mem_erase_iff i1.nodup).1 hy).1 e
          simpa [Function.update_apply, hxb, hyb] using hxy
      · rw [if_neg h0, o2 h0]
        exact i5
  | bpin b _ _ ih =>
    obtain ⟨i1, i2, i3, i4, i5⟩ := ih
    obtain ⟨l1, l2⟩ := bpin_links b _
    refine ⟨l1.wf i1, l2.2.2.2.2.1.trans i2, i3.of_flags l2.1 (fun c => ?_), i4, ?_⟩
    · unfold Bio.bpin; split
      · rfl
      · rw [K.get_set]; split
        · subst_vars; rfl
        · rfl
    · unfold Ordered; rw [l1.mru i1]; exact i5
  | bunpin b _ _ ih =>
    obtain ⟨i1, i2, i3, i4, i5⟩ := ih
    obtain ⟨l1, l2⟩ := bunpin_links b _
    refine ⟨l1.wf i1, l2.2.2.2.2.1.trans i2, i3.of_flags l2.1 (fun c => ?_), i4, ?_⟩
    · unfold Bio.bunpin; split
      · rfl
      · rw [K.get_set]; split
        · subst_vars; rfl
        · rfl
    · unfold Ordered; rw [l1.mru i1]; exact i5

/-- C8 as the code has it: the order of eligibility is the order of the
last `brelse` that took each count to 0.  In every state reached from `binit`
through `bget`, `brelse`, `bpin` and `bunpin`, let `st B` and `st A` number the
last `brelse` that took the count of `B` and of `A` to 0.  If `B` was so
released (`st B ≠ 0`), `A` was so released later (`st B < st A`) and both counts
are 0, then a `bget` that finds no record with the key takes a victim `v` other
than `A`: the record with count 0 nearest to the end of the list, which `B`
precedes `A` from.  The call returns `v`, or sleeps on the lock of `v`. -/
theorem lru_order_brelse (s : K) (st : Ptr → Nat) (n : Nat) (h : Hist s st n) (A B : Ptr)
    (hA : A.is_buf s.NBUF) (hB : B.is_buf s.NBUF) (hB0 : st B ≠ 0) (hBA : st B < st A)
    (_hrA : (s.get A).refcnt = 0) (hrB : (s.get B).refcnt = 0) (d p dev blockno : Nat)
    (hmiss : ∀ x, x.is_buf s.NBUF → ¬ ((s.get x).dev = dev ∧ (s.get x).blockno = blockno)) :
    ∃ v s1, v ≠ A ∧ s.mru.reverse.find? (fun x => is_free (s.get x)) = some v ∧
      (bget d p dev blockno s = Res.ok v s1 ∨
        bget d p dev blockno s = Res.halt (Halt.sleep v) s1) := by
  obtain ⟨i1, i2, -, -, i5⟩ := h.inv
  have hAm := (i1.mem_iff A).2 hA
  have hBm := (i1.mem_iff B).2 hB
  have hn : s.mru.find? (fun x => is_key dev blockno (s.get x)) = none :=
    find_key_none.2 (fun x hx => hmiss x ((i1.mem_iff x).1 hx))
  have hfB : is_free (s.get B) = true := by simp [is_free, hrB]
  obtain ⟨v, hv⟩ := find_exists (fun x => is_free (s.get x)) s.mru.reverse
    ⟨B, by simpa using hBm, hfB⟩
  have hvA : v ≠ A :=
    find_rev_ne (f := fun x => is_free (s.get x)) s.mru i1.nodup i5 hAm hBm hB0 hBA hfB v hv
  rw [bget_of_not_init i2, bget_cache_miss i1 hn hv]
  cases (s.get v).lock with
  | none => exact ⟨v, _, hvA, hv, Or.inl rfl⟩
  | some q => exact ⟨v, _, hvA, hv, Or.inr rfl⟩


/-- C8 fails when a count reaches 0 through `bunpin`.  With 30 records, process
7 acquires block 100 (record 0), pins it and releases it, acquires block 101
(record 1) and releases it, which takes the count of record 1 to 0, and then
unpins record 0, which takes the count of record 0 to 0, later than record 1.
Both counts are 0 and no record holds block 102, yet `bget` of block 102 takes
record 0 as its victim while record 1 is available. -/
theorem bunpin_breaks_lru_order :
    (bget 0 7 1 100 demo_binit).val? = some (Ptr.buf 0) ∧
      (brelse 7 (Ptr.buf 0) pin_s2).halt? = none ∧
      (bget 0 7 1 101 pin_s3).val? = some (Ptr.buf 1) ∧
      (pin_s4.get (Ptr.buf 1)).refcnt = 1 ∧
      (brelse 7 (Ptr.buf 1) pin_s4).halt? = none ∧
      (pin_s5.get (Ptr.buf 1)).refcnt = 0 ∧ (pin_s5.get (Ptr.buf 0)).refcnt = 1 ∧
      (pin_s6.get (Ptr.buf 0)).refcnt = 0 ∧ (pin_s6.get (Ptr.buf 1)).refcnt = 0 ∧
      (∀ i < 30, ¬ ((pin_s6.get (Ptr.buf i)).dev = 1 ∧ (pin_s6.get (Ptr.buf i)).blockno = 102)) ∧
      (bget 0 7 1 102 pin_s6).val? = some (Ptr.buf 0) := by
  decide!

theorem rel_hist : Hist rel_s4 rel_st 2 := by
  have h0 := Hist.binit 30 1024 2000 demo_sb demo_disk
  have h1 := Hist.bget 0 7 1 100 (Ptr.buf 0) h0
    (Res.eq_ok (by decide! : (bget 0 7 1 100 demo_binit).val? = some (Ptr.buf 0)))
  have h2 := Hist.bget 0 7 1 101 (Ptr.buf 1) h1
    (Res.eq_ok (by decide! : (bget 0 7 1 101 rel_s1).val? = some (Ptr.buf 1)))
  have h3 := Hist.brelse 7 (Ptr.buf 1) h2 (by decide! : (Ptr.buf 1).is_buf rel_s2.NBUF)
    (Res.eq_ok (by decide! : (brelse 7 (Ptr.buf 1) rel_s2).val? = some ()))
  have h4 := Hist.brelse 7 (Ptr.buf 0) h3 (by decide! : (Ptr.buf 0).is_buf rel_s3.NBUF)
    (Res.eq_ok (by decide! : (brelse 7 (Ptr.buf 0) rel_s3).val? = some ()))
  have e3 : (rel_s3.get (Ptr.buf 1)).refcnt = 0 := by decide!
  have e4 : (rel_s4.get (Ptr.buf 0)).refcnt = 0 := by decide!
  have h5 : Hist rel_s4 (if (rel_s4.get (Ptr.buf 0)).refcnt = 0 then
      Function.update (if (rel_s3.get (Ptr.buf 1)).refcnt = 0 then
        Function.update (fun _ => 0) (Ptr.buf 1) (0 + 1) else fun _ => 0) (Ptr.buf 0) (0 + 1 + 1)
      else (if (rel_s3.get (Ptr.buf 1)).refcnt = 0 then
        Function.update (fun _ => 0) (Ptr.buf 1) (0 + 1) else fun _ => 0)) (0 + 1 + 1) := h4
  rw [if_pos e4, if_pos e3] at h5
  exact h5

/-- An instance of `lru_order_brelse`: process 7 acquires blocks 100 and 101
(records 0 and 1) and releases record 1, then record 0; `bget` of block 102
then does not take record 0. -/
theorem lru_order_brelse_witness :
    ∃ v s1, v ≠ Ptr.buf 0 ∧
      rel_s4.mru.reverse.find? (fun x => is_free (rel_s4.get x)) = some v ∧
      (bget 0 7 1 102 rel_s4 = Res.ok v s1 ∨
        bget 0 7 1 102 rel_s4 = Res.halt (Halt.sleep v) s1) :=
  lru_order_brelse rel_s4 rel_st 2 rel_hist (Ptr.buf 0) (Ptr.buf 1) (by decide!) (by decide!)
    (by decide) (by decide) (by decide!) (by decide!) 0 7 1 102
    (forall_is_buf (P := fun x =>
      ¬ ((rel_s4.get x).dev = 1 ∧ (rel_s4.get x).blockno = 102)) (by decide!))

theorem uinc_zero : uinc 0 = 1 := by decide

theorem udec_one : udec 1 = 0 := by decide

/-- A list without repetition of fewer than `n` records of the pool misses a
record of the pool. -/
theorem exists_not_mem {n : Nat} {H : List Ptr} (hl : H.length < n) :
    ∃ x, x.is_buf n ∧ x ∉ H := by
  by_contra hc
  push_neg at hc
  have hsub : (List.range n).map Ptr.buf ⊆ H := by
    intro x hx
    simp only [List.mem_map, List.mem_range] at hx
    obtain ⟨i, hi, rfl⟩ := hx
    exact hc _ hi
  have hnd2 : ((List.range n).map Ptr.buf).Nodup :=
    (List.nodup_range n).map (fun a b h => by injection h)
  have := (hnd2.subperm hsub).length_le
  simp at this
  omega

/-- A list without repetition of `n` records of the pool holds every record of
the pool. -/
theorem mem_of_full {n : Nat} {H : List Ptr} (hnd : H.Nodup) (hb : ∀ x ∈ H, x.is_buf n)
    (hl : H.length = n) : ∀ x, x.is_buf n → x ∈ H := by
  intro x hx
  by_contra hc
  have hnd2 : (x :: H).Nodup := List.nodup_cons.2 ⟨hc, hnd⟩
  have hsub : x :: H ⊆ (List.range n).map Ptr.buf := by
    intro y hy
    have hy' : y.is_buf n := by
      rcases List.mem_cons.1 hy with rfl | hy
      · exact hx
      · exact hb y hy
    obtain ⟨i, hi, rfl⟩ := Ptr.is_buf_iff.1 hy'
    simp only [List.mem_map, List.mem_range]
    exact ⟨i, hi, rfl⟩
  have := (hnd2.subperm hsub).length_le
  simp at this
  omega

/-- One more key acquired: the record returned was not held before and is held
after, with the key. -/
theorem acquire_step {p : Nat} {s : K} {H : List Ptr} {ks : List (Nat × Nat)}
    (h : Acquiring p s H ks) (k : Nat × Nat) (hk : k ∉ ks) (hl : H.length < s.NBUF) (d : Nat) :
    ∃ b s1, bget d p k.1 k.2 s = Res.ok b s1 ∧ s1.NBUF = s.NBUF ∧
      Acquiring p s1 (H ++ [b]) (ks ++ [k]) := by
  rw [bget_of_not_init h.init]
  have hnotH : ∀ x ∈ H, ¬ ((s.get x).dev = k.1 ∧ (s.get x).blockno = k.2) := by
    intro x hx hkx
    have := (h.held x hx).2.2
    rw [hkx.1, hkx.2] at this
    exact hk this
  -- the state once the record `b`, fresh before, has the value `v`
  have hfin : ∀ (b : Ptr) (v : Buf), b ∈ s.mru → b ∉ H → v.held p → v.dev = k.1 →
      v.blockno = k.2 → v.next = (s.get b).next → v.prev = (s.get b).prev →
      s.NBUF = s.NBUF ∧ Acquiring p (s.set b v) (H ++ [b]) (ks ++ [k]) := by
    intro b v hbm hbH hv h1 h2 h3 h4
    have hS : SameLinks s (s.set b v) := SameLinks.of_set h3 h4
    refine ⟨rfl, hS.wf h.wf, by simpa using h.init, ?_, ?_, ?_⟩
    · exact List.nodup_append.2 ⟨h.nodup, List.nodup_singleton b, by
        intro a ha1 ha2
        rw [List.mem_singleton] at ha2
        exact hbH (ha2 ▸ ha1)⟩
    · intro x hx
      rw [K.set_NBUF]
      rcases List.mem_append.1 hx with hx | hx
      · have hxb : x ≠ b := fun e => hbH (e ▸ hx)
        rw [K.get_set_ne _ _ hxb]
        exact ⟨(h.held x hx).1, (h.held x hx).2.1, List.mem_append_left _ (h.held x hx).2.2⟩
      · rw [List.mem_singleton] at hx
        subst hx
        rw [K.get_set_same]
        refine ⟨(h.wf.mem_iff x).1 hbm, hv, ?_⟩
        rw [h1, h2]
        simp
    · intro x hx hxH
      rw [K.set_NBUF] at hx
      have hxb : x ≠ b := fun e => hxH (by simp [e])
      rw [K.get_set_ne _ _ hxb]
      exact h.rest x hx (fun hm => hxH (List.mem_append_left _ hm))
  cases hf : s.mru.find? (fun x => is_key k.1 k.2 (s.get x)) with
  | some b =>
    have hb := find_is_key hf
    have hbH : b ∉ H := fun hm => hnotH b hm hb.2
    have hfr := h.rest b ((h.wf.mem_iff b).1 hb.1) hbH
    rw [bget_cache_hit h.wf hf, hfr.2.2.2.1]
    refine ⟨b, _, rfl, by simp, ?_⟩
    refine (hfin b _ hb.1 hbH ?_ ?_ ?_ ?_ ?_).2
    · exact ⟨by simp [hfr.2.2.2.2.1, uinc_zero], rfl, hfr.2.2.2.2.2⟩
    · exact hb.2.1
    · exact hb.2.2
    · rfl
    · rfl
  | none =>
    obtain ⟨x, hx1, hx2⟩ := exists_not_mem (H := H) hl
    have hxf := h.rest x hx1 hx2
    obtain ⟨b, hb⟩ := find_exists (fun x => is_free (s.get x)) s.mru.reverse
      ⟨x, by simpa using (h.wf.mem_iff x).2 hx1, by simp [is_free, hxf.2.2.2.2.1]⟩
    have hb0 := find_free_some hb
    have hbm : b ∈ s.mru := by simpa using hb0.1
    have hbH : b ∉ H := by
      intro hm
      have := (h.held b hm).2.1.1
      rw [hb0.2] at this
      cases this
    have hfr := h.rest b ((h.wf.mem_iff b).1 hbm) hbH
    rw [bget_cache_miss h.wf hf hb, hfr.2.2.2.1]
    refine ⟨b, _, rfl, by simp, ?_⟩
    refine (hfin b _ hbm hbH ?_ ?_ ?_ ?_ ?_).2
    · exact ⟨rfl, rfl, hfr.2.2.2.2.2⟩
    all_goals rfl


/-- All the keys of the list acquired. -/
theorem acquire_all_spec {p d : Nat} :
    ∀ (ks : List (Nat × Nat)) (s : K) (H : List Ptr) (done : List (Nat × Nat)),
      Acquiring p s H done → (∀ k ∈ ks, k ∉ done) → ks.Nodup →
      H.length + ks.length ≤ s.NBUF →
      ∃ bs s1, acquire_all d p ks s = Res.ok bs s1 ∧ s1.NBUF = s.NBUF ∧
        bs.length = ks.length ∧ Acquiring p s1 (H ++ bs) (done ++ ks) := by
  intro ks
  induction ks with
  | nil =>
    intro s H done h _ _ _
    exact ⟨[], s, rfl, rfl, rfl, by simpa using h⟩
  | cons k ks ih =>
    intro s H done h hk hnd hl
    rw [List.nodup_cons] at hnd
    simp only [List.length_cons] at hl
    obtain ⟨b, s1, e1, n1, a1⟩ := acquire_step h k (hk k (by simp)) (by omega) d
    have hk2 : ∀ k' ∈ ks, k' ∉ done ++ [k] := by
      intro k' hk' hm
      rcases List.mem_append.1 hm with hm | hm
      · exact hk k' (by simp [hk']) hm
      · rw [List.mem_singleton] at hm
        exact hnd.1 (hm ▸ hk')
    obtain ⟨bs, s2, e2, n2, l2, a2⟩ := ih s1 (H ++ [b]) (done ++ [k]) a1 hk2 hnd.2
      (by rw [n1]; simp only [List.length_append, List.length_singleton]; omega)
    refine ⟨b :: bs, s2, ?_, n2.trans n1, by simp [l2], ?_⟩
    · simp only [acquire_all, e1, e2]
    · simpa using a2

/-- The reference count after `brelse` on a record without the tag. -/
theorem brelse_refcnt {p : Nat} {b : Ptr} {s s2 : K} (hu : (s.get b).user_flag = false)
    (h : brelse p b s = Res.ok () s2) : (s2.get b).refcnt = udec (s.get b).refcnt := by
  have hl := brelse_ok_lock h
  rw [brelse_eq hl hu] at h
  simp only [Res.ok.injEq, true_and] at h
  subst h
  split
  · have hb' := (brelse_move_fields b (s.set b
      { s.get b with lock := none, refcnt := udec (s.get b).refcnt })).2.2.2.2.2.2.2 b
    simp only [K.get_set_same, Buf.same_fields] at hb'
    exact hb'.2.2.2.2.1
  · simp

/-- All the records of the list released. -/
theorem release_all_spec {p : Nat} :
    ∀ (todo : List Ptr) (s : K) (done : List Ptr), Releasing p s done todo →
      (done ++ todo).Nodup →
      ∃ s2, release_all p todo s = Res.ok () s2 ∧ s2.NBUF = s.NBUF ∧
        Releasing p s2 (done ++ todo) [] ∧
        ∀ c, (s2.get c).dev = (s.get c).dev ∧ (s2.get c).blockno = (s.get c).blockno ∧
          (s2.get c).valid = (s.get c).valid := by
  intro todo
  induction todo with
  | nil =>
    intro s done h _
    exact ⟨s, rfl, rfl, by simpa using h, fun c => ⟨rfl, rfl, rfl⟩⟩
  | cons b todo ih =>
    intro s done h hnd
    obtain ⟨hb1, hb2, hb3, hb4⟩ := h.held b (by simp)
    have hbm : b ∈ s.mru := (h.wf.mem_iff b).2 hb1
    obtain ⟨s1, e, k2, k3, k4, k5, k6, -, -⟩ := brelse_ok h.wf hbm hb3
    have hr := brelse_refcnt hb4 e
    rw [hb2, udec_one] at hr
    have ho := (brelse_order h.wf hbm hb4 e).1 hr
    have hbd : b ∉ done := by
      intro hm
      have := (List.nodup_append.1 hnd).2.2 hm (show b ∈ b :: todo by simp)
      exact this
    have hbt : b ∉ todo := by
      have := (List.nodup_append.1 hnd).2.1
      exact (List.nodup_cons.1 this).1
    have hR : Releasing p s1 (done ++ [b]) todo := by
      refine ⟨k2, k3.2.2.2.2.1.trans h.init, ?_, ?_, ?_⟩
      · obtain ⟨m, hm⟩ := h.order
        refine ⟨m.erase b, ?_⟩
        rw [ho, hm, List.erase_append_right _ (by simpa using hbd)]
        simp
      · intro x hx
        have hxb : x ≠ b := fun e => hbt (e ▸ hx)
        obtain ⟨x1, x2, x3, x4⟩ := h.held x (by simp [hx])
        rw [k3.1]
        exact ⟨x1, (k6 x hxb).2.trans x2, (k6 x hxb).1.trans x3, (k5 x).2.2.2.2.trans x4⟩
      · intro x hx
        rcases List.mem_append.1 hx with hx | hx
        · have hxb : x ≠ b := fun e => hbd (e ▸ hx)
          exact ⟨(k6 x hxb).2.trans (h.free x hx).1, (k6 x hxb).1.trans (h.free x hx).2⟩
        · rw [List.mem_singleton] at hx
          subst hx
          exact ⟨hr, k4⟩
    obtain ⟨s2, e2, n2, r2, f2⟩ := ih s1 (done ++ [b]) hR (by simpa using hnd)
    refine ⟨s2, ?_, n2.trans k3.1, by simpa using r2, fun c => ?_⟩
    · simp only [release_all, e, e2]
    · obtain ⟨c1, c2, c3⟩ := f2 c
      exact ⟨c1.trans (k5 c).1, c2.trans (k5 c).2.1, c3.trans (k5 c).2.2.1⟩

/-- C7: the eviction scenario.  After `binit` with `n > 0` records, process `p`
acquires `n` keys that differ from one another; `bget` returns `n` different
records of the pool.  Whatever the order `rel` in which the `n` records are
then released, once each, the `bget` of a further key, different from the `n`,
returns the record released first, `rel.head?`, with the new key, validity
flag 0 and reference count 1; every other record is as the releases left it,
with its key and validity flag. -/
theorem eviction_scenario (n bs fs : Nat) (sb : Superblock) (disk : Nat → Nat → Nat)
    (hn : 0 < n) (d p : Nat) (keys : List (Nat × Nat)) (hk : keys.Nodup)
    (hl : keys.length = n) :
    ∃ got s1, acquire_all d p keys (binit (boot n bs fs sb disk)) = Res.ok got s1 ∧
      got.length = n ∧ got.Nodup ∧ (∀ b ∈ got, b.is_buf n) ∧
      ∀ rel, rel.Perm got →
        ∃ s2, release_all p rel s1 = Res.ok () s2 ∧
          ∀ dev blockno, (dev, blockno) ∉ keys →
            ∃ v s3, rel.head? = some v ∧ bget d p dev blockno s2 = Res.ok v s3 ∧
              (s3.get v).dev = dev ∧ (s3.get v).blockno = blockno ∧
              (s3.get v).valid = false ∧ (s3.get v).refcnt = 1 ∧
              ∀ c, c ≠ v → s3.get c = s2.get c := by
  have hN : (binit (boot n bs fs sb disk)).NBUF = n := (binit_env _).1
  have h0 : Acquiring p (binit (boot n bs fs sb disk)) [] [] :=
    ⟨(binit_WF _).1, (binit_env _).2.2.2.2.1, List.nodup_nil, fun x hx => (by cases hx),
      fun x _ _ => binit_fresh (boot_fresh n bs fs sb disk) x⟩
  obtain ⟨got, s1, e1, n1, l1, a1⟩ := acquire_all_spec (d := d) keys _ [] [] h0
    (fun k _ hm => by cases hm) hk (by rw [hN]; simp [hl])
  simp only [List.nil_append] at a1
  have hN1 : s1.NBUF = n := n1.trans hN
  have hgb : ∀ b ∈ got, b.is_buf n := fun b hb => hN1 ▸ (a1.held b hb).1
  refine ⟨got, s1, e1, l1.trans hl, a1.nodup, hgb, ?_⟩
  intro rel hp
  have hrnd : rel.Nodup := hp.nodup_iff.2 a1.nodup
  have hR : Releasing p s1 [] rel :=
    ⟨a1.wf, a1.init, ⟨s1.mru, rfl⟩,
      fun x hx => ⟨(a1.held x (hp.subset hx)).1, (a1.held x (hp.subset hx)).2.1⟩,
      fun x hx => (by cases hx)⟩
  obtain ⟨s2, e2, n2, r2, f2⟩ := release_all_spec rel s1 [] hR (by simpa using hrnd)
  simp only [List.nil_append] at r2
  refine ⟨s2, e2, ?_⟩
  intro dev blockno hkey
  -- the list is `rel` from its end
  obtain ⟨m, hm⟩ := r2.order
  have hlen : s2.mru.length = n := by rw [r2.wf.length, n2, hN1]
  have hrl : rel.length = n := hp.length_eq.trans (l1.trans hl)
  have hm0 : m = [] := by
    have := congrArg List.length hm
    rw [hlen, List.length_append, List.length_reverse, hrl] at this
    exact List.eq_nil_of_length_eq_zero (by omega)
  rw [hm0, List.append_nil] at hm
  -- no record has the key
  have hno : s2.mru.find? (fun x => is_key dev blockno (s2.get x)) = none := by
    apply find_key_none.2
    intro x hx hkx
    have hxr : x ∈ rel := by rw [hm] at hx; simpa using hx
    have := (a1.held x (hp.subset hxr)).2.2
    rw [← (f2 x).1, ← (f2 x).2.1, hkx.1, hkx.2] at this
    exact hkey this
  -- the first record released is the victim
  cases hrel : rel with
  | nil => rw [hrel] at hrl; simp at hrl; omega
  | cons v rest =>
    have hvf := r2.free v (by rw [hrel]; simp)
    have hfree : s2.mru.reverse.find? (fun x => is_free (s2.get x)) = some v := by
      rw [hm, List.reverse_reverse, hrel, List.find?_cons]
      simp [is_free, hvf.1]
    have hg : bget d p dev blockno s2 = Res.ok v (s2.set v
        { s2.get v with dev := dev, blockno := blockno, valid := false, refcnt := 1,
                        lock := some p }) := by
      rw [bget_of_not_init r2.init, bget_cache_miss r2.wf hno hfree, hvf.2]
    exact ⟨v, _, rfl, hg, by simp, by simp, by simp, by simp, fun c hc => by simp [hc]⟩

/-- An instance of `eviction_scenario`: three records and the keys (1, 5),
(1, 6) and (0, 0). -/
theorem eviction_scenario_witness :
    (0 < 3 ∧ [((1 : Nat), (5 : Nat)), (1, 6), (0, 0)].Nodup ∧
        [((1 : Nat), (5 : Nat)), (1, 6), (0, 0)].length = 3) ∧
      ∃ got s1, acquire_all 0 7 [(1, 5), (1, 6), (0, 0)]
          (binit (boot 3 1024 2000 demo_sb demo_disk)) = Res.ok got s1 ∧ got.length = 3 := by
  refine ⟨⟨by decide, by decide, by decide⟩, ?_⟩
  obtain ⟨got, s1, h1, h2, -⟩ := eviction_scenario 3 1024 2000 demo_sb demo_disk (by decide)
    0 7 [(1, 5), (1, 6), (0, 0)] (by decide) (by decide)
  exact ⟨got, s1, h1, h2⟩

theorem pairwise_or {α : Type} {R : α → α → Prop} {l : List α} (h : l.Pairwise R) {x y : α}
    (hx : x ∈ l) (hy : y ∈ l) (hne : x ≠ y) : R x y ∨ R y x := by
  induction l with
  | nil => cases hx
  | cons a l ih =>
    rw [List.pairwise_cons] at h
    rcases List.mem_cons.1 hx with rfl | hx'
    · rcases List.mem_cons.1 hy with rfl | hy'
      · exact absurd rfl hne
      · exact Or.inl (h.1 _ hy')
    · rcases List.mem_cons.1 hy with rfl | hy'
      · exact Or.inr (h.1 _ hx')
      · exact ih h.2 hx' hy'

/-- A relation on the pairs of a list carries over to another one when the
first match `b` of a test is treated apart. -/
theorem pairwise_first {α : Type} {R R' : α → α → Prop} {p : α → Bool} {b : α} :
    ∀ {l : List α}, l.Pairwise R → l.Nodup → l.find? p = some b →
      (∀ x ∈ l, ∀ y ∈ l, x ≠ b → y ≠ b → R x y → R' x y) →
      (∀ y ∈ l, y ≠ b → R b y → R' b y) →
      (∀ x ∈ l, p x = false → R' x b) → l.Pairwise R'
  | [], _, _, _, _, _, _ => List.Pairwise.nil
  | a :: l, hR, hnd, hf, h1, h2, h3 => by
    rw [List.pairwise_cons] at hR ⊢
    rw [List.nodup_cons] at hnd
    rw [List.find?_cons] at hf
    cases hp : p a with
    | true =>
      rw [hp] at hf
      simp only [Option.some.injEq] at hf
      subst hf
      have hne : ∀ y ∈ l, y ≠ a := fun y hy e => hnd.1 (e ▸ hy)
      refine ⟨fun y hy => h2 y (List.mem_cons_of_mem _ hy) (hne y hy) (hR.1 y hy), ?_⟩
      exact hR.2.imp_of_mem (fun {x y} hx hy hxy =>
        h1 x (List.mem_cons_of_mem _ hx) y (List.mem_cons_of_mem _ hy) (hne x hx) (hne y hy) hxy)
    | false =>
      rw [hp] at hf
      have hb : b ∈ l := List.mem_of_find?_eq_some hf
      have hab : a ≠ b := fun e => hnd.1 (e ▸ hb)
      refine ⟨fun y hy => ?_, ?_⟩
      · by_cases hyb : y = b
        · subst hyb; exact h3 a (List.mem_cons_self _ _) hp
        · exact h1 a (List.mem_cons_self _ _) y (List.mem_cons_of_mem _ hy) hab hyb (hR.1 y hy)
      · exact pairwise_first hR.2 hnd.2 hf
          (fun x hx y hy => h1 x (List.mem_cons_of_mem _ hx) y (List.mem_cons_of_mem _ hy))
          (fun y hy => h2 y (List.mem_cons_of_mem _ hy))
          (fun x hx => h3 x (List.mem_cons_of_mem _ hx))

/-- The order for the keys depends on the key, the valid flag and the lock of
the records only. -/
theorem KeyOrder.of_fields {s t : K} {l : List Ptr} (h : KeyOrder s l)
    (he : ∀ x, (t.get x).dev = (s.get x).dev ∧ (t.get x).blockno = (s.get x).blockno ∧
      (t.get x).valid = (s.get x).valid ∧ (t.get x).lock = (s.get x).lock) : KeyOrder t l := by
  unfold KeyOrder at h ⊢
  refine h.imp (fun {x y} hxy hd hb => ?_)
  rw [(he x).1, (he y).1] at hd
  rw [(he x).2.1, (he y).2.1] at hb
  rw [(he y).2.2.1, (he y).2.2.2]
  exact hxy hd hb

/-- The state after `binit` at boot is coherent for every device number. -/
theorem coherent_binit (n bs fs : Nat) (sb : Superblock) (disk : Nat → Nat → Nat) (dev : Nat) :
    Coherent dev (binit (boot n bs fs sb disk)) disk := by
  have hf := binit_fresh (boot_fresh n bs fs sb disk)
  have he := binit_env (boot n bs fs sb disk)
  refine ⟨(binit_WF _).1, he.2.2.2.2.1, he.2.2.2.2.2.1, fun x _ => ?_, fun x _ hv => ?_,
    fun x _ hv => ?_, ?_⟩
  · obtain ⟨-, -, -, h4, h5, h6⟩ := hf x
    exact ⟨h6, fun _ => h5, fun hl => absurd h4 hl⟩
  · rw [(hf x).1] at hv; cases hv
  · rcases hv with hv | hv
    · rw [(hf x).1] at hv; cases hv
    · exact absurd (hf x).2.2.2.1 hv
  · exact List.pairwise_of_forall (fun x y _ _ => ⟨(hf y).1, (hf y).2.2.2.1⟩)

/-- What `bread` that returns puts in the payload and the reference count. -/
theorem bread_ok_data {d p dev blockno : Nat} {s s1 : K} {b : Ptr} (hw : WF s)
    (hi : s.init_flag = false) (h : bread d p dev blockno s = Res.ok b s1) :
    s1.BSIZE = s.BSIZE ∧
    ((s.mru.find? (fun x => is_key dev blockno (s.get x)) = some b ∧
        (s1.get b).refcnt = uinc (s.get b).refcnt ∧
        (s1.get b).data = if (s.get b).valid then (s.get b).data else s.disk blockno) ∨
      (s.mru.find? (fun x => is_key dev blockno (s.get x)) = none ∧
        (s1.get b).refcnt = 1 ∧ (s1.get b).data = s.disk blockno)) := by
  rw [bread_eq, bget_of_not_init hi] at h
  cases hg : bget_cache p dev blockno s with
  | halt e s' => rw [hg] at h; cases h
  | ok b' sg =>
    rw [hg] at h
    simp only [Res.ok.injEq] at h
    obtain ⟨rfl, rfl⟩ := h
    obtain ⟨-, -, -, h4, -, -, -, h8, -, -, h11⟩ := bget_cache_ok hw hg
    have hE := bread_fill_env b' sg
    have hb' := bread_fill_get b' sg b'
    rw [if_pos rfl] at hb'
    refine ⟨hE.2.1.trans h4.2.1, ?_⟩
    rcases h11 with ⟨k1, k2, k3, k4⟩ | ⟨k1, -, k3, k4⟩
    · refine Or.inl ⟨k1, by rw [hb']; exact k4, ?_⟩
      rw [hb']
      simp only [k2, k3, h8, h4.2.2.2.2.2.1]
    · refine Or.inr ⟨k1, by rw [hb']; exact k4, ?_⟩
      rw [hb']
      simp only [k3, h8, h4.2.2.2.2.2.1, Bool.false_eq_true, if_false]

/-- When no held record has the key and some record is free, `bread` returns. -/
theorem bread_returns (d p : Nat) {dev blockno : Nat} {s : K} (hw : WF s) (hi : s.init_flag = false)
    (hk : ∀ x ∈ s.mru, (s.get x).dev = dev → (s.get x).blockno = blockno →
      (s.get x).lock = none)
    (hf : ∀ x ∈ s.mru, (s.get x).refcnt = 0 → (s.get x).lock = none)
    (hex : ∃ x ∈ s.mru, (s.get x).refcnt = 0) :
    ∃ b s1, bread d p dev blockno s = Res.ok b s1 := by
  rw [bread_eq, bget_of_not_init hi]
  cases hfk : s.mru.find? (fun x => is_key dev blockno (s.get x)) with
  | some b =>
    obtain ⟨hb, h1, h2⟩ := find_is_key hfk
    rw [bget_cache_hit hw hfk, hk b hb h1 h2]
    exact ⟨_, _, rfl⟩
  | none =>
    obtain ⟨x, hx, hx0⟩ := hex
    obtain ⟨b, hb⟩ := find_exists (fun x => is_free (s.get x)) s.mru.reverse
      ⟨x, List.mem_reverse.2 hx, by simp [is_free, hx0]⟩
    obtain ⟨hbm, hb0⟩ := find_free_some hb
    rw [bget_cache_miss hw hfk hb, hf b (List.mem_reverse.1 hbm) hb0]
    exact ⟨_, _, rfl⟩

theorem Coherent.update {dev : Nat} {s : K} {m : Nat → Nat → Nat} (h : Coherent dev s m)
    {p : Nat} {b : Ptr} (data : Nat → Nat) (hl : (s.get b).lock = some p) :
    Coherent dev (s.set b { s.get b with data := data }) m := by
  have hS : SameLinks s (s.set b { s.get b with data := data }) := by
    apply SameLinks.of_set <;> rfl
  refine ⟨hS.wf h.wf, by simpa using h.init, by simpa using h.disk, fun x hx => ?_,
    fun x hx hv hk => ?_, fun x hx hv => ?_, ?_⟩
  · rw [K.set_NBUF] at hx
    by_cases hxb : x = b
    · subst hxb; rw [K.get_set_same]; exact h.cnt _ hx
    · rw [K.get_set_ne _ _ hxb]; exact h.cnt x hx
  · rw [K.set_NBUF] at hx
    by_cases hxb : x = b
    · subst hxb
      rw [K.get_set_same] at hk
      rw [hl] at hk; cases hk
    · rw [K.get_set_ne _ _ hxb] at hv hk ⊢
      rw [K.set_BSIZE, K.set_disk]
      exact h.clean x hx hv hk
  · rw [K.set_NBUF] at hx
    by_cases hxb : x = b
    · subst hxb; rw [K.get_set_same] at hv ⊢; exact h.dev _ hx hv
    · rw [K.get_set_ne _ _ hxb] at hv ⊢; exact h.dev x hx hv
  · rw [hS.mru h.wf]
    refine h.order.of_fields (fun x => ?_)
    by_cases hxb : x = b
    · subst hxb; rw [K.get_set_same]; exact ⟨rfl, rfl, rfl, rfl⟩
    · rw [K.get_set_ne _ _ hxb]; exact ⟨rfl, rfl, rfl, rfl⟩

theorem Coherent.write {dev : Nat} {s : K} {m : Nat → Nat → Nat} (h : Coherent dev s m)
    {p : Nat} {b : Ptr} (hb : b.is_buf s.NBUF) (hl : (s.get b).lock = some p) :
    ∃ s1, bwrite p b s = Res.ok () s1 ∧
      Coherent dev s1 (Function.update m (s.get b).blockno (s.get b).data) := by
  have e : bwrite p b s = Res.ok () (virtio_disk_rw b true s) := by
    simp [bwrite, holdingsleep, hl]
  obtain ⟨-, -, hS, hN, hI, hg⟩ := bwrite_ok e
  have hd : (virtio_disk_rw b true s).disk =
      Function.update s.disk (s.get b).blockno (s.get b).data := by
    simp [virtio_disk_rw, K.put_block, K.logged]
  have hB : (virtio_disk_rw b true s).BSIZE = s.BSIZE := by
    simp [virtio_disk_rw, K.put_block, K.logged]
  refine ⟨_, e, hS.wf h.wf, hI.trans h.init, by rw [hd, h.disk], fun x hx => ?_,
    fun x hx hv hk => ?_, fun x hx hv => ?_, ?_⟩
  · rw [hN] at hx; rw [hg]; exact h.cnt x hx
  · rw [hN] at hx
    rw [hg] at hv hk ⊢
    rw [hB, hd]
    have hxb : x ≠ b := by
      intro e2; subst e2; rw [hl] at hk; cases hk
    have hbn : (s.get x).blockno ≠ (s.get b).blockno := by
      intro e2
      have hdx := h.dev x hx (Or.inl hv)
      have hdb := h.dev b hb (Or.inr (by rw [hl]; simp))
      rcases pairwise_or h.order ((h.wf.mem_iff x).2 hx) ((h.wf.mem_iff b).2 hb) hxb with h1 | h1
      · have := (h1 (hdx.trans hdb.symm) e2).2
        rw [hl] at this; cases this
      · have := (h1 (hdb.trans hdx.symm) e2.symm).1
        rw [hv] at this; cases this
    rw [Function.update_noteq hbn]
    exact h.clean x hx hv hk
  · rw [hN] at hx; rw [hg] at hv ⊢; exact h.dev x hx hv
  · rw [hS.mru h.wf]
    exact h.order.of_fields (fun x => by rw [hg]; exact ⟨rfl, rfl, rfl, rfl⟩)

theorem Coherent.release {dev : Nat} {s : K} {m : Nat → Nat → Nat} (h : Coherent dev s m)
    {p : Nat} {b : Ptr} (hb : b.is_buf s.NBUF) (hl : (s.get b).lock = some p)
    (hc : ∀ k < s.BSIZE, (s.get b).data k = s.disk (s.get b).blockno k) :
    ∃ s1, brelse p b s = Res.ok () s1 ∧ Coherent dev s1 m := by
  have hbm := (h.wf.mem_iff b).2 hb
  obtain ⟨s2, e, hw2, hE, hl2, hF, hO, -, -⟩ := brelse_ok h.wf hbm hl
  have hu := (h.cnt b hb).1
  have hr : (s2.get b).refcnt = 0 := by
    rw [brelse_refcnt hu e, (h.cnt b hb).2.2 (by rw [hl]; simp)]
    exact udec_one
  have hm := (brelse_order h.wf hbm hu e).1 hr
  refine ⟨s2, e, hw2, hE.2.2.2.2.1.trans h.init, hE.2.2.2.2.2.1.trans h.disk, fun x hx => ?_,
    fun x hx hv hk => ?_, fun x hx hv => ?_, ?_⟩
  · rw [hE.1] at hx
    by_cases hxb : x = b
    · subst hxb
      exact ⟨(hF x).2.2.2.2.trans hu, fun _ => hr, fun hn => absurd hl2 hn⟩
    · rw [(hF x).2.2.2.2, (hO x hxb).1, (hO x hxb).2]; exact h.cnt x hx
  · rw [hE.1] at hx
    rw [hE.2.1, hE.2.2.2.2.2.1, (hF x).2.2.2.1, (hF x).2.1]
    by_cases hxb : x = b
    · subst hxb; exact hc
    · rw [(hF x).2.2.1] at hv
      rw [(hO x hxb).1] at hk
      exact h.clean x hx hv hk
  · rw [hE.1] at hx
    rw [(hF x).1]
    by_cases hxb : x = b
    · subst hxb
      rcases hv with hv | hv
      · rw [(hF x).2.2.1] at hv; exact h.dev x hx (Or.inl hv)
      · exact absurd hl2 hv
    · rw [(hF x).2.2.1, (hO x hxb).1] at hv
      exact h.dev x hx hv
  · rw [hm]
    unfold KeyOrder
    have hord := h.order
    unfold KeyOrder at hord
    rw [List.pairwise_cons]
    have hne : ∀ y ∈ s.mru.erase b, y ≠ b := fun y hy e2 =>
      (List.Nodup.mem_erase_iff h.wf.nodup).1 hy |>.1 e2
    have hmem : ∀ y ∈ s.mru.erase b, y ∈ s.mru := fun y hy => List.mem_of_mem_erase hy
    refine ⟨fun y hy hd hk => ?_, ?_⟩
    · rw [(hF b).1, (hF y).1] at hd
      rw [(hF b).2.1, (hF y).2.1] at hk
      rw [(hF y).2.2.1, (hO y (hne y hy)).1]
      rcases pairwise_or hord hbm (hmem y hy) (hne y hy).symm with h1 | h1
      · exact h1 hd hk
      · have := (h1 hd.symm hk.symm).2
        rw [hl] at this; cases this
    · refine (hord.sublist (List.erase_sublist b s.mru)).imp_of_mem
        (fun {x y} hx hy hxy hd hk => ?_)
      rw [(hF x).1, (hF y).1] at hd
      rw [(hF x).2.1, (hF y).2.1] at hk
      rw [(hF y).2.2.1, (hO y (hne y hy)).1]
      exact hxy hd hk

theorem Coherent.read {dev : Nat} {s : K} {m : Nat → Nat → Nat} (h : Coherent dev s m)
    (d p blockno : Nat)
    (hk : ∀ i < s.NBUF, (s.get (Ptr.buf i)).lock ≠ none →
      ¬ ((s.get (Ptr.buf i)).dev = dev ∧ (s.get (Ptr.buf i)).blockno = blockno))
    (hex : ∃ i < s.NBUF, (s.get (Ptr.buf i)).lock = none) :
    ∃ b s1, bread d p dev blockno s = Res.ok b s1 ∧ b.is_buf s.NBUF ∧
      (s1.get b).lock = some p ∧ (s1.get b).dev = dev ∧ (s1.get b).blockno = blockno ∧
      (∀ k < s.BSIZE, (s1.get b).data k = m blockno k) ∧ Coherent dev s1 m := by
  have hk2 : ∀ x ∈ s.mru, (s.get x).dev = dev → (s.get x).blockno = blockno →
      (s.get x).lock = none := by
    intro x hx h1 h2
    by_contra hn
    obtain ⟨i, hi, rfl⟩ := Ptr.is_buf_iff.1 ((h.wf.mem_iff x).1 hx)
    exact hk i hi hn ⟨h1, h2⟩
  have hf : ∀ x ∈ s.mru, (s.get x).refcnt = 0 → (s.get x).lock = none := by
    intro x hx h0
    by_contra hn
    have := (h.cnt x ((h.wf.mem_iff x).1 hx)).2.2 hn
    omega
  have hex2 : ∃ x ∈ s.mru, (s.get x).refcnt = 0 := by
    obtain ⟨i, hi, hl⟩ := hex
    have hb : (Ptr.buf i).is_buf s.NBUF := Ptr.is_buf_iff.2 ⟨i, hi, rfl⟩
    exact ⟨_, (h.wf.mem_iff _).2 hb, (h.cnt _ hb).2.1 hl⟩
  obtain ⟨b, s1, e⟩ := bread_returns d p h.wf h.init hk2 hf hex2
  obtain ⟨hbm, hbl, hw1, hm1, hN1, hI1, hD1, -, hO, l1, d1, b1, -, u1, f1⟩ :=
    bread_ok h.wf h.init e
  obtain ⟨hB1, hdata⟩ := bread_ok_data h.wf h.init e
  have hbb := (h.wf.mem_iff b).1 hbm
  have hcb := h.cnt b hbb
  refine ⟨b, s1, e, hbb, l1, d1, b1, fun k hk3 => ?_, hw1, hI1, hD1.trans h.disk,
    fun x hx => ?_, fun x hx hv hl => ?_, fun x hx hv => ?_, ?_⟩
  · rcases hdata with ⟨k1, -, k3⟩ | ⟨-, -, k3⟩
    · rw [k3]
      cases hv : (s.get b).valid with
      | true =>
        simp only [if_true]
        rw [h.clean b hbb hv hbl k hk3, (find_is_key k1).2.2, h.disk]
      | false =>
        simp only [Bool.false_eq_true, if_false]
        rw [h.disk]
    · rw [k3, h.disk]
  · rw [hN1] at hx
    by_cases hxb : x = b
    · subst hxb
      refine ⟨u1.trans hcb.1, fun hn => ?_, fun _ => ?_⟩
      · rw [l1] at hn; cases hn
      · rcases hdata with ⟨-, k2, -⟩ | ⟨-, k2, -⟩
        · rw [k2, hcb.2.1 hbl]; exact uinc_zero
        · exact k2
    · rw [hO x hxb]; exact h.cnt x hx
  · rw [hN1] at hx
    by_cases hxb : x = b
    · subst hxb; rw [l1] at hl; cases hl
    · rw [hO x hxb] at hv hl ⊢
      rw [hB1, hD1]
      exact h.clean x hx hv hl
  · rw [hN1] at hx
    by_cases hxb : x = b
    · subst hxb; exact d1
    · rw [hO x hxb] at hv ⊢
      exact h.dev x hx hv
  · rw [hm1] at f1 ⊢
    have hord := h.order
    unfold KeyOrder at hord ⊢
    refine pairwise_first hord h.wf.nodup f1 (fun x _ y _ hxb hyb hR => ?_)
      (fun y hy hyb hR hd hb => ?_) (fun x _ hp hd hb => ?_)
    · rw [hO x hxb, hO y hyb]; exact hR
    · rw [hO y hyb] at hd hb ⊢
      rw [d1] at hd
      rw [b1] at hb
      rcases hdata with ⟨k1, -, -⟩ | ⟨k1, -, -⟩
      · obtain ⟨-, e1, e2⟩ := find_is_key k1
        exact hR (e1.trans hd) (e2.trans hb)
      · exact absurd ⟨hd.symm, hb.symm⟩ (find_key_none.1 k1 y hy)
    · rw [d1] at hd
      rw [b1] at hb
      simp [is_key, hd, hb] at hp

/-- One call of a sequence that respects the interface does what `Call.post`
says and leaves a coherent state. -/
theorem Coherent.step {d dev : Nat} {c : Call} {s : K} {m : Nat → Nat → Nat}
    (h : Coherent dev s m) (hp : c.pre dev s) :
    c.post d dev m s ∧ Coherent dev (c.exec d dev s) (c.written s m) := by
  cases c with
  | read p blockno =>
    obtain ⟨b, s1, e, h1, h2, h3, h4, h5, h6⟩ := h.read d p blockno hp.1 hp.2
    refine ⟨⟨b, s1, e, h1, h2, h3, h4, h5⟩, ?_⟩
    simp only [Call.exec, Call.written, e, Res.state]
    exact h6
  | update p b data => exact ⟨trivial, h.update data hp.2⟩
  | write p b =>
    obtain ⟨s1, e, h1⟩ := h.write hp.1 hp.2
    refine ⟨⟨s1, e⟩, ?_⟩
    simp only [Call.exec, Call.written, e, Res.state]
    exact h1
  | release p b =>
    obtain ⟨s1, e, h1⟩ := h.release hp.1 hp.2.1 hp.2.2
    refine ⟨⟨s1, e⟩, ?_⟩
    simp only [Call.exec, Call.written, e, Res.state]
    exact h1

theorem reads_of_coherent {d dev : Nat} :
    ∀ (cs : List Call) (s : K) (m : Nat → Nat → Nat), Coherent dev s m →
      Disciplined d dev cs s → Reads d dev cs s m
  | [], _, _, _, _ => trivial
  | _ :: cs, _, _, h, hd =>
    ⟨(h.step hd.1).1, reads_of_coherent cs _ _ (h.step hd.1).2 hd.2⟩

set_option maxRecDepth 100000 in
/-- C5, as written, fails on `demo_binit` (30 records, device block `b` has
byte 0 equal to `b % 256`), under either reading of "written".
First: process 7 reads block 5, overwrites the payload with bytes 255 and
releases the record without `bwrite`; the next `bread` of block 5 returns the
record with byte 255, while nothing was written to the device (the log has the
one read) and the device has byte 5.
Second: after the same release, 30 other blocks are read and released one at a
time; the next `bread` of block 5 returns a record with byte 5, not the 255 of
the last payload update.
Third: with `bwrite` before the release, `bread` of block 5 under device
number 2, a key never written, returns byte 255, not the initial 5; and after
bytes 77 are written to that record with `bwrite`, `bread` of block 5 under
device number 1 returns byte 255 while the device has 77. -/
theorem dirty_release_breaks_reads :
    ((bread 0 7 1 5 dirty_s3).val? = some (Ptr.buf 0) ∧
      ((bread 0 7 1 5 dirty_s3).state.get (Ptr.buf 0)).data 0 = 255 ∧
      (bread 0 7 1 5 dirty_s3).state.disk 5 0 = 5 ∧
      (bread 0 7 1 5 dirty_s3).state.log = [Ev.read 5]) ∧
    ((bread 0 7 1 5 dirty_s4).val? = some (Ptr.buf 1) ∧
      ((bread 0 7 1 5 dirty_s4).state.get (Ptr.buf 1)).data 0 = 5 ∧
      (dirty_s3.get (Ptr.buf 0)).data 0 = 255) ∧
    ((bread 0 7 2 5 alias_s3).val? = some (Ptr.buf 1) ∧
      (alias_s4.get (Ptr.buf 1)).data 0 = 255 ∧ demo_disk 5 0 = 5 ∧
      (bread 0 7 1 5 alias_s5).val? = some (Ptr.buf 0) ∧
      ((bread 0 7 1 5 alias_s5).state.get (Ptr.buf 0)).data 0 = 255 ∧
      (bread 0 7 1 5 alias_s5).state.disk 5 0 = 77) := by
  decide!

/-- C5, amended: read-your-writes through the cache.  Start from the state
after `binit` at boot, with the device a map `disk` from block to payload.
Take any sequence of `bread`, payload update, `bwrite` and `brelse` calls on
keys of one device number `dev` that respects the interface (`Disciplined`):
a `bread` names a key that no held record has while some record of the pool is
not held, the other calls name a record the caller holds, and at each `brelse`
the `BSIZE` bytes of the record are those of its block on the device, as they
are when `bwrite` followed the last update.  Then every call returns, and each
`bread` returns a record of the pool with the key whose `BSIZE` bytes of
payload are those last written to the block by `bwrite`, or the initial content
of the block on the device if it was never written (`Reads`). -/
theorem read_your_writes (n bs fs : Nat) (sb : Superblock) (disk : Nat → Nat → Nat)
    (d dev : Nat) (cs : List Call)
    (h : Disciplined d dev cs (binit (boot n bs fs sb disk))) :
    Reads d dev cs (binit (boot n bs fs sb disk)) disk :=
  reads_of_coherent cs _ _ (coherent_binit n bs fs sb disk dev) h

set_option maxRecDepth 100000 in
/-- The sequence `demo_calls` on a pool of 3 records respects the interface,
and every `bread` of it returns what was last written. -/
theorem read_your_writes_witness :
    Disciplined 0 1 demo_calls (binit (boot 3 8 100 demo_sb demo_disk)) ∧
      Reads 0 1 demo_calls (binit (boot 3 8 100 demo_sb demo_disk)) demo_disk :=
  ⟨by decide!, read_your_writes 3 8 100 demo_sb demo_disk 0 1 demo_calls (by decide!)⟩

theorem fwd_congr {s t : K} (h : ∀ x, (t.get x).next = (s.get x).next) :
    ∀ (n : Nat) (a : Ptr), fwd t n a = fwd s n a
  | 0, _ => rfl
  | n + 1, a => by
    unfold fwd
    rw [h a, fwd_congr h n]

/-- The list of `bcache` depends on `NBUF` and the `next` links only. -/
theorem mru_congr {s t : K} (hn : t.NBUF = s.NBUF)
    (h : ∀ x, (t.get x).next = (s.get x).next) : t.mru = s.mru := by
  have e : t.head.next = s.head.next := h Ptr.head
  unfold K.mru
  rw [hn, e]
  exact fwd_congr h _ _

theorem mru_set {s : K} {b : Ptr} {v : Buf} (hn : v.next = (s.get b).next) :
    (s.set b v).mru = s.mru := by
  refine mru_congr (K.set_NBUF s b v) (fun x => ?_)
  rw [K.get_set]
  split
  · subst_vars; exact hn
  · rfl

/-- C13: preloaded records are exempt from the bookkeeping of the ordinary
cache.  For every record `b` with `user_flag` set, in every state: `bpin` and
`bunpin` leave the whole state as it is, and `brelse` by the holder `p` of the
lock returns and only writes the lock of `b`: the state after it is the state
before with the lock of `b` free, so the reference count, `dev`, `blockno`,
the validity flag, the payload and the links of `b`, every other record, the
order of the list, the disk and the log are unchanged. -/
theorem preloaded_exempt (p : Nat) (b : Ptr) (s : K) (hu : (s.get b).user_flag = true) :
    bpin b s = s ∧ bunpin b s = s ∧
      ((s.get b).lock = some p →
        ∃ s2, brelse p b s = Res.ok () s2 ∧ s2 = s.set b { s.get b with lock := none } ∧
          (s2.get b).lock = none ∧ (s2.get b).refcnt = (s.get b).refcnt ∧
          (s2.get b).dev = (s.get b).dev ∧ (s2.get b).blockno = (s.get b).blockno ∧
          (s2.get b).valid = (s.get b).valid ∧ (s2.get b).data = (s.get b).data ∧
          (s2.get b).user_flag = true ∧ (s2.get b).next = (s.get b).next ∧
          (s2.get b).prev = (s.get b).prev ∧ (∀ c, c ≠ b → s2.get c = s.get c) ∧
          s2.mru = s.mru ∧ s2.disk = s.disk ∧ s2.log = s.log) := by
  refine ⟨by simp [bpin, hu], by simp [bunpin, hu], fun hl => ?_⟩
  refine ⟨_, brelse_user hl hu, rfl, ?_, ?_, ?_, ?_, ?_, ?_, ?_, ?_, ?_, fun c hc => ?_,
    mru_set rfl, by simp, by simp⟩
  · rw [K.get_set_same]
  · rw [K.get_set_same]
  · rw [K.get_set_same]
  · rw [K.get_set_same]
  · rw [K.get_set_same]
  · rw [K.get_set_same]
  · rw [K.get_set_same]; exact hu
  · rw [K.get_set_same]
  · rw [K.get_set_same]
  · rw [K.get_set_ne _ _ hc]

set_option maxRecDepth 100000 in
/-- Slot 0 of the preloaded store, held by process 7 after `bget` of block 10
in `demo_booted`, has the preloaded tag. -/
theorem preloaded_exempt_witness :
    ((bget 1 7 1 10 demo_booted).state.get (Ptr.mod 0)).user_flag = true ∧
      ((bget 1 7 1 10 demo_booted).state.get (Ptr.mod 0)).lock = some 7 ∧
      bpin (Ptr.mod 0) (bget 1 7 1 10 demo_booted).state = (bget 1 7 1 10 demo_booted).state ∧
      ∃ s2, brelse 7 (Ptr.mod 0) (bget 1 7 1 10 demo_booted).state = Res.ok () s2 ∧
        s2.mru = (bget 1 7 1 10 demo_booted).state.mru :=
  have h := preloaded_exempt 7 (Ptr.mod 0) (bget 1 7 1 10 demo_booted).state (by decide!)
  ⟨by decide!, by decide!, h.1,
    (h.2.2 (by decide!)).imp (fun _ h2 => ⟨h2.1, h2.2.2.2.2.2.2.2.2.2.2.2.2.1⟩)⟩

theorem udec_uinc {x : Nat} (h : x < UINT) : udec (uinc x) = x := by
  unfold udec uinc UINT at *
  omega

/-- C14: `bpin` and `bunpin` on a record `b` without the preloaded tag write
the reference count of `b` and nothing else: the state after `bpin` is the
state before with `refcnt` of `b` one more (in `uint` arithmetic, and one more
as a number unless the count was at its maximum), after `bunpin` one less (in
`uint` arithmetic, and one less as a number when the count was positive); the
lock, the links, `dev`, `blockno`, the validity flag and the payload of `b`,
every other record and the order of the list are unchanged, and `bunpin` after
`bpin` gives back the state exactly. -/
theorem bpin_bunpin_ordinary (b : Ptr) (s : K) (hu : (s.get b).user_flag = false) :
    (bpin b s = s.set b { s.get b with refcnt := uinc (s.get b).refcnt } ∧
      ((s.get b).refcnt + 1 < UINT → ((bpin b s).get b).refcnt = (s.get b).refcnt + 1) ∧
      ((bpin b s).get b).same_fields { s.get b with refcnt := uinc (s.get b).refcnt } ∧
      ((bpin b s).get b).next = (s.get b).next ∧ ((bpin b s).get b).prev = (s.get b).prev ∧
      (∀ c, c ≠ b → (bpin b s).get c = s.get c) ∧ (bpin b s).mru = s.mru ∧
      SameEnv s (bpin b s)) ∧
    (bunpin b s = s.set b { s.get b with refcnt := udec (s.get b).refcnt } ∧
      (0 < (s.get b).refcnt → (s.get b).refcnt < UINT →
        ((bunpin b s).get b).refcnt = (s.get b).refcnt - 1) ∧
      ((bunpin b s).get b).same_fields { s.get b with refcnt := udec (s.get b).refcnt } ∧
      ((bunpin b s).get b).next = (s.get b).next ∧
      ((bunpin b s).get b).prev = (s.get b).prev ∧
      (∀ c, c ≠ b → (bunpin b s).get c = s.get c) ∧ (bunpin b s).mru = s.mru ∧
      SameEnv s (bunpin b s)) ∧
    ((s.get b).refcnt < UINT → bunpin b (bpin b s) = s) := by
  have e1 : bpin b s = s.set b { s.get b with refcnt := uinc (s.get b).refcnt } := by
    simp [bpin, hu]
  have e2 : bunpin b s = s.set b { s.get b with refcnt := udec (s.get b).refcnt } := by
    simp [bunpin, hu]
  refine ⟨⟨e1, fun h => ?_, ?_, ?_, ?_, fun c hc => ?_, ?_, ?_⟩,
    ⟨e2, fun h0 h => ?_, ?_, ?_, ?_, fun c hc => ?_, ?_, ?_⟩, fun h => ?_⟩
  · rw [e1, K.get_set_same]; exact uinc_of_lt h
  · rw [e1, K.get_set_same]; exact ⟨rfl, rfl, rfl, rfl, rfl, rfl, rfl⟩
  · rw [e1, K.get_set_same]
  · rw [e1, K.get_set_same]
  · rw [e1, K.get_set_ne _ _ hc]
  · rw [e1]; exact mru_set rfl
  · rw [e1]; exact SameEnv.env_set _ _ _
  · rw [e2, K.get_set_same]; exact udec_of_pos h0 h
  · rw [e2, K.get_set_same]; exact ⟨rfl, rfl, rfl, rfl, rfl, rfl, rfl⟩
  · rw [e2, K.get_set_same]
  · rw [e2, K.get_set_same]
  · rw [e2, K.get_set_ne _ _ hc]
  · rw [e2]; exact mru_set rfl
  · rw [e2]; exact SameEnv.env_set _ _ _
  · rw [e1]
    have hu2 : ((s.set b { s.get b with refcnt := uinc (s.get b).refcnt }).get b).user_flag
        = false := by rw [K.get_set_same]; exact hu
    have e3 : bunpin b (s.set b { s.get b with refcnt := uinc (s.get b).refcnt }) =
        s.set b (s.get b) := by
      unfold bunpin
      rw [if_neg (by rw [hu2]; simp), K.get_set_same, K.set_set]
      simp only [udec_uinc h]
    rw [e3]
    exact K.set_get_self s b

set_option maxRecDepth 100000 in
/-- Record 0, held by process 7 in `pin_s1`, has no preloaded tag. -/
theorem bpin_bunpin_ordinary_witness :
    (pin_s1.get (Ptr.buf 0)).user_flag = false ∧ (pin_s1.get (Ptr.buf 0)).refcnt = 1 ∧
      ((bpin (Ptr.buf 0) pin_s1).get (Ptr.buf 0)).refcnt = 1 + 1 ∧
      bunpin (Ptr.buf 0) (bpin (Ptr.buf 0) pin_s1) = pin_s1 :=
  have h := bpin_bunpin_ordinary (Ptr.buf 0) pin_s1 (by decide!)
  have hr : (pin_s1.get (Ptr.buf 0)).refcnt = 1 := by decide!
  ⟨by decide!, hr, by rw [← hr]; exact h.1.2.1 (by rw [hr]; decide),
    h.2.2 (by rw [hr]; decide)⟩

/-- C15: contract violations are fatal.  In every state, for every record `b`
and caller `p`: when `p` does not hold the lock of `b`, `bwrite` stops with
`panic("bwrite")` and `brelse` with `panic("brelse")`, both in the state of the
call: no field, link, disk block or log entry has changed; when `p` holds the
lock, both return (so each fails if and only if the lock is not held), and the
state after `bwrite` differs in the disk and the log only: block `b->blockno`
of the disk has the payload of `b`, and the log has one more entry, the write
of that block. -/
theorem contract_violations (p : Nat) (b : Ptr) (s : K) :
    ((s.get b).lock ≠ some p →
      bwrite p b s = Res.halt (Halt.panic "bwrite") s ∧
      brelse p b s = Res.halt (Halt.panic "brelse") s) ∧
    ((s.get b).lock = some p →
      (∃ s1, bwrite p b s = Res.ok () s1 ∧
        s1.log = s.log ++ [Ev.write (s.get b).blockno] ∧
        s1.disk = Function.update s.disk (s.get b).blockno (s.get b).data ∧
        (∀ c, s1.get c = s.get c) ∧ s1.mru = s.mru ∧ SameCfg s s1) ∧
      ∃ s2, brelse p b s = Res.ok () s2) ∧
    (((bwrite p b s).halt? ≠ none ↔ (s.get b).lock ≠ some p) ∧
      ((brelse p b s).halt? ≠ none ↔ (s.get b).lock ≠ some p)) := by
  have hok : (s.get b).lock = some p →
      bwrite p b s = Res.ok () (virtio_disk_rw b true s) ∧ ∃ s2, brelse p b s = Res.ok () s2 := by
    intro hl
    refine ⟨by simp [bwrite, holdingsleep, hl], ?_⟩
    unfold brelse
    simp only [holdingsleep, hl, beq_self_eq_true, Bool.not_true, Bool.false_eq_true, if_false]
    split
    · exact ⟨_, rfl⟩
    · split
      · exact ⟨_, rfl⟩
      · exact ⟨_, rfl⟩
  have hbad : (s.get b).lock ≠ some p →
      bwrite p b s = Res.halt (Halt.panic "bwrite") s ∧
      brelse p b s = Res.halt (Halt.panic "brelse") s := by
    intro hl
    exact ⟨by simp [bwrite, holdingsleep, hl], brelse_panic hl⟩
  refine ⟨hbad, fun hl => ⟨⟨_, (hok hl).1, ?_, ?_, virtio_write_get b s, ?_, ?_⟩, (hok hl).2⟩,
    ?_, ?_⟩
  · simp [virtio_disk_rw]
  · simp [virtio_disk_rw, K.put_block]
  · exact mru_congr (by simp [virtio_disk_rw]) (fun x => by rw [virtio_write_get])
  · simp [SameCfg, virtio_disk_rw]
  · constructor
    · intro h hl
      rw [(hok hl).1] at h
      exact h rfl
    · intro hl
      rw [(hbad hl).1]
      simp [Res.halt?]
  · constructor
    · intro h hl
      obtain ⟨s2, e⟩ := (hok hl).2
      rw [e] at h
      exact h rfl
    · intro hl
      rw [(hbad hl).2]
      simp [Res.halt?]

/-- Under a well formed list the lookup in the ordinary cache ends: it
returns, sleeps on the lock of the record it found, or stops with no buffers. -/
theorem bget_cache_total (p dev blockno : Nat) {s : K} (hw : WF s) :
    (∃ b s2, bget_cache p dev blockno s = Res.ok b s2) ∨
      (∃ b s2, bget_cache p dev blockno s = Res.halt (Halt.sleep b) s2) ∨
      bget_cache p dev blockno s = Res.halt (Halt.panic "bget: no buffers") s := by
  cases hk : s.mru.find? (fun x => is_key dev blockno (s.get x)) with
  | some b =>
    rw [bget_cache_hit hw hk]
    cases (s.get b).lock with
    | none => exact Or.inl ⟨_, _, rfl⟩
    | some q => exact Or.inr (Or.inl ⟨_, _, rfl⟩)
  | none =>
    cases hf : s.mru.reverse.find? (fun x => is_free (s.get x)) with
    | some b =>
      rw [bget_cache_miss hw hk hf]
      cases (s.get b).lock with
      | none => exact Or.inl ⟨_, _, rfl⟩
      | some q => exact Or.inr (Or.inl ⟨_, _, rfl⟩)
    | none => exact Or.inr (Or.inr (bget_cache_none hw hk hf))

theorem bget_routed_of_outside {d p dev blockno : Nat} {s : K}
    (h : ¬ (s.init_flag = true ∧ s.sb.dstart ≤ blockno ∧ blockno < s.sb.dfinish)) :
    bget_routed d p dev blockno s = Res.ok false s := by
  unfold bget_routed
  rw [if_neg]
  simpa [and_assoc] using h

/-- A key that the condition at the top of `bget` does not pass to
`is_user_prog_block` is looked up in the ordinary cache, at every depth. -/
theorem bget_of_outside {d p dev blockno : Nat} {s : K}
    (h : ¬ (s.init_flag = true ∧ s.sb.dstart ≤ blockno ∧ blockno < s.sb.dfinish)) :
    bget d p dev blockno s = bget_cache p dev blockno s := by
  rw [bget_eq, bget_routed_of_outside h]

theorem get_mod_buf_loop_total {p blockno : Nat} :
    ∀ (n i : Nat) (s : K),
      (get_mod_buf_loop p blockno n i s).halt? ≠ some Halt.loop ∧
        (get_mod_buf_loop p blockno n i s).halt? ≠ some Halt.depth
  | 0, _, _ => by simp [get_mod_buf_loop, Res.halt?]
  | n + 1, i, s => by
    unfold get_mod_buf_loop get_indexed_mod
    by_cases hi : i ≥ s.sb.userbcount
    · simp [hi, Res.halt?]
    · simp only [hi, if_false]
      by_cases hb : (s.get (Ptr.mod i)).blockno = blockno
      · simp only [hb, if_true]
        unfold acquiresleep
        cases (s.get (Ptr.mod i)).lock <;> simp [Res.halt?]
      · simp only [hb, if_false]
        exact get_mod_buf_loop_total n (i + 1) s

/-- The classification with the bitmap block outside the range that `bget`
passes to it: it is the same at every depth, it never stops for lack of depth
or in a scan that does not end, and when it returns the list is well formed. -/
theorem is_user_prog_block_flat (d p dev blockno : Nat) {s : K} (hw : WF s)
    (h : ¬ (s.init_flag = true ∧ s.sb.dstart ≤ UBBLOCK blockno s ∧
      UBBLOCK blockno s < s.sb.dfinish)) :
    is_user_prog_block d p dev blockno s = is_user_prog_block 0 p dev blockno s ∧
      (is_user_prog_block d p dev blockno s).halt? ≠ some Halt.loop ∧
      (is_user_prog_block d p dev blockno s).halt? ≠ some Halt.depth ∧
      ∀ t s1, is_user_prog_block d p dev blockno s = Res.ok t s1 → WF s1 := by
  have e : ∀ d, is_user_prog_block d p dev blockno s =
      match bget_cache p dev (UBBLOCK blockno s) s with
      | Res.halt h s1 => Res.halt h s1
      | Res.ok u sg =>
        match brelse p u (bread_fill u sg) with
        | Res.halt h s2 => Res.halt h s2
        | Res.ok _ s2 =>
          Res.ok (if ((bread_fill u sg).get u).data (blockno % (8 * (bread_fill u sg).BSIZE) / 8)
            &&& (1 <<< (blockno % (8 * (bread_fill u sg).BSIZE) % 8)) ≠ 0 then 1 else 0) s2 := by
    intro d
    have e1 := bread_eq d p dev (UBBLOCK blockno s) s
    unfold bread at e1
    unfold is_user_prog_block is_user_prog_block_with
    rw [e1, bget_of_outside h]
    cases bget_cache p dev (UBBLOCK blockno s) s with
    | halt e s1 => rfl
    | ok u sg => rfl
  refine ⟨(e d).trans (e 0).symm, ?_⟩
  rw [e d]
  rcases bget_cache_total p dev (UBBLOCK blockno s) hw with
    ⟨u, sg, hg⟩ | ⟨u, sg, hg⟩ | hg
  · rw [hg]
    obtain ⟨h1, -, h3, -, -, h6, -⟩ := bget_cache_ok hw hg
    have hwf := (bread_fill_links u sg).wf (h3.wf hw)
    have hm : u ∈ (bread_fill u sg).mru := by
      rw [(bread_fill_links u sg).mru (h3.wf hw), h3.mru hw]; exact h1
    have hl : ((bread_fill u sg).get u).lock = some p := by
      rw [bread_fill_get, if_pos rfl]; exact h6
    obtain ⟨s2, e2, hw2, -⟩ := brelse_ok hwf hm hl
    simp only [e2]
    refine ⟨by simp [Res.halt?], by simp [Res.halt?], fun t s1 ht => ?_⟩
    simp only [Res.ok.injEq] at ht
    rw [← ht.2]; exact hw2
  · rw [hg]
    exact ⟨by simp [Res.halt?], by simp [Res.halt?], fun t s1 ht => by cases ht⟩
  · rw [hg]
    exact ⟨by simp [Res.halt?], by simp [Res.halt?], fun t s1 ht => by cases ht⟩

/-- C18: the classification does not recurse into itself.  In every state with
a well formed list, for every request `(dev, blockno)` whose bitmap block
`UBBLOCK(blockno, sb)` lies outside the range `[sb.dstart, sb.dfinish)`: the
`bget` that the `bread` of `is_user_prog_block` calls is the lookup in the
ordinary cache, with no further call of `is_user_prog_block`, whatever depth is
left; so `is_user_prog_block` and `bget` give with every depth what they give
with the least one (depth 0 for the classification, 1 for `bget`), and `bget`
never stops for lack of depth nor in a scan that does not end. -/
theorem classification_depth (d p dev blockno : Nat) (s : K) (hw : WF s)
    (hpre : ¬ (s.sb.dstart ≤ UBBLOCK blockno s ∧ UBBLOCK blockno s < s.sb.dfinish)) :
    bget d p dev (UBBLOCK blockno s) s = bget_cache p dev (UBBLOCK blockno s) s ∧
      is_user_prog_block d p dev blockno s = is_user_prog_block 0 p dev blockno s ∧
      bget (d + 1) p dev blockno s = bget 1 p dev blockno s ∧
      (bget (d + 1) p dev blockno s).halt? ≠ some Halt.depth ∧
      (bget (d + 1) p dev blockno s).halt? ≠ some Halt.loop := by
  have h : ¬ (s.init_flag = true ∧ s.sb.dstart ≤ UBBLOCK blockno s ∧
      UBBLOCK blockno s < s.sb.dfinish) := fun h => hpre h.2
  have hf := fun d => is_user_prog_block_flat d p dev blockno hw h
  have e : ∀ d, bget (d + 1) p dev blockno s =
      bget_with (is_user_prog_block d) p dev blockno s := fun d => rfl
  have e2 : ∀ d, bget (d + 1) p dev blockno s = bget 1 p dev blockno s := by
    intro d
    rw [e d, e 0]
    unfold bget_with
    rw [(hf d).1]
  have hc : ∀ s1 : K, WF s1 →
      (bget_cache p dev blockno s1).halt? ≠ some Halt.depth ∧
        (bget_cache p dev blockno s1).halt? ≠ some Halt.loop := by
    intro s1 hw1
    rcases bget_cache_total p dev blockno hw1 with
      ⟨u, sg, hg⟩ | ⟨u, sg, hg⟩ | hg <;> rw [hg] <;> simp [Res.halt?]
  refine ⟨bget_of_outside h, (hf d).1, e2 d, ?_⟩
  rw [e d]
  unfold bget_with
  split
  · cases hi : is_user_prog_block d p dev blockno s with
    | halt e s1 =>
      have h1 := (hf d).2.1
      have h2 := (hf d).2.2.1
      rw [hi] at h1 h2
      exact ⟨h2, h1⟩
    | ok t s1 =>
      have hw1 := (hf d).2.2.2 t s1 hi
      simp only
      split
      · unfold get_mod_buf
        exact ⟨(get_mod_buf_loop_total _ _ _).2, (get_mod_buf_loop_total _ _ _).1⟩
      · exact hc s1 hw1
  · exact hc s hw

set_option maxRecDepth 100000 in
/-- In `demo_booted` the bitmap block of block 10 is block 3, below `dstart`. -/
theorem classification_depth_witness :
    WF demo_booted ∧ UBBLOCK 10 demo_booted = 3 ∧
      bget (5 + 1) 7 1 10 demo_booted = bget 1 7 1 10 demo_booted :=
  ⟨by decide!, by decide!,
    (classification_depth 5 7 1 10 demo_booted (by decide!) (by decide!)).2.2.1⟩

/-- The classification when the condition at the top of `bget` does not pass
the bitmap block to `is_user_prog_block`: a lookup of the bitmap block in the
ordinary cache, the read of `bread`, the test of the bit and `brelse`. -/
theorem is_user_prog_block_eq (d p dev blockno : Nat) {s : K}
    (h : ¬ (s.init_flag = true ∧ s.sb.dstart ≤ UBBLOCK blockno s ∧
      UBBLOCK blockno s < s.sb.dfinish)) :
    is_user_prog_block d p dev blockno s =
      match bget_cache p dev (UBBLOCK blockno s) s with
      | Res.halt h s1 => Res.halt h s1
      | Res.ok u sg =>
        match brelse p u (bread_fill u sg) with
        | Res.halt h s2 => Res.halt h s2
        | Res.ok _ s2 =>
          Res.ok (if ((bread_fill u sg).get u).data (blockno % (8 * (bread_fill u sg).BSIZE) / 8)
            &&& (1 <<< (blockno % (8 * (bread_fill u sg).BSIZE) % 8)) ≠ 0 then 1 else 0) s2 := by
  have e1 := bread_eq d p dev (UBBLOCK blockno s) s
  unfold bread at e1
  unfold is_user_prog_block is_user_prog_block_with
  rw [e1, bget_of_outside h]
  cases bget_cache p dev (UBBLOCK blockno s) s with
  | halt e s1 => rfl
  | ok u sg => rfl

/-- What a classification that returns has done, when the bitmap block is
looked up in the ordinary cache: `u` is the record of the bitmap block. -/
theorem is_user_prog_block_ok {d p dev blockno : Nat} {s s1 : K} {t : Nat} (hw : WF s)
    (hu : Untagged s) (hc : ∀ i < s.NBUF, (s.get (Ptr.buf i)).refcnt < UINT)
    (hpre : ¬ (s.init_flag = true ∧ s.sb.dstart ≤ UBBLOCK blockno s ∧
      UBBLOCK blockno s < s.sb.dfinish))
    (h : is_user_prog_block d p dev blockno s = Res.ok t s1) :
    ∃ u, u.is_buf s.NBUF ∧ (s.get u).lock = none ∧
      (∀ x, (s1.get x).refcnt = (s.get x).refcnt) ∧
      (∀ x, x ≠ u → (s1.get x).same_fields (s.get x)) ∧
      (s1.get u).dev = dev ∧ (s1.get u).blockno = UBBLOCK blockno s ∧
      (s1.get u).valid = true ∧ (s1.get u).lock = none ∧ (s1.get u).user_flag = false ∧
      (s1.get u).data = (if (s.get u).dev = dev ∧ (s.get u).blockno = UBBLOCK blockno s ∧
          (s.get u).valid = true then (s.get u).data else s.disk (UBBLOCK blockno s)) ∧
      (t = if (s1.get u).data (blockno % (8 * s.BSIZE) / 8)
          &&& (1 <<< (blockno % (8 * s.BSIZE) % 8)) ≠ 0 then 1 else 0) ∧
      ((s.mru.find? (fun x => is_key dev (UBBLOCK blockno s) (s.get x)) = some u) ∨
        (s.mru.find? (fun x => is_key dev (UBBLOCK blockno s) (s.get x)) = none ∧
          s.mru.reverse.find? (fun x => is_free (s.get x)) = some u)) ∧
      ((s.get u).refcnt = 0 → s1.mru = u :: s.mru.erase u) ∧
      ((s.get u).refcnt ≠ 0 → s1.mru = s.mru) ∧
      WF s1 ∧ SameCfg s s1 ∧ s1.disk = s.disk ∧
      s1.log = (if (s.get u).dev = dev ∧ (s.get u).blockno = UBBLOCK blockno s ∧
          (s.get u).valid = true then s.log else s.log ++ [Ev.read (UBBLOCK blockno s)]) := by
  rw [is_user_prog_block_eq d p dev blockno hpre] at h
  cases hg : bget_cache p dev (UBBLOCK blockno s) s with
  | halt e s' => rw [hg] at h; cases h
  | ok u sg =>
    rw [hg] at h
    simp only at h
    obtain ⟨g1, g2, g3, g4, g5, g6, g7, g8, g9, -, g11⟩ := bget_cache_ok hw hg
    have hub := (hw.mem_iff u).1 g1
    have huf : (s.get u).user_flag = false := by
      obtain ⟨i, hi, rfl⟩ := Ptr.is_buf_iff.1 hub
      exact hu i hi
    have hwg := g3.wf hw
    have hL := bread_fill_links u sg
    have hE := bread_fill_env u sg
    have hfu := bread_fill_get u sg u
    rw [if_pos rfl] at hfu
    have hwf := hL.wf hwg
    have hmf : (bread_fill u sg).mru = s.mru := (hL.mru hwg).trans (g3.mru hw)
    have hm : u ∈ (bread_fill u sg).mru := by rw [hmf]; exact g1
    have hl : ((bread_fill u sg).get u).lock = some p := by rw [hfu]; exact g6
    have huf2 : ((bread_fill u sg).get u).user_flag = false := by
      rw [hfu]; exact g9.trans huf
    obtain ⟨s2, e2, hw2, hE2, hl2, hF, hO, -, -⟩ := brelse_ok hwf hm hl
    have hord := brelse_order hwf hm huf2 e2
    have hrc := brelse_refcnt huf2 e2
    rw [e2] at h
    simp only [Res.ok.injEq] at h
    obtain ⟨ht, rfl⟩ := h
    have hcu : (s.get u).refcnt < UINT := by
      obtain ⟨i, hi, rfl⟩ := Ptr.is_buf_iff.1 hub
      exact hc i hi
    have hfr : ((bread_fill u sg).get u).refcnt = (sg.get u).refcnt := by rw [hfu]
    have hr : (s2.get u).refcnt = (s.get u).refcnt := by
      rw [hrc, hfr]
      rcases g11 with ⟨-, -, -, k4⟩ | ⟨-, k2, -, k4⟩
      · rw [k4]; exact udec_uinc hcu
      · rw [k4, (find_free_some k2).2]; exact udec_one
    have hother : ∀ x, x ≠ u → (bread_fill u sg).get x = s.get x := by
      intro x hx
      rw [bread_fill_get, if_neg hx]; exact g5 x hx
    have hmatch : ((s.get u).dev = dev ∧ (s.get u).blockno = UBBLOCK blockno s ∧
        (s.get u).valid = true) ↔ (sg.get u).valid = true := by
      rcases g11 with ⟨k1, k2, -, -⟩ | ⟨k1, -, k3, -⟩
      · obtain ⟨-, a1, a2⟩ := find_is_key k1
        rw [k2]
        exact ⟨fun a => a.2.2, fun a => ⟨a1, a2, a⟩⟩
      · rw [k3]
        refine ⟨fun a => ?_, fun a => by cases a⟩
        exact absurd ⟨a.1, a.2.1⟩ (find_key_none.1 k1 u g1)
    refine ⟨u, hub, g2, fun x => ?_, fun x hx => ?_, ?_, ?_, ?_, hl2, ?_, ?_, ?_, ?_,
      fun h0 => ?_, fun h0 => ?_, hw2, ?_, ?_, ?_⟩
    · by_cases hx : x = u
      · subst hx; exact hr
      · rw [(hO x hx).2, hother x hx]
    · obtain ⟨a1, a2, a3, a4, a5⟩ := hF x
      obtain ⟨a6, a7⟩ := hO x hx
      rw [hother x hx] at a1 a2 a3 a4 a5 a6 a7
      exact ⟨a3, a1, a2, a6, a7, a4, a5⟩
    · rw [(hF u).1, hfu]; exact g7
    · rw [(hF u).2.1, hfu]; exact g8
    · rw [(hF u).2.2.1, hfu]
    · rw [(hF u).2.2.2.2]; exact huf2
    · rw [(hF u).2.2.2.1, hfu]
      simp only
      by_cases hv : (sg.get u).valid = true
      · rw [if_pos hv, if_pos (hmatch.2 hv)]
        rcases g11 with ⟨-, -, k3, -⟩ | ⟨-, -, k3, -⟩
        · exact k3
        · rw [k3] at hv; cases hv
      · rw [if_neg hv, if_neg (fun a => hv (hmatch.1 a)), g8, g4.2.2.2.2.2.1]
    · rw [← ht, (hF u).2.2.2.1, hE.2.1, g4.2.1]
    · rcases g11 with ⟨k1, -⟩ | ⟨k1, k2, -⟩
      · exact Or.inl k1
      · exact Or.inr ⟨k1, k2⟩
    · rw [hord.1 (hr.trans h0), hmf]
    · rw [hord.2 (by rw [hr]; exact h0), hmf]
    · exact ⟨hE2.1.trans (hE.1.trans g4.1), hE2.2.1.trans (hE.2.1.trans g4.2.1),
        hE2.2.2.1.trans (hE.2.2.1.trans g4.2.2.1),
        hE2.2.2.2.1.trans (hE.2.2.2.1.trans g4.2.2.2.1),
        hE2.2.2.2.2.1.trans (hE.2.2.2.2.1.trans g4.2.2.2.2.1)⟩
    · exact hE2.2.2.2.2.2.1.trans (hE.2.2.2.2.2.1.trans g4.2.2.2.2.2.1)
    · rw [hE2.2.2.2.2.2.2, hE.2.2.2.2.2.2, g4.2.2.2.2.2.2, g8]
      by_cases hv : (sg.get u).valid = true
      · rw [if_pos hv, if_pos (hmatch.2 hv)]
      · rw [if_neg hv, if_neg (fun a => hv (hmatch.1 a))]

/-- C20: the side effects of the classification on the ordinary cache.  Take a
state with a well formed list, no preloaded tag on the records of the pool and
reference counts that are `uint` values, and a request whose bitmap block
`UBBLOCK(blockno, sb)` the condition at the top of `bget` does not pass to
`is_user_prog_block`.
First, when `is_user_prog_block(dev, blockno)` returns: every reference count
is what it was; one record `u` of the pool, whose lock was free and is free
again, holds the bitmap block with the validity flag set; every other record
has all its fields (the links apart) as before; `u` is the first record with
the key of the bitmap block, or, when no record had that key, the record with
count 0 nearest to the least recently used end; the list moved `u` to the
front when its count was 0 and is unchanged otherwise; the disk did not change.
Second, when no record has the key of the bitmap block and no record has count
0, the classification stops with `panic("bget: no buffers")` in the state of
the call.
Third, a `bget` that returns a slot of the preloaded store leaves every
reference count of the pool as it was. -/
theorem classification_side_effects (d p dev blockno : Nat) (s : K) (hw : WF s)
    (hu : Untagged s) (hc : ∀ i < s.NBUF, (s.get (Ptr.buf i)).refcnt < UINT)
    (hpre : ¬ (s.init_flag = true ∧ s.sb.dstart ≤ UBBLOCK blockno s ∧
      UBBLOCK blockno s < s.sb.dfinish)) :
    (∀ t s1, is_user_prog_block d p dev blockno s = Res.ok t s1 →
      ∃ u, u.is_buf s.NBUF ∧ (s.get u).lock = none ∧ (s1.get u).lock = none ∧
        (∀ x, (s1.get x).refcnt = (s.get x).refcnt) ∧
        (∀ x, x ≠ u → (s1.get x).same_fields (s.get x)) ∧
        (s1.get u).dev = dev ∧ (s1.get u).blockno = UBBLOCK blockno s ∧
        (s1.get u).valid = true ∧ (s1.get u).user_flag = false ∧
        ((s.mru.find? (fun x => is_key dev (UBBLOCK blockno s) (s.get x)) = some u) ∨
          (s.mru.find? (fun x => is_key dev (UBBLOCK blockno s) (s.get x)) = none ∧
            s.mru.reverse.find? (fun x => is_free (s.get x)) = some u ∧
            (s.get u).refcnt = 0)) ∧
        ((s.get u).refcnt = 0 → s1.mru = u :: s.mru.erase u) ∧
        ((s.get u).refcnt ≠ 0 → s1.mru = s.mru) ∧
        WF s1 ∧ SameCfg s s1 ∧ s1.disk = s.disk) ∧
    ((s.mru.find? (fun x => is_key dev (UBBLOCK blockno s) (s.get x)) = none ∧
        ∀ x ∈ s.mru, (s.get x).refcnt ≠ 0) →
      is_user_prog_block d p dev blockno s = Res.halt (Halt.panic "bget: no buffers") s) ∧
    (∀ b s2, bget (d + 1) p dev blockno s = Res.ok b s2 → b.is_mod →
      ∀ x, x.is_buf s.NBUF → (s2.get x).refcnt = (s.get x).refcnt) := by
  refine ⟨fun t s1 h => ?_, fun h => ?_, fun b s2 h hb x hx => ?_⟩
  · obtain ⟨u, h1, h2, h3, h4, h5, h6, h7, h8, h9, -, -, h12, h13, h14, h15, h16, h17, -⟩ :=
      is_user_prog_block_ok hw hu hc hpre h
    refine ⟨u, h1, h2, h8, h3, h4, h5, h6, h7, h9, ?_, h13, h14, h15, h16, h17⟩
    rcases h12 with k | ⟨k1, k2⟩
    · exact Or.inl k
    · exact Or.inr ⟨k1, k2, (find_free_some k2).2⟩
  · rw [is_user_prog_block_eq d p dev blockno hpre,
      bget_cache_none hw h.1 (find_free_none.2 (fun x hx => h.2 x (List.mem_reverse.1 hx)))]
  · have e : bget (d + 1) p dev blockno s =
        bget_with (is_user_prog_block d) p dev blockno s := rfl
    rw [e] at h
    unfold bget_with at h
    have hpool : ∀ s0 : K, WF s0 → bget_cache p dev blockno s0 ≠ Res.ok b s2 := by
      intro s0 hw0 h0
      obtain ⟨g1, g2, g3, g4, -⟩ := bget_cache_ok hw0 h0
      have := (hw0.mem_iff b).1 g1
      cases b <;> first | exact hb | exact this
    split at h
    · cases hi : is_user_prog_block d p dev blockno s with
      | halt e1 s1 => rw [hi] at h; cases h
      | ok t s1 =>
        rw [hi] at h
        simp only at h
        obtain ⟨u, -, -, h3, -, -, -, -, -, -, -, -, -, -, -, h15, -⟩ :=
          is_user_prog_block_ok hw hu hc hpre hi
        split at h
        · obtain ⟨k, -, rfl, -, -, -, -, -, -, -, g10, -⟩ := get_mod_buf_ok h
          have hne : x ≠ Ptr.mod k := by
            intro e2; subst e2; exact hx
          rw [g10 x hne, h3 x]
        · exact absurd h (hpool s1 h15)
    · exact absurd h (hpool s hw)

set_option maxRecDepth 100000 in
/-- In `demo_booted` block 10 is preloaded and its bitmap block is block 3. -/
theorem classification_side_effects_witness :
    WF demo_booted ∧ Untagged demo_booted ∧
      (bget 1 7 1 10 demo_booted).val? = some (Ptr.mod 0) ∧
      ∀ x, x.is_buf demo_booted.NBUF →
        ((bget 1 7 1 10 demo_booted).state.get x).refcnt = (demo_booted.get x).refcnt :=
  ⟨by decide!, by decide!, by decide!,
    (classification_side_effects 0 7 1 10 demo_booted (by decide!) (by decide!) (by decide!)
      (by decide!)).2.2 (Ptr.mod 0) _ (Res.eq_ok (by decide!)) trivial⟩

/-- The classification keeps a property of the state that the lookup in the
ordinary cache, the read of `bread` and `brelse` keep, if the `bget` it calls
keeps it. -/
theorem isup_keeps {P : K → Prop}
    (hfill : ∀ (b : Ptr) (sg : K), P sg → P (bread_fill b sg))
    (hrel : ∀ (p : Nat) (u : Ptr) (s s2 : K), WF s → Tagged s → P s →
      (u.is_buf s.NBUF ∨ ∃ k < s.sb.userbcount, u = Ptr.mod k) →
      brelse p u s = Res.ok () s2 → P s2)
    {d : Nat}
    (ih : ∀ (p dev blockno : Nat) (s s2 : K) (b : Ptr), WF s → Tagged s → P s →
      bget d p dev blockno s = Res.ok b s2 → P s2)
    {p dev blockno : Nat} {s s1 : K} {t : Nat} (hw : WF s) (ht : Tagged s) (hp : P s)
    (h : is_user_prog_block d p dev blockno s = Res.ok t s1) : P s1 := by
  unfold is_user_prog_block is_user_prog_block_with at h
  rw [← bread, bread_eq] at h
  cases hg : bget d p dev (UBBLOCK blockno s) s with
  | halt e s' => rw [hg] at h; cases h
  | ok u sg =>
    rw [hg] at h
    simp only at h
    obtain ⟨g1, g2, g3, g4, g5⟩ := bget_inv d p dev (UBBLOCK blockno s) s sg u hw ht hg
    have hpg := ih p dev (UBBLOCK blockno s) s sg u hw ht hp hg
    have hL := bread_fill_links u sg
    have hE := bread_fill_env u sg
    have hwf := hL.wf g1
    have hcf : SameCfg sg (bread_fill u sg) :=
      ⟨hE.1, hE.2.1, hE.2.2.1, hE.2.2.2.1, hE.2.2.2.2.1⟩
    have htf : Tagged (bread_fill u sg) := by
      refine g2.of_user_flag hcf (fun c => ?_)
      rw [bread_fill_get]; split
      · subst_vars; rfl
      · rfl
    have huf : u.is_buf (bread_fill u sg).NBUF ∨
        ∃ k < (bread_fill u sg).sb.userbcount, u = Ptr.mod k := by
      rw [hE.1, hE.2.2.2.1]; exact g5
    cases hr : brelse p u (bread_fill u sg) with
    | halt e s' => rw [hr] at h; cases h
    | ok x s0 =>
      rw [hr] at h
      simp only [Res.ok.injEq] at h
      obtain ⟨-, h2⟩ := h
      subst h2
      exact hrel p u _ _ hwf htf (hfill u sg hpg) huf hr

/-- A property of the state that the lookup in the ordinary cache, the read of
`bread`, `brelse` and `get_mod_buf` keep is kept by `bget`, at every depth. -/
theorem bget_keeps {P : K → Prop}
    (hcache : ∀ (p dev blockno : Nat) (s sg : K) (b : Ptr), WF s → P s →
      bget_cache p dev blockno s = Res.ok b sg → P sg)
    (hfill : ∀ (b : Ptr) (sg : K), P sg → P (bread_fill b sg))
    (hrel : ∀ (p : Nat) (u : Ptr) (s s2 : K), WF s → Tagged s → P s →
      (u.is_buf s.NBUF ∨ ∃ k < s.sb.userbcount, u = Ptr.mod k) →
      brelse p u s = Res.ok () s2 → P s2)
    (hmod : ∀ (p dev blockno : Nat) (s s2 : K) (b : Ptr), P s →
      get_mod_buf p dev blockno s = Res.ok b s2 → P s2) :
    ∀ (d p dev blockno : Nat) (s s2 : K) (b : Ptr), WF s → Tagged s → P s →
      bget d p dev blockno s = Res.ok b s2 → P s2 := by
  intro d
  induction d with
  | zero =>
    intro p dev blockno s s2 b hw ht hp h
    rw [bget_eq] at h
    cases hr : bget_routed 0 p dev blockno s with
    | halt e s' => rw [hr] at h; cases h
    | ok r s1 =>
      rw [hr] at h
      unfold bget_routed at hr
      split at hr
      · cases hr
      · simp only [Res.ok.injEq] at hr
        obtain ⟨rfl, rfl⟩ := hr
        exact hcache p dev blockno s s2 b hw hp h
  | succ d ih =>
    intro p dev blockno s s2 b hw ht hp h
    rw [bget_eq] at h
    cases hr : bget_routed (d + 1) p dev blockno s with
    | halt e s' => rw [hr] at h; cases h
    | ok r s1 =>
      rw [hr] at h
      unfold bget_routed at hr
      split at hr
      · simp only at hr
        cases hi : is_user_prog_block d p dev blockno s with
        | halt e s' => rw [hi] at hr; cases hr
        | ok t s0 =>
          rw [hi] at hr
          simp only [Res.ok.injEq] at hr
          obtain ⟨hr1, rfl⟩ := hr
          obtain ⟨r1, r2, r3, -⟩ := isup_of_bget (bget_inv d) hw ht hi
          have hp0 := isup_keeps hfill hrel ih hw ht hp hi
          cases r with
          | true => exact hmod p dev blockno s0 s2 b hp0 h
          | false => exact hcache p dev blockno s0 s2 b r1 hp0 h
      · simp only [Res.ok.injEq] at hr
        obtain ⟨rfl, rfl⟩ := hr
        exact hcache p dev blockno s s2 b hw hp h

/-- The copies of block `ub` in the cache stay those of the disk, and block
`ub` of the disk stays what it is, through the lookup in the ordinary cache,
the read of `bread`, `brelse` and `get_mod_buf`. -/
theorem cleanAt_steps (ub : Nat) (m : Nat → Nat) :
    (∀ (p dev blockno : Nat) (s sg : K) (b : Ptr), WF s →
      (CleanAt s ub ∧ s.disk ub = m) →
      bget_cache p dev blockno s = Res.ok b sg → (CleanAt sg ub ∧ sg.disk ub = m)) ∧
    (∀ (b : Ptr) (sg : K), (CleanAt sg ub ∧ sg.disk ub = m) →
      (CleanAt (bread_fill b sg) ub ∧ (bread_fill b sg).disk ub = m)) ∧
    (∀ (p : Nat) (u : Ptr) (s s2 : K), WF s → Tagged s → (CleanAt s ub ∧ s.disk ub = m) →
      (u.is_buf s.NBUF ∨ ∃ k < s.sb.userbcount, u = Ptr.mod k) →
      brelse p u s = Res.ok () s2 → (CleanAt s2 ub ∧ s2.disk ub = m)) ∧
    (∀ (p dev blockno : Nat) (s s2 : K) (b : Ptr), (CleanAt s ub ∧ s.disk ub = m) →
      get_mod_buf p dev blockno s = Res.ok b s2 → (CleanAt s2 ub ∧ s2.disk ub = m)) := by
  refine ⟨fun p dev blockno s sg b hw hp h => ?_, fun b sg hp => ?_,
    fun p u s s2 hw ht hp hu h => ?_, fun p dev blockno s s2 b hp h => ?_⟩
  · obtain ⟨-, -, -, g4, g5, -, -, g8, -, -, g11⟩ := bget_cache_ok hw h
    refine ⟨fun i hi hv hb k hk => ?_, by rw [g4.2.2.2.2.2.1]; exact hp.2⟩
    rw [g4.1] at hi
    rw [g4.2.1] at hk
    rw [g4.2.2.2.2.2.1]
    by_cases hx : Ptr.buf i = b
    · rw [hx] at hv hb ⊢
      rcases g11 with ⟨k1, k2, k3, -⟩ | ⟨-, -, k3, -⟩
      · rw [k3]
        rw [k2] at hv
        have e : (s.get b).blockno = ub := by rw [← hb, g8, (find_is_key k1).2.2]
        have := hp.1 i hi (by rw [hx]; exact hv) (by rw [hx]; exact e) k hk
        rw [hx] at this; exact this
      · rw [k3] at hv; cases hv
    · rw [g5 _ hx] at hv hb ⊢
      exact hp.1 i hi hv hb k hk
  · have hE := bread_fill_env b sg
    refine ⟨fun i hi hv hb k hk => ?_, by rw [hE.2.2.2.2.2.1]; exact hp.2⟩
    rw [hE.1] at hi
    rw [hE.2.1] at hk
    rw [hE.2.2.2.2.2.1]
    rw [bread_fill_get] at hv hb ⊢
    by_cases hx : Ptr.buf i = b
    · rw [if_pos hx] at hv hb ⊢
      simp only at hb ⊢
      by_cases hvv : (sg.get b).valid = true
      · rw [if_pos hvv]
        have := hp.1 i hi (by rw [hx]; exact hvv) (by rw [hx]; exact hb) k hk
        rw [hx] at this; exact this
      · rw [if_neg hvv, hb]
    · rw [if_neg hx] at hv hb ⊢
      exact hp.1 i hi hv hb k hk
  · have hl := brelse_ok_lock h
    obtain ⟨-, -, r3, -, r5⟩ := brelse_ok_any hw ht hu h
    have hF : ∀ i, (s2.get (Ptr.buf i)).valid = (s.get (Ptr.buf i)).valid ∧
        (s2.get (Ptr.buf i)).blockno = (s.get (Ptr.buf i)).blockno ∧
        (s2.get (Ptr.buf i)).data = (s.get (Ptr.buf i)).data := by
      intro i
      rcases hu with hu | ⟨k, hk, rfl⟩
      · obtain ⟨s3, e, -, -, -, hf, -⟩ := brelse_ok hw ((hw.mem_iff u).2 hu) hl
        rw [e] at h
        simp only [Res.ok.injEq, true_and] at h
        subst h
        exact ⟨(hf _).2.2.1, (hf _).2.1, (hf _).2.2.2.1⟩
      · rw [brelse_user hl (ht.2 k hk)] at h
        simp only [Res.ok.injEq, true_and] at h
        subst h
        rw [K.get_set_ne _ _ (by simp)]
        exact ⟨rfl, rfl, rfl⟩
    refine ⟨fun i hi hv hb k hk => ?_, by rw [r5]; exact hp.2⟩
    rw [r3.1] at hi
    rw [r3.2.1] at hk
    rw [(hF i).1] at hv
    rw [(hF i).2.1] at hb
    rw [(hF i).2.2, r5]
    exact hp.1 i hi hv hb k hk
  · obtain ⟨k0, -, rfl, -, -, -, g6, g7, -, -, g10, -⟩ := get_mod_buf_ok h
    refine ⟨fun i hi hv hb k hk => ?_, by rw [g7]; exact hp.2⟩
    rw [g6.1] at hi
    rw [g6.2.1] at hk
    rw [g10 _ (by simp)] at hv hb ⊢
    rw [g7]
    exact hp.1 i hi hv hb k hk

/-- What the states of `Quiet ub s0` keep of `s0`. -/
theorem quiet_inv {ub : Nat} {s0 s : K} (h : Quiet ub s0 s) (hw0 : WF s0) (ht0 : Tagged s0)
    (hc0 : CleanAt s0 ub) :
    WF s ∧ Tagged s ∧ SameCfg s0 s ∧ CleanAt s ub ∧ s.disk ub = s0.disk ub := by
  obtain ⟨c1, c2, c3, c4⟩ := cleanAt_steps ub (s0.disk ub)
  induction h with
  | start => exact ⟨hw0, ht0, SameCfg.cfg_refl s0, hc0, rfl⟩
  | bget d p dev blockno b _ hb ih =>
    obtain ⟨i1, i2, i3, i4, i5⟩ := ih
    obtain ⟨g1, g2, g3, -⟩ := bget_inv d p dev blockno _ _ b i1 i2 hb
    have := bget_keeps c1 c2 c3 c4 d p dev blockno _ _ b i1 i2 ⟨i4, i5⟩ hb
    exact ⟨g1, g2, i3.cfg_trans g3, this.1, this.2⟩
  | bread d p dev blockno b _ hb ih =>
    obtain ⟨i1, i2, i3, i4, i5⟩ := ih
    rw [bread_eq] at hb
    cases hg : bget d p dev blockno _ with
    | halt e s' => rw [hg] at hb; cases hb
    | ok u sg =>
      rw [hg] at hb
      simp only [Res.ok.injEq] at hb
      obtain ⟨rfl, rfl⟩ := hb
      obtain ⟨g1, g2, g3, -⟩ := bget_inv d p dev blockno _ _ u i1 i2 hg
      have hk := bget_keeps c1 c2 c3 c4 d p dev blockno _ _ u i1 i2 ⟨i4, i5⟩ hg
      have hE := bread_fill_env u sg
      have hcf : SameCfg sg (bread_fill u sg) :=
        ⟨hE.1, hE.2.1, hE.2.2.1, hE.2.2.2.1, hE.2.2.2.2.1⟩
      have htf : Tagged (bread_fill u sg) := by
        refine g2.of_user_flag hcf (fun c => ?_)
        rw [bread_fill_get]; split
        · subst_vars; rfl
        · rfl
      have := c2 u sg hk
      exact ⟨(bread_fill_links u sg).wf g1, htf, (i3.cfg_trans g3).cfg_trans hcf,
        this.1, this.2⟩
  | classify d p dev blockno t _ hb ih =>
    obtain ⟨i1, i2, i3, i4, i5⟩ := ih
    obtain ⟨g1, g2, g3, -⟩ := is_user_prog_block_inv i1 i2 hb
    have := isup_keeps c2 c3 (bget_keeps c1 c2 c3 c4 d) i1 i2 ⟨i4, i5⟩ hb
    exact ⟨g1, g2, i3.cfg_trans g3, this.1, this.2⟩
  | brelse p b _ hu hb ih =>
    obtain ⟨i1, i2, i3, i4, i5⟩ := ih
    obtain ⟨g1, g2, g3, -⟩ := brelse_ok_any i1 i2 hu hb
    have := c3 p b _ _ i1 i2 ⟨i4, i5⟩ hu hb
    exact ⟨g1, g2, i3.cfg_trans g3, this.1, this.2⟩
  | @bpin s b _ ih =>
    obtain ⟨i1, i2, i3, i4, i5⟩ := ih
    have hl := bpin_links b s
    have hg : ∀ c, ((bpin b s).get c).user_flag = (s.get c).user_flag ∧
        ((bpin b s).get c).valid = (s.get c).valid ∧
        ((bpin b s).get c).blockno = (s.get c).blockno ∧
        ((bpin b s).get c).data = (s.get c).data := by
      intro c
      unfold bpin
      split
      · exact ⟨rfl, rfl, rfl, rfl⟩
      · rw [K.get_set]; split
        · subst_vars; exact ⟨rfl, rfl, rfl, rfl⟩
        · exact ⟨rfl, rfl, rfl, rfl⟩
    refine ⟨hl.1.wf i1, i2.of_user_flag hl.2.cfg (fun c => (hg c).1), i3.cfg_trans hl.2.cfg,
      fun i hi hv hb k hk => ?_, by rw [hl.2.2.2.2.2.2.1]; exact i5⟩
    rw [hl.2.1] at hi
    rw [hl.2.2.1] at hk
    rw [(hg _).2.1] at hv
    rw [(hg _).2.2.1] at hb
    rw [(hg _).2.2.2, hl.2.2.2.2.2.2.1]
    exact i4 i hi hv hb k hk
  | @bunpin s b _ ih =>
    obtain ⟨i1, i2, i3, i4, i5⟩ := ih
    have hl := bunpin_links b s
    have hg : ∀ c, ((bunpin b s).get c).user_flag = (s.get c).user_flag ∧
        ((bunpin b s).get c).valid = (s.get c).valid ∧
        ((bunpin b s).get c).blockno = (s.get c).blockno ∧
        ((bunpin b s).get c).data = (s.get c).data := by
      intro c
      unfold bunpin
      split
      · exact ⟨rfl, rfl, rfl, rfl⟩
      · rw [K.get_set]; split
        · subst_vars; exact ⟨rfl, rfl, rfl, rfl⟩
        · exact ⟨rfl, rfl, rfl, rfl⟩
    refine ⟨hl.1.wf i1, i2.of_user_flag hl.2.cfg (fun c => (hg c).1), i3.cfg_trans hl.2.cfg,
      fun i hi hv hb k hk => ?_, by rw [hl.2.2.2.2.2.2.1]; exact i5⟩
    rw [hl.2.1] at hi
    rw [hl.2.2.1] at hk
    rw [(hg _).2.1] at hv
    rw [(hg _).2.2.1] at hb
    rw [(hg _).2.2.2, hl.2.2.2.2.2.2.1]
    exact i4 i hi hv hb k hk
  | @bwrite s s1 p b _ hn hb ih =>
    obtain ⟨i1, i2, i3, i4, i5⟩ := ih
    obtain ⟨-, e, hS, hN, hI, hg⟩ := bwrite_ok hb
    subst e
    have hd : (virtio_disk_rw b true s).disk ub = s.disk ub := by
      simp [virtio_disk_rw, K.put_block, Function.update_noteq hn.symm]
    have hcf : SameCfg s (virtio_disk_rw b true s) := by
      simp [SameCfg, virtio_disk_rw]
    refine ⟨hS.wf i1, i2.of_user_flag hcf (fun c => by rw [hg]), i3.cfg_trans hcf,
      fun i hi hv hbn k hk => ?_, by rw [hd]; exact i5⟩
    rw [hcf.1] at hi
    rw [hcf.2.1] at hk
    rw [hg] at hv hbn ⊢
    rw [hd]
    exact i4 i hi hv hbn k hk
  | @store s p b v _ hl hn ih =>
    obtain ⟨i1, i2, i3, i4, i5⟩ := ih
    have hS : SameLinks s (s.set b { s.get b with data := v }) := by
      apply SameLinks.of_set <;> rfl
    have hcf := (SameEnv.env_set s b { s.get b with data := v }).cfg
    refine ⟨hS.wf i1, i2.of_user_flag hcf (fun c => ?_), i3.cfg_trans hcf,
      fun i hi hv hbn k hk => ?_, by rw [K.set_disk]; exact i5⟩
    · rw [K.get_set]; split
      · subst_vars; rfl
      · rfl
    · rw [K.set_NBUF] at hi
      rw [K.set_BSIZE] at hk
      rw [K.set_disk]
      by_cases hx : Ptr.buf i = b
      · rw [hx, K.get_set_same] at hbn
        exact absurd hbn hn
      · rw [K.get_set_ne _ _ hx] at hv hbn ⊢
        exact i4 i hi hv hbn k hk

theorem and_shift_ne_zero (x k : Nat) : x &&& (1 <<< k) ≠ 0 ↔ x.testBit k = true := by
  rw [Nat.one_shiftLeft, Nat.and_two_pow]
  cases h : x.testBit k <;> simp

/-- The value of a classification that returns, when the copies of the bitmap
block in the cache are those of the disk: the bit of the block in the bitmap
on the disk. -/
theorem is_user_prog_block_value {d p dev blockno : Nat} {s s1 : K} {t : Nat} (hw : WF s)
    (hpre : ¬ (s.init_flag = true ∧ s.sb.dstart ≤ UBBLOCK blockno s ∧
      UBBLOCK blockno s < s.sb.dfinish))
    (hcl : CleanAt s (UBBLOCK blockno s)) (hB : 0 < s.BSIZE)
    (h : is_user_prog_block d p dev blockno s = Res.ok t s1) :
    t = if bitmap_bit s.disk s.sb s.BSIZE blockno = true then 1 else 0 := by
  rw [is_user_prog_block_eq d p dev blockno hpre] at h
  cases hg : bget_cache p dev (UBBLOCK blockno s) s with
  | halt e s' => rw [hg] at h; cases h
  | ok u sg =>
    rw [hg] at h
    simp only at h
    cases hr : brelse p u (bread_fill u sg) with
    | halt e s' => rw [hr] at h; cases h
    | ok x s2 =>
      rw [hr] at h
      simp only [Res.ok.injEq] at h
      obtain ⟨ht, -⟩ := h
      obtain ⟨g1, -, -, g4, -, -, -, g8, -, -, g11⟩ := bget_cache_ok hw hg
      have hE := bread_fill_env u sg
      have hfu := bread_fill_get u sg u
      rw [if_pos rfl] at hfu
      have hk : blockno % (8 * s.BSIZE) / 8 < s.BSIZE := by
        have := Nat.mod_lt blockno (show 0 < 8 * s.BSIZE by omega)
        omega
      have hd : ((bread_fill u sg).get u).data (blockno % (8 * s.BSIZE) / 8) =
          s.disk (UBBLOCK blockno s) (blockno % (8 * s.BSIZE) / 8) := by
        rw [hfu]
        simp only
        by_cases hv : (sg.get u).valid = true
        · rw [if_pos hv]
          rcases g11 with ⟨k1, k2, k3, -⟩ | ⟨-, -, k3, -⟩
          · rw [k3]
            obtain ⟨i, hi, rfl⟩ := Ptr.is_buf_iff.1 ((hw.mem_iff u).1 g1)
            exact hcl i hi (k2 ▸ hv) (find_is_key k1).2.2 _ hk
          · rw [k3] at hv; cases hv
        · rw [if_neg hv, g8, g4.2.2.2.2.2.1]
      rw [hE.2.1, g4.2.1, hd] at ht
      rw [← ht]
      have e : bitmap_bit s.disk s.sb s.BSIZE blockno =
          (s.disk (UBBLOCK blockno s) (blockno % (8 * s.BSIZE) / 8)).testBit
            (blockno % (8 * s.BSIZE) % 8) := rfl
      rw [e]
      by_cases hb : (s.disk (UBBLOCK blockno s) (blockno % (8 * s.BSIZE) / 8)).testBit
          (blockno % (8 * s.BSIZE) % 8) = true
      · rw [if_pos hb, if_pos ((and_shift_ne_zero _ _).2 hb)]
      · rw [if_neg hb, if_neg (fun a => hb ((and_shift_ne_zero _ _).1 a))]

/-- The classification returns exactly when the lookup of the bitmap block in
the ordinary cache does. -/
theorem is_user_prog_block_returns (d p dev blockno : Nat) {s : K} (hw : WF s)
    (hpre : ¬ (s.init_flag = true ∧ s.sb.dstart ≤ UBBLOCK blockno s ∧
      UBBLOCK blockno s < s.sb.dfinish)) :
    (∃ t s1, is_user_prog_block d p dev blockno s = Res.ok t s1) ↔
      ∃ u sg, bget_cache p dev (UBBLOCK blockno s) s = Res.ok u sg := by
  rw [is_user_prog_block_eq d p dev blockno hpre]
  constructor
  · rintro ⟨t, s1, h⟩
    cases hg : bget_cache p dev (UBBLOCK blockno s) s with
    | halt e s' => rw [hg] at h; cases h
    | ok u sg => exact ⟨u, sg, rfl⟩
  · rintro ⟨u, sg, hg⟩
    rw [hg]
    obtain ⟨g1, -, g3, -, -, g6, -⟩ := bget_cache_ok hw hg
    have hwg := g3.wf hw
    have hL := bread_fill_links u sg
    have hm : u ∈ (bread_fill u sg).mru := by
      rw [hL.mru hwg, g3.mru hw]; exact g1
    have hl : ((bread_fill u sg).get u).lock = some p := by
      rw [bread_fill_get, if_pos rfl]; exact g6
    obtain ⟨s2, e2, -⟩ := brelse_ok (hL.wf hwg) hm hl
    simp only [e2]
    exact ⟨_, _, rfl⟩

/-- C12: the value of the classification and its stability.  Let `s0` be a
state with a well formed list, the preloaded tags in place and a positive block
size, in which the cached copies of the bitmap block `ub` are those of the
disk, as after the bootstrap, and let `ub` lie outside `[sb.dstart,
sb.dfinish)`.  Let `s` be any state reached from `s0` by calls of `bget`,
`bread`, `is_user_prog_block`, `brelse`, `bpin` and `bunpin` that return, and
by `bwrite` and payload updates on records of other blocks than `ub`
(`Quiet`).  Then for every block `blockno` that `ub` covers,
`is_user_prog_block(dev, blockno)` in `s` returns exactly when the lookup of
`ub` in the ordinary cache returns, and when it returns its value is 1 if the
bit of `blockno` in the bitmap on the disk of `s0` is set and 0 if it is not:
the same value in every such state, whatever was evicted in between. -/
theorem classification_stable (ub : Nat) (s0 s : K) (hw0 : WF s0) (ht0 : Tagged s0)
    (hc0 : CleanAt s0 ub) (hB : 0 < s0.BSIZE) (hq : Quiet ub s0 s) (d p dev blockno : Nat)
    (hub : UBBLOCK blockno s0 = ub)
    (hpre : ¬ (s0.sb.dstart ≤ ub ∧ ub < s0.sb.dfinish)) :
    ((∃ t s1, is_user_prog_block d p dev blockno s = Res.ok t s1) ↔
        ∃ u sg, bget_cache p dev ub s = Res.ok u sg) ∧
      ∀ t s1, is_user_prog_block d p dev blockno s = Res.ok t s1 →
        (t = 1 ↔ bitmap_bit s0.disk s0.sb s0.BSIZE blockno = true) ∧
        (t = 0 ↔ bitmap_bit s0.disk s0.sb s0.BSIZE blockno = false) ∧
        Quiet ub s0 s1 := by
  obtain ⟨i1, i2, i3, i4, i5⟩ := quiet_inv hq hw0 ht0 hc0
  have hu : UBBLOCK blockno s = ub := by
    rw [← hub]
    unfold UBBLOCK K.BPB
    rw [i3.2.1, i3.2.2.2.1]
  have hp : ¬ (s.init_flag = true ∧ s.sb.dstart ≤ UBBLOCK blockno s ∧
      UBBLOCK blockno s < s.sb.dfinish) := by
    rw [hu, i3.2.2.2.1]
    exact fun a => hpre a.2
  refine ⟨?_, fun t s1 h => ?_⟩
  · rw [← hu]; exact is_user_prog_block_returns d p dev blockno i1 hp
  · have hv := is_user_prog_block_value i1 hp (hu ▸ i4) (i3.2.1 ▸ hB) h
    have e : bitmap_bit s.disk s.sb s.BSIZE blockno =
        bitmap_bit s0.disk s0.sb s0.BSIZE blockno := by
      have e1 : bitmap_bit s.disk s.sb s.BSIZE blockno =
          (s.disk (UBBLOCK blockno s) (blockno % (8 * s.BSIZE) / 8)).testBit
            (blockno % (8 * s.BSIZE) % 8) := rfl
      have e2 : bitmap_bit s0.disk s0.sb s0.BSIZE blockno =
          (s0.disk (UBBLOCK blockno s0) (blockno % (8 * s0.BSIZE) / 8)).testBit
            (blockno % (8 * s0.BSIZE) % 8) := rfl
      rw [e1, e2, hu, hub, i5, i3.2.1]
    rw [e] at hv
    refine ⟨?_, ?_, Quiet.classify d p dev blockno t hq h⟩
    · rw [hv]
      cases bitmap_bit s0.disk s0.sb s0.BSIZE blockno <;> simp
    · rw [hv]
      cases bitmap_bit s0.disk s0.sb s0.BSIZE blockno <;> simp

set_option maxRecDepth 100000 in
/-- Block 10 is marked in the bitmap block 3 of `demo_disk`.  In `small_booted`
the bitmap block is cached; in `small_evicted`, reached by three reads and
releases, it is not; the classification returns 1 in both. -/
theorem classification_stable_witness :
    WF small_booted ∧ Tagged small_booted ∧ CleanAt small_booted 3 ∧
      Quiet 3 small_booted small_evicted ∧
      (∀ x ∈ small_evicted.mru, (small_evicted.get x).blockno ≠ 3) ∧
      (is_user_prog_block 0 7 1 10 small_booted).val? = some 1 ∧
      (is_user_prog_block 0 7 1 10 small_evicted).val? = some 1 ∧
      bitmap_bit small_booted.disk small_booted.sb small_booted.BSIZE 10 = true :=
  have q1 : Quiet 3 small_booted small_r1 :=
    Quiet.bread 1 7 1 1000 (Ptr.buf 2) Quiet.start (Res.eq_ok (by decide!))
  have q2 : Quiet 3 small_booted small_s1 :=
    Quiet.brelse 7 (Ptr.buf 2) q1 (Or.inl (by decide!)) (Res.eq_ok (by decide!))
  have q3 : Quiet 3 small_booted small_r2 :=
    Quiet.bread 1 7 1 1001 (Ptr.buf 1) q2 (Res.eq_ok (by decide!))
  have q4 : Quiet 3 small_booted small_s2 :=
    Quiet.brelse 7 (Ptr.buf 1) q3 (Or.inl (by decide!)) (Res.eq_ok (by decide!))
  have q5 : Quiet 3 small_booted small_r3 :=
    Quiet.bread 1 7 1 1002 (Ptr.buf 0) q4 (Res.eq_ok (by decide!))
  have q6 : Quiet 3 small_booted small_evicted :=
    Quiet.brelse 7 (Ptr.buf 0) q5 (Or.inl (by decide!)) (Res.eq_ok (by decide!))
  have h := classification_stable 3 small_booted small_evicted (by decide!) (by decide!)
    (by decide!) (by decide!) q6 0 7 1 10 (by decide!) (by decide!)
  ⟨by decide!, by decide!, by decide!, q6, by decide!, by decide!, by decide!,
    ((h.2 1 _ (Res.eq_ok (by decide!))).1).1 rfl⟩

theorem pairwise_imp_ne {α : Type} {R Q : α → α → Prop} {l : List α} (hn : l.Nodup)
    (h : l.Pairwise R) (hi : ∀ x ∈ l, ∀ y ∈ l, x ≠ y → R x y → Q x y) : l.Pairwise Q := by
  have h2 : l.Pairwise (fun x y => x ≠ y ∧ R x y) := List.Pairwise.and hn h
  exact h2.imp_of_mem (fun {x y} hx hy hxy => hi x hx y hy hxy.1 hxy.2)

/-- In a list related pairwise, the first element that passes a test is
related to every other element that passes it. -/
theorem pairwise_after_first {α : Type} {R : α → α → Prop} {p : α → Bool} {b c : α} :
    ∀ {l : List α}, l.Pairwise R → l.find? p = some b → c ∈ l → p c = true → c ≠ b → R b c
  | [], _, hf, _, _, _ => by cases hf
  | a :: l, hR, hf, hc, hpc, hcb => by
    rw [List.pairwise_cons] at hR
    rw [List.find?_cons] at hf
    cases hp : p a with
    | true =>
      rw [hp] at hf
      simp only [Option.some.injEq] at hf
      subst hf
      rcases List.mem_cons.1 hc with e | hc2
      · exact absurd e hcb
      · exact hR.1 c hc2
    | false =>
      rw [hp] at hf
      rcases List.mem_cons.1 hc with e | hc2
      · rw [e, hp] at hpc; cases hpc
      · exact pairwise_after_first hR.2 hf hc2 hpc hcb

/-- What a lookup in the ordinary cache that goes to sleep leaves behind. -/
theorem bget_cache_sleep {p dev blockno : Nat} {s s1 : K} {b : Ptr} (hw : WF s)
    (h : bget_cache p dev blockno s = Res.halt (Halt.sleep b) s1) :
    b ∈ s.mru ∧ SameLinks s s1 ∧ SameEnv s s1 ∧ (∀ c, c ≠ b → s1.get c = s.get c) ∧
      (s1.get b).dev = dev ∧ (s1.get b).blockno = blockno ∧
      (s1.get b).user_flag = (s.get b).user_flag ∧ (s1.get b).lock = (s.get b).lock ∧
      (s.get b).lock ≠ none ∧
      ((s.mru.find? (fun x => is_key dev blockno (s.get x)) = some b ∧
          (s1.get b).valid = (s.get b).valid ∧ (s1.get b).data = (s.get b).data ∧
          (s1.get b).refcnt = uinc (s.get b).refcnt) ∨
        (s.mru.find? (fun x => is_key dev blockno (s.get x)) = none ∧
          s.mru.reverse.find? (fun x => is_free (s.get x)) = some b ∧
          (s1.get b).valid = false ∧ (s1.get b).refcnt = 1)) := by
  cases hk : s.mru.find? (fun x => is_key dev blockno (s.get x)) with
  | some b' =>
    rw [bget_cache_hit hw hk] at h
    cases hl : (s.get b').lock with
    | none => rw [hl] at h; cases h
    | some q =>
      rw [hl] at h
      simp only [Res.halt.injEq, Halt.sleep.injEq] at h
      obtain ⟨rfl, rfl⟩ := h
      have hkk := find_is_key hk
      refine ⟨hkk.1, by apply SameLinks.of_set <;> rfl, SameEnv.env_set _ _ _,
        fun c hc => K.get_set_ne _ _ hc, ?_, ?_, ?_, ?_, by rw [hl]; simp, Or.inl ⟨rfl, ?_, ?_, ?_⟩⟩
      all_goals rw [K.get_set_same]
      · exact hkk.2.1
      · exact hkk.2.2
  | none =>
    cases hf : s.mru.reverse.find? (fun x => is_free (s.get x)) with
    | none => rw [bget_cache_none hw hk hf] at h; cases h
    | some b' =>
      rw [bget_cache_miss hw hk hf] at h
      cases hl : (s.get b').lock with
      | none => rw [hl] at h; cases h
      | some q =>
        rw [hl] at h
        simp only [Res.halt.injEq, Halt.sleep.injEq] at h
        obtain ⟨rfl, rfl⟩ := h
        refine ⟨List.mem_reverse.1 (find_free_some hf).1, by apply SameLinks.of_set <;> rfl,
          SameEnv.env_set _ _ _, fun c hc => K.get_set_ne _ _ hc, ?_, ?_, ?_, ?_,
          by rw [hl]; simp, Or.inr ⟨rfl, rfl, ?_, ?_⟩⟩
        all_goals rw [K.get_set_same]

/-- The lookup in the ordinary cache keeps the order `LiveFirst`, whether it
returns or goes to sleep: given what it leaves behind. -/
theorem liveFirst_bget {dev blockno : Nat} {s s1 : K} {b : Ptr} (hw : WF s)
    (hl : LiveFirst s s.mru) (hb : b ∈ s.mru)
    (ho : ∀ c, c ≠ b → s1.get c = s.get c)
    (hd : (s1.get b).dev = dev) (hn : (s1.get b).blockno = blockno)
    (hc : s.mru.find? (fun x => is_key dev blockno (s.get x)) = some b ∨
      s.mru.find? (fun x => is_key dev blockno (s.get x)) = none) :
    LiveFirst s1 s.mru := by
  unfold LiveFirst at hl ⊢
  rcases hc with k1 | k1
  · obtain ⟨-, e1, e2⟩ := find_is_key k1
    refine pairwise_first hl hw.nodup k1 (fun x _ y _ hxb hyb hR => ?_)
      (fun y _ hyb hR h1 h2 => ?_) (fun x _ hp h1 h2 => ?_)
    · rw [ho x hxb, ho y hyb]; exact hR
    · rw [ho y hyb] at h1 h2 ⊢
      rw [hd, ← e1] at h1
      rw [hn, ← e2] at h2
      exact hR h1 h2
    · by_cases hxb : x = b
      · subst hxb
        simp [is_key, e1, e2] at hp
      · rw [ho x hxb, hd] at h1
        rw [ho x hxb, hn] at h2
        simp [is_key, h1, h2] at hp
  · have hno := find_key_none.1 k1
    refine pairwise_imp_ne hw.nodup hl (fun x hx y hy hxy hR h1 h2 => ?_)
    by_cases hxb : x = b
    · subst hxb
      rw [ho y (Ne.symm hxy), hd] at h1
      rw [ho y (Ne.symm hxy), hn] at h2
      exact absurd ⟨h1.symm, h2.symm⟩ (hno y hy)
    · by_cases hyb : y = b
      · subst hyb
        rw [ho x hxb, hd] at h1
        rw [ho x hxb, hn] at h2
        exact absurd ⟨h1, h2⟩ (hno x hx)
      · rw [ho x hxb, ho y hyb] at h1 h2
        rw [ho y hyb]
        exact hR h1 h2

/-- A write of the reference count of a referenced record keeps the order
`LiveFirst` of an unchanged list. -/
theorem liveFirst_refcnt {s s1 : K} {b : Ptr} {l : List Ptr} (hl : LiveFirst s l)
    (hp : 0 < (s.get b).refcnt)
    (hk : ∀ c, (s1.get c).dev = (s.get c).dev ∧ (s1.get c).blockno = (s.get c).blockno)
    (ho : ∀ c, c ≠ b → (s1.get c).refcnt = (s.get c).refcnt) : LiveFirst s1 l := by
  unfold LiveFirst at hl ⊢
  refine hl.imp (fun {x y} hR h1 h2 => ?_)
  rw [(hk x).1, (hk y).1] at h1
  rw [(hk x).2, (hk y).2] at h2
  by_cases hyb : y = b
  · subst hyb
    have := hR h1 h2
    omega
  · rw [ho y hyb]; exact hR h1 h2

/-- What the states of `Used` keep. -/
theorem used_inv {s : K} (h : Used s) :
    WF s ∧ s.init_flag = false ∧ Untagged s ∧ LiveFirst s s.mru := by
  induction h with
  | binit nbuf bs fs sb disk =>
    have hf := binit_fresh (boot_fresh nbuf bs fs sb disk)
    refine ⟨(binit_WF _).1, (binit_env _).2.2.2.2.1, binit_untagged _ _ _ _ _, ?_⟩
    exact List.pairwise_of_forall (fun x y _ _ => (hf y).2.2.2.2.1)
  | @bget s s1 d p dev blockno b _ hb ih =>
    obtain ⟨i1, i2, i3, i4⟩ := ih
    rw [bget_of_not_init i2] at hb
    obtain ⟨h1, -, h3, h4, h5, -, h7, h8, h9, -, h11⟩ := bget_cache_ok i1 hb
    refine ⟨h3.wf i1, h4.2.2.2.2.1.trans i2, i3.of_flags h4.1 (fun c => ?_), ?_⟩
    · by_cases hc : c = b
      · subst hc; exact h9
      · rw [h5 c hc]
    · rw [h3.mru i1]
      refine liveFirst_bget i1 i4 h1 h5 h7 h8 ?_
      rcases h11 with k | k
      · exact Or.inl k.1
      · exact Or.inr k.1
  | @bget_sleep s s1 d p dev blockno b _ hb ih =>
    obtain ⟨i1, i2, i3, i4⟩ := ih
    rw [bget_of_not_init i2] at hb
    obtain ⟨h1, h3, h4, h5, h7, h8, h9, -, -, h11⟩ := bget_cache_sleep i1 hb
    refine ⟨h3.wf i1, h4.2.2.2.2.1.trans i2, i3.of_flags h4.1 (fun c => ?_), ?_⟩
    · by_cases hc : c = b
      · subst hc; exact h9
      · rw [h5 c hc]
    · rw [h3.mru i1]
      refine liveFirst_bget i1 i4 h1 h5 h7 h8 ?_
      rcases h11 with k | k
      · exact Or.inl k.1
      · exact Or.inr k.1
  | @brelse s s1 p b _ hb hp hr ih =>
    obtain ⟨i1, i2, i3, i4⟩ := ih
    have hbm : b ∈ s.mru := (i1.mem_iff b).2 hb
    have hub : (s.get b).user_flag = false := by
      obtain ⟨i, hi, rfl⟩ := Ptr.is_buf_iff.1 hb
      exact i3 i hi
    obtain ⟨s2, e, k2, k3, -, k5, k6, -⟩ := brelse_ok i1 hbm (brelse_ok_lock hr)
    have hs : s2 = s1 := by
      rw [e] at hr
      simpa using hr
    subst hs
    obtain ⟨o1, o2⟩ := brelse_order i1 hbm hub e
    refine ⟨k2, k3.2.2.2.2.1.trans i2, i3.of_flags k3.1 (fun c => (k5 c).2.2.2.2), ?_⟩
    by_cases h0 : (s2.get b).refcnt = 0
    · rw [o1 h0]
      unfold LiveFirst at i4 ⊢
      rw [List.pairwise_cons]
      have hne : ∀ y ∈ s.mru.erase b, y ≠ b := fun y hy e2 =>
        ((List.Nodup.mem_erase_iff i1.nodup).1 hy).1 e2
      refine ⟨fun y hy h1 h2 => ?_, ?_⟩
      · rw [(k5 b).1, (k5 y).1] at h1
        rw [(k5 b).2.1, (k5 y).2.1] at h2
        rw [(k6 y (hne y hy)).2]
        rcases pairwise_or i4 hbm (List.mem_of_mem_erase hy) (hne y hy).symm with r | r
        · exact r h1 h2
        · have := r h1.symm h2.symm
          omega
      · refine (i4.sublist (List.erase_sublist b s.mru)).imp_of_mem
          (fun {x y} hx hy hR h1 h2 => ?_)
        rw [(k5 x).1, (k5 y).1] at h1
        rw [(k5 x).2.1, (k5 y).2.1] at h2
        rw [(k6 y (hne y hy)).2]
        exact hR h1 h2
    · rw [o2 h0]
      exact liveFirst_refcnt i4 hp (fun c => ⟨(k5 c).1, (k5 c).2.1⟩) (fun c hc => (k6 c hc).2)
  | @bpin s b _ hb hp ih =>
    obtain ⟨i1, i2, i3, i4⟩ := ih
    obtain ⟨l1, l2⟩ := bpin_links b s
    have hg : ∀ c, ((bpin b s).get c).user_flag = (s.get c).user_flag ∧
        ((bpin b s).get c).dev = (s.get c).dev ∧
        ((bpin b s).get c).blockno = (s.get c).blockno ∧
        (c ≠ b → ((bpin b s).get c).refcnt = (s.get c).refcnt) := by
      intro c
      unfold bpin
      split
      · exact ⟨rfl, rfl, rfl, fun _ => rfl⟩
      · rw [K.get_set]; split
        · subst_vars; exact ⟨rfl, rfl, rfl, fun a => absurd rfl a⟩
        · exact ⟨rfl, rfl, rfl, fun _ => rfl⟩
    refine ⟨l1.wf i1, l2.2.2.2.2.1.trans i2, i3.of_flags l2.1 (fun c => (hg c).1), ?_⟩
    rw [l1.mru i1]
    exact liveFirst_refcnt i4 hp (fun c => ⟨(hg c).2.1, (hg c).2.2.1⟩)
      (fun c hc => (hg c).2.2.2 hc)
  | @bunpin s b _ hb hp ih =>
    obtain ⟨i1, i2, i3, i4⟩ := ih
    obtain ⟨l1, l2⟩ := bunpin_links b s
    have hg : ∀ c, ((bunpin b s).get c).user_flag = (s.get c).user_flag ∧
        ((bunpin b s).get c).dev = (s.get c).dev ∧
        ((bunpin b s).get c).blockno = (s.get c).blockno ∧
        (c ≠ b → ((bunpin b s).get c).refcnt = (s.get c).refcnt) := by
      intro c
      unfold bunpin
      split
      · exact ⟨rfl, rfl, rfl, fun _ => rfl⟩
      · rw [K.get_set]; split
        · subst_vars; exact ⟨rfl, rfl, rfl, fun a => absurd rfl a⟩
        · exact ⟨rfl, rfl, rfl, fun _ => rfl⟩
    refine ⟨l1.wf i1, l2.2.2.2.2.1.trans i2, i3.of_flags l2.1 (fun c => (hg c).1), ?_⟩
    rw [l1.mru i1]
    exact liveFirst_refcnt i4 hp (fun c => ⟨(hg c).2.1, (hg c).2.2.1⟩)
      (fun c hc => (hg c).2.2.2 hc)

/-- C19: key uniqueness among live records.  In every state reached from
`binit` at boot through `bget`, `brelse`, `bpin` and `bunpin`, the last three
on records of the pool with a positive reference count (`Used`): no two
distinct records of the pool with reference count greater than 0 have the same
`(dev, blockno)`; and when a `bget` returns record `b`, `b` has the requested
key and every other record of the pool with that key has reference count 0, so
`b` is the one record that can be live for the key. -/
theorem live_keys_unique (s : K) (h : Used s) :
    (∀ x y, x.is_buf s.NBUF → y.is_buf s.NBUF → x ≠ y →
      0 < (s.get x).refcnt → 0 < (s.get y).refcnt →
      ¬ ((s.get x).dev = (s.get y).dev ∧ (s.get x).blockno = (s.get y).blockno)) ∧
    (∀ d p dev blockno b s1, bget d p dev blockno s = Res.ok b s1 →
      b.is_buf s1.NBUF ∧ (s1.get b).dev = dev ∧ (s1.get b).blockno = blockno ∧
      ∀ c, c.is_buf s1.NBUF → c ≠ b → (s1.get c).dev = dev → (s1.get c).blockno = blockno →
        (s1.get c).refcnt = 0) := by
  obtain ⟨i1, i2, i3, i4⟩ := used_inv h
  refine ⟨fun x y hx hy hxy px py hk => ?_, fun d p dev blockno b s1 hb => ?_⟩
  · rcases pairwise_or i4 ((i1.mem_iff x).2 hx) ((i1.mem_iff y).2 hy) hxy with r | r
    · have := r hk.1 hk.2; omega
    · have := r hk.1.symm hk.2.symm; omega
  · obtain ⟨j1, j2, j3, j4⟩ := used_inv (Used.bget d p dev blockno b h hb)
    rw [bget_of_not_init i2] at hb
    obtain ⟨h1, -, h3, h4, -, -, h7, h8, -, h10, -⟩ := bget_cache_ok i1 hb
    have hbm : b ∈ s1.mru := by rw [h3.mru i1]; exact h1
    refine ⟨(j1.mem_iff b).1 hbm, h7, h8, fun c hc hcb hd hn => ?_⟩
    have := pairwise_after_first (c := c) j4 h10 ((j1.mem_iff c).2 hc)
      (by simp [is_key, hd, hn]) hcb
    exact this (h7.trans hd.symm) (h8.trans hn.symm)

set_option maxRecDepth 100000 in
/-- The state `pin_s4`, reached by `bget`, `bpin`, `brelse` and `bget`, has two
live records, 0 and 1, with the keys `(1, 100)` and `(1, 101)`. -/
theorem live_keys_unique_witness :
    Used pin_s4 ∧ 0 < (pin_s4.get (Ptr.buf 0)).refcnt ∧ 0 < (pin_s4.get (Ptr.buf 1)).refcnt ∧
      ¬ ((pin_s4.get (Ptr.buf 0)).dev = (pin_s4.get (Ptr.buf 1)).dev ∧
        (pin_s4.get (Ptr.buf 0)).blockno = (pin_s4.get (Ptr.buf 1)).blockno) :=
  have u1 : Used pin_s1 := Used.bget 0 7 1 100 (Ptr.buf 0) (Used.binit 30 1024 2000 demo_sb demo_disk)
    (Res.eq_ok (by decide!))
  have u2 : Used pin_s2 := Used.bpin (Ptr.buf 0) u1 (by decide!) (by decide!)
  have u3 : Used pin_s3 := Used.brelse 7 (Ptr.buf 0) u2 (by decide!) (by decide!)
    (Res.eq_ok (by decide!))
  have u4 : Used pin_s4 := Used.bget 0 7 1 101 (Ptr.buf 1) u3 (Res.eq_ok (by decide!))
  ⟨u4, by decide!, by decide!,
    (live_keys_unique pin_s4 u4).1 (Ptr.buf 0) (Ptr.buf 1) (by decide!) (by decide!) (by decide)
      (by decide!) (by decide!)⟩

/-- A `bread` in a state with `init_flag` 0 keeps the constants and the tags. -/
theorem bread_cfg {d p dev blockno : Nat} {s s1 : K} {b : Ptr} (hw : WF s)
    (hi : s.init_flag = false) (h : bread d p dev blockno s = Res.ok b s1) :
    WF s1 ∧ SameCfg s s1 ∧ b ∈ s1.mru ∧ (s1.get b).lock = some p ∧
      (∀ c, (s1.get c).user_flag = (s.get c).user_flag) ∧
      (∀ c, ¬ c.is_buf s.NBUF → s1.get c = s.get c) ∧
      (s.get b).lock = none ∧ (∀ c, c ≠ b → s1.get c = s.get c) := by
  rw [bread_eq, bget_of_not_init hi] at h
  cases hg : bget_cache p dev blockno s with
  | halt e s' => rw [hg] at h; cases h
  | ok b' sg =>
    rw [hg] at h
    simp only [Res.ok.injEq] at h
    obtain ⟨rfl, rfl⟩ := h
    obtain ⟨h1, h2, h3, h4, h5, h6, -, -, h9, -⟩ := bget_cache_ok hw hg
    have hwg := h3.wf hw
    have hL := bread_fill_links b' sg
    have hE := bread_fill_env b' sg
    have hb' := bread_fill_get b' sg b'
    rw [if_pos rfl] at hb'
    refine ⟨hL.wf hwg, ⟨hE.1.trans h4.1, hE.2.1.trans h4.2.1, hE.2.2.1.trans h4.2.2.1,
      hE.2.2.2.1.trans h4.2.2.2.1, hE.2.2.2.2.1.trans h4.2.2.2.2.1⟩, ?_, ?_, fun c => ?_,
      fun c hc => ?_, h2, fun c hcb => by rw [bread_fill_get, if_neg hcb, h5 c hcb]⟩
    · rw [hL.mru hwg, h3.mru hw]; exact h1
    · rw [hb']; exact h6
    · by_cases hcb : c = b'
      · subst hcb; rw [hb']; exact h9
      · rw [bread_fill_get, if_neg hcb, h5 c hcb]
    · have hcb : c ≠ b' := fun e => hc (e ▸ (hw.mem_iff b').1 h1)
      rw [bread_fill_get, if_neg hcb, h5 c hcb]

theorem Loading.of_step {s0 s s1 : K} {count : Nat} (h : Loading s0 count s) (hw : WF s1)
    (hc : SameCfg s s1) (hu : ∀ c, (s1.get c).user_flag = (s.get c).user_flag) :
    Loading s0 count s1 :=
  ⟨hw, h.2.1.of_flags hc.1 hu, hc.2.2.2.2.trans h.2.2.1, h.2.2.2.1.cfg_trans hc,
    fun k hk => (hu _).trans (h.2.2.2.2 k hk)⟩

/-- The statements of `init_mod_fs` that load one block keep `Loading`, with
one more slot. -/
theorem init_mod_fs_load_inv {d p dev i j count : Nat} {s0 s s1 : K} {c1 : Nat}
    (hl : Loading s0 count s) (h : init_mod_fs_load d p dev i j count s = Res.ok c1 s1) :
    c1 = count + 1 ∧ count < s.sb.userbcount ∧ Loading s0 (count + 1) s1 ∧
      ∀ c, c.is_buf s.NBUF → (s.get c).lock ≠ none → (s1.get c).lock = (s.get c).lock := by
  unfold init_mod_fs_load get_indexed_mod at h
  by_cases hcnt : count ≥ s.sb.userbcount
  · rw [if_pos hcnt] at h; cases h
  · rw [if_neg hcnt] at h
    simp only at h
    cases hb : bread d p dev (i * s.BPB + j) s with
    | halt e s' => rw [hb] at h; cases h
    | ok temp s2 =>
      rw [hb] at h
      simp only [initsleeplock, K.get_set_same, K.set_set, K.set_sb] at h
      obtain ⟨b1, b2, b3, b4, b5, b6, b7, b8⟩ := bread_cfg hl.1 hl.2.2.1 hb
      rw [if_neg (by rw [b2.2.2.2.1]; exact hcnt)] at h
      simp only [K.get_set_same, K.set_set] at h
      have hne : temp ≠ Ptr.mod count := by
        intro e
        have := (b1.mem_iff temp).1 b3
        rw [e] at this
        exact this
      have hS : SameLinks s2 (s2.set (Ptr.mod count)
          { s2.get (Ptr.mod count) with
            data := fun k => if k < s2.BSIZE then (s2.get temp).data k
                             else (s2.get (Ptr.mod count)).data k,
            blockno := ((s2.set (Ptr.mod count) { s2.get (Ptr.mod count) with
              data := fun k => if k < s2.BSIZE then (s2.get temp).data k
                               else (s2.get (Ptr.mod count)).data k }).get temp).blockno,
            dev := dev, valid := true, user_flag := true, lock := none }) := by
        apply SameLinks.of_set <;> rfl
      generalize hv : ({ s2.get (Ptr.mod count) with
            data := fun k => if k < s2.BSIZE then (s2.get temp).data k
                             else (s2.get (Ptr.mod count)).data k,
            blockno := ((s2.set (Ptr.mod count) { s2.get (Ptr.mod count) with
              data := fun k => if k < s2.BSIZE then (s2.get temp).data k
                               else (s2.get (Ptr.mod count)).data k }).get temp).blockno,
            dev := dev, valid := true, user_flag := true, lock := none } : Buf) = v at h hS
      have hvf : v.user_flag = true := by rw [← hv]
      have hw5 := hS.wf b1
      have hm5 : temp ∈ (s2.set (Ptr.mod count) v).mru := by rw [hS.mru b1]; exact b3
      have hl5 : ((s2.set (Ptr.mod count) v).get temp).lock = some p := by
        rw [K.get_set_ne _ _ hne]; exact b4
      obtain ⟨s6, e6, r1, r2, -, r4, r5, -⟩ := brelse_ok hw5 hm5 hl5
      rw [e6] at h
      simp only [Res.ok.injEq] at h
      obtain ⟨rfl, rfl⟩ := h
      have hc5 : SameCfg s (s2.set (Ptr.mod count) v) :=
        b2.cfg_trans (SameEnv.env_set _ _ _).cfg
      refine ⟨rfl, Nat.lt_of_not_ge hcnt, ⟨r1, ?_, ?_, ?_, ?_⟩, fun c hc hcl => ?_⟩
      rotate_left 4
      · have hct : c ≠ temp := by
          intro e; rw [e, b7] at hcl; exact hcl rfl
        have hcm : c ≠ Ptr.mod count := by
          intro e; rw [e] at hc; exact hc
        rw [(r5 c hct).1, K.get_set_ne _ _ hcm, b8 c hct]
      · intro k hk
        rw [r2.1, K.set_NBUF, b2.1] at hk
        rw [(r4 _).2.2.2.2, K.get_set_ne _ _ (by simp), b5]
        exact hl.2.1 k hk
      · rw [r2.2.2.2.2.1, K.set_init_flag, b2.2.2.2.2]; exact hl.2.2.1
      · exact hl.2.2.2.1.cfg_trans (hc5.cfg_trans r2.cfg)
      · intro k hk
        rw [(r4 _).2.2.2.2]
        by_cases hkc : k = count
        · subst hkc; rw [K.get_set_same]; exact hvf
        · rw [K.get_set_ne _ _ (by simpa using hkc), b5]
          exact hl.2.2.2.2 k (by omega)

/-- The inner loop of `init_mod_fs` keeps `Loading` and the lock of the bitmap
record. -/
theorem init_mod_fs_bits_inv {d p dev i : Nat} {u : Ptr} {s0 : K} :
    ∀ (n j count : Nat) (s s1 : K) (c1 : Nat), Loading s0 count s →
      (s.get u).lock = some p → u.is_buf s.NBUF →
      init_mod_fs_bits d p dev i u n j count s = Res.ok c1 s1 →
      Loading s0 c1 s1 ∧ (s1.get u).lock = some p
  | 0, _, _, _, _, _, hl, hu, _, h => by
    simp only [init_mod_fs_bits, Res.ok.injEq] at h
    obtain ⟨rfl, rfl⟩ := h
    exact ⟨hl, hu⟩
  | n + 1, j, count, s, s1, c1, hl, hu, hm, h => by
    unfold init_mod_fs_bits at h
    split at h
    · split at h
      · cases hld : init_mod_fs_load d p dev i j count s with
        | halt e s' => rw [hld] at h; cases h
        | ok c2 s2 =>
          rw [hld] at h
          simp only at h
          obtain ⟨k1, -, k3, k4⟩ := init_mod_fs_load_inv hl hld
          subst k1
          have hu2 : (s2.get u).lock = some p := by
            rw [k4 u hm (by rw [hu]; simp)]; exact hu
          have hm2 : u.is_buf s2.NBUF := by
            rw [k3.2.2.2.1.1, ← hl.2.2.2.1.1]; exact hm
          exact init_mod_fs_bits_inv n (j + 1) (count + 1) s2 s1 c1 k3 hu2 hm2 h
      · exact init_mod_fs_bits_inv n (j + 1) count s s1 c1 hl hu hm h
    · simp only [Res.ok.injEq] at h
      obtain ⟨rfl, rfl⟩ := h
      exact ⟨hl, hu⟩

/-- The outer loop of `init_mod_fs` keeps `Loading`. -/
theorem init_mod_fs_blocks_inv {d p dev : Nat} {s0 : K} :
    ∀ (n i count : Nat) (s s1 : K) (c1 : Nat), Loading s0 count s →
      init_mod_fs_blocks d p dev n i count s = Res.ok c1 s1 → Loading s0 c1 s1
  | 0, _, _, _, _, _, hl, h => by
    simp only [init_mod_fs_blocks, Res.ok.injEq] at h
    obtain ⟨rfl, rfl⟩ := h
    exact hl
  | n + 1, i, count, s, s1, c1, hl, h => by
    unfold init_mod_fs_blocks at h
    split at h
    · cases hb : bread d p dev (s.sb.userbmapstart + i) s with
      | halt e s' => rw [hb] at h; cases h
      | ok u s2 =>
        rw [hb] at h
        simp only at h
        obtain ⟨b1, b2, b3, b4, b5, -⟩ := bread_cfg hl.1 hl.2.2.1 hb
        have hl2 : Loading s0 count s2 := hl.of_step b1 b2 b5
        cases hbits : init_mod_fs_bits d p dev i u s2.BPB 0 count s2 with
        | halt e s' => rw [hbits] at h; cases h
        | ok c2 s3 =>
          rw [hbits] at h
          simp only at h
          have hub : u.is_buf s2.NBUF := (b1.mem_iff u).1 b3
          obtain ⟨k1, k2⟩ := init_mod_fs_bits_inv s2.BPB 0 count s2 s3 c2 hl2 b4 hub hbits
          have hum : u ∈ s3.mru := by
            rw [k1.1.mem_iff, k1.2.2.2.1.1, ← hl2.2.2.2.1.1]; exact hub
          obtain ⟨s4, e4, r1, r2, -, r4, -⟩ := brelse_ok k1.1 hum k2
          rw [e4] at h
          simp only at h
          exact init_mod_fs_blocks_inv n (i + 1) c2 s4 s1 c1
            (k1.of_step r1 r2.cfg (fun c => (r4 c).2.2.2.2)) h
    · simp only [Res.ok.injEq] at h
      obtain ⟨rfl, rfl⟩ := h
      exact hl

/-- An `init_mod_fs` that returns leaves the list well formed, the tags in
place and `init_flag` set, and keeps the constants and the superblock. -/
theorem init_mod_fs_inv {d p dev : Nat} {s s1 : K} (hw : WF s) (hu : Untagged s)
    (hi : s.init_flag = false) (h : init_mod_fs d p dev s = Res.ok () s1) :
    WF s1 ∧ Tagged s1 ∧ s1.init_flag = true ∧ s1.NBUF = s.NBUF ∧ s1.BSIZE = s.BSIZE ∧
      s1.FSSIZE = s.FSSIZE ∧ s1.sb = s.sb := by
  unfold init_mod_fs at h
  simp only at h
  cases hb : init_mod_fs_blocks d p dev (s.FSSIZE / (s.BSIZE * 8) + 1) 0 0 s with
  | halt e s' => rw [hb] at h; cases h
  | ok c s2 =>
    rw [hb] at h
    simp only at h
    have hl0 : Loading s 0 s := ⟨hw, hu, hi, SameCfg.cfg_refl s, fun k hk => by omega⟩
    obtain ⟨k1, k2, k3, k4, k5⟩ := init_mod_fs_blocks_inv _ 0 0 s s2 c hl0 hb
    split at h
    · cases h
    · rename_i hc
      simp only [Res.ok.injEq, true_and] at h
      subst h
      have hc2 : c = s2.sb.userbcount := by simpa using hc
      have hS : SameLinks s2 { s2 with init_flag := true } := ⟨rfl, fun x => by
        cases x <;> exact ⟨rfl, rfl⟩⟩
      refine ⟨hS.wf k1, ⟨fun i hi2 => ?_, fun k hk => ?_⟩, rfl, k4.1, k4.2.1, k4.2.2.1,
        k4.2.2.2.1⟩
      · exact k2 i hi2
      · exact k5 k (hc2 ▸ hk)

/-- A step that keeps the well formed list, the constants and the tags keeps
the invariant of `Run`. -/
theorem run_step {s s1 : K} (h : WF s ∧ Untagged s ∧ (s.init_flag = true → Tagged s))
    (hw : WF s1) (hc : SameCfg s s1)
    (hu : ∀ c, (s1.get c).user_flag = (s.get c).user_flag) :
    WF s1 ∧ Untagged s1 ∧ (s1.init_flag = true → Tagged s1) :=
  ⟨hw, h.2.1.of_flags hc.1 hu, fun hi => (h.2.2 (hc.2.2.2.2 ▸ hi)).of_user_flag hc hu⟩

/-- What the states of `Run` keep: a well formed list, no tag on the records
of the pool, and, once `init_flag` is set, the tags of the preloaded store. -/
theorem run_inv {s : K} (h : Run s) :
    WF s ∧ Untagged s ∧ (s.init_flag = true → Tagged s) := by
  have hcache : ∀ (p dev blockno : Nat) (s s1 : K) (b : Ptr),
      (WF s ∧ Untagged s ∧ (s.init_flag = true → Tagged s)) →
      bget_cache p dev blockno s = Res.ok b s1 →
      WF s1 ∧ Untagged s1 ∧ (s1.init_flag = true → Tagged s1) := by
    intro p dev blockno s s1 b hi hb
    obtain ⟨-, -, h3, h4, h5, -, -, -, h9, -⟩ := bget_cache_ok hi.1 hb
    refine run_step hi (h3.wf hi.1) h4.cfg (fun c => ?_)
    by_cases hc : c = b
    · subst hc; exact h9
    · rw [h5 c hc]
  have hbget : ∀ (d p dev blockno : Nat) (s s1 : K) (b : Ptr),
      (WF s ∧ Untagged s ∧ (s.init_flag = true → Tagged s)) →
      bget d p dev blockno s = Res.ok b s1 →
      WF s1 ∧ Untagged s1 ∧ (s1.init_flag = true → Tagged s1) := by
    intro d p dev blockno s s1 b hi hb
    cases hf : s.init_flag with
    | false =>
      rw [bget_of_not_init hf] at hb
      exact hcache p dev blockno s s1 b hi hb
    | true =>
      obtain ⟨g1, g2, g3, -⟩ := bget_inv d p dev blockno s s1 b hi.1 (hi.2.2 hf) hb
      exact ⟨g1, g2.1, fun _ => g2⟩
  have hfill : ∀ (b : Ptr) (s : K),
      (WF s ∧ Untagged s ∧ (s.init_flag = true → Tagged s)) →
      WF (bread_fill b s) ∧ Untagged (bread_fill b s) ∧
        ((bread_fill b s).init_flag = true → Tagged (bread_fill b s)) := by
    intro b s hi
    have hE := bread_fill_env b s
    refine run_step hi ((bread_fill_links b s).wf hi.1)
      ⟨hE.1, hE.2.1, hE.2.2.1, hE.2.2.2.1, hE.2.2.2.2.1⟩ (fun c => ?_)
    rw [bread_fill_get]; split
    · subst_vars; rfl
    · rfl
  induction h with
  | binit nbuf bs fs sb disk =>
    refine ⟨(binit_WF _).1, binit_untagged _ _ _ _ _, fun hi => ?_⟩
    rw [(binit_env _).2.2.2.2.1] at hi
    cases hi
  | @init_mod_fs s s1 d p dev _ hi hb ih =>
    obtain ⟨g1, g2, -⟩ := init_mod_fs_inv ih.1 ih.2.1 hi hb
    exact ⟨g1, g2.1, fun _ => g2⟩
  | @bget s s1 d p dev blockno b _ hb ih => exact hbget d p dev blockno s s1 b ih hb
  | @bread s s1 d p dev blockno b _ hb ih =>
    rw [bread_eq] at hb
    cases hg : Bio.bget d p dev blockno s with
    | halt e s' => rw [hg] at hb; cases hb
    | ok u sg =>
      rw [hg] at hb
      simp only [Res.ok.injEq] at hb
      obtain ⟨rfl, rfl⟩ := hb
      exact hfill u sg (hbget d p dev blockno s sg u ih hg)
  | @bwrite s s1 p b _ hb ih =>
    obtain ⟨-, e, hS, -, -, hg⟩ := bwrite_ok hb
    subst e
    exact run_step ih (hS.wf ih.1) (by simp [SameCfg, virtio_disk_rw]) (fun c => by rw [hg])
  | @brelse s s1 p b _ hu hb ih =>
    have hl := brelse_ok_lock hb
    rcases hu with hu | ⟨hf, k, hk, rfl⟩
    · obtain ⟨s3, e, h2, h3, -, h5, -⟩ := brelse_ok ih.1 ((ih.1.mem_iff b).2 hu) hl
      rw [e] at hb
      simp only [Res.ok.injEq, true_and] at hb
      subst hb
      exact run_step ih h2 h3.cfg (fun c => (h5 c).2.2.2.2)
    · obtain ⟨g1, g2, -⟩ := brelse_ok_any ih.1 (ih.2.2 hf) (Or.inr ⟨k, hk, rfl⟩) hb
      exact ⟨g1, g2.1, fun _ => g2⟩
  | @bpin s b _ ih =>
    obtain ⟨l1, l2⟩ := bpin_links b s
    refine run_step ih (l1.wf ih.1) l2.cfg (fun c => ?_)
    unfold Bio.bpin; split
    · rfl
    · rw [K.get_set]; split
      · subst_vars; rfl
      · rfl
  | @bunpin s b _ ih =>
    obtain ⟨l1, l2⟩ := bunpin_links b s
    refine run_step ih (l1.wf ih.1) l2.cfg (fun c => ?_)
    unfold Bio.bunpin; split
    · rfl
    · rw [K.get_set]; split
      · subst_vars; rfl
      · rfl

/-- Along a list joined by the links, `prev` undoes `next` and `next` undoes
`prev`. -/
theorem linked_from_inverse {s : K} :
    ∀ (l : List Ptr) (a : Ptr), linked_from s a l →
      (∀ x ∈ l, (s.get (s.get x).prev).next = x) ∧
        (s.get (s.get Ptr.head).prev).next = Ptr.head ∧
        ∀ x ∈ a :: l, (s.get (s.get x).next).prev = x
  | [], a, h => by
    obtain ⟨h1, h2⟩ := h
    refine ⟨fun x hx => (by cases hx), (by rw [h2, h1]), fun x hx => ?_⟩
    rw [List.mem_singleton] at hx
    subst hx
    rw [h1, h2]
  | y :: l, a, h => by
    obtain ⟨⟨h1, h2⟩, h3⟩ := h
    obtain ⟨i1, i2, i3⟩ := linked_from_inverse l y h3
    refine ⟨fun x hx => ?_, i2, fun x hx => ?_⟩
    · rcases List.mem_cons.1 hx with e | hx2
      · subst e; rw [h2, h1]
      · exact i1 x hx2
    · rcases List.mem_cons.1 hx with e | hx2
      · subst e; rw [h1, h2]
      · exact i3 x hx2

/-- C17: the list stays well formed.  In every state of a run of the kernel,
that is after `binit` at boot and after any number of calls of `init_mod_fs`,
`bget`, `bread`, `bwrite`, `brelse`, `bpin` and `bunpin` that return (`Run`):
following `next` from the head leads through each of the `NBUF` records of the
pool exactly once and back to the head (`WF`: the list `mru` has no duplicates,
has `NBUF` elements and holds every record of the pool and nothing else);
`next` and `prev` are inverse to each other on the head and on every record;
and the two scans of `bget` end, each having tested the records in the order
of the list, forwards and backwards, up to the first that passes. -/
theorem list_well_formed (s : K) (h : Run s) :
    WF s ∧ s.mru.Nodup ∧ s.mru.length = s.NBUF ∧
      (∀ x, x ∈ s.mru ↔ x.is_buf s.NBUF) ∧
      (∀ x, x = Ptr.head ∨ x.is_buf s.NBUF →
        (s.get (s.get x).next).prev = x ∧ (s.get (s.get x).prev).next = x) ∧
      (∀ test : Buf → Bool, scan s Buf.next test s.NBUF s.head.next =
        some (s.mru.find? (fun x => test (s.get x)))) ∧
      (∀ test : Buf → Bool, scan s Buf.prev test s.NBUF s.head.prev =
        some (s.mru.reverse.find? (fun x => test (s.get x)))) := by
  obtain ⟨hw, -, -⟩ := run_inv h
  obtain ⟨i1, i2, i3⟩ := linked_from_inverse s.mru Ptr.head hw.linked
  refine ⟨hw, hw.nodup, hw.length, hw.mem_iff, fun x hx => ?_, hw.scan_next, hw.scan_prev⟩
  rcases hx with rfl | hx
  · exact ⟨i3 _ (List.mem_cons_self _ _), i2⟩
  · have hm := (hw.mem_iff x).2 hx
    exact ⟨i3 x (List.mem_cons_of_mem _ hm), i1 x hm⟩

set_option maxRecDepth 100000 in
/-- The state `demo_booted`, after `binit` and `init_mod_fs`, and the state
after a `bget` of the preloaded block 10 in it are states of a run. -/
theorem list_well_formed_witness :
    Run (bget 1 7 1 10 demo_booted).state ∧ WF (bget 1 7 1 10 demo_booted).state :=
  have r1 : Run demo_booted :=
    Run.init_mod_fs 1 7 1 (Run.binit 30 1024 2000 demo_sb demo_disk) (by decide!)
      (Res.eq_ok (by decide!))
  have r2 : Run (bget 1 7 1 10 demo_booted).state :=
    Run.bget 1 7 1 10 (Ptr.mod 0) r1 (Res.eq_ok (by decide!))
  ⟨r2, (list_well_formed _ r2).1⟩

/-- What a `bread` that returns has done in a coherent cache. -/
theorem Coherent.read_ok {dev : Nat} {s s1 : K} {m : Nat → Nat → Nat} (h : Coherent dev s m)
    {d p blockno : Nat} {b : Ptr} (e : bread d p dev blockno s = Res.ok b s1) :
    b.is_buf s.NBUF ∧ (s.get b).lock = none ∧ (s1.get b).lock = some p ∧
      (s1.get b).dev = dev ∧ (s1.get b).blockno = blockno ∧
      (∀ k < s.BSIZE, (s1.get b).data k = m blockno k) ∧ Coherent dev s1 m ∧
      SameCfg s s1 ∧ (∀ c, c ≠ b → s1.get c = s.get c) := by
  obtain ⟨b1, b2, b3, -, -, -, b7, b8⟩ := bread_cfg h.wf h.init e
  obtain ⟨hbm, hbl, -⟩ := bread_ok h.wf h.init e
  have hbb := (h.wf.mem_iff b).1 hbm
  have hk : ∀ i < s.NBUF, (s.get (Ptr.buf i)).lock ≠ none →
      ¬ ((s.get (Ptr.buf i)).dev = dev ∧ (s.get (Ptr.buf i)).blockno = blockno) := by
    intro i hi hl hkey
    have him : Ptr.buf i ∈ s.mru := (h.wf.mem_iff _).2 (Ptr.is_buf_iff.2 ⟨i, hi, rfl⟩)
    obtain ⟨-, hd⟩ := bread_ok_data h.wf h.init e
    rcases hd with ⟨k1, -, -⟩ | ⟨k1, -, -⟩
    · have hne : Ptr.buf i ≠ b := by
        intro e2; rw [e2, hbl] at hl; exact hl rfl
      have hord := h.order
      unfold KeyOrder at hord
      have := pairwise_after_first (c := Ptr.buf i) hord k1 him
        (by simp [is_key, hkey.1, hkey.2]) hne
      obtain ⟨-, e1, e2⟩ := find_is_key k1
      exact hl (this (e1.trans hkey.1.symm) (e2.trans hkey.2.symm)).2
    · exact find_key_none.1 k1 _ him hkey
  have hex : ∃ i < s.NBUF, (s.get (Ptr.buf i)).lock = none := by
    obtain ⟨i, hi, rfl⟩ := Ptr.is_buf_iff.1 hbb
    exact ⟨i, hi, hbl⟩
  obtain ⟨b', s1', e', r1, r2, r3, r4, r5, r6⟩ := h.read d p blockno hk hex
  rw [e] at e'
  simp only [Res.ok.injEq] at e'
  obtain ⟨rfl, rfl⟩ := e'
  exact ⟨hbb, hbl, r2, r3, r4, r5, r6, b2, b8⟩

/-- What a `brelse` of a clean record does in a coherent cache. -/
theorem Coherent.release_ok {dev : Nat} {s : K} {m : Nat → Nat → Nat} (h : Coherent dev s m)
    {p : Nat} {b : Ptr} (hb : b.is_buf s.NBUF) (hl : (s.get b).lock = some p)
    (hc : ∀ k < s.BSIZE, (s.get b).data k = s.disk (s.get b).blockno k) :
    ∃ s1, brelse p b s = Res.ok () s1 ∧ Coherent dev s1 m ∧ SameCfg s s1 ∧
      (s1.get b).lock = none ∧
      (∀ c, (s1.get c).dev = (s.get c).dev ∧ (s1.get c).blockno = (s.get c).blockno ∧
        (s1.get c).valid = (s.get c).valid ∧ (s1.get c).data = (s.get c).data ∧
        (s1.get c).user_flag = (s.get c).user_flag) ∧
      (∀ c, c ≠ b → (s1.get c).lock = (s.get c).lock) := by
  obtain ⟨s1, e, hco⟩ := h.release hb hl hc
  obtain ⟨s2, e2, -, r2, r3, r4, r5, -⟩ := brelse_ok h.wf ((h.wf.mem_iff b).2 hb) hl
  rw [e] at e2
  simp only [Res.ok.injEq, true_and] at e2
  subst e2
  exact ⟨s1, e, hco, r2.cfg, r3, r4, fun c hcb => (r5 c hcb).1⟩

/-- A write to a slot of the preloaded store that keeps its links keeps the
cache coherent. -/
theorem Coherent.set_mod {dev : Nat} {s : K} {m : Nat → Nat → Nat} (h : Coherent dev s m)
    (k : Nat) (v : Buf) (hn : v.next = (s.get (Ptr.mod k)).next)
    (hp : v.prev = (s.get (Ptr.mod k)).prev) : Coherent dev (s.set (Ptr.mod k) v) m := by
  have hS : SameLinks s (s.set (Ptr.mod k) v) := SameLinks.of_set hn hp
  have hg : ∀ x, x.is_buf s.NBUF → (s.set (Ptr.mod k) v).get x = s.get x := by
    intro x hx
    apply K.get_set_ne
    intro e; rw [e] at hx; exact hx
  refine ⟨hS.wf h.wf, by simpa using h.init, by simpa using h.disk, fun x hx => ?_,
    fun x hx hv hl => ?_, fun x hx hv => ?_, ?_⟩
  · rw [K.set_NBUF] at hx
    rw [hg x hx]; exact h.cnt x hx
  · rw [K.set_NBUF] at hx
    rw [hg x hx] at hv hl ⊢
    rw [K.set_BSIZE, K.set_disk]
    exact h.clean x hx hv hl
  · rw [K.set_NBUF] at hx
    rw [hg x hx] at hv ⊢
    exact h.dev x hx hv
  · rw [hS.mru h.wf]
    have hord := h.order
    unfold KeyOrder at hord ⊢
    refine hord.imp_of_mem (fun {x y} hx hy hR => ?_)
    rw [hg x ((h.wf.mem_iff x).1 hx), hg y ((h.wf.mem_iff y).1 hy)]
    exact hR

theorem marked_below_succ (disk : Nat → Nat → Nat) (sb : Superblock) (bs pos : Nat) :
    marked_below disk sb bs (pos + 1) =
      if bitmap_bit disk sb bs pos = true then marked_below disk sb bs pos ++ [pos]
      else marked_below disk sb bs pos := by
  unfold marked_below
  rw [List.range_succ, List.filter_append]
  by_cases h : bitmap_bit disk sb bs pos = true
  · simp [h]
  · simp [h]

theorem marked_below_prefix (disk : Nat → Nat → Nat) (sb : Superblock) (bs : Nat)
    {pos pos2 : Nat} (h : pos ≤ pos2) :
    marked_below disk sb bs pos <+: marked_below disk sb bs pos2 := by
  unfold marked_below
  apply List.IsPrefix.filter
  obtain ⟨k, rfl⟩ := Nat.exists_eq_add_of_le h
  induction k with
  | zero => exact List.prefix_refl _
  | succ k ih =>
    rw [← Nat.add_assoc, List.range_succ]
    exact (ih (Nat.le_add_right _ _)).trans (List.prefix_append _ _)

theorem marked_below_lt {disk : Nat → Nat → Nat} {sb : Superblock} {bs pos b : Nat}
    (h : b ∈ marked_below disk sb bs pos) : b < pos ∧ bitmap_bit disk sb bs b = true := by
  unfold marked_below at h
  rw [List.mem_filter, List.mem_range] at h
  exact h

theorem marked_below_nodup (disk : Nat → Nat → Nat) (sb : Superblock) (bs pos : Nat) :
    (marked_below disk sb bs pos).Nodup :=
  (List.nodup_range pos).filter _

/-- The bit that `init_mod_fs` tests in the bitmap block `i` for `j` is the
bit of block `i * BPB + j` in the bitmap. -/
theorem bit_test_iff (disk : Nat → Nat → Nat) (sb : Superblock) (bs i j : Nat)
    (hj : j < bs * 8) :
    (disk (sb.userbmapstart + i) (j / 8) &&& (1 <<< (j % 8)) ≠ 0) ↔
      bitmap_bit disk sb bs (i * (bs * 8) + j) = true := by
  unfold bitmap_bit
  have h1 : (i * (bs * 8) + j) / (bs * 8) = i := by
    rw [Nat.add_comm, Nat.add_mul_div_right _ _ (by omega), Nat.div_eq_of_lt hj, Nat.zero_add]
  have h2 : (i * (bs * 8) + j) % (8 * bs) = j := by
    rw [Nat.mul_comm 8 bs, Nat.add_comm, Nat.add_mul_mod_self_right, Nat.mod_eq_of_lt hj]
  rw [h1, h2, Nat.add_comm i, and_shift_ne_zero]

theorem Slot.of_eq {s s1 : K} {dev : Nat} {disk : Nat → Nat → Nat} {k blk : Nat}
    (h : Slot s dev disk k blk) (hb : s1.BSIZE = s.BSIZE)
    (hg : (s1.get (Ptr.mod k)).dev = (s.get (Ptr.mod k)).dev ∧
      (s1.get (Ptr.mod k)).blockno = (s.get (Ptr.mod k)).blockno ∧
      (s1.get (Ptr.mod k)).valid = (s.get (Ptr.mod k)).valid ∧
      (s1.get (Ptr.mod k)).data = (s.get (Ptr.mod k)).data ∧
      (s1.get (Ptr.mod k)).user_flag = (s.get (Ptr.mod k)).user_flag ∧
      (s1.get (Ptr.mod k)).lock = (s.get (Ptr.mod k)).lock) : Slot s1 dev disk k blk := by
  obtain ⟨g1, g2, g3, g4, g5, g6⟩ := hg
  obtain ⟨h1, h2, h3, h4, h5, h6⟩ := h
  refine ⟨g2.trans h1, g1.trans h2, g3.trans h3, g5.trans h4, g6.trans h5, fun j hj => ?_⟩
  rw [g4]
  exact h6 j (hb ▸ hj)

/-- The statements of `init_mod_fs` that load the block of a set bit, when they
return: the block is in the next slot. -/
theorem init_mod_fs_load_ok {d p dev i j count : Nat} {disk : Nat → Nat → Nat} {s0 s s1 : K}
    {u : Ptr} {c1 : Nat} (hb : Booting dev disk s0 (i * s0.BPB + j) count s)
    (hs : Scanning p dev disk s0 i u s)
    (hbit : bitmap_bit disk s0.sb s0.BSIZE (i * s0.BPB + j) = true)
    (h : init_mod_fs_load d p dev i j count s = Res.ok c1 s1) :
    c1 = count + 1 ∧ Booting dev disk s0 (i * s0.BPB + j + 1) (count + 1) s1 ∧
      Scanning p dev disk s0 i u s1 := by
  have hBPB : s.BPB = s0.BPB := by unfold K.BPB; rw [hb.cfg.2.1]
  unfold init_mod_fs_load get_indexed_mod at h
  by_cases hcnt : count ≥ s.sb.userbcount
  · rw [if_pos hcnt] at h; cases h
  · rw [if_neg hcnt] at h
    simp only at h
    rw [hBPB] at h
    cases hbr : bread d p dev (i * s0.BPB + j) s with
    | halt e s' => rw [hbr] at h; cases h
    | ok temp s2 =>
      rw [hbr] at h
      simp only [initsleeplock, K.get_set_same, K.set_set, K.set_sb] at h
      obtain ⟨r1, r2, r3, r4, r5, r6, r7, r8, r9⟩ := hb.coh.read_ok hbr
      rw [if_neg (by rw [r8.2.2.2.1]; exact hcnt)] at h
      simp only [K.get_set_same, K.set_set] at h
      have hne : temp ≠ Ptr.mod count := by
        intro e; rw [e] at r1; exact r1
      have htu : temp ≠ u := by
        intro e; rw [e, hs.held] at r2; cases r2
      generalize hv : ({ s2.get (Ptr.mod count) with
            data := fun k => if k < s2.BSIZE then (s2.get temp).data k
                             else (s2.get (Ptr.mod count)).data k,
            blockno := ((s2.set (Ptr.mod count) { s2.get (Ptr.mod count) with
              data := fun k => if k < s2.BSIZE then (s2.get temp).data k
                               else (s2.get (Ptr.mod count)).data k }).get temp).blockno,
            dev := dev, valid := true, user_flag := true, lock := none } : Buf) = v at h
      have hvb : v.blockno = i * s0.BPB + j := by
        rw [← hv]
        simp only
        rw [K.get_set_ne _ _ hne]; exact r5
      have hvd : v.dev = dev ∧ v.valid = true ∧ v.user_flag = true ∧ v.lock = none ∧
          v.next = (s2.get (Ptr.mod count)).next ∧ v.prev = (s2.get (Ptr.mod count)).prev := by
        rw [← hv]; exact ⟨rfl, rfl, rfl, rfl, rfl, rfl⟩
      have hvdata : ∀ k < s2.BSIZE, v.data k = disk (i * s0.BPB + j) k := by
        intro k hk
        rw [← hv]
        simp only
        rw [if_pos hk]
        exact r6 k (r8.2.1 ▸ hk)
      have hco5 := r7.set_mod count v hvd.2.2.2.2.1 hvd.2.2.2.2.2
      have hg5 : (s2.set (Ptr.mod count) v).get temp = s2.get temp := K.get_set_ne _ _ hne
      have hclean : ∀ k < (s2.set (Ptr.mod count) v).BSIZE,
          ((s2.set (Ptr.mod count) v).get temp).data k =
            (s2.set (Ptr.mod count) v).disk ((s2.set (Ptr.mod count) v).get temp).blockno k := by
        intro k hk
        rw [K.set_BSIZE] at hk
        rw [hg5, K.set_disk, r7.disk, r5]
        exact r6 k (r8.2.1 ▸ hk)
      obtain ⟨s6, e6, q1, q2, q3, q4, q5⟩ := hco5.release_ok
        (by rw [K.set_NBUF, r8.1]; exact r1) (by rw [hg5]; exact r3) hclean
      rw [e6] at h
      simp only [Res.ok.injEq] at h
      obtain ⟨rfl, rfl⟩ := h
      have hcfg : SameCfg s s6 := r8.cfg_trans ((SameEnv.env_set _ _ _).cfg.cfg_trans q2)
      have hpool : ∀ c, c.is_buf s.NBUF → c ≠ temp →
          (s6.get c).lock = (s.get c).lock ∧ (s6.get c).dev = (s.get c).dev ∧
          (s6.get c).blockno = (s.get c).blockno ∧ (s6.get c).data = (s.get c).data := by
        intro c hc hct
        have hcm : c ≠ Ptr.mod count := by
          intro e; rw [e] at hc; exact hc
        have e1 : (s2.set (Ptr.mod count) v).get c = s.get c := by
          rw [K.get_set_ne _ _ hcm, r9 c hct]
        rw [q5 c hct, (q4 c).1, (q4 c).2.1, (q4 c).2.2.2.1, e1]
        exact ⟨rfl, rfl, rfl, rfl⟩
      have hF := marked_below_succ disk s0.sb s0.BSIZE (i * s0.BPB + j)
      rw [if_pos hbit] at hF
      refine ⟨rfl, ⟨q1, hb.cfg.cfg_trans hcfg, ?_, ?_, fun k blk hk => ?_⟩,
        ⟨?_, ?_, ?_, fun k hk => ?_, fun x hx hxl => ?_⟩⟩
      · rw [hF, List.length_append, ← hb.count_eq]; rfl
      · have := Nat.lt_of_not_ge hcnt
        rw [hb.cfg.2.2.2.1] at this
        omega
      · rw [hF, List.getElem?_append] at hk
        have hBS : s6.BSIZE = s2.BSIZE := by rw [q2.2.1, K.set_BSIZE]
        split at hk
        · rename_i hlt
          rw [← hb.count_eq] at hlt
          have hsl := hb.slots k blk hk
          have hkc : (Ptr.mod k) ≠ Ptr.mod count := by
            intro e; simp only [Ptr.mod.injEq] at e; omega
          have hkt : (Ptr.mod k) ≠ temp := by
            intro e; rw [← e] at r1; exact r1
          refine hsl.of_eq (hBS.trans r8.2.1) ?_
          have e1 : (s2.set (Ptr.mod count) v).get (Ptr.mod k) = s.get (Ptr.mod k) := by
            rw [K.get_set_ne _ _ hkc, r9 _ hkt]
          obtain ⟨a1, a2, a3, a4, a5⟩ := q4 (Ptr.mod k)
          have a6 := q5 (Ptr.mod k) hkt
          rw [e1] at a1 a2 a3 a4 a5 a6
          exact ⟨a1, a2, a3, a4, a5, a6⟩
        · rename_i hge
          rw [← hb.count_eq] at hge hk
          have hkc : k = count := by
            by_contra hne2
            have : 1 ≤ k - count := by omega
            rw [List.getElem?_eq_none (by simp; omega)] at hk
            cases hk
          subst hkc
          simp only [Nat.sub_self, List.getElem?_cons_zero, Option.some.injEq] at hk
          subst hk
          have hkt : (Ptr.mod k) ≠ temp := fun e => hne e.symm
          obtain ⟨a1, a2, a3, a4, a5⟩ := q4 (Ptr.mod k)
          have a6 := q5 (Ptr.mod k) hkt
          rw [K.get_set_same] at a1 a2 a3 a4 a5 a6
          refine ⟨a2.trans hvb, a1.trans hvd.1, a3.trans hvd.2.1, a5.trans hvd.2.2.1,
            a6.trans hvd.2.2.2.1, fun jj hjj => ?_⟩
          rw [a4]
          exact hvdata jj (hBS ▸ hjj)
      · rw [hcfg.1]; exact hs.pool
      · rw [(hpool u hs.pool (Ne.symm htu)).1]; exact hs.held
      · rw [(hpool u hs.pool (Ne.symm htu)).2.1, (hpool u hs.pool (Ne.symm htu)).2.2.1]
        exact hs.key
      · rw [(hpool u hs.pool (Ne.symm htu)).2.2.2]
        exact hs.bits k (hcfg.2.1 ▸ hk)
      · rw [hcfg.1] at hx
        by_cases hxt : x = temp
        · rw [hxt, q3] at hxl; exact absurd rfl hxl
        · rw [(hpool x hx hxt).1] at hxl
          exact hs.only x hx hxl

/-- The statements of `init_mod_fs` that load a block return, when a slot is
left, a second record of the pool exists and the block is not the bitmap block
that is being scanned. -/
theorem init_mod_fs_load_returns (d : Nat) {p dev i j count : Nat} {disk : Nat → Nat → Nat}
    {s0 s : K} {u : Ptr} (hb : Booting dev disk s0 (i * s0.BPB + j) count s)
    (hs : Scanning p dev disk s0 i u s) (hcnt : count < s0.sb.userbcount)
    (hother : ∃ x, x.is_buf s.NBUF ∧ x ≠ u)
    (hself : i * s0.BPB + j ≠ s0.sb.userbmapstart + i) :
    ∃ c1 s1, init_mod_fs_load d p dev i j count s = Res.ok c1 s1 := by
  have hBPB : s.BPB = s0.BPB := by unfold K.BPB; rw [hb.cfg.2.1]
  have hk : ∀ x < s.NBUF, (s.get (Ptr.buf x)).lock ≠ none →
      ¬ ((s.get (Ptr.buf x)).dev = dev ∧ (s.get (Ptr.buf x)).blockno = i * s0.BPB + j) := by
    intro x hx hl hkey
    have := hs.only (Ptr.buf x) (Ptr.is_buf_iff.2 ⟨x, hx, rfl⟩) hl
    rw [this, hs.key.2] at hkey
    exact hself hkey.2.symm
  have hex : ∃ x < s.NBUF, (s.get (Ptr.buf x)).lock = none := by
    obtain ⟨x, hx, hxu⟩ := hother
    obtain ⟨k, hk2, rfl⟩ := Ptr.is_buf_iff.1 hx
    refine ⟨k, hk2, ?_⟩
    by_contra hl
    exact hxu (hs.only _ hx hl)
  obtain ⟨temp, s2, hbr, r1, r3, r4, r5, r6, r7⟩ := hb.coh.read d p (i * s0.BPB + j) hk hex
  obtain ⟨-, -, -, -, -, -, -, r8, r9⟩ := hb.coh.read_ok hbr
  unfold init_mod_fs_load get_indexed_mod
  have hcnt2 : ¬ count ≥ s.sb.userbcount := by rw [hb.cfg.2.2.2.1]; omega
  rw [if_neg hcnt2]
  simp only
  rw [hBPB, hbr]
  simp only [initsleeplock, K.get_set_same, K.set_set, K.set_sb]
  rw [if_neg (by rw [r8.2.2.2.1]; exact hcnt2)]
  simp only [K.get_set_same, K.set_set]
  have hne : temp ≠ Ptr.mod count := by
    intro e; rw [e] at r1; exact r1
  generalize hv : ({ s2.get (Ptr.mod count) with
        data := fun k => if k < s2.BSIZE then (s2.get temp).data k
                         else (s2.get (Ptr.mod count)).data k,
        blockno := ((s2.set (Ptr.mod count) { s2.get (Ptr.mod count) with
          data := fun k => if k < s2.BSIZE then (s2.get temp).data k
                           else (s2.get (Ptr.mod count)).data k }).get temp).blockno,
        dev := dev, valid := true, user_flag := true, lock := none } : Buf) = v
  have hvd : v.next = (s2.get (Ptr.mod count)).next ∧ v.prev = (s2.get (Ptr.mod count)).prev := by
    rw [← hv]; exact ⟨rfl, rfl⟩
  have hco5 := r7.set_mod count v hvd.1 hvd.2
  have hg5 : (s2.set (Ptr.mod count) v).get temp = s2.get temp := K.get_set_ne _ _ hne
  have hclean : ∀ k < (s2.set (Ptr.mod count) v).BSIZE,
      ((s2.set (Ptr.mod count) v).get temp).data k =
        (s2.set (Ptr.mod count) v).disk ((s2.set (Ptr.mod count) v).get temp).blockno k := by
    intro k hk
    rw [K.set_BSIZE] at hk
    rw [hg5, K.set_disk, r7.disk, r5]
    exact r6 k (r8.2.1 ▸ hk)
  obtain ⟨s6, e6, -⟩ := hco5.release_ok
    (by rw [K.set_NBUF, r8.1]; exact r1) (by rw [hg5]; exact r3) hclean
  rw [e6]
  exact ⟨_, _, rfl⟩

/-- The inner loop of `init_mod_fs`, when it returns: the bits up to some
`j2` are tested, and either the bitmap block is finished or all slots are
loaded. -/
theorem init_mod_fs_bits_ok {d p dev i : Nat} {disk : Nat → Nat → Nat} {s0 : K} {u : Ptr} :
    ∀ (n j count : Nat) (s s1 : K) (c1 : Nat), j + n = s0.BPB →
      Booting dev disk s0 (i * s0.BPB + j) count s → Scanning p dev disk s0 i u s →
      init_mod_fs_bits d p dev i u n j count s = Res.ok c1 s1 →
      ∃ j2, j ≤ j2 ∧ j2 ≤ s0.BPB ∧ Booting dev disk s0 (i * s0.BPB + j2) c1 s1 ∧
        Scanning p dev disk s0 i u s1 ∧ (j2 = s0.BPB ∨ c1 = s0.sb.userbcount)
  | 0, j, count, s, s1, c1, hj, hb, hs, h => by
    simp only [init_mod_fs_bits, Res.ok.injEq] at h
    obtain ⟨rfl, rfl⟩ := h
    exact ⟨j, le_refl _, by omega, hb, hs, Or.inl (by omega)⟩
  | n + 1, j, count, s, s1, c1, hj, hb, hs, h => by
    unfold init_mod_fs_bits at h
    have hjlt : j < s0.BSIZE * 8 := by
      have : s0.BPB = s0.BSIZE * 8 := rfl
      omega
    have hbit := bit_test_iff disk s0.sb s0.BSIZE i j hjlt
    have hdata : (s.get u).data (j / 8) = disk (s0.sb.userbmapstart + i) (j / 8) :=
      hs.bits (j / 8) (by rw [hb.cfg.2.1]; omega)
    rw [hdata] at h
    have hpos : i * (s0.BSIZE * 8) + j = i * s0.BPB + j := rfl
    rw [hpos] at hbit
    have hF := marked_below_succ disk s0.sb s0.BSIZE (i * s0.BPB + j)
    split at h
    · split at h
      · rename_i hc ht
        cases hld : init_mod_fs_load d p dev i j count s with
        | halt e s' => rw [hld] at h; cases h
        | ok c2 s2 =>
          rw [hld] at h
          simp only at h
          obtain ⟨k1, k2, k3⟩ := init_mod_fs_load_ok hb hs (hbit.1 ht) hld
          subst k1
          obtain ⟨j2, a1, a2, a3, a4, a5⟩ := init_mod_fs_bits_ok n (j + 1) (count + 1) s2 s1 c1
            (by omega) k2 k3 h
          exact ⟨j2, by omega, a2, a3, a4, a5⟩
      · rename_i hc ht
        have hclear : ¬ bitmap_bit disk s0.sb s0.BSIZE (i * s0.BPB + j) = true :=
          fun a => ht (hbit.2 a)
        rw [if_neg hclear] at hF
        have hb2 : Booting dev disk s0 (i * s0.BPB + (j + 1)) count s :=
          ⟨hb.coh, hb.cfg, by rw [← Nat.add_assoc, hF]; exact hb.count_eq, hb.bound,
            fun k blk hk => hb.slots k blk (by rw [← Nat.add_assoc, hF] at hk; exact hk)⟩
        obtain ⟨j2, a1, a2, a3, a4, a5⟩ := init_mod_fs_bits_ok n (j + 1) count s s1 c1
          (by omega) hb2 hs h
        exact ⟨j2, by omega, a2, a3, a4, a5⟩
    · rename_i hc
      simp only [Res.ok.injEq] at h
      obtain ⟨rfl, rfl⟩ := h
      refine ⟨j, le_refl _, by omega, hb, hs, Or.inr ?_⟩
      have := hb.bound
      rw [hb.cfg.2.2.2.1] at hc
      omega

/-- The inner loop of `init_mod_fs` returns, when a second record of the pool
exists and no set bit of the bitmap block stands for the bitmap block itself. -/
theorem init_mod_fs_bits_returns {d p dev i : Nat} {disk : Nat → Nat → Nat} {s0 : K} {u : Ptr}
    (hself : ∀ j < s0.BPB, bitmap_bit disk s0.sb s0.BSIZE (i * s0.BPB + j) = true →
      i * s0.BPB + j ≠ s0.sb.userbmapstart + i) :
    ∀ (n j count : Nat) (s : K), j + n = s0.BPB →
      Booting dev disk s0 (i * s0.BPB + j) count s → Scanning p dev disk s0 i u s →
      (∃ x, x.is_buf s0.NBUF ∧ x ≠ u) →
      ∃ c1 s1, init_mod_fs_bits d p dev i u n j count s = Res.ok c1 s1
  | 0, j, count, s, _, _, _, _ => ⟨_, _, rfl⟩
  | n + 1, j, count, s, hj, hb, hs, ho => by
    unfold init_mod_fs_bits
    have hjlt : j < s0.BSIZE * 8 := by
      have : s0.BPB = s0.BSIZE * 8 := rfl
      omega
    have hbit := bit_test_iff disk s0.sb s0.BSIZE i j hjlt
    have hdata : (s.get u).data (j / 8) = disk (s0.sb.userbmapstart + i) (j / 8) :=
      hs.bits (j / 8) (by rw [hb.cfg.2.1]; omega)
    rw [hdata]
    have hpos : i * (s0.BSIZE * 8) + j = i * s0.BPB + j := rfl
    rw [hpos] at hbit
    have hF := marked_below_succ disk s0.sb s0.BSIZE (i * s0.BPB + j)
    split
    · rename_i hc
      split
      · rename_i ht
        obtain ⟨c2, s2, hld⟩ := init_mod_fs_load_returns d hb hs
          (by rw [← hb.cfg.2.2.2.1]; exact hc) (by rw [hb.cfg.1]; exact ho)
          (hself j (by omega) (hbit.1 ht))
        rw [hld]
        simp only
        obtain ⟨k1, k2, k3⟩ := init_mod_fs_load_ok hb hs (hbit.1 ht) hld
        subst k1
        exact init_mod_fs_bits_returns hself n (j + 1) (count + 1) s2 (by omega) k2 k3 ho
      · rename_i ht
        have hclear : ¬ bitmap_bit disk s0.sb s0.BSIZE (i * s0.BPB + j) = true :=
          fun a => ht (hbit.2 a)
        rw [if_neg hclear] at hF
        have hb2 : Booting dev disk s0 (i * s0.BPB + (j + 1)) count s :=
          ⟨hb.coh, hb.cfg, by rw [← Nat.add_assoc, hF]; exact hb.count_eq, hb.bound,
            fun k blk hk => hb.slots k blk (by rw [← Nat.add_assoc, hF] at hk; exact hk)⟩
        exact init_mod_fs_bits_returns hself n (j + 1) count s (by omega) hb2 hs ho
    · exact ⟨_, _, rfl⟩

theorem init_mod_fs_blocks_done {d p dev : Nat} :
    ∀ (n i count : Nat) (s : K), ¬ count < s.sb.userbcount →
      init_mod_fs_blocks d p dev n i count s = Res.ok count s
  | 0, _, _, _, _ => rfl
  | n + 1, i, count, s, h => by
    unfold init_mod_fs_blocks
    rw [if_neg h]

/-- The `bread` of the bitmap block `i` by `init_mod_fs`, when it returns:
the inner loop starts with the record as the one locked record. -/
theorem bread_bitmap_ok {d p dev i count : Nat} {disk : Nat → Nat → Nat} {s0 s s2 : K}
    {u : Ptr} (hb : Booting dev disk s0 (i * s0.BPB) count s)
    (hidle : ∀ x, x.is_buf s.NBUF → (s.get x).lock = none)
    (h : bread d p dev (s.sb.userbmapstart + i) s = Res.ok u s2) :
    Booting dev disk s0 (i * s0.BPB + 0) count s2 ∧ Scanning p dev disk s0 i u s2 := by
  obtain ⟨r1, r2, r3, r4, r5, r6, r7, r8, r9⟩ := hb.coh.read_ok h
  rw [hb.cfg.2.2.2.1] at r5 r6
  refine ⟨⟨r7, hb.cfg.cfg_trans r8, hb.count_eq, hb.bound, fun k blk hk => ?_⟩,
    ⟨by rw [r8.1]; exact r1, r3, ⟨r4, r5⟩, fun k hk => r6 k (r8.2.1 ▸ hk), fun x hx hl => ?_⟩⟩
  · have hku : Ptr.mod k ≠ u := by
      intro e; rw [← e] at r1; exact r1
    refine (hb.slots k blk hk).of_eq r8.2.1 ?_
    rw [r9 _ hku]
    exact ⟨rfl, rfl, rfl, rfl, rfl, rfl⟩
  · by_contra hxu
    rw [r8.1] at hx
    rw [r9 x hxu, hidle x hx] at hl
    exact hl rfl

/-- The `brelse` of the bitmap record by `init_mod_fs` returns and leaves no
record of the pool locked. -/
theorem brelse_bitmap_ok {p dev i count pos : Nat} {disk : Nat → Nat → Nat} {s0 s : K}
    {u : Ptr} (hb : Booting dev disk s0 pos count s) (hs : Scanning p dev disk s0 i u s) :
    ∃ s1, brelse p u s = Res.ok () s1 ∧ Booting dev disk s0 pos count s1 ∧
      ∀ x, x.is_buf s1.NBUF → (s1.get x).lock = none := by
  have hclean : ∀ k < s.BSIZE, (s.get u).data k = s.disk (s.get u).blockno k := by
    intro k hk
    rw [hb.coh.disk, hs.key.2]
    exact hs.bits k hk
  obtain ⟨s1, e, q1, q2, q3, q4, q5⟩ := hb.coh.release_ok hs.pool hs.held hclean
  refine ⟨s1, e, ⟨q1, hb.cfg.cfg_trans q2, hb.count_eq, hb.bound, fun k blk hk => ?_⟩,
    fun x hx => ?_⟩
  · have hku : Ptr.mod k ≠ u := by
      intro e2
      have := hs.pool
      rw [← e2] at this
      exact this
    obtain ⟨a1, a2, a3, a4, a5⟩ := q4 (Ptr.mod k)
    exact (hb.slots k blk hk).of_eq q2.2.1 ⟨a1, a2, a3, a4, a5, q5 _ hku⟩
  · by_cases hxu : x = u
    · rw [hxu]; exact q3
    · rw [q5 x hxu]
      by_contra hl
      rw [q2.1] at hx
      exact hxu (hs.only x hx hl)

/-- The outer loop of `init_mod_fs`, when it returns: the bits below some
position are tested, and either the bitmap is finished or all slots are
loaded. -/
theorem init_mod_fs_blocks_ok {d p dev : Nat} {disk : Nat → Nat → Nat} {s0 : K} (nb : Nat) :
    ∀ (n i count : Nat) (s s1 : K) (c1 : Nat), i + n = nb →
      Booting dev disk s0 (i * s0.BPB) count s →
      (∀ x, x.is_buf s.NBUF → (s.get x).lock = none) →
      init_mod_fs_blocks d p dev n i count s = Res.ok c1 s1 →
      ∃ pos, pos ≤ nb * s0.BPB ∧ Booting dev disk s0 pos c1 s1 ∧
        (pos = nb * s0.BPB ∨ c1 = s0.sb.userbcount)
  | 0, i, count, s, s1, c1, hi, hb, _, h => by
    simp only [init_mod_fs_blocks, Res.ok.injEq] at h
    obtain ⟨rfl, rfl⟩ := h
    have : i = nb := by omega
    subst this
    exact ⟨i * s0.BPB, le_refl _, hb, Or.inl rfl⟩
  | n + 1, i, count, s, s1, c1, hi, hb, hidle, h => by
    have hle : i * s0.BPB ≤ nb * s0.BPB := Nat.mul_le_mul_right _ (by omega)
    unfold init_mod_fs_blocks at h
    split at h
    · cases hbr : bread d p dev (s.sb.userbmapstart + i) s with
      | halt e s' => rw [hbr] at h; cases h
      | ok u s2 =>
        rw [hbr] at h
        simp only at h
        obtain ⟨b1, b2⟩ := bread_bitmap_ok hb hidle hbr
        have hB2 : s2.BPB = s0.BPB := by unfold K.BPB; rw [b1.cfg.2.1]
        rw [hB2] at h
        cases hbits : init_mod_fs_bits d p dev i u s0.BPB 0 count s2 with
        | halt e s' => rw [hbits] at h; cases h
        | ok c2 s3 =>
          rw [hbits] at h
          simp only at h
          obtain ⟨j2, -, a2, a3, a4, a5⟩ := init_mod_fs_bits_ok s0.BPB 0 count s2 s3 c2
            (by omega) b1 b2 hbits
          obtain ⟨s4, e4, r1, r2⟩ := brelse_bitmap_ok a3 a4
          rw [e4] at h
          simp only at h
          have hpos : i * s0.BPB + j2 ≤ nb * s0.BPB := by
            have : (i + 1) * s0.BPB ≤ nb * s0.BPB := Nat.mul_le_mul_right _ (by omega)
            rw [Nat.add_mul, Nat.one_mul] at this
            omega
          by_cases hfull : c2 = s0.sb.userbcount
          · rw [init_mod_fs_blocks_done n (i + 1) c2 s4
              (by rw [r1.cfg.2.2.2.1]; omega)] at h
            simp only [Res.ok.injEq] at h
            obtain ⟨rfl, rfl⟩ := h
            exact ⟨i * s0.BPB + j2, hpos, r1, Or.inr hfull⟩
          · have hj2 : j2 = s0.BPB := by
              rcases a5 with a | a
              · exact a
              · exact absurd a hfull
            subst hj2
            have e : i * s0.BPB + s0.BPB = (i + 1) * s0.BPB := by
              rw [Nat.add_mul, Nat.one_mul]
            rw [e] at r1
            exact init_mod_fs_blocks_ok nb n (i + 1) c2 s4 s1 c1 (by omega) r1 r2 h
    · rename_i hc
      simp only [Res.ok.injEq] at h
      obtain ⟨rfl, rfl⟩ := h
      refine ⟨i * s0.BPB, hle, hb, Or.inr ?_⟩
      have := hb.bound
      rw [hb.cfg.2.2.2.1] at hc
      omega

/-- The outer loop of `init_mod_fs` returns, when the pool has two records and
no set bit of the bitmap stands for the bitmap block that holds it. -/
theorem init_mod_fs_blocks_returns {d p dev : Nat} {disk : Nat → Nat → Nat} {s0 : K} {nb : Nat}
    (h2 : 2 ≤ s0.NBUF)
    (hself : ∀ i < nb, ∀ j < s0.BPB,
      bitmap_bit disk s0.sb s0.BSIZE (i * s0.BPB + j) = true →
      i * s0.BPB + j ≠ s0.sb.userbmapstart + i) :
    ∀ (n i count : Nat) (s : K), i + n = nb → Booting dev disk s0 (i * s0.BPB) count s →
      (∀ x, x.is_buf s.NBUF → (s.get x).lock = none) →
      ∃ c1 s1, init_mod_fs_blocks d p dev n i count s = Res.ok c1 s1
  | 0, _, _, _, _, _, _ => ⟨_, _, rfl⟩
  | n + 1, i, count, s, hi, hb, hidle => by
    unfold init_mod_fs_blocks
    split
    · have hk : ∀ x < s.NBUF, (s.get (Ptr.buf x)).lock ≠ none →
          ¬ ((s.get (Ptr.buf x)).dev = dev ∧
            (s.get (Ptr.buf x)).blockno = s.sb.userbmapstart + i) := by
        intro x hx hl
        exact absurd (hidle _ (Ptr.is_buf_iff.2 ⟨x, hx, rfl⟩)) hl
      have hex : ∃ x < s.NBUF, (s.get (Ptr.buf x)).lock = none :=
        ⟨0, by rw [hb.cfg.1]; omega, hidle _ (Ptr.is_buf_iff.2 ⟨0, by rw [hb.cfg.1]; omega, rfl⟩)⟩
      obtain ⟨u, s2, hbr, -⟩ := hb.coh.read d p (s.sb.userbmapstart + i) hk hex
      rw [hbr]
      simp only
      obtain ⟨b1, b2⟩ := bread_bitmap_ok hb hidle hbr
      have hB2 : s2.BPB = s0.BPB := by unfold K.BPB; rw [b1.cfg.2.1]
      rw [hB2]
      have ho : ∃ x, x.is_buf s0.NBUF ∧ x ≠ u := by
        by_cases hu0 : u = Ptr.buf 0
        · exact ⟨Ptr.buf 1, Ptr.is_buf_iff.2 ⟨1, by omega, rfl⟩, by rw [hu0]; simp⟩
        · exact ⟨Ptr.buf 0, Ptr.is_buf_iff.2 ⟨0, by omega, rfl⟩, fun e => hu0 e.symm⟩
      obtain ⟨c2, s3, hbits⟩ := init_mod_fs_bits_returns (d := d) (hself i (by omega))
        s0.BPB 0 count s2 (by omega) b1 b2 ho
      rw [hbits]
      simp only
      obtain ⟨j2, -, a2, a3, a4, a5⟩ := init_mod_fs_bits_ok s0.BPB 0 count s2 s3 c2
        (by omega) b1 b2 hbits
      obtain ⟨s4, e4, r1, r2⟩ := brelse_bitmap_ok a3 a4
      rw [e4]
      simp only
      by_cases hfull : c2 = s0.sb.userbcount
      · rw [init_mod_fs_blocks_done n (i + 1) c2 s4 (by rw [r1.cfg.2.2.2.1]; omega)]
        exact ⟨_, _, rfl⟩
      · have hj2 : j2 = s0.BPB := by
          rcases a5 with a | a
          · exact a
          · exact absurd a hfull
        subst hj2
        have e : i * s0.BPB + s0.BPB = (i + 1) * s0.BPB := by
          rw [Nat.add_mul, Nat.one_mul]
        rw [e] at r1
        exact init_mod_fs_blocks_returns h2 hself n (i + 1) c2 s4 (by omega) r1 r2
    · exact ⟨_, _, rfl⟩

/-- The loop of `get_mod_buf` returns the first slot with the block number,
locked by the caller, when the lock of that slot is free. -/
theorem get_mod_buf_loop_found {q blk k : Nat} :
    ∀ (n i : Nat) (s : K), i + n = s.sb.userbcount → i ≤ k → k < s.sb.userbcount →
      (∀ j, i ≤ j → j < k → (s.get (Ptr.mod j)).blockno ≠ blk) →
      (s.get (Ptr.mod k)).blockno = blk → (s.get (Ptr.mod k)).lock = none →
      get_mod_buf_loop q blk n i s =
        Res.ok (Ptr.mod k) (s.set (Ptr.mod k) { s.get (Ptr.mod k) with lock := some q })
  | 0, i, s, hi, hik, hk, _, _, _ => by omega
  | n + 1, i, s, hi, hik, hk, hne, hb, hl => by
    unfold get_mod_buf_loop get_indexed_mod
    rw [if_neg (by omega)]
    simp only
    by_cases hik2 : i = k
    · subst hik2
      rw [if_pos hb]
      unfold acquiresleep
      rw [hl]
    · rw [if_neg (hne i (le_refl _) (by omega))]
      exact get_mod_buf_loop_found n (i + 1) s (by omega) (by omega) hk
        (fun j h1 h2 => hne j (by omega) h2) hb hl

/-- The loop of `get_mod_buf` stops with its panic when no slot has the block
number. -/
theorem get_mod_buf_loop_none {q blk : Nat} :
    ∀ (n i : Nat) (s : K), i + n = s.sb.userbcount →
      (∀ j, i ≤ j → j < s.sb.userbcount → (s.get (Ptr.mod j)).blockno ≠ blk) →
      get_mod_buf_loop q blk n i s = Res.halt (Halt.panic "get_mod_buf: no buffers") s
  | 0, _, _, _, _ => rfl
  | n + 1, i, s, hi, hne => by
    unfold get_mod_buf_loop get_indexed_mod
    rw [if_neg (by omega)]
    simp only
    rw [if_neg (hne i (le_refl _) (by omega))]
    exact get_mod_buf_loop_none n (i + 1) s (by omega) (fun j h1 h2 => hne j (by omega) h2)

/-- The lookups in the preloaded store, when the slots below `sb.userbcount`
hold the blocks of the list `l`, which has no duplicates: the lookup of the
block at index `k` returns slot `k`, the lookup of a block that is not in the
list stops with the panic of `get_mod_buf`. -/
theorem get_mod_buf_slots {s : K} {dev : Nat} {disk : Nat → Nat → Nat} {l : List Nat}
    (hl : l.length = s.sb.userbcount) (hn : l.Nodup)
    (hs : ∀ k blk, l[k]? = some blk → Slot s dev disk k blk) :
    (∀ k blk, l[k]? = some blk → ∀ q dv, ∃ s2,
      get_mod_buf q dv blk s = Res.ok (Ptr.mod k) s2 ∧ (s2.get (Ptr.mod k)).lock = some q) ∧
    (∀ blk, blk ∉ l → ∀ q dv,
      (get_mod_buf q dv blk s).halt? = some (Halt.panic "get_mod_buf: no buffers")) := by
  have hslot : ∀ j, j < s.sb.userbcount → ∃ b, l[j]? = some b ∧
      (s.get (Ptr.mod j)).blockno = b ∧ (s.get (Ptr.mod j)).lock = none := by
    intro j hj
    have hj2 : j < l.length := by omega
    exact ⟨l[j], List.getElem?_eq_getElem hj2, (hs j _ (List.getElem?_eq_getElem hj2)).1,
      (hs j _ (List.getElem?_eq_getElem hj2)).2.2.2.2.1⟩
  refine ⟨fun k blk hk q dv => ?_, fun blk hb q dv => ?_⟩
  · obtain ⟨hk2, hk3⟩ := List.getElem?_eq_some.1 hk
    have hsl := hs k blk hk
    unfold get_mod_buf
    rw [get_mod_buf_loop_found (k := k) s.sb.userbcount 0 (s.logged (Ev.lookup blk))
      (by simp) (Nat.zero_le _) (by simp; omega) (fun j _ hjk => ?_)
      (by rw [K.get_logged]; exact hsl.1) (by rw [K.get_logged]; exact hsl.2.2.2.2.1)]
    · exact ⟨_, rfl, by rw [K.get_set_same]⟩
    · rw [K.get_logged]
      obtain ⟨b, hb1, hb2, -⟩ := hslot j (by omega)
      rw [hb2]
      intro e
      subst e
      obtain ⟨hj2, hj3⟩ := List.getElem?_eq_some.1 hb1
      have := hn.getElem_inj_iff.1 (hj3.trans hk3.symm)
      omega
  · unfold get_mod_buf
    rw [get_mod_buf_loop_none s.sb.userbcount 0 (s.logged (Ev.lookup blk)) (by simp)
      (fun j _ hj => ?_)]
    · rfl
    · rw [K.get_logged]
      obtain ⟨b, hb1, hb2, -⟩ := hslot j (by simpa using hj)
      rw [hb2]
      intro e
      subst e
      exact hb (List.mem_iff_getElem?.2 ⟨j, hb1⟩)

/-- The state after `binit` at boot is where `init_mod_fs` starts: nothing is
tested, nothing is loaded, no record is locked. -/
theorem booting_start (n bs fs : Nat) (sb : Superblock) (disk : Nat → Nat → Nat) (dev : Nat) :
    Booting dev disk (binit (boot n bs fs sb disk)) (0 * (binit (boot n bs fs sb disk)).BPB) 0
        (binit (boot n bs fs sb disk)) ∧
      (∀ x, x.is_buf (binit (boot n bs fs sb disk)).NBUF →
        ((binit (boot n bs fs sb disk)).get x).lock = none) ∧
      (binit (boot n bs fs sb disk)).NBUF = n ∧ (binit (boot n bs fs sb disk)).BSIZE = bs ∧
      (binit (boot n bs fs sb disk)).FSSIZE = fs ∧ (binit (boot n bs fs sb disk)).sb = sb := by
  have he := binit_env (boot n bs fs sb disk)
  have hf := binit_fresh (boot_fresh n bs fs sb disk)
  refine ⟨⟨coherent_binit n bs fs sb disk dev, SameCfg.cfg_refl _, ?_, Nat.zero_le _,
    fun k blk hk => ?_⟩, fun x _ => (hf x).2.2.2.1, he.1, he.2.1, he.2.2.1, he.2.2.2.1⟩
  · rw [Nat.zero_mul]; rfl
  · rw [Nat.zero_mul] at hk
    simp [marked_below] at hk

/-- What `init_mod_fs` leaves when it returns, started after `binit` at boot:
`init_flag` is set and the slots hold the first `sb.userbcount` marked blocks. -/
theorem init_mod_fs_ok {n bs fs : Nat} {sb : Superblock} {disk : Nat → Nat → Nat}
    {d p dev : Nat} {s1 : K}
    (h : init_mod_fs d p dev (binit (boot n bs fs sb disk)) = Res.ok () s1) :
    s1.init_flag = true ∧ s1.sb = sb ∧ s1.BSIZE = bs ∧
      ∃ pos, pos ≤ (fs / (bs * 8) + 1) * (bs * 8) ∧
        (marked_below disk sb bs pos).length = sb.userbcount ∧
        ∀ k blk, (marked_below disk sb bs pos)[k]? = some blk → Slot s1 dev disk k blk := by
  obtain ⟨hb0, hidle, e1, e2, e3, e4⟩ := booting_start n bs fs sb disk dev
  unfold init_mod_fs at h
  simp only at h
  rw [e2, e3] at h
  cases hbl : init_mod_fs_blocks d p dev (fs / (bs * 8) + 1) 0 0 (binit (boot n bs fs sb disk)) with
  | halt e s' => rw [hbl] at h; cases h
  | ok c s2 =>
    rw [hbl] at h
    simp only at h
    obtain ⟨pos, hp1, hp2, -⟩ := init_mod_fs_blocks_ok (fs / (bs * 8) + 1) _ 0 0 _ s2 c
      (by omega) hb0 hidle hbl
    split at h
    · cases h
    · rename_i hc
      simp only [Res.ok.injEq, true_and] at h
      subst h
      have hc2 : c = s2.sb.userbcount := by simpa using hc
      have hBPB : (binit (boot n bs fs sb disk)).BPB = bs * 8 := by unfold K.BPB; rw [e2]
      rw [hBPB] at hp1
      have hsb : s2.sb = sb := hp2.cfg.2.2.2.1.trans e4
      refine ⟨rfl, hsb, hp2.cfg.2.1.trans e2, pos, hp1, ?_, fun k blk hk => ?_⟩
      · have := hp2.count_eq
        rw [e4, e2] at this
        rw [← this, hc2, hsb]
      · have hsl := hp2.slots k blk (by rw [e4, e2]; exact hk)
        refine hsl.of_eq rfl ?_
        exact ⟨rfl, rfl, rfl, rfl, rfl, rfl⟩

/-- C11: the content of the preloaded store after the bootstrap.  Take any
disk whose bitmap has exactly `sb.userbcount` set bits (`marked_blocks` lists
the blocks of the set bits in ascending order), and `init_mod_fs(dev)` called
after `binit` at boot.
First, when `init_mod_fs` returns, `init_flag` is set and for every `k` slot
`k` holds the block `blk` of the `k`-th set bit: `blockno` is `blk`, `dev` is
`dev`, the validity flag and `user_flag` are 1, the lock is free and the
`BSIZE` bytes of the payload are those of block `blk` of the disk; `get_mod_buf`
of `blk` returns slot `k` locked by the caller, and `get_mod_buf` of a block
that is not marked stops with `panic("get_mod_buf: no buffers")`.
Second, `init_mod_fs` does return when the pool has at least two records and no
set bit stands for the bitmap block that holds it. -/
theorem bootstrap_content (n bs fs : Nat) (sb : Superblock) (disk : Nat → Nat → Nat)
    (d p dev : Nat) (hcount : (marked_blocks disk sb bs fs).length = sb.userbcount) :
    (∀ s1, init_mod_fs d p dev (binit (boot n bs fs sb disk)) = Res.ok () s1 →
      s1.init_flag = true ∧
      (∀ k blk, (marked_blocks disk sb bs fs)[k]? = some blk →
        Slot s1 dev disk k blk ∧
        ∀ q dv, ∃ s2, get_mod_buf q dv blk s1 = Res.ok (Ptr.mod k) s2 ∧
          (s2.get (Ptr.mod k)).lock = some q) ∧
      (∀ blk, blk ∉ marked_blocks disk sb bs fs → ∀ q dv,
        (get_mod_buf q dv blk s1).halt? = some (Halt.panic "get_mod_buf: no buffers"))) ∧
    (2 ≤ n → (∀ blk ∈ marked_blocks disk sb bs fs, blk ≠ blk / (bs * 8) + sb.userbmapstart) →
      ∃ s1, init_mod_fs d p dev (binit (boot n bs fs sb disk)) = Res.ok () s1) := by
  constructor
  · intro s1 h
    obtain ⟨h1, h2, h3, pos, h4, h5, h6⟩ := init_mod_fs_ok h
    have hpre := marked_below_prefix disk sb bs h4
    have heq : marked_below disk sb bs pos = marked_blocks disk sb bs fs :=
      hpre.eq_of_length (h5.trans hcount.symm)
    rw [heq] at h6
    obtain ⟨g1, g2⟩ := get_mod_buf_slots (by rw [h2]; exact hcount)
      (marked_below_nodup disk sb bs _) h6
    exact ⟨h1, fun k blk hk => ⟨h6 k blk hk, g1 k blk hk⟩, g2⟩
  · intro h2 hself
    obtain ⟨hb0, hidle, e1, e2, e3, e4⟩ := booting_start n bs fs sb disk dev
    have hBPB : (binit (boot n bs fs sb disk)).BPB = bs * 8 := by unfold K.BPB; rw [e2]
    have hs : ∀ i < fs / (bs * 8) + 1, ∀ j < (binit (boot n bs fs sb disk)).BPB,
        bitmap_bit disk (binit (boot n bs fs sb disk)).sb (binit (boot n bs fs sb disk)).BSIZE
          (i * (binit (boot n bs fs sb disk)).BPB + j) = true →
        i * (binit (boot n bs fs sb disk)).BPB + j ≠
          (binit (boot n bs fs sb disk)).sb.userbmapstart + i := by
      intro i hi j hj hbit
      rw [hBPB] at hj hbit ⊢
      rw [e4, e2] at hbit
      rw [e4]
      have hmem : i * (bs * 8) + j ∈ marked_blocks disk sb bs fs := by
        unfold marked_blocks marked_below
        rw [List.mem_filter, List.mem_range]
        refine ⟨?_, hbit⟩
        have : (i + 1) * (bs * 8) ≤ (fs / (bs * 8) + 1) * (bs * 8) :=
          Nat.mul_le_mul_right _ (by omega)
        rw [Nat.add_mul, Nat.one_mul] at this
        omega
      have hne := hself _ hmem
      have hdiv : (i * (bs * 8) + j) / (bs * 8) = i := by
        rw [Nat.add_comm, Nat.add_mul_div_right _ _ (by omega), Nat.div_eq_of_lt hj,
          Nat.zero_add]
      rw [hdiv] at hne
      omega
    obtain ⟨c, s2, hbl⟩ := init_mod_fs_blocks_returns (d := d) (p := p) (by rw [e1]; exact h2)
      hs (fs / (bs * 8) + 1) 0 0 _ (by omega) hb0 hidle
    obtain ⟨pos, hp1, hp2, hp3⟩ := init_mod_fs_blocks_ok (fs / (bs * 8) + 1) _ 0 0 _ s2 c
      (by omega) hb0 hidle hbl
    have hc : c = s2.sb.userbcount := by
      rw [hp2.cfg.2.2.2.1]
      rcases hp3 with a | a
      · have := hp2.count_eq
        rw [a, hBPB, e4, e2] at this
        rw [this, e4]
        exact hcount
      · exact a
    unfold init_mod_fs
    simp only
    rw [e2, e3, hbl]
    simp only
    rw [if_neg (by simpa using hc)]
    exact ⟨_, rfl⟩

set_option maxRecDepth 100000 in
/-- The scenario of the claim: `sb.userbcount` is 3 and the bitmap marks the
blocks 10, 15 and 42.  After `init_mod_fs` the lookups of 10, 15 and 42 return
the slots 0, 1 and 2, which hold the blocks, and the lookup of block 7, whose
bit is clear, stops with the panic of `get_mod_buf`. -/
theorem bootstrap_content_witness :
    marked_blocks demo_disk demo_sb 8 50 = [10, 15, 42] ∧
      ∃ s1, init_mod_fs 0 7 1 tiny_boot = Res.ok () s1 ∧
        Slot s1 1 demo_disk 0 10 ∧ Slot s1 1 demo_disk 1 15 ∧ Slot s1 1 demo_disk 2 42 ∧
        (∃ s2, get_mod_buf 7 1 10 s1 = Res.ok (Ptr.mod 0) s2 ∧
          (s2.get (Ptr.mod 0)).lock = some 7) ∧
        (∃ s2, get_mod_buf 7 1 15 s1 = Res.ok (Ptr.mod 1) s2 ∧
          (s2.get (Ptr.mod 1)).lock = some 7) ∧
        (∃ s2, get_mod_buf 7 1 42 s1 = Res.ok (Ptr.mod 2) s2 ∧
          (s2.get (Ptr.mod 2)).lock = some 7) ∧
        (get_mod_buf 7 1 7 s1).halt? = some (Halt.panic "get_mod_buf: no buffers") :=
  have h := bootstrap_content 3 8 50 demo_sb demo_disk 0 7 1 (by decide!)
  have ⟨s1, e⟩ := h.2 (by decide) (by decide!)
  have g := h.1 s1 e
  ⟨by decide!, s1, e, (g.2.1 0 10 (by decide!)).1, (g.2.1 1 15 (by decide!)).1,
    (g.2.1 2 42 (by decide!)).1, (g.2.1 0 10 (by decide!)).2 7 1,
    (g.2.1 1 15 (by decide!)).2 7 1, (g.2.1 2 42 (by decide!)).2 7 1,
    g.2.2 7 (by decide!) 7 1⟩

/-- The lookup in the ordinary cache is its critical section followed by
`acquiresleep` on the record chosen. -/
theorem bget_cache_split (p dev blockno : Nat) (s : K) :
    bget_cache p dev blockno s =
      match bget_enter dev blockno s with
      | Res.halt h s1 => Res.halt h s1
      | Res.ok b s1 =>
        match acquiresleep p b s1 with
        | Res.ok _ s2 => Res.ok b s2
        | Res.halt h s2 => Res.halt h s2 := by
  unfold bget_cache bget_enter
  cases scan s Buf.next (is_key dev blockno) s.NBUF s.head.next with
  | none => rfl
  | some r =>
    cases r with
    | some b => rfl
    | none =>
      simp only
      cases scan s Buf.prev is_free s.NBUF s.head.prev with
      | none => rfl
      | some r2 =>
        cases r2 with
        | some b => rfl
        | none => rfl

/-- What the critical section of `bget` does when it returns. -/
theorem bget_enter_ok {dev blockno : Nat} {s s1 : K} {b : Ptr} (hw : WF s)
    (h : bget_enter dev blockno s = Res.ok b s1) :
    b ∈ s.mru ∧ SameLinks s s1 ∧ SameEnv s s1 ∧ (∀ c, c ≠ b → s1.get c = s.get c) ∧
      (∀ c, (s1.get c).lock = (s.get c).lock ∧ (s1.get c).user_flag = (s.get c).user_flag) ∧
      s1.mru.find? (fun x => is_key dev blockno (s1.get x)) = some b ∧
      ((s.mru.find? (fun x => is_key dev blockno (s.get x)) = some b ∧
          (s1.get b).refcnt = uinc (s.get b).refcnt) ∨
        (s.mru.find? (fun x => is_key dev blockno (s.get x)) = none ∧
          (s1.get b).refcnt = 1)) := by
  have h1 := hw.scan_next (is_key dev blockno)
  have h2 := hw.scan_prev is_free
  unfold bget_enter at h
  simp only [K.head_eq] at h
  rw [h1] at h
  cases hk : s.mru.find? (fun x => is_key dev blockno (s.get x)) with
  | some b' =>
    rw [hk] at h
    simp only [Res.ok.injEq] at h
    obtain ⟨rfl, rfl⟩ := h
    have hkk := find_is_key hk
    have hS : SameLinks s (s.set b' { s.get b' with refcnt := uinc (s.get b').refcnt }) := by
      apply SameLinks.of_set <;> rfl
    refine ⟨hkk.1, hS, SameEnv.env_set _ _ _, fun c hc => K.get_set_ne _ _ hc, fun c => ?_, ?_,
      Or.inl ⟨rfl, by rw [K.get_set_same]⟩⟩
    · rw [K.get_set]; split
      · subst_vars; exact ⟨rfl, rfl⟩
      · exact ⟨rfl, rfl⟩
    · rw [hS.mru hw, ← hk]
      apply find_congr
      intro x _
      rw [K.get_set]; split
      · subst_vars; rfl
      · rfl
  | none =>
    rw [hk] at h
    simp only at h
    rw [h2] at h
    cases hf : s.mru.reverse.find? (fun x => is_free (s.get x)) with
    | none => rw [hf] at h; cases h
    | some b' =>
      rw [hf] at h
      simp only [K.get_set_same, K.set_set, Res.ok.injEq] at h
      obtain ⟨rfl, rfl⟩ := h
      have hbm : b' ∈ s.mru := List.mem_reverse.1 (find_free_some hf).1
      have hS : SameLinks s (s.set b' {
          valid := false, dev := dev, blockno := blockno, lock := (s.get b').lock, refcnt := 1,
          prev := (s.get b').prev, next := (s.get b').next, data := (s.get b').data,
          user_flag := (s.get b').user_flag }) := SameLinks.of_set rfl rfl
      refine ⟨hbm, hS, SameEnv.env_set _ _ _, fun c hc => K.get_set_ne _ _ hc, fun c => ?_, ?_,
        Or.inr ⟨rfl, by rw [K.get_set_same]⟩⟩
      · rw [K.get_set]; split
        · subst_vars; exact ⟨rfl, rfl⟩
        · exact ⟨rfl, rfl⟩
      · rw [hS.mru hw]
        apply find_unique hbm
        · rw [K.get_set_same]; simp [is_key]
        · intro x hx hxb
          rw [K.get_set_ne _ _ hxb]
          have := find_key_none.1 hk x hx
          simpa [is_key] using this

theorem active_count_update {ts : List Nat} (hn : ts.Nodup) {p : Nat} (hp : p ∈ ts)
    (ph : Nat → Phase) (x : Phase) :
    active_count ts (Function.update ph p x) + (if (ph p).active = true then 1 else 0) =
      active_count ts ph + (if x.active = true then 1 else 0) := by
  unfold active_count
  induction ts with
  | nil => cases hp
  | cons a l ih =>
    rw [List.nodup_cons] at hn
    rw [List.countP_cons, List.countP_cons]
    by_cases hap : a = p
    · subst hap
      have hl : l.countP (fun q => (Function.update ph a x q).active) =
          l.countP (fun q => (ph q).active) := by
        apply List.countP_congr
        intro q hq
        have : q ≠ a := fun e => hn.1 (e ▸ hq)
        simp [Function.update_noteq this]
      rw [hl, Function.update_same]
      omega
    · have hp2 : p ∈ l := by
        rcases List.mem_cons.1 hp with e | e
        · exact absurd e.symm hap
        · exact e
      have := ih hn.2 hp2
      rw [Function.update_noteq hap]
      omega

theorem active_count_le (ts : List Nat) (ph : Nat → Phase) : active_count ts ph ≤ ts.length :=
  List.countP_le_length _

/-- The function `brelse` is its check and `releasesleep`, followed for a
record without the preloaded tag by its critical section. -/
theorem brelse_split (p : Nat) (b : Ptr) (s : K) :
    brelse p b s =
      match brelse_unlock p b s with
      | Res.halt h s1 => Res.halt h s1
      | Res.ok _ s1 =>
        if (s1.get b).user_flag then Res.ok () s1 else Res.ok () (brelse_exit b s1) := by
  unfold brelse brelse_unlock brelse_exit
  by_cases hl : holdingsleep p b s = true
  · simp only [hl, Bool.not_true, Bool.false_eq_true, if_false]
    split
    · rfl
    · split <;> rfl
  · simp only [hl, Bool.not_false, if_true]

/-- What the critical section of `brelse` does. -/
theorem brelse_exit_ok {b : Ptr} {s : K} (hw : WF s) (hb : b ∈ s.mru) :
    WF (brelse_exit b s) ∧ (brelse_exit b s).NBUF = s.NBUF ∧
      (∀ c, ((brelse_exit b s).get c).dev = (s.get c).dev ∧
        ((brelse_exit b s).get c).blockno = (s.get c).blockno ∧
        ((brelse_exit b s).get c).lock = (s.get c).lock ∧
        ((brelse_exit b s).get c).user_flag = (s.get c).user_flag) ∧
      ((brelse_exit b s).get b).refcnt = udec (s.get b).refcnt ∧
      (∀ c, c ≠ b → ((brelse_exit b s).get c).refcnt = (s.get c).refcnt) ∧
      (udec (s.get b).refcnt = 0 → (brelse_exit b s).mru = b :: s.mru.erase b) ∧
      (udec (s.get b).refcnt ≠ 0 → (brelse_exit b s).mru = s.mru) := by
  have hS : SameLinks s (s.set b { s.get b with refcnt := udec (s.get b).refcnt }) := by
    apply SameLinks.of_set <;> rfl
  have hw1 := hS.isList hw
  have hg : ∀ c, ((s.set b { s.get b with refcnt := udec (s.get b).refcnt }).get c).dev =
        (s.get c).dev ∧
      ((s.set b { s.get b with refcnt := udec (s.get b).refcnt }).get c).blockno =
        (s.get c).blockno ∧
      ((s.set b { s.get b with refcnt := udec (s.get b).refcnt }).get c).lock =
        (s.get c).lock ∧
      ((s.set b { s.get b with refcnt := udec (s.get b).refcnt }).get c).user_flag =
        (s.get c).user_flag := by
    intro c
    rw [K.get_set]; split
    · subst_vars; exact ⟨rfl, rfl, rfl, rfl⟩
    · exact ⟨rfl, rfl, rfl, rfl⟩
  unfold brelse_exit
  simp only [K.get_set_same]
  by_cases h0 : udec (s.get b).refcnt = 0
  · rw [if_pos h0]
    have hF := brelse_move_fields b (s.set b { s.get b with refcnt := udec (s.get b).refcnt })
    have hI := brelse_move_isList hw1 hb
    have hx := hF.2.2.2.2.2.2.2
    refine ⟨WF_iff.2 ⟨_, hI⟩, hF.env.1.trans (K.set_NBUF _ _ _), fun c => ?_, ?_, fun c hc => ?_,
      fun _ => hI.mru_eq, fun hn => absurd h0 hn⟩
    · obtain ⟨c1, c2, c3, c4, c5, c6, c7⟩ := hx c
      obtain ⟨d1, d2, d3, d4⟩ := hg c
      exact ⟨c2.trans d1, c3.trans d2, c4.trans d3, c7.trans d4⟩
    · obtain ⟨c1, c2, c3, c4, c5, c6, c7⟩ := hx b
      rw [c5, K.get_set_same]
    · obtain ⟨c1, c2, c3, c4, c5, c6, c7⟩ := hx c
      rw [c5, K.get_set_ne _ _ hc]
  · rw [if_neg h0]
    refine ⟨WF_iff.2 ⟨_, hw1⟩, K.set_NBUF _ _ _, hg, by rw [K.get_set_same],
      fun c hc => by rw [K.get_set_ne _ _ hc], fun h => absurd h h0, fun _ => hw1.mru_eq⟩

/-- Every step of a thread keeps `Racing`. -/
theorem Racing.after_step {dev blockno : Nat} {ts : List Nat} {s0 s s1 : K} {ph ph1 : Nat → Phase}
    (hn : ts.Nodup) (hr : base_count dev blockno s0 + ts.length < UINT)
    (h : Racing dev blockno ts s0 s ph) (hs : Step dev blockno ts s ph s1 ph1) :
    Racing dev blockno ts s0 s1 ph1 := by
  cases hs with
  | enter p b hp hi he =>
    obtain ⟨e1, e2, e3, e4, e5, e6, e7⟩ := bget_enter_ok h.wf he
    have hA := active_count_update hn hp ph (Phase.waiting b)
    rw [hi] at hA
    simp only [Phase.active, Bool.false_eq_true, if_false, if_true, Nat.add_zero] at hA
    have hle := active_count_le ts (Function.update ph p (Phase.waiting b))
    have hprev : ∀ q b2, q ≠ p →
        (ph q = Phase.waiting b2 ∨ ph q = Phase.holding b2 ∨ ph q = Phase.leaving b2) →
        b2 = b := by
      intro q b2 _ hq
      have hf := h.same q b2 hq
      rcases e7 with ⟨k1, -⟩ | ⟨k1, -⟩
      · rw [k1] at hf
        simp only [Option.some.injEq] at hf
        exact hf.symm
      · rw [k1] at hf; cases hf
    refine ⟨e2.wf h.wf, h.untagged.of_flags e3.1 (fun c => (e5 c).2), fun q b2 hq => ?_,
      fun q b2 hq => ?_, fun b2 hb2 => ?_, fun hb2 => ?_⟩
    · by_cases hqp : q = p
      · subst hqp
        rw [Function.update_same] at hq
        rcases hq with hq | hq | hq
        · simp only [Phase.waiting.injEq] at hq
          rw [← hq]; exact e6
        · cases hq
        · cases hq
      · rw [Function.update_noteq hqp] at hq
        rw [hprev q b2 hqp hq]; exact e6
    · by_cases hqp : q = p
      · subst hqp
        rw [Function.update_same] at hq
        cases hq
      · rw [Function.update_noteq hqp] at hq
        rw [(e5 b2).1]
        exact h.lock q b2 hq
    · rw [e6] at hb2
      simp only [Option.some.injEq] at hb2
      subst hb2
      rcases e7 with ⟨k1, k2⟩ | ⟨k1, k2⟩
      · rw [k2, h.count b k1, hA]
        rw [uinc_of_lt (by omega)]
        omega
      · rw [k2, hA, (h.fresh k1).1, (h.fresh k1).2]
    · rw [e6] at hb2; cases hb2
  | take p b hp hi he =>
    unfold acquiresleep at he
    cases hl : (s.get b).lock with
    | some q => rw [hl] at he; cases he
    | none =>
      rw [hl] at he
      simp only [Res.ok.injEq, true_and] at he
      subst he
      have hS : SameLinks s (s.set b { s.get b with lock := some p }) := by
        apply SameLinks.of_set <;> rfl
      have hA := active_count_update hn hp ph (Phase.holding b)
      rw [hi] at hA
      simp only [Phase.active, if_true, Nat.add_right_cancel_iff] at hA
      have hfind : (s.set b { s.get b with lock := some p }).mru.find?
          (fun x => is_key dev blockno ((s.set b { s.get b with lock := some p }).get x)) =
          s.mru.find? (fun x => is_key dev blockno (s.get x)) := by
        rw [hS.mru h.wf]
        apply find_congr
        intro x _
        rw [K.get_set]; split
        · subst_vars; rfl
        · rfl
      have hpb := h.same p b (Or.inl hi)
      refine ⟨hS.wf h.wf, h.untagged.of_flags (K.set_NBUF _ _ _) (fun c => ?_),
        fun q b2 hq => ?_, fun q b2 hq => ?_, fun b2 hb2 => ?_, fun hb2 => ?_⟩
      · rw [K.get_set]; split
        · subst_vars; rfl
        · rfl
      · rw [hfind]
        by_cases hqp : q = p
        · subst hqp
          rw [Function.update_same] at hq
          rcases hq with hq | hq | hq
          · cases hq
          · simp only [Phase.holding.injEq] at hq
            rw [← hq]; exact hpb
          · cases hq
        · rw [Function.update_noteq hqp] at hq
          exact h.same q b2 hq
      · by_cases hqp : q = p
        · subst hqp
          rw [Function.update_same] at hq
          simp only [Phase.holding.injEq] at hq
          rw [← hq, K.get_set_same]
        · rw [Function.update_noteq hqp] at hq
          have hf := h.same q b2 (Or.inr (Or.inl hq))
          rw [hpb] at hf
          simp only [Option.some.injEq] at hf
          have := h.lock q b2 hq
          rw [← hf, hl] at this
          cases this
      · rw [hfind] at hb2
        have := h.count b2 hb2
        rw [hA]
        by_cases hbb : b2 = b
        · subst hbb; rw [K.get_set_same]; exact this
        · rw [K.get_set_ne _ _ hbb]; exact this
      · rw [hfind, hpb] at hb2; cases hb2
  | unlock p b hp hi he =>
    unfold brelse_unlock at he
    by_cases hl : holdingsleep p b s = true
    · simp only [hl, Bool.not_true, Bool.false_eq_true, if_false, Res.ok.injEq, true_and,
        releasesleep] at he
      subst he
      have hS : SameLinks s (s.set b { s.get b with lock := none }) := by
        apply SameLinks.of_set <;> rfl
      have hA := active_count_update hn hp ph (Phase.leaving b)
      rw [hi] at hA
      simp only [Phase.active, if_true, Nat.add_right_cancel_iff] at hA
      have hfind : (s.set b { s.get b with lock := none }).mru.find?
          (fun x => is_key dev blockno ((s.set b { s.get b with lock := none }).get x)) =
          s.mru.find? (fun x => is_key dev blockno (s.get x)) := by
        rw [hS.mru h.wf]
        apply find_congr
        intro x _
        rw [K.get_set]; split
        · subst_vars; rfl
        · rfl
      have hpb := h.same p b (Or.inr (Or.inl hi))
      refine ⟨hS.wf h.wf, h.untagged.of_flags (K.set_NBUF _ _ _) (fun c => ?_),
        fun q b2 hq => ?_, fun q b2 hq => ?_, fun b2 hb2 => ?_, fun hb2 => ?_⟩
      · rw [K.get_set]; split
        · subst_vars; rfl
        · rfl
      · rw [hfind]
        by_cases hqp : q = p
        · subst hqp
          rw [Function.update_same] at hq
          rcases hq with hq | hq | hq
          · cases hq
          · cases hq
          · simp only [Phase.leaving.injEq] at hq
            rw [← hq]; exact hpb
        · rw [Function.update_noteq hqp] at hq
          exact h.same q b2 hq
      · by_cases hqp : q = p
        · subst hqp
          rw [Function.update_same] at hq
          cases hq
        · rw [Function.update_noteq hqp] at hq
          have hf := h.same q b2 (Or.inr (Or.inl hq))
          rw [hpb] at hf
          simp only [Option.some.injEq] at hf
          subst hf
          have h1 := h.lock q b hq
          have h2 := h.lock p b hi
          rw [h1] at h2
          simp only [Option.some.injEq] at h2
          exact absurd h2 hqp
      · rw [hfind] at hb2
        have := h.count b2 hb2
        rw [hA]
        by_cases hbb : b2 = b
        · subst hbb; rw [K.get_set_same]; exact this
        · rw [K.get_set_ne _ _ hbb]; exact this
      · rw [hfind, hpb] at hb2; cases hb2
    · simp [hl] at he
  | leave p b hp hi =>
    have hpb := h.same p b (Or.inr (Or.inr hi))
    have hkk := find_is_key hpb
    obtain ⟨k1, k2, k3, k4, k5, k6, k7⟩ := brelse_exit_ok h.wf hkk.1
    have hA := active_count_update hn hp ph Phase.idle
    rw [hi] at hA
    simp only [Phase.active, Bool.false_eq_true, if_false, if_true, Nat.add_zero] at hA
    have hle := active_count_le ts ph
    have hkey : ∀ x, is_key dev blockno ((brelse_exit b s).get x) =
        is_key dev blockno (s.get x) := by
      intro x
      unfold is_key
      rw [(k3 x).1, (k3 x).2.1]
    have hfind : (brelse_exit b s).mru.find?
        (fun x => is_key dev blockno ((brelse_exit b s).get x)) = some b := by
      by_cases h0 : udec (s.get b).refcnt = 0
      · rw [k6 h0, List.find?_cons]
        have : is_key dev blockno ((brelse_exit b s).get b) = true := by
          rw [hkey]; simp [is_key, hkk.2.1, hkk.2.2]
        rw [this]
      · rw [k7 h0, ← hpb]
        exact find_congr (fun x _ => hkey x)
    refine ⟨k1, h.untagged.of_flags k2 (fun c => (k3 c).2.2.2), fun q b2 hq => ?_,
      fun q b2 hq => ?_, fun b2 hb2 => ?_, fun hb2 => ?_⟩
    · by_cases hqp : q = p
      · subst hqp
        rw [Function.update_same] at hq
        rcases hq with hq | hq | hq <;> cases hq
      · rw [Function.update_noteq hqp] at hq
        have hf := h.same q b2 hq
        rw [hpb] at hf
        simp only [Option.some.injEq] at hf
        rw [← hf]; exact hfind
    · by_cases hqp : q = p
      · subst hqp
        rw [Function.update_same] at hq
        cases hq
      · rw [Function.update_noteq hqp] at hq
        rw [(k3 b2).2.2.1]
        exact h.lock q b2 hq
    · rw [hfind] at hb2
      simp only [Option.some.injEq] at hb2
      subst hb2
      rw [k4, h.count b hpb, udec_of_pos (by omega) (by omega)]
      omega
    · rw [hfind] at hb2; cases hb2

/-- Every interleaving keeps `Racing`. -/
theorem sched_racing {dev blockno : Nat} {ts : List Nat} {s0 s : K} {ph : Nat → Phase}
    (hn : ts.Nodup) (hw : WF s0) (hu : Untagged s0)
    (hr : base_count dev blockno s0 + ts.length < UINT)
    (h : Sched dev blockno ts s0 s ph) : Racing dev blockno ts s0 s ph := by
  induction h with
  | start =>
    have hA : active_count ts (fun _ => Phase.idle) = 0 := by
      unfold active_count
      rw [List.countP_eq_zero]
      intro p _
      simp [Phase.active]
    refine ⟨hw, hu, fun p b hp => ?_, fun p b hp => ?_, fun b hb => ?_, fun hb => ?_⟩
    · rcases hp with hp | hp | hp <;> cases hp
    · cases hp
    · rw [hA]
      unfold base_count
      rw [hb]
      rfl
    · refine ⟨hA, ?_⟩
      unfold base_count
      rw [hb]
  | step _ hs ih => exact ih.after_step hn hr hs

/-- C16, as written: in the bootstrapped state `demo_booted` block 10 is
served by the preloaded store.  The `bget` of process 7 returns slot 0 with the
lock taken and the reference count of the slot is 0 before and after; the
`bget` of process 8 for the same key then sleeps on the lock of slot 0, and the
count is still 0.  Neither acquire has incremented the reference count. -/
theorem preloaded_acquire_no_count :
    demo_booted.init_flag = true ∧
      (bget 1 7 1 10 demo_booted).val? = some (Ptr.mod 0) ∧
      (demo_booted.get (Ptr.mod 0)).refcnt = 0 ∧
      (slot_s1.get (Ptr.mod 0)).lock = some 7 ∧
      (slot_s1.get (Ptr.mod 0)).refcnt = 0 ∧
      (bget 1 8 1 10 slot_s1).halt? = some (Halt.sleep (Ptr.mod 0)) ∧
      (slot_s2.get (Ptr.mod 0)).lock = some 7 ∧
      (slot_s2.get (Ptr.mod 0)).refcnt = 0 := by
  decide!

/-- C16, amended: threads `ts` acquire the key `(dev, blockno)` in the
ordinary cache and release it, in any interleaving of the critical section of
`bget`, its `acquiresleep`, the `releasesleep` of `brelse` and the critical
section of `brelse`, from a state `s0` with a well formed list.  `bget` on the
path of the ordinary cache is the critical section followed by `acquiresleep`,
and `brelse` is `releasesleep` followed by its critical section.  In every
state reached: a lock has one holder, and two threads that hold the lock of the
same record are the same thread; all threads between the two critical sections
have the same record, the first with the key, and while one of them holds its
lock the `acquiresleep` of every other one sleeps on it; the reference count of
that record is its count in `s0` plus the number of these threads, so each
acquire has incremented it exactly once; the next critical section of `bget`
adds exactly one to it.  An acquire served by the preloaded store,
`get_mod_buf`, takes the lock of the slot only when it is free and leaves the
reference count of every record as it was. -/
theorem acquires_serialize (dev blockno : Nat) (ts : List Nat) (s0 s : K) (ph : Nat → Phase)
    (hn : ts.Nodup) (hw : WF s0) (hu : Untagged s0)
    (hr : base_count dev blockno s0 + ts.length < UINT)
    (h : Sched dev blockno ts s0 s ph) :
    (∀ p t, bget_cache p dev blockno t =
        match bget_enter dev blockno t with
        | Res.halt e t1 => Res.halt e t1
        | Res.ok b t1 =>
          match acquiresleep p b t1 with
          | Res.ok _ t2 => Res.ok b t2
          | Res.halt e t2 => Res.halt e t2) ∧
      (∀ p b t, brelse p b t =
        match brelse_unlock p b t with
        | Res.halt e t1 => Res.halt e t1
        | Res.ok _ t1 =>
          if (t1.get b).user_flag then Res.ok () t1 else Res.ok () (brelse_exit b t1)) ∧
      (∀ p b, ph p = Phase.holding b → (s.get b).lock = some p) ∧
      (∀ p q b, ph p = Phase.holding b → ph q = Phase.holding b → p = q) ∧
      (∀ p b, (ph p).active = true → (ph p = Phase.waiting b ∨ ph p = Phase.holding b ∨
          ph p = Phase.leaving b) →
        s.mru.find? (fun x => is_key dev blockno (s.get x)) = some b ∧
          (s.get b).refcnt = base_count dev blockno s0 + active_count ts ph) ∧
      (∀ p q b, ph p = Phase.waiting b → ph q = Phase.holding b →
        acquiresleep p b s = Res.halt (Halt.sleep b) s) ∧
      (∀ p b s1, p ∈ ts → ph p = Phase.idle → bget_enter dev blockno s = Res.ok b s1 →
        (s1.get b).refcnt = base_count dev blockno s0 + active_count ts ph + 1 ∧
          (0 < active_count ts ph → (s1.get b).refcnt = (s.get b).refcnt + 1) ∧
          ∀ c, c ≠ b → s1.get c = s.get c) ∧
      (∀ p dv blk t t1 b, get_mod_buf p dv blk t = Res.ok b t1 →
        (t.get b).lock = none ∧ (t1.get b).lock = some p ∧
          ∀ c, (t1.get c).refcnt = (t.get c).refcnt) := by
  have I := sched_racing hn hw hu hr h
  refine ⟨fun p t => bget_cache_split p dev blockno t, brelse_split, I.lock, fun p q b hp hq => ?_,
    fun p b _ hp => ⟨I.same p b hp, I.count b (I.same p b hp)⟩, fun p q b _ hq => ?_,
    fun p b s1 hp hi he => ?_, fun p dv blk t t1 b hg => ?_⟩
  · have h1 := I.lock p b hp
    have h2 := I.lock q b hq
    rw [h1] at h2
    simpa using h2
  · unfold acquiresleep
    rw [I.lock q b hq]
  · have J := I.after_step hn hr (Step.enter p b hp hi he)
    obtain ⟨e1, e2, e3, e4, e5, e6, e7⟩ := bget_enter_ok I.wf he
    have hA := active_count_update hn hp ph (Phase.waiting b)
    rw [hi] at hA
    simp only [Phase.active, Bool.false_eq_true, if_false, if_true, Nat.add_zero] at hA
    have hc := J.count b e6
    rw [hA] at hc
    refine ⟨by omega, fun hpos => ?_, e4⟩
    rcases e7 with ⟨k1, -⟩ | ⟨k1, -⟩
    · have := I.count b k1
      omega
    · have := (I.fresh k1).1
      omega
  · obtain ⟨k, -, hb, -, hl, -, -, -, hl2, -, hne, -⟩ := get_mod_buf_ok hg
    refine ⟨hl, hl2, fun c => ?_⟩
    by_cases hc : c = b
    · subst hc
      unfold get_mod_buf at hg
      obtain ⟨k2, -, -, -, -, -, -, h7⟩ := get_mod_buf_loop_ok _ 0 _ t1 c (by simp) hg
      subst h7
      simp
    · rw [hne c hc]

set_option maxRecDepth 100000 in
/-- The theorem `acquires_serialize` for threads 7 and 8 and the key (1, 100)
from `demo_binit`: thread 7 has run `bget` and holds record 0, thread 8 has run
the critical section of `bget`; the reference count of record 0 is 2 and the
`acquiresleep` of thread 8 sleeps. -/
theorem acquires_serialize_witness :
    (race_s3.get (Ptr.buf 0)).lock = some 7 ∧ (race_s3.get (Ptr.buf 0)).refcnt = 2 ∧
      acquiresleep 8 (Ptr.buf 0) race_s3 = Res.halt (Halt.sleep (Ptr.buf 0)) race_s3 := by
  have e1 : bget_enter 1 100 demo_binit = Res.ok (Ptr.buf 0) race_s1 := Res.eq_ok (by decide!)
  have e2 : acquiresleep 7 (Ptr.buf 0) race_s1 = Res.ok () race_s2 := Res.eq_ok (by decide!)
  have e3 : bget_enter 1 100 race_s2 = Res.ok (Ptr.buf 0) race_s3 := Res.eq_ok (by decide!)
  have hs : Sched 1 100 [7, 8] demo_binit race_s3 race_ph :=
    Sched.step (Sched.step (Sched.step Sched.start
      (Step.enter 7 (Ptr.buf 0) (by decide) rfl e1))
      (Step.take 7 (Ptr.buf 0) (by decide) (by simp [Function.update]) e2))
      (Step.enter 8 (Ptr.buf 0) (by decide) (by simp [Function.update]) e3)
  have hb : base_count 1 100 demo_binit = 0 := by decide!
  have ha : active_count [7, 8] race_ph = 2 := by decide
  have h := acquires_serialize 1 100 [7, 8] demo_binit race_s3 race_ph (by decide)
    (binit_WF _).1 (by decide!) (by rw [hb]; decide) hs
  have h7 : race_ph 7 = Phase.holding (Ptr.buf 0) := by decide
  have h8 : race_ph 8 = Phase.waiting (Ptr.buf 0) := by decide
  refine ⟨h.2.2.1 7 _ h7, ?_, h.2.2.2.2.2.1 8 7 _ h8 h7⟩
  have := (h.2.2.2.2.1 7 (Ptr.buf 0) (by rw [h7]; rfl) (Or.inr (Or.inl h7))).2
  rw [this, hb, ha]

/-- What a classification that returns has done to the ordinary cache, when
the bitmap block is looked up there: `u` is the record of the bitmap block. -/
theorem is_user_prog_block_core {d p dev blockno : Nat} {s s1 : K} {t : Nat} (hw : WF s)
    (hu : Untagged s)
    (hpre : ¬ (s.init_flag = true ∧ s.sb.dstart ≤ UBBLOCK blockno s ∧
      UBBLOCK blockno s < s.sb.dfinish))
    (h : is_user_prog_block d p dev blockno s = Res.ok t s1) :
    ∃ u, bitmap_record dev blockno s = some u ∧ u ∈ s.mru ∧
      (∀ x, x ≠ u → (s1.get x).same_fields (s.get x)) ∧
      (s1.get u).dev = dev ∧ (s1.get u).blockno = UBBLOCK blockno s ∧
      (s1.get u).valid = true ∧ (s1.get u).lock = none ∧
      (((s.get u).dev = dev ∧ (s.get u).blockno = UBBLOCK blockno s ∧
          (s.get u).valid = true) → (s1.get u).data = (s.get u).data ∧ s1.log = s.log) ∧
      (t = if (s1.get u).data (blockno % (8 * s.BSIZE) / 8)
          &&& (1 <<< (blockno % (8 * s.BSIZE) % 8)) ≠ 0 then 1 else 0) ∧
      (s1.mru = u :: s.mru.erase u ∨ s1.mru = s.mru) ∧
      s1.mru.find? (fun x => is_key dev (UBBLOCK blockno s) (s1.get x)) = some u ∧
      WF s1 ∧ Untagged s1 ∧ SameCfg s s1 ∧
      ((s1.get u).refcnt = 0 → s1.mru = u :: s.mru.erase u) := by
  rw [is_user_prog_block_eq d p dev blockno hpre] at h
  cases hg : bget_cache p dev (UBBLOCK blockno s) s with
  | halt e s' => rw [hg] at h; cases h
  | ok u sg =>
    rw [hg] at h
    simp only at h
    obtain ⟨g1, g2, g3, g4, g5, g6, g7, g8, g9, -, g11⟩ := bget_cache_ok hw hg
    have hub := (hw.mem_iff u).1 g1
    have huf : (s.get u).user_flag = false := by
      obtain ⟨i, hi, rfl⟩ := Ptr.is_buf_iff.1 hub
      exact hu i hi
    have hwg := g3.wf hw
    have hL := bread_fill_links u sg
    have hE := bread_fill_env u sg
    have hfu := bread_fill_get u sg u
    rw [if_pos rfl] at hfu
    have hwf := hL.wf hwg
    have hmf : (bread_fill u sg).mru = s.mru := (hL.mru hwg).trans (g3.mru hw)
    have hm : u ∈ (bread_fill u sg).mru := by rw [hmf]; exact g1
    have hl : ((bread_fill u sg).get u).lock = some p := by rw [hfu]; exact g6
    have huf2 : ((bread_fill u sg).get u).user_flag = false := by
      rw [hfu]; exact g9.trans huf
    obtain ⟨s2, e2, hw2, hE2, hl2, hF, hO, -, hM⟩ := brelse_ok hwf hm hl
    have hord := brelse_order hwf hm huf2 e2
    rw [e2] at h
    simp only [Res.ok.injEq] at h
    obtain ⟨ht, rfl⟩ := h
    have hother : ∀ x, x ≠ u → (bread_fill u sg).get x = s.get x := by
      intro x hx
      rw [bread_fill_get, if_neg hx]; exact g5 x hx
    have hcfg : SameCfg s s2 :=
      ⟨hE2.1.trans (hE.1.trans g4.1), hE2.2.1.trans (hE.2.1.trans g4.2.1),
        hE2.2.2.1.trans (hE.2.2.1.trans g4.2.2.1),
        hE2.2.2.2.1.trans (hE.2.2.2.1.trans g4.2.2.2.1),
        hE2.2.2.2.2.1.trans (hE.2.2.2.2.1.trans g4.2.2.2.2.1)⟩
    have hflag : ∀ c, (s2.get c).user_flag = (s.get c).user_flag := by
      intro c
      rw [(hF c).2.2.2.2]
      by_cases hc : c = u
      · subst hc; exact huf2.trans huf.symm
      · rw [hother c hc]
    have hkd : (s2.get u).dev = dev := by rw [(hF u).1, hfu]; exact g7
    have hkb : (s2.get u).blockno = UBBLOCK blockno s := by rw [(hF u).2.1, hfu]; exact g8
    have hkey : is_key dev (UBBLOCK blockno s) (s2.get u) = true := by
      simp [is_key, hkd, hkb]
    have hkeys : ∀ x, x ≠ u → is_key dev (UBBLOCK blockno s) (s2.get x) =
        is_key dev (UBBLOCK blockno s) (s.get x) := by
      intro x hx
      unfold is_key
      rw [(hF x).1, (hF x).2.1, hother x hx]
    refine ⟨u, ?_, g1, fun x hx => ?_, hkd, hkb, ?_, hl2, fun hmatch => ⟨?_, ?_⟩, ?_, ?_, ?_,
      hw2, hu.of_flags hcfg.1 hflag, hcfg, fun h0 => by rw [hord.1 h0, hmf]⟩
    · unfold bitmap_record
      rcases g11 with ⟨k1, -⟩ | ⟨k1, k2, -⟩
      · rw [k1]
      · rw [k1]; exact k2
    · obtain ⟨a1, a2, a3, a4, a5⟩ := hF x
      obtain ⟨a6, a7⟩ := hO x hx
      rw [hother x hx] at a1 a2 a3 a4 a5 a6 a7
      exact ⟨a3, a1, a2, a6, a7, a4, a5⟩
    · rw [(hF u).2.2.1, hfu]
    · rw [(hF u).2.2.2.1, hfu]
      simp only
      rcases g11 with ⟨-, k2, k3, -⟩ | ⟨k1, -⟩
      · rw [k2, if_pos hmatch.2.2]; exact k3
      · exact absurd ⟨hmatch.1, hmatch.2.1⟩ (find_key_none.1 k1 u g1)
    · rw [hE2.2.2.2.2.2.2, hE.2.2.2.2.2.2]
      rcases g11 with ⟨-, k2, -, -⟩ | ⟨k1, -⟩
      · rw [k2, if_pos hmatch.2.2]; exact g4.2.2.2.2.2.2
      · exact absurd ⟨hmatch.1, hmatch.2.1⟩ (find_key_none.1 k1 u g1)
    · rw [← ht, (hF u).2.2.2.1, hE.2.1, g4.2.1]
    · rcases hM with hM | ⟨-, hM⟩
      · exact Or.inr (hM.trans hmf)
      · exact Or.inl (by rw [hM, hmf])
    · rcases hM with hM | ⟨-, hM⟩
      · rw [hM, hmf]
        rcases g11 with ⟨k1, -⟩ | ⟨k1, -⟩
        · rw [← k1]
          apply find_congr
          intro x _
          by_cases hx : x = u
          · subst hx
            rw [hkey]
            obtain ⟨-, a1, a2⟩ := find_is_key k1
            simp [is_key, a1, a2]
          · exact hkeys x hx
        · apply find_unique g1 hkey
          intro x hx hxu
          rw [hkeys x hxu]
          have := find_key_none.1 k1 x hx
          simpa [is_key] using this
      · rw [hM, List.find?_cons, hkey]

theorem find_erase_ne {α : Type} [DecidableEq α] {p : α → Bool} {u b : α} :
    ∀ (l : List α), l.find? p = some u → u ≠ b → (l.erase b).find? p = some u := by
  intro l
  induction l with
  | nil => intro h; cases h
  | cons y l ih =>
    intro h hub
    rw [List.find?_cons] at h
    by_cases hy : y = b
    · subst hy
      rw [List.erase_cons_head]
      cases hp : p y with
      | true =>
        rw [hp] at h
        simp only [Option.some.injEq] at h
        exact absurd h.symm hub
      | false =>
        rw [hp] at h
        exact h
    · rw [List.erase_cons_tail (by simpa using hy), List.find?_cons]
      cases hp : p y with
      | true => rw [hp] at h; exact h
      | false =>
        rw [hp] at h
        exact ih h hub

theorem find_weaken {α : Type} {p q : α → Bool} {u b : α} (hq : ∀ x, x ≠ b → q x = p x)
    (hb : q b = false) :
    ∀ (l : List α), l.find? p = some u → u ≠ b → l.find? q = some u := by
  intro l
  induction l with
  | nil => intro h; cases h
  | cons y l ih =>
    intro h hub
    rw [List.find?_cons] at h
    rw [List.find?_cons]
    by_cases hy : y = b
    · subst hy
      rw [hb]
      cases hp : p y with
      | true =>
        rw [hp] at h
        simp only [Option.some.injEq] at h
        exact absurd h.symm hub
      | false =>
        rw [hp] at h
        exact ih h hub
    · rw [hq y hy]
      cases hp : p y with
      | true => rw [hp] at h; exact h
      | false =>
        rw [hp] at h
        exact ih h hub

/-- The state after a lookup in the ordinary cache that returned `b`, the read
of `bread` and the `brelse` of `b` by the caller: `b` is the first record with
the key, it is valid and its lock is free; no other record changed. -/
theorem release_after_lookup {p dev blockno : Nat} {t sg : K} {b : Ptr} (hw : WF t)
    (hg : bget_cache p dev blockno t = Res.ok b sg) :
    ∃ s2, brelse p b (bread_fill b sg) = Res.ok () s2 ∧ WF s2 ∧ SameCfg t s2 ∧
      s2.log = (bread_fill b sg).log ∧
      (s2.get b).dev = dev ∧ (s2.get b).blockno = blockno ∧ (s2.get b).valid = true ∧
      (s2.get b).lock = none ∧
      (∀ c, c ≠ b → (s2.get c).dev = (t.get c).dev ∧ (s2.get c).blockno = (t.get c).blockno ∧
        (s2.get c).valid = (t.get c).valid ∧ (s2.get c).data = (t.get c).data ∧
        (s2.get c).lock = (t.get c).lock) ∧
      (∀ c, (s2.get c).user_flag = (t.get c).user_flag) ∧
      (s2.mru = t.mru ∨ s2.mru = b :: t.mru.erase b) ∧
      s2.mru.find? (fun x => is_key dev blockno (s2.get x)) = some b := by
  obtain ⟨g1, g2, g3, g4, g5, g6, g7, g8, g9, g10, -⟩ := bget_cache_ok hw hg
  have hwg := g3.wf hw
  have hL := bread_fill_links b sg
  have hE := bread_fill_env b sg
  have hfu := bread_fill_get b sg b
  rw [if_pos rfl] at hfu
  have hwf := hL.wf hwg
  have hmg : sg.mru = t.mru := g3.mru hw
  have hmf : (bread_fill b sg).mru = t.mru := (hL.mru hwg).trans hmg
  have hm : b ∈ (bread_fill b sg).mru := by rw [hmf]; exact g1
  have hl : ((bread_fill b sg).get b).lock = some p := by rw [hfu]; exact g6
  have hother : ∀ x, x ≠ b → (bread_fill b sg).get x = t.get x := by
    intro x hx
    rw [bread_fill_get, if_neg hx]; exact g5 x hx
  obtain ⟨s2, e2, hw2, hE2, hl2, hF, hO, -, hM⟩ := brelse_ok hwf hm hl
  have hkd : (s2.get b).dev = dev := by rw [(hF b).1, hfu]; exact g7
  have hkb : (s2.get b).blockno = blockno := by rw [(hF b).2.1, hfu]; exact g8
  have hkey : is_key dev blockno (s2.get b) = true := by simp [is_key, hkd, hkb]
  refine ⟨s2, e2, hw2, ?_, hE2.2.2.2.2.2.2, hkd, hkb, ?_, hl2, fun c hc => ?_, fun c => ?_, ?_, ?_⟩
  · exact ⟨hE2.1.trans (hE.1.trans g4.1), hE2.2.1.trans (hE.2.1.trans g4.2.1),
      hE2.2.2.1.trans (hE.2.2.1.trans g4.2.2.1),
      hE2.2.2.2.1.trans (hE.2.2.2.1.trans g4.2.2.2.1),
      hE2.2.2.2.2.1.trans (hE.2.2.2.2.1.trans g4.2.2.2.2.1)⟩
  · rw [(hF b).2.2.1, hfu]
  · obtain ⟨a1, a2, a3, a4, -⟩ := hF c
    obtain ⟨a6, -⟩ := hO c hc
    rw [hother c hc] at a1 a2 a3 a4 a6
    exact ⟨a1, a2, a3, a4, a6⟩
  · rw [(hF c).2.2.2.2]
    by_cases hc : c = b
    · subst hc; rw [hfu]; exact g9
    · rw [hother c hc]
  · rcases hM with hM | ⟨-, hM⟩
    · exact Or.inl (hM.trans hmf)
    · exact Or.inr (by rw [hM, hmf])
  · rcases hM with hM | ⟨-, hM⟩
    · rw [hM, hL.mru hwg, ← g10]
      apply find_congr
      intro x _
      unfold is_key
      rw [(hF x).1, (hF x).2.1]
      by_cases hx : x = b
      · subst hx; rw [hfu]
      · rw [bread_fill_get, if_neg hx]
    · rw [hM, List.find?_cons, hkey]

/-- A `bread` whose lookup in the ordinary cache finds `b` first, valid and
with its lock free, returns `b` and calls no device. -/
theorem reread_hit {p dev blockno : Nat} {t : K} {b : Ptr} (hw : WF t)
    (hf : t.mru.find? (fun x => is_key dev blockno (t.get x)) = some b)
    (hl : (t.get b).lock = none) (hv : (t.get b).valid = true) :
    ∃ sg, bget_cache p dev blockno t = Res.ok b sg ∧
      ((bread_fill b sg).get b).valid = true ∧ (bread_fill b sg).log = t.log := by
  rw [bget_cache_hit hw hf, hl]
  refine ⟨_, rfl, ?_, ?_⟩
  · rw [bread_fill_get, if_pos rfl]
  · have := (bread_fill_env b (t.set b
      { t.get b with refcnt := uinc (t.get b).refcnt, lock := some p })).2.2.2.2.2.2
    rw [this]
    simp [hv]

/-- C6, amended: release then re-acquire, before and after the bootstrap.  Let
`s` be a state with a well formed list and no preloaded tag on the records of
the pool, as every state of `Run` is, before and after `init_mod_fs`
(`run_inv`), and let the bitmap block of `blockno` lie outside the range that
`bget` classifies.  If `bread(dev, blockno)`
returned the record `b` of the ordinary cache, and `b` is not the record from
which the classification of this `bread` read the bitmap block, which is so
whenever another record of the pool has reference count 0 after the `bread`
(no condition when `bget` does not classify the request: `init_flag` is 0 or
`blockno` is outside `[sb.dstart, sb.dfinish)`), then `brelse(b)` by the same
caller
returns, and the `bread(dev, blockno)` that follows returns the same record
`b` with its validity flag set and without a call of the device: the log of
device calls is as `brelse` left it. -/
theorem release_reacquire_kept (d p dev blockno : Nat) (s s1 : K) (b : Ptr) (hw : WF s)
    (hu : Untagged s)
    (hpre : ¬ (s.init_flag = true ∧ s.sb.dstart ≤ UBBLOCK blockno s ∧
      UBBLOCK blockno s < s.sb.dfinish))
    (h : bread d p dev blockno s = Res.ok b s1) (hb : b.is_buf s.NBUF)
    (hkeep : s.init_flag = true ∧ s.sb.dstart ≤ blockno ∧ blockno < s.sb.dfinish →
      bitmap_record dev blockno s ≠ some b ∨
        ∃ x, x.is_buf s.NBUF ∧ x ≠ b ∧ (s1.get x).refcnt = 0) :
    ∃ s2, brelse p b s1 = Res.ok () s2 ∧
      ∃ s3, bread d p dev blockno s2 = Res.ok b s3 ∧ (s3.get b).valid = true ∧
        s3.log = s2.log := by
  rw [bread_eq] at h
  by_cases hr : s.init_flag = true ∧ s.sb.dstart ≤ blockno ∧ blockno < s.sb.dfinish
  · -- the request is classified
    have hkne : blockno ≠ UBBLOCK blockno s := by
      intro e
      apply hpre
      rw [← e]; exact hr
    rw [bget_eq] at h
    have hcond : (s.init_flag && decide (blockno ≥ s.sb.dstart) &&
        decide (blockno < s.sb.dfinish)) = true := by
      simp [hr.1, hr.2.1, hr.2.2]
    cases d with
    | zero =>
      simp only [bget_routed, hcond, if_true] at h
      cases h
    | succ d =>
      simp only [bget_routed, hcond, if_true] at h
      cases hc : is_user_prog_block d p dev blockno s with
      | halt e s' => rw [hc] at h; cases h
      | ok tv t =>
        rw [hc] at h
        simp only at h
        obtain ⟨u, c1, c2, c3, c4, c5, c6, c7, -, c9, c10, c11, c12, c13, c14, c15⟩ :=
          is_user_prog_block_core hw hu hpre hc
        by_cases htv : tv = 0
        · subst htv
          simp only [ne_eq, not_true_eq_false, decide_False] at h
          cases hg : bget_cache p dev blockno t with
          | halt e s' => rw [hg] at h; cases h
          | ok b' sg =>
            rw [hg] at h
            simp only [Res.ok.injEq] at h
            obtain ⟨rfl, rfl⟩ := h
            have hbu : b' ≠ u := by
              rcases hkeep hr with hne | ⟨x, hx1, hx2, hx3⟩
              · exact fun e => hne (e ▸ c1)
              · -- another record has count 0: the lookup did not take `u`
                intro e
                subst e
                obtain ⟨-, -, -, g4, g5, -, -, -, -, -, g11⟩ := bget_cache_ok c12 hg
                rcases g11 with ⟨k1, -⟩ | ⟨-, k2, -⟩
                · exact hkne ((find_is_key k1).2.2.symm.trans c5)
                · have h0 := (find_free_some k2).2
                  have hm := c15 h0
                  have hxt : (t.get x).refcnt = 0 := by
                    rw [bread_fill_get, if_neg hx2, g5 x hx2] at hx3
                    exact hx3
                  have hxm : x ∈ s.mru.erase b' :=
                    (hw.nodup.mem_erase_iff).2 ⟨hx2, (hw.mem_iff x).2 hx1⟩
                  rw [hm, List.reverse_cons, List.find?_append] at k2
                  cases hf : (s.mru.erase b').reverse.find? (fun x => is_free (t.get x)) with
                  | none =>
                    have := List.find?_eq_none.1 hf x (List.mem_reverse.2 hxm)
                    simp [is_free, hxt] at this
                  | some y =>
                    rw [hf] at k2
                    simp only [Option.or_some, Option.some.injEq] at k2
                    subst k2
                    have hy := List.mem_reverse.1 (List.mem_of_find?_eq_some hf)
                    exact ((hw.nodup.mem_erase_iff).1 hy).1 rfl
            obtain ⟨s2, r1, r2, r3, r4, r5, r6, r7, r8, r9, r10, r11, r12⟩ :=
              release_after_lookup c12 hg
            have hcfg : SameCfg s s2 := c14.cfg_trans r3
            have hub2 : UBBLOCK blockno s2 = UBBLOCK blockno s := by
              unfold UBBLOCK K.BPB
              rw [hcfg.2.1, hcfg.2.2.2.1]
            have hr2 : s2.init_flag = true ∧ s2.sb.dstart ≤ blockno ∧ blockno < s2.sb.dfinish := by
              rw [hcfg.2.2.2.2, hcfg.2.2.2.1]; exact hr
            have hpre2 : ¬ (s2.init_flag = true ∧ s2.sb.dstart ≤ UBBLOCK blockno s2 ∧
                UBBLOCK blockno s2 < s2.sb.dfinish) := by
              rw [hub2, hcfg.2.2.2.2, hcfg.2.2.2.1]; exact hpre
            have hu2 : Untagged s2 := c13.of_flags r3.1 r10
            -- the record of the bitmap block is still the first with its key
            have hqb : is_key dev (UBBLOCK blockno s) (s2.get b') = false := by
              simp [is_key, r5, r6, hkne]
            have hq : ∀ x, x ≠ b' → is_key dev (UBBLOCK blockno s) (s2.get x) =
                is_key dev (UBBLOCK blockno s) (t.get x) := by
              intro x hx
              unfold is_key
              rw [(r9 x hx).1, (r9 x hx).2.1]
            have hfu : s2.mru.find? (fun x => is_key dev (UBBLOCK blockno s2) (s2.get x)) =
                some u := by
              rw [hub2]
              rcases r11 with r11 | r11
              · rw [r11]
                exact find_weaken (q := fun x => is_key dev (UBBLOCK blockno s) (s2.get x))
                  hq hqb _ c11 (Ne.symm hbu)
              · rw [r11, List.find?_cons, hqb]
                exact find_weaken (q := fun x => is_key dev (UBBLOCK blockno s) (s2.get x))
                  hq hqb _ (find_erase_ne _ c11 (Ne.symm hbu)) (Ne.symm hbu)
            have hul : (s2.get u).lock = none := by
              rw [(r9 u (Ne.symm hbu)).2.2.2.2]; exact c7
            -- the second classification returns
            obtain ⟨usg, hug, -⟩ := reread_hit (p := p) r2 hfu hul
              (by rw [(r9 u (Ne.symm hbu)).2.2.1]; exact c6)
            obtain ⟨tv2, t2, hc2⟩ :=
              (is_user_prog_block_returns d p dev blockno r2 hpre2).2 ⟨u, usg, hug⟩
            obtain ⟨u2, e1, e2, e3, e4, e5, e6, e7, e8, e9, e10, e11, e12, e13, e14⟩ :=
              is_user_prog_block_core r2 hu2 hpre2 hc2
            have hu2u : u2 = u := by
              unfold bitmap_record at e1
              rw [hfu] at e1
              simp only [Option.some.injEq] at e1
              exact e1.symm
            subst hu2u
            have hmatch : (s2.get u2).dev = dev ∧ (s2.get u2).blockno = UBBLOCK blockno s2 ∧
                (s2.get u2).valid = true := by
              rw [(r9 u2 (Ne.symm hbu)).1, (r9 u2 (Ne.symm hbu)).2.1,
                (r9 u2 (Ne.symm hbu)).2.2.1, hub2]
              exact ⟨c4, c5, c6⟩
            obtain ⟨e8a, e8b⟩ := e8 hmatch
            have htv2 : tv2 = 0 := by
              rw [e9, e8a, (r9 u2 (Ne.symm hbu)).2.2.2.1, hcfg.2.1]
              exact c9.symm
            subst htv2
            -- `b` is still the first record with its key, valid, lock free
            have hkb : ∀ x, is_key dev blockno (t2.get x) = is_key dev blockno (s2.get x) := by
              intro x
              by_cases hx : x = u2
              · subst hx
                rw [show is_key dev blockno (t2.get x) = false by
                    simp [is_key, e4, e5, hub2, Ne.symm hkne],
                  show is_key dev blockno (s2.get x) = false by
                    simp [is_key, hmatch.1, hmatch.2.1, hub2, Ne.symm hkne]]
              · unfold is_key
                rw [(e3 x hx).2.1, (e3 x hx).2.2.1]
            have hfb : t2.mru.find? (fun x => is_key dev blockno (t2.get x)) = some b' := by
              rcases e10 with e10 | e10
              · rw [e10, List.find?_cons]
                rw [show is_key dev blockno (t2.get u2) = false by
                  simp [is_key, e4, e5, hub2, Ne.symm hkne]]
                simp only
                rw [find_congr (fun x _ => hkb x)]
                exact find_erase_ne _ r12 hbu
              · rw [e10, find_congr (fun x _ => hkb x)]
                exact r12
            obtain ⟨sg3, hg3, hv3, hl3⟩ := reread_hit (p := p) e12 hfb
              (by rw [(e3 b' hbu).2.2.2.1]; exact r8) (by rw [(e3 b' hbu).1]; exact r7)
            have hcond2 : (s2.init_flag && decide (blockno ≥ s2.sb.dstart) &&
                decide (blockno < s2.sb.dfinish)) = true := by
              simp [hr2.1, hr2.2.1, hr2.2.2]
            refine ⟨s2, r1, bread_fill b' sg3, ?_, hv3, by rw [hl3, e8b]⟩
            rw [bread_eq, bget_eq]
            simp only [bget_routed, hcond2, if_true, hc2, ne_eq, not_true_eq_false,
              decide_False, hg3]
        · have hd : decide (tv ≠ 0) = true := by simpa using htv
          rw [hd] at h
          simp only at h
          cases hg : get_mod_buf p dev blockno t with
          | halt e s' => rw [hg] at h; cases h
          | ok b' sg =>
            rw [hg] at h
            simp only [Res.ok.injEq] at h
            obtain ⟨rfl, rfl⟩ := h
            obtain ⟨k, -, hk, -⟩ := get_mod_buf_ok hg
            rw [hk] at hb
            exact absurd hb (by simp [Ptr.is_buf])
  · -- `bget` goes to the ordinary cache without a classification
    rw [bget_of_outside hr] at h
    cases hg : bget_cache p dev blockno s with
    | halt e s' => rw [hg] at h; cases h
    | ok b' sg =>
      rw [hg] at h
      simp only [Res.ok.injEq] at h
      obtain ⟨rfl, rfl⟩ := h
      obtain ⟨s2, r1, r2, r3, r4, r5, r6, r7, r8, r9, r10, r11, r12⟩ :=
        release_after_lookup hw hg
      have hr2 : ¬ (s2.init_flag = true ∧ s2.sb.dstart ≤ blockno ∧ blockno < s2.sb.dfinish) := by
        rw [r3.2.2.2.2, r3.2.2.2.1]; exact hr
      obtain ⟨sg3, hg3, hv3, hl3⟩ := reread_hit (p := p) r2 r12 r8 r7
      refine ⟨s2, r1, bread_fill b' sg3, ?_, hv3, hl3⟩
      rw [bread_eq, bget_of_outside hr2, hg3]

set_option maxRecDepth 100000 in
/-- C6, as written: after the bootstrap of a pool of 3 records, process 7 holds
records 2 and 1 with blocks 1000 and 1001, and record 0, with the bitmap block
3, is the only record with reference count 0 (`tight_r2`).  `bread(1, 11)`
classifies block 11 with the cached bitmap block and then recycles record 0
for block 11; `brelse` of record 0 returns; the `bread(1, 11)` that follows
returns record 0 again, valid, but the classification has recycled it for the
bitmap block in between, and the device is read twice: block 3 and block 11. -/
theorem reacquire_rereads :
    tight_r2.init_flag = true ∧ WF tight_r2 ∧ Untagged tight_r2 ∧
      (tight_r2.get (Ptr.buf 1)).refcnt = 1 ∧ (tight_r2.get (Ptr.buf 2)).refcnt = 1 ∧
      (tight_r2.get (Ptr.buf 0)).refcnt = 0 ∧ (tight_r2.get (Ptr.buf 0)).blockno = 3 ∧
      bitmap_record 1 11 tight_r2 = some (Ptr.buf 0) ∧
      (bread 1 7 1 11 tight_r2).val? = some (Ptr.buf 0) ∧
      tight_r3.log = tight_r2.log ++ [Ev.read 11] ∧
      (brelse 7 (Ptr.buf 0) tight_r3).val? = some () ∧
      tight_s3.log = tight_r3.log ∧
      (bread 1 7 1 11 tight_s3).val? = some (Ptr.buf 0) ∧
      (tight_r4.get (Ptr.buf 0)).valid = true ∧
      tight_r4.log = tight_s3.log ++ [Ev.read 3, Ev.read 11] := by
  decide!

set_option maxRecDepth 100000 in
/-- The theorem `release_reacquire_kept` after the bootstrap, for block 11,
which `bget` classifies: in `demo_booted` process 7 reads block 11 into record
4, while the bitmap block stays in another record; it releases record 4 and
reads block 11 again. -/
theorem release_reacquire_kept_witness :
    demo_booted.init_flag = true ∧ demo_booted.sb.dstart ≤ 11 ∧ 11 < demo_booted.sb.dfinish ∧
      (bread 1 7 1 11 demo_booted).val? = some (Ptr.buf 4) ∧
      ∃ s2, brelse 7 (Ptr.buf 4) demo_held = Res.ok () s2 ∧
        ∃ s3, bread 1 7 1 11 s2 = Res.ok (Ptr.buf 4) s3 ∧ (s3.get (Ptr.buf 4)).valid = true ∧
          s3.log = s2.log :=
  ⟨by decide!, by decide!, by decide!, by decide!,
    release_reacquire_kept 1 7 1 11 demo_booted demo_held (Ptr.buf 4) (by decide!) (by decide!)
      (by decide!) (Res.eq_ok (by decide!)) (by decide!) (fun _ => Or.inl (by decide!))⟩

end Bio
